import Mathlib

/-! Verification model of treelibc, a red-black tree container with an insertion-order list

Shallow embedding of `src/src/treelibc.c`.

* Nodes live in an explicit heap `mem : Nat → Option Node`; a pointer is an
  `Option Nat` (`none` is `NULL`).  `malloc` hands out the fresh address `brk`,
  `free` erases the cell.
* Undefined behaviour of the C program (dereferencing `NULL` or a freed node,
  freeing memory that `malloc` did not return, writing past a snapshot array)
  is made explicit: every operation returns `Except Err _`.
* Key and value bytes are abstracted to their content (`κ`, `ν`) together with
  a flag telling whether the buffer was allocated by the container.  `memcpy`
  of `n` bytes keeps the first `n` bytes of the content (`Bytes.take`) and
  reads past the source when `n` exceeds its byte length (`Bytes.size`).
* Loops carry a fuel argument.  Pointer walks get `brk` steps (a longer walk
  revisits a cell, so the C loop would not terminate); snapshot loops get
  `ulTreeLen + 1` steps (one more write would leave the array).
* `ulTreeLen` is a natural number: the counter is bumped once per allocated
  node, so it cannot reach `2^64` in an address space of `2^64` bytes.
-/

namespace TreeLibC

variable {κ ν : Type}

/-! ## Definitions -/

/-- Undefined behaviour, made explicit. -/
inductive Err where
  | nullDeref
  | useAfterFree
  | invalidFree
  | overflow
  | overRead
  | outOfFuel
  deriving DecidableEq

instance instDecidableEqExcept {ε α : Type} [DecidableEq ε] [DecidableEq α] :
    DecidableEq (Except ε α) := fun a b =>
  match a, b with
  | .ok x, .ok y => if h : x = y then isTrue (by rw [h]) else isFalse (fun e => h (by cases e; rfl))
  | .error x, .error y =>
    if h : x = y then isTrue (by rw [h]) else isFalse (fun e => h (by cases e; rfl))
  | .ok _, .error _ => isFalse (fun e => by cases e)
  | .error _, .ok _ => isFalse (fun e => by cases e)

/-- What `memcpy` sees of key and value bytes: the byte length of a content (`strlen`,
`sizeof`) and the content made of its first `n` bytes; taking all bytes changes nothing. -/
class Bytes (α : Type) where
  size : α → Nat
  take : Nat → α → α
  take_size : ∀ a, take (size a) a = a

variable [Bytes κ] [Bytes ν]

set_option linter.unusedSectionVars false

/-- The call `memcpy(dst, src, n)` followed by the terminator byte: the copy holds the first `n`
bytes of the source; reading more bytes than the source has is undefined. -/
def copyBytes {α : Type} [Bytes α] (n : Nat) (a : α) : Except Err α :=
  if n ≤ Bytes.size a then .ok (Bytes.take n a) else .error .overRead

/-- The node colour: `enum { NODE_RED, NODE_BLACK }`. -/
inductive Color where
  | NODE_RED
  | NODE_BLACK
  deriving DecidableEq

/-- A pointer to a node; `none` is `NULL`. -/
abbrev Ptr := Option Nat

/-- A non-null pointer to key or value bytes: the bytes it points to and whether the
container allocated them (`malloc` in `copyKeyValue` / `copyValue`). -/
structure Buf (α : Type) where
  content : α
  owned : Bool
  deriving DecidableEq

/-- The record `struct node`. -/
structure Node (κ ν : Type) where
  sizeTkey : Nat
  pKey : Option (Buf κ)
  sizeTvalue : Nat
  pValue : Option (Buf ν)
  color : Color
  pPrev : Ptr
  pNext : Ptr
  pParent : Ptr
  pRight : Ptr
  pLeft : Ptr

/-- The handle `struct tree`, together with the node heap it points into. -/
structure Tree (κ ν : Type) where
  pfCmp : κ → κ → Int
  ulTreeLen : Nat
  ppArray : Option (List (Option κ))
  ppArraySorted : Option (List (Option κ))
  pr : Ptr
  ph : Ptr
  pt : Ptr
  mem : Nat → Option (Node κ ν)
  brk : Nat

/-- Read the node behind a pointer. -/
def Tree.load (t : Tree κ ν) (p : Ptr) : Except Err (Node κ ν) :=
  match p with
  | none => .error .nullDeref
  | some a =>
    match t.mem a with
    | none => .error .useAfterFree
    | some n => .ok n

/-- Overwrite the cell at address `a`. -/
def Tree.store (t : Tree κ ν) (a : Nat) (n : Node κ ν) : Tree κ ν :=
  { t with mem := fun b => if b = a then some n else t.mem b }

/-- A field assignment `p->f = v`. -/
def Tree.modify (t : Tree κ ν) (p : Ptr) (f : Node κ ν → Node κ ν) : Except Err (Tree κ ν) :=
  match p with
  | none => .error .nullDeref
  | some a =>
    match t.mem a with
    | none => .error .useAfterFree
    | some n => .ok (t.store a (f n))

/-- The call `free(p)` on a node. -/
def Tree.free (t : Tree κ ν) (p : Ptr) : Except Err (Tree κ ν) :=
  match p with
  | none => .ok t
  | some a =>
    match t.mem a with
    | none => .error .invalidFree
    | some _ => .ok { t with mem := fun b => if b = a then none else t.mem b }

/-- The call `free(p)` on key or value bytes. -/
def freeBuf {α : Type} (p : Option (Buf α)) : Except Err Unit :=
  match p with
  | none => .ok ()
  | some b => if b.owned then .ok () else .error .invalidFree

/-- The bytes a comparator reads through a key pointer. -/
def keyOf {α : Type} (p : Option (Buf α)) : Except Err α :=
  match p with
  | none => .error .nullDeref
  | some b => .ok b.content

/-- The entry `ppArray[i] = v`. -/
def writeAt {α : Type} (arr : List α) (i : Nat) (v : α) : Except Err (List α) :=
  if i < arr.length then .ok (arr.set i v) else .error .overflow

def Tree.getLeft (t : Tree κ ν) (p : Ptr) : Except Err Ptr := do
  let n ← t.load p
  pure n.pLeft

def Tree.getRight (t : Tree κ ν) (p : Ptr) : Except Err Ptr := do
  let n ← t.load p
  pure n.pRight

def Tree.getParent (t : Tree κ ν) (p : Ptr) : Except Err Ptr := do
  let n ← t.load p
  pure n.pParent

def Tree.getPrev (t : Tree κ ν) (p : Ptr) : Except Err Ptr := do
  let n ← t.load p
  pure n.pPrev

def Tree.getNext (t : Tree κ ν) (p : Ptr) : Except Err Ptr := do
  let n ← t.load p
  pure n.pNext

def Tree.getColor (t : Tree κ ν) (p : Ptr) : Except Err Color := do
  let n ← t.load p
  pure n.color

def Tree.setLeft (t : Tree κ ν) (p v : Ptr) : Except Err (Tree κ ν) :=
  t.modify p (fun n => { n with pLeft := v })

def Tree.setRight (t : Tree κ ν) (p v : Ptr) : Except Err (Tree κ ν) :=
  t.modify p (fun n => { n with pRight := v })

def Tree.setParent (t : Tree κ ν) (p v : Ptr) : Except Err (Tree κ ν) :=
  t.modify p (fun n => { n with pParent := v })

def Tree.setPrev (t : Tree κ ν) (p v : Ptr) : Except Err (Tree κ ν) :=
  t.modify p (fun n => { n with pPrev := v })

def Tree.setNext (t : Tree κ ν) (p v : Ptr) : Except Err (Tree κ ν) :=
  t.modify p (fun n => { n with pNext := v })

def Tree.setColor (t : Tree κ ν) (p : Ptr) (c : Color) : Except Err (Tree κ ν) :=
  t.modify p (fun n => { n with color := c })

/-- Source function `treeLength` (line 63). -/
def treeLength (pTree : Tree κ ν) : Nat := pTree.ulTreeLen

/-- Source function `treeInit` (lines 65-72); the handle and the comparator are non-null by their types. -/
def treeInit (pTree : Tree κ ν) (pfCmp : κ → κ → Int) : Tree κ ν :=
  { pTree with
    pfCmp := pfCmp, ulTreeLen := 0, pr := none, ph := none, pt := none,
    ppArray := none, ppArraySorted := none }

/-- A handle before `treeInit`, with no node allocated yet. -/
def blank (pfCmp : κ → κ → Int) : Tree κ ν :=
  { pfCmp := pfCmp, ulTreeLen := 0, ppArray := none, ppArraySorted := none,
    pr := none, ph := none, pt := none, mem := fun _ => none, brk := 0 }

/-- A freshly initialised container. -/
def fresh (pfCmp : κ → κ → Int) : Tree κ ν := treeInit (blank pfCmp) pfCmp

/-- Source function `copyValue` (lines 289-299).  The copy holds `sizeTvalue` bytes; the recorded
`sizeTvalue` of the node is not touched. -/
def copyValue (pTree : Tree κ ν) (pNode : Ptr) (pValue : Option (Buf ν)) (sizeTvalue : Nat) :
    Except Err (Tree κ ν) := do
  let n ← pTree.load pNode
  if n.pValue.isSome ∧ n.sizeTvalue > 0 then freeBuf n.pValue
  if sizeTvalue > 0 then
    let v ← keyOf pValue
    let w ← copyBytes sizeTvalue v
    pTree.modify pNode (fun n => { n with pValue := some ⟨w, true⟩ })
  else
    pTree.modify pNode (fun n => { n with pValue := pValue })

/-- Source function `copyKeyValue` (lines 274-287).  The copy holds `sizeTkey` bytes; the recorded
`sizeTkey` of the node is not touched. -/
def copyKeyValue (pTree : Tree κ ν) (pNode : Ptr) (pKey : Option (Buf κ)) (sizeTkey : Nat)
    (pValue : Option (Buf ν)) (sizeTvalue : Nat) : Except Err (Tree κ ν) := do
  let n ← pTree.load pNode
  if n.pKey.isSome ∧ n.sizeTkey > 0 then freeBuf n.pKey
  let t ←
    if sizeTkey > 0 then do
      let k ← keyOf pKey
      let w ← copyBytes sizeTkey k
      pTree.modify pNode (fun n => { n with pKey := some ⟨w, true⟩ })
    else
      pTree.modify pNode (fun n => { n with pKey := pKey })
  copyValue t pNode pValue sizeTvalue

/-- Source function `initNode` (lines 252-272): nothing happens when the slot `pNode` is occupied. -/
def initNode (pTree : Tree κ ν) (pNode : Ptr) (pKey : Option (Buf κ)) (sizeTkey : Nat)
    (pValue : Option (Buf ν)) (sizeTvalue : Nat) : Except Err (Ptr × Tree κ ν) :=
  match pNode with
  | some _ => pure (none, pTree)
  | none => do
    let a := pTree.brk
    let cell : Node κ ν :=
      { sizeTkey := sizeTkey, pKey := none, sizeTvalue := sizeTvalue, pValue := none,
        color := .NODE_RED, pPrev := pTree.pt, pNext := none, pParent := none,
        pRight := none, pLeft := none }
    let t : Tree κ ν :=
      { pTree with
        ulTreeLen := pTree.ulTreeLen + 1, brk := pTree.brk + 1,
        mem := fun b => if b = a then some cell else pTree.mem b }
    let t ←
      match t.ph with
      | none => pure { t with ph := some a, pt := some a }
      | some _ => t.setNext t.pt (some a)
    let t := { t with pt := some a }
    let t ← copyKeyValue t (some a) pKey sizeTkey pValue sizeTvalue
    pure (some a, t)

/-- Source function `rotateLeftRB` (lines 353-371). -/
def rotateLeftRB (pTree : Tree κ ν) (pNode : Ptr) : Except Err (Tree κ ν) := do
  let x := pNode
  let y ← pTree.getRight x
  let yl ← pTree.getLeft y
  let t ← pTree.setRight x yl
  let yl ← t.getLeft y
  let t ← if yl.isSome then t.setParent yl x else pure t
  let xp ← t.getParent x
  let t ← t.setParent y xp
  let xp ← t.getParent x
  let t ←
    if xp.isSome then do
      let xpl ← t.getLeft xp
      if x = xpl then t.setLeft xp y else t.setRight xp y
    else pure { t with pr := y }
  let t ← t.setLeft y x
  t.setParent x y

/-- Source function `rotateRightRB` (lines 373-391). -/
def rotateRightRB (pTree : Tree κ ν) (pNode : Ptr) : Except Err (Tree κ ν) := do
  let x := pNode
  let y ← pTree.getLeft x
  let yr ← pTree.getRight y
  let t ← pTree.setLeft x yr
  let yr ← t.getRight y
  let t ← if yr.isSome then t.setParent yr x else pure t
  let xp ← t.getParent x
  let t ← t.setParent y xp
  let xp ← t.getParent x
  let t ←
    if xp.isSome then do
      let xpr ← t.getRight xp
      if x = xpr then t.setRight xp y else t.setLeft xp y
    else pure { t with pr := y }
  let t ← t.setRight y x
  t.setParent x y

/-- The test `(p != NULL) && (p->color == NODE_RED)` (lines 313-314 and 321). -/
def isRedPtr (pTree : Tree κ ν) (p : Ptr) : Except Err Bool :=
  if p.isSome then do
    let c ← pTree.getColor p
    pure (decide (c = .NODE_RED))
  else pure false

/-- Source function `resolveRB` (lines 320-351). -/
def resolveRB (pTree : Tree κ ν) (pNode pUncle : Ptr) : Except Err (Ptr × Tree κ ν) := do
  let uncleRed ← isRedPtr pTree pUncle
  if uncleRed then
    let p ← pTree.getParent pNode
    let g ← pTree.getParent p
    let t ← pTree.setColor g .NODE_RED
    let p ← t.getParent pNode
    let t ← t.setColor p .NODE_BLACK
    let t ← t.setColor pUncle .NODE_BLACK
    let p ← t.getParent pNode
    let g ← t.getParent p
    pure (g, t)
  else
    let p ← pTree.getParent pNode
    let g ← pTree.getParent p
    let gl ← pTree.getLeft g
    let parentOnLeft := decide (p = gl)
    let (pNode, t) ←
      if parentOnLeft then do
        let pr ← pTree.getRight p
        if pNode = pr then do
          let t ← rotateLeftRB pTree p
          pure (p, t)
        else pure (pNode, pTree)
      else do
        let pl ← pTree.getLeft p
        if pNode = pl then do
          let t ← rotateRightRB pTree p
          pure (p, t)
        else pure (pNode, pTree)
    let p ← t.getParent pNode
    if p.isSome then
      let t ← t.setColor p .NODE_BLACK
      let p ← t.getParent pNode
      let g ← t.getParent p
      if g.isSome then
        let t ← t.setColor g .NODE_RED
        let p ← t.getParent pNode
        let g ← t.getParent p
        let t ← if parentOnLeft then rotateRightRB t g else rotateLeftRB t g
        pure (pNode, t)
      else pure (pNode, t)
    else pure (pNode, t)

/-- The loop condition of `balanceTree` (lines 303-305), evaluated left to right. -/
def balanceCond (pTree : Tree κ ν) (pNode : Ptr) : Except Err Bool :=
  if pNode = pTree.pr then pure false
  else do
    let p ← pTree.getParent pNode
    let c ← pTree.getColor p
    if c = .NODE_RED then
      let g ← pTree.getParent p
      pure g.isSome
    else pure false

/-- The loop body of `balanceTree` (lines 306-309). -/
def balanceStep (pTree : Tree κ ν) (pNode : Ptr) : Except Err (Ptr × Tree κ ν) := do
  let p ← pTree.getParent pNode
  let g ← pTree.getParent p
  let gl ← pTree.getLeft g
  if p = gl then
    let u ← pTree.getRight g
    resolveRB pTree pNode u
  else
    let u ← pTree.getLeft g
    resolveRB pTree pNode u

/-- The `while` loop of `balanceTree` (lines 303-310). -/
def balanceLoop : Nat → Tree κ ν → Ptr → Except Err (Tree κ ν)
  | 0, pTree, pNode => do
    if (← balanceCond pTree pNode) then throw .outOfFuel else pure pTree
  | fuel + 1, pTree, pNode => do
    if (← balanceCond pTree pNode) then
      let (pNode, t) ← balanceStep pTree pNode
      balanceLoop fuel t pNode
    else pure pTree

/-- Source function `balanceTree` (lines 301-318). -/
def balanceTree (pTree : Tree κ ν) (pNode : Ptr) : Except Err (Tree κ ν) :=
  match pNode with
  | none => pure pTree
  | some _ => do
    let c ← pTree.getColor pNode
    if c = .NODE_RED then
      let t ← balanceLoop pTree.brk pTree pNode
      let pNode := t.pr
      let c ← t.getColor pNode
      if c = .NODE_RED then
        let l ← t.getLeft pNode
        let lRed ← isRedPtr t l
        if lRed then t.setColor pNode .NODE_BLACK
        else
          let r ← t.getRight pNode
          let rRed ← isRedPtr t r
          if rRed then t.setColor pNode .NODE_BLACK else pure t
      else pure t
    else pure pTree

/-- The `while` loop of `treeInsert` (lines 229-248). -/
def insertLoop (pKey : κ) (sizeTkey : Nat) (pValue : Option ν) (sizeTvalue : Nat) :
    Nat → Tree κ ν → Ptr → Except Err (Int × Tree κ ν)
  | _, pTree, none => pure (1, pTree)
  | 0, _, some _ => throw .outOfFuel
  | fuel + 1, pTree, some a => do
    let n ← pTree.load (some a)
    let k ← keyOf n.pKey
    let iCmp := pTree.pfCmp k pKey
    if iCmp < 0 then
      let (pN, t) ← initNode pTree n.pRight (some ⟨pKey, false⟩) sizeTkey
        (pValue.map (fun v => ⟨v, false⟩)) sizeTvalue
      if pN.isSome then
        let t ← t.setRight (some a) pN
        let t ← t.setParent pN (some a)
        let t ← balanceTree t pN
        pure (1, t)
      else
        let r ← t.getRight (some a)
        insertLoop pKey sizeTkey pValue sizeTvalue fuel t r
    else if iCmp > 0 then
      let (pN, t) ← initNode pTree n.pLeft (some ⟨pKey, false⟩) sizeTkey
        (pValue.map (fun v => ⟨v, false⟩)) sizeTvalue
      if pN.isSome then
        let t ← t.setLeft (some a) pN
        let t ← t.setParent pN (some a)
        let t ← balanceTree t pN
        pure (1, t)
      else
        let l ← t.getLeft (some a)
        insertLoop pKey sizeTkey pValue sizeTvalue fuel t l
    else pure (0, pTree)

/-- Source function `treeInsert` (lines 218-250). -/
def treeInsert (pTree : Tree κ ν) (pKey : Option κ) (sizeTkey : Nat) (pValue : Option ν)
    (sizeTvalue : Nat) : Except Err (Int × Tree κ ν) :=
  match pKey with
  | none => pure (0, pTree)
  | some k => do
    let (pNode, t) ← initNode pTree pTree.pr (some ⟨k, false⟩) sizeTkey
      (pValue.map (fun v => ⟨v, false⟩)) sizeTvalue
    if pNode.isSome then
      let t ← t.setColor pNode .NODE_BLACK
      pure (1, { t with pr := pNode })
    else
      insertLoop k sizeTkey pValue sizeTvalue t.brk t t.pr

/-- The `while` loop of `getNodeByKey` (lines 428-432). -/
def getNodeByKeyLoop (pTree : Tree κ ν) (pKey : κ) : Nat → Ptr → Except Err Ptr
  | _, none => pure none
  | 0, some _ => throw .outOfFuel
  | fuel + 1, some a => do
    let n ← pTree.load (some a)
    let k ← keyOf n.pKey
    let iCmp := pTree.pfCmp k pKey
    if iCmp = 0 then pure (some a)
    else getNodeByKeyLoop pTree pKey fuel (if iCmp > 0 then n.pLeft else n.pRight)

/-- Source function `getNodeByKey` (lines 424-435). -/
def getNodeByKey (pTree : Tree κ ν) (pKey : Option κ) : Except Err Ptr :=
  match pKey with
  | none => pure none
  | some k => getNodeByKeyLoop pTree k pTree.brk pTree.pr

/-- Source function `treeValue` (lines 74-79): the stored value pointer, `none` for `NULL`. -/
def treeValue (pTree : Tree κ ν) (pKey : Option κ) : Except Err (Option ν) :=
  match pKey with
  | none => pure none
  | some _ => do
    let pNode ← getNodeByKey pTree pKey
    if pNode.isSome then
      let n ← pTree.load pNode
      pure (n.pValue.map (fun b => b.content))
    else pure none

/-- The second `for` loop of `treeArray` (lines 91-92). -/
def treeArrayLoop (pTree : Tree κ ν) :
    Nat → Ptr → Nat → List (Option κ) → Except Err (List (Option κ))
  | _, none, _, arr => pure arr
  | 0, some _, _, _ => throw .outOfFuel
  | fuel + 1, some a, lIndex, arr => do
    let n ← pTree.load (some a)
    let arr ← writeAt arr lIndex (n.pKey.map (fun b => b.content))
    treeArrayLoop pTree fuel n.pNext (lIndex + 1) arr

/-- Source function `treeArray` (lines 81-94): the array handed back (`none` for `NULL`) and the new handle. -/
def treeArray (pTree : Tree κ ν) : Except Err (Option (List (Option κ)) × Tree κ ν) :=
  if pTree.ulTreeLen ≤ 0 then pure (none, pTree)
  else do
    let arr ← treeArrayLoop pTree (pTree.ulTreeLen + 1) pTree.ph 0
      (List.replicate pTree.ulTreeLen none)
    pure (some arr, { pTree with ppArray := some arr })

/-- The descent `for(p = pNode; p != NULL; p = p->pLeft) pNode = p;` (lines 107-108). -/
def leftmostLoop (pTree : Tree κ ν) : Nat → Ptr → Ptr → Except Err Ptr
  | _, none, pNode => pure pNode
  | 0, some _, _ => throw .outOfFuel
  | fuel + 1, some a, _ => do
    let l ← pTree.getLeft (some a)
    leftmostLoop pTree fuel l (some a)

/-- The climb of lines 113-123; returns `pNode`, `lIndex` and the array. -/
def climbLoop (pTree : Tree κ ν) :
    Nat → Ptr → Ptr → Nat → List (Option κ) → Except Err (Ptr × Nat × List (Option κ))
  | _, none, _, lIndex, arr => pure (none, lIndex, arr)
  | 0, some _, _, _, _ => throw .outOfFuel
  | fuel + 1, some a, pN, lIndex, arr => do
    let n ← pTree.load (some a)
    if n.pRight ≠ pN then
      let (lIndex, arr) ←
        if n.pLeft.isSome then do
          let arr ← writeAt arr lIndex (n.pKey.map (fun b => b.content))
          pure (lIndex + 1, arr)
        else pure (lIndex, arr)
      if n.pRight.isSome then pure (n.pRight, lIndex, arr)
      else climbLoop pTree fuel n.pParent (some a) lIndex arr
    else climbLoop pTree fuel n.pParent (some a) lIndex arr

/-- The `while` loop of `treeArraySorted` (lines 106-125). -/
def sortedLoop (pTree : Tree κ ν) :
    Nat → Ptr → Nat → List (Option κ) → Except Err (List (Option κ))
  | _, none, _, arr => pure arr
  | 0, some _, _, _ => throw .outOfFuel
  | fuel + 1, some a, lIndex, arr => do
    let pNode ← leftmostLoop pTree pTree.brk (some a) (some a)
    let n ← pTree.load pNode
    let arr ← writeAt arr lIndex (n.pKey.map (fun b => b.content))
    let pN := pNode
    match n.pRight with
    | some r => sortedLoop pTree fuel (some r) (lIndex + 1) arr
    | none => do
      let (pNode, lIndex, arr) ← climbLoop pTree pTree.brk n.pParent pN (lIndex + 1) arr
      sortedLoop pTree fuel pNode lIndex arr

/-- Source function `treeArraySorted` (lines 96-127). -/
def treeArraySorted (pTree : Tree κ ν) : Except Err (Option (List (Option κ)) × Tree κ ν) :=
  if pTree.ulTreeLen ≤ 0 then pure (none, pTree)
  else do
    let arr ← sortedLoop pTree (pTree.ulTreeLen + 1) pTree.pr 0
      (List.replicate pTree.ulTreeLen none)
    pure (some arr, { pTree with ppArraySorted := some arr })

/-- Source function `treeUpdate` (lines 129-136). -/
def treeUpdate (pTree : Tree κ ν) (pKey : Option κ) (pValue : Option ν) (sizeTvalue : Nat) :
    Except Err (Int × Tree κ ν) :=
  match pKey with
  | none => pure (0, pTree)
  | some _ => do
    let pNode ← getNodeByKey pTree pKey
    if pNode.isSome then
      let t ← copyValue pTree pNode (pValue.map (fun v => ⟨v, false⟩)) sizeTvalue
      pure (1, t)
    else pure (0, pTree)

/-- Source function `spliceLeft` (lines 393-402). -/
def spliceLeft (pTree : Tree κ ν) (pNode : Ptr) : Except Err (Tree κ ν) := do
  let p ← pTree.getParent pNode
  if p.isSome then
    let l ← pTree.getLeft pNode
    let t ← pTree.setParent l p
    let p ← t.getParent pNode
    let pl ← t.getLeft p
    if pl = pNode then
      let l ← t.getLeft pNode
      t.setLeft p l
    else
      let l ← t.getLeft pNode
      t.setRight p l
  else pure pTree

/-- Source function `spliceRight` (lines 404-412). -/
def spliceRight (pTree : Tree κ ν) (pNode : Ptr) : Except Err (Tree κ ν) := do
  let p ← pTree.getParent pNode
  if p.isSome then
    let r ← pTree.getRight pNode
    let t ← pTree.setParent r p
    let p ← t.getParent pNode
    let pr ← t.getRight p
    if pr = pNode then
      let r ← t.getRight pNode
      t.setRight p r
    else
      let r ← t.getRight pNode
      t.setLeft p r
  else pure pTree

/-- Source function `removeNode` (lines 414-422). -/
def removeNode (pTree : Tree κ ν) (pNode : Ptr) : Except Err (Tree κ ν) := do
  let p ← pTree.getParent pNode
  if p.isSome then
    let pl ← pTree.getLeft p
    if pl = pNode then pTree.setLeft p none else pTree.setRight p none
  else pure pTree

/-- Source function `resetList` (lines 437-450). -/
def resetList (pTree : Tree κ ν) (pNode : Ptr) : Except Err (Tree κ ν) := do
  let prev ← pTree.getPrev pNode
  if prev.isSome then
    let next ← pTree.getNext pNode
    if next.isSome then
      let t ← pTree.setNext prev next
      let next ← t.getNext pNode
      let prev ← t.getPrev pNode
      t.setPrev next prev
    else
      let t ← pTree.setNext prev none
      let prev ← t.getPrev pNode
      pure { t with pt := prev }
  else
    let next ← pTree.getNext pNode
    let t ← pTree.setPrev next none
    let next ← t.getNext pNode
    pure { t with ph := next }

/-- The `while` loop of `treeFree` (lines 201-209). -/
def treeFreeLoop : Nat → Tree κ ν → Ptr → Except Err (Tree κ ν)
  | _, pTree, none => pure pTree
  | 0, _, some _ => throw .outOfFuel
  | fuel + 1, pTree, some a => do
    let pN ← pTree.load (some a)
    if pN.pValue.isSome ∧ pN.sizeTvalue > 0 then freeBuf pN.pValue
    if pN.sizeTkey > 0 then freeBuf pN.pKey
    let t ← pTree.free (some a)
    treeFreeLoop fuel t pN.pNext

/-- Source function `treeFree` (lines 199-216). -/
def treeFree (pTree : Tree κ ν) : Except Err (Tree κ ν) := do
  let t ← treeFreeLoop (pTree.brk + 1) pTree pTree.ph
  pure (treeInit t t.pfCmp)

/-- The walk `for(p = pNode->pLeft; p != NULL; p = p->pRight) pN = p;` (lines 152-153). -/
def predLoop (pTree : Tree κ ν) : Nat → Ptr → Ptr → Except Err Ptr
  | _, none, pN => pure pN
  | 0, some _, _ => throw .outOfFuel
  | fuel + 1, some a, _ => do
    let r ← pTree.getRight (some a)
    predLoop pTree fuel r (some a)

/-- The tail of `treeDelete` (lines 186-194): unlink from the list, release, count down. -/
def deleteFinish (pTree : Tree κ ν) (pNode : Ptr) (iListSettled : Bool) :
    Except Err (Int × Tree κ ν) := do
  let t ← if iListSettled then pure pTree else resetList pTree pNode
  let n ← t.load pNode
  if n.pValue.isSome ∧ n.sizeTvalue > 0 then freeBuf n.pValue
  if n.sizeTkey > 0 then freeBuf n.pKey
  let t ← t.free pNode
  pure (1, { t with ulTreeLen := if t.ulTreeLen = 0 then 2 ^ 64 - 1 else t.ulTreeLen - 1 })

/-- Source function `treeDelete` (lines 138-197). -/
def treeDelete (pTree : Tree κ ν) (pKey : Option κ) : Except Err (Int × Tree κ ν) :=
  match pKey with
  | none => pure (0, pTree)
  | some _ => do
    let pNode ← getNodeByKey pTree pKey
    if pNode.isSome then
      let n ← pTree.load pNode
      if n.pLeft.isNone ∧ n.pRight.isNone then
        if pNode = pTree.pr then
          let t ← treeFree pTree
          pure (1, t)
        else
          let t ← removeNode pTree pNode
          deleteFinish t pNode false
      else if n.pLeft.isSome ∧ n.pRight.isSome then
        let pN ← predLoop pTree pTree.brk n.pLeft none
        let nN ← pTree.load pN
        let t ← copyKeyValue pTree pNode nN.pKey nN.sizeTkey nN.pValue nN.sizeTvalue
        let t ← resetList t pNode
        let prev ← t.getPrev pN
        let t ← t.setPrev pNode prev
        let next ← t.getNext pN
        let t ← t.setNext pNode next
        let prev ← t.getPrev pNode
        let t ← if prev.isSome then t.setNext prev pNode else pure t
        let next ← t.getNext pNode
        let t ← if next.isSome then t.setPrev next pNode else pure t
        let l ← t.getLeft pN
        let t ←
          if l.isSome then do
            let t ← spliceLeft t pN
            let l ← t.getLeft pN
            balanceTree t l
          else removeNode t pN
        deleteFinish t pN true
      else if n.pLeft.isSome then
        if pNode = pTree.pr then
          let t := { pTree with pr := n.pLeft }
          let t ← t.setColor t.pr .NODE_BLACK
          deleteFinish t pNode false
        else
          let t ← spliceLeft pTree pNode
          let l ← t.getLeft pNode
          let t ← balanceTree t l
          deleteFinish t pNode false
      else
        if pNode = pTree.pr then
          let t := { pTree with pr := n.pRight }
          let t ← t.setColor t.pr .NODE_BLACK
          deleteFinish t pNode false
        else
          let t ← spliceRight pTree pNode
          let r ← t.getRight pNode
          let t ← balanceTree t r
          deleteFinish t pNode false
    else pure (0, pTree)

/-- The shape of a binary tree of heap cells. -/
inductive Sh where
  | nil
  | node (l : Sh) (a : Nat) (r : Sh)

/-- The pointer to the root cell of a shape. -/
def Sh.root : Sh → Ptr
  | .nil => none
  | .node _ a _ => some a

/-- The cells of a shape in symmetric order. -/
def Sh.addrs : Sh → List Nat
  | .nil => []
  | .node l a r => l.addrs ++ a :: r.addrs

/-- One step of a path from a subtree towards the root. -/
inductive Frame where
  | L (a : Nat) (r : Sh)
  | R (l : Sh) (a : Nat)

/-- The cell of a frame. -/
def Frame.addr : Frame → Nat
  | .L a _ => a
  | .R _ a => a

/-- Close a frame over the subtree in its hole. -/
def Frame.fill : Frame → Sh → Sh
  | .L a r, s => .node s a r
  | .R l a, s => .node l a s

/-- The parent pointer of the hole of a path (innermost frame first). -/
def top : List Frame → Ptr
  | [] => none
  | f :: _ => some f.addr

/-- The tree obtained by putting `s` into the hole of the path. -/
def plug : List Frame → Sh → Sh
  | [], s => s
  | f :: c, s => plug c (f.fill s)

/-- The cells to the left of the hole. -/
def pathL : List Frame → List Nat
  | [] => []
  | .L _ _ :: c => pathL c
  | .R l a :: c => pathL c ++ (l.addrs ++ [a])

/-- The cells to the right of the hole. -/
def pathR : List Frame → List Nat
  | [] => []
  | .L a r :: c => (a :: r.addrs) ++ pathR c
  | .R _ _ :: c => pathR c

/-- The heap `m` holds the shape `s` below the parent pointer `par`. -/
def Rep (m : Nat → Option (Node κ ν)) : Ptr → Sh → Prop
  | _, .nil => True
  | par, .node l a r =>
    ∃ n, m a = some n ∧ n.pParent = par ∧ n.pLeft = l.root ∧ n.pRight = r.root ∧
      Rep m (some a) l ∧ Rep m (some a) r

/-- The heap `m` holds the path `c` around a hole that is reached through the pointer `h`. -/
def RepP (m : Nat → Option (Node κ ν)) : List Frame → Ptr → Prop
  | [], _ => True
  | .L a r :: c, h =>
    ∃ n, m a = some n ∧ n.pParent = top c ∧ n.pLeft = h ∧ n.pRight = r.root ∧
      Rep m (some a) r ∧ RepP m c (some a)
  | .R l a :: c, h =>
    ∃ n, m a = some n ∧ n.pParent = top c ∧ n.pLeft = l.root ∧ n.pRight = h ∧
      Rep m (some a) l ∧ RepP m c (some a)

/-- Cells of a path: the frames and their sibling subtrees. -/
def pathAddrs (c : List Frame) : List Nat := pathL c ++ pathR c

/-- The heap after `rotateLeftRB` at `x`, whose right child is `y`. -/
def rotLMem (t : Tree κ ν) (x y : Nat) (nx ny : Node κ ν) : Nat → Option (Node κ ν) :=
  fun a =>
    if a = x then some { nx with pRight := ny.pLeft, pParent := some y }
    else if a = y then some { ny with pLeft := some x, pParent := nx.pParent }
    else if some a = ny.pLeft then (t.mem a).map (fun n => { n with pParent := some x })
    else if some a = nx.pParent then
      (t.mem a).map (fun n =>
        if n.pLeft = some x then { n with pLeft := some y } else { n with pRight := some y })
    else t.mem a

/-- The heap after `rotateRightRB` at `x`, whose left child is `y`. -/
def rotRMem (t : Tree κ ν) (x y : Nat) (nx ny : Node κ ν) : Nat → Option (Node κ ν) :=
  fun a =>
    if a = x then some { nx with pLeft := ny.pRight, pParent := some y }
    else if a = y then some { ny with pRight := some x, pParent := nx.pParent }
    else if some a = ny.pRight then (t.mem a).map (fun n => { n with pParent := some x })
    else if some a = nx.pParent then
      (t.mem a).map (fun n =>
        if n.pRight = some x then { n with pRight := some y } else { n with pLeft := some y })
    else t.mem a

/-- The handle and heap `t` hold the tree of shape `T`. -/
structure TreeWF (t : Tree κ ν) (T : Sh) : Prop where
  rep : Rep t.mem none T
  root : t.pr = T.root
  nodup : T.addrs.Nodup

/-- A node without its tree links. -/
def Node.core (n : Node κ ν) : Node κ ν :=
  { n with pParent := none, pLeft := none, pRight := none }

/-- A node without its tree links and colour. -/
def Node.data (n : Node κ ν) : Node κ ν :=
  { n with pParent := none, pLeft := none, pRight := none, color := .NODE_RED }

/-- The states agree on everything but the root pointer, tree links and colours. -/
structure SameData (t t2 : Tree κ ν) : Prop where
  cmp : t2.pfCmp = t.pfCmp
  len : t2.ulTreeLen = t.ulTreeLen
  arr : t2.ppArray = t.ppArray
  arrSorted : t2.ppArraySorted = t.ppArraySorted
  ph : t2.ph = t.ph
  pt : t2.pt = t.pt
  brk : t2.brk = t.brk
  cells : ∀ a, (t2.mem a).map Node.data = (t.mem a).map Node.data

/-- The states agree on everything but the root pointer and tree links. -/
structure SameCore (t t2 : Tree κ ν) : Prop where
  cmp : t2.pfCmp = t.pfCmp
  len : t2.ulTreeLen = t.ulTreeLen
  arr : t2.ppArray = t.ppArray
  arrSorted : t2.ppArraySorted = t.ppArraySorted
  ph : t2.ph = t.ph
  pt : t2.pt = t.pt
  brk : t2.brk = t.brk
  cells : ∀ a, (t2.mem a).map Node.core = (t.mem a).map Node.core

/-- The colour stored at an address. -/
def colorAt (t : Tree κ ν) (a : Nat) : Option Color := (t.mem a).map (fun n => n.color)

/-- The tree links of a node. -/
def Node.links (n : Node κ ν) : Ptr × Ptr × Ptr := (n.pParent, n.pLeft, n.pRight)

/-- The pointer `p` is non-null and its node is RED. -/
def RedAt (t : Tree κ ν) (p : Ptr) : Prop :=
  ∃ u, p = some u ∧ colorAt t u = some .NODE_RED

/-- The root exists and is BLACK, or it is RED without a RED child. -/
def RootOK (t : Tree κ ν) : Prop :=
  ∃ r n, t.pr = some r ∧ t.mem r = some n ∧
    (n.color = .NODE_BLACK ∨ (¬ RedAt t n.pLeft ∧ ¬ RedAt t n.pRight))

/-- The cell `initNode` creates. -/
def newCell (pt : Ptr) (k : κ) (sizeTkey : Nat) (pValue : Option ν) (sizeTvalue : Nat) :
    Node κ ν :=
  { sizeTkey := sizeTkey, pKey := some ⟨k, decide (0 < sizeTkey)⟩, sizeTvalue := sizeTvalue,
    pValue := pValue.map (fun v => ⟨v, decide (0 < sizeTvalue)⟩), color := .NODE_RED,
    pPrev := pt, pNext := none, pParent := none, pRight := none, pLeft := none }

/-- The heap after `initNode` has appended the fresh cell `z` to the list. -/
def initMem (t : Tree κ ν) (z : Nat) (cell : Node κ ν) : Nat → Option (Node κ ν) :=
  fun b =>
    if b = z then some cell
    else if some b = t.pt then (t.mem b).map (fun n => { n with pNext := some z })
    else t.mem b

/-- The lengths given with a key and a value fit the bytes: a positive length is the byte
length of what the (non-null) pointer points to, so that `memcpy` stays inside the source and
the stored copy is the whole key or value. -/
def Readable (pKey : κ) (sizeTkey : Nat) (pValue : Option ν) (sizeTvalue : Nat) : Prop :=
  (0 < sizeTkey → Bytes.size pKey = sizeTkey) ∧
    (0 < sizeTvalue → pValue.map Bytes.size = some sizeTvalue)

/-- The key bytes stored at an address. -/
def keyAt (t : Tree κ ν) (a : Nat) : Option κ :=
  (t.mem a).bind (fun n => n.pKey.map (fun b => b.content))

/-- The value bytes stored at an address. -/
def valAt (t : Tree κ ν) (a : Nat) : Option ν :=
  (t.mem a).bind (fun n => n.pValue.map (fun b => b.content))

/-- The `pNext` link stored at an address. -/
def nextAt (t : Tree κ ν) (a : Nat) : Option Ptr := (t.mem a).map (fun n => n.pNext)

/-- The list that starts at pointer `p` and follows `pNext` visits exactly `L`. -/
def Chain (t : Tree κ ν) : Ptr → List Nat → Prop
  | p, [] => p = none
  | p, a :: L => p = some a ∧ ∃ q, nextAt t a = some q ∧ Chain t q L

/-- The stored key at `a` is below `k`. -/
def LtK (t : Tree κ ν) (a : Nat) (k : κ) : Prop :=
  ∀ ka, keyAt t a = some ka → t.pfCmp ka k < 0

/-- The stored key at `a` is above `k`. -/
def GtK (t : Tree κ ν) (a : Nat) (k : κ) : Prop :=
  ∀ ka, keyAt t a = some ka → 0 < t.pfCmp ka k

/-- The stored key at `a` is below the stored key at `b`. -/
def LtAt (t : Tree κ ν) (a b : Nat) : Prop :=
  ∀ ka kb, keyAt t a = some ka → keyAt t b = some kb → t.pfCmp ka kb < 0

/-- The invariant of a container that was only inserted into: `T` is the tree, `L` the
insertion-order list. -/
structure Inv (t : Tree κ ν) (T : Sh) (L : List Nat) : Prop where
  wf : TreeWF t T
  dom : ∀ a, (t.mem a).isSome → a < t.brk
  chain : Chain t t.ph L
  tail : t.pt = L.getLast?
  len : t.ulTreeLen = L.length
  perm : L.Perm T.addrs
  keys : ∀ a ∈ T.addrs, (keyAt t a).isSome
  bst : T.addrs.Pairwise (LtAt t)

/-- A comparator that is a consistent total order: the sign flips with the arguments, and
"not greater" is transitive. -/
structure TotalCmp (cmp : κ → κ → Int) : Prop where
  antisymm : ∀ a b, cmp a b < 0 ↔ 0 < cmp b a
  le_trans : ∀ a b c, cmp a b ≤ 0 → cmp b c ≤ 0 → cmp a c ≤ 0

/-- The state `initNode` leaves behind when it creates a node. -/
def initState (t : Tree κ ν) (k : κ) (sizeTkey : Nat) (pValue : Option ν) (sizeTvalue : Nat) :
    Tree κ ν :=
  { t with
    ulTreeLen := t.ulTreeLen + 1, brk := t.brk + 1,
    ph := if t.ph = none then some t.brk else t.ph, pt := some t.brk,
    mem := initMem t t.brk (newCell t.pt k sizeTkey pValue sizeTvalue) }

/-- What a successful `treeInsert` of a new key establishes. -/
structure Inserted (t t2 : Tree κ ν) (L : List Nat) (k : κ) (pValue : Option ν) : Prop where
  inv : ∃ T2, Inv t2 T2 (L ++ [t.brk])
  key : keyAt t2 t.brk = some k
  val : valAt t2 t.brk = pValue
  old : ∀ b, b ≠ t.brk → keyAt t2 b = keyAt t b ∧ valAt t2 b = valAt t b
  cmp : t2.pfCmp = t.pfCmp
  rootOK : RootOK t2

/-- The snapshot array after the keys of `done` have been written into `n` slots. -/
def arrOf (K : Nat → Option κ) (done : List Nat) (n : Nat) : List (Option κ) :=
  done.map K ++ List.replicate (n - done.length) none

/-- The arguments of one `treeInsert` call with a non-null key. -/
structure InsertCall (κ ν : Type) where
  pKey : κ
  sizeTkey : Nat
  pValue : Option ν
  sizeTvalue : Nat
  deriving DecidableEq

/-- A sequence of `treeInsert` calls; the return values are dropped. -/
def insertAll : Tree κ ν → List (InsertCall κ ν) → Except Err (Tree κ ν)
  | t, [] => pure t
  | t, c :: cs => do
    let (_, t2) ← treeInsert t (some c.pKey) c.sizeTkey c.pValue c.sizeTvalue
    insertAll t2 cs

/-- The key of the call compares equal to `k`. -/
def sameKey (cmp : κ → κ → Int) (k : κ) (c : InsertCall κ ν) : Bool :=
  decide (cmp c.pKey k = 0)

/-- Keep a call unless an earlier kept call has an equal key. -/
def firstsStep (cmp : κ → κ → Int) (acc : List (InsertCall κ ν)) (c : InsertCall κ ν) :
    List (InsertCall κ ν) :=
  if acc.any (sameKey cmp c.pKey) then acc else acc ++ [c]

/-- The calls of a sequence with later duplicates dropped, in order of first insertion. -/
def firsts (cmp : κ → κ → Int) (calls : List (InsertCall κ ν)) : List (InsertCall κ ν) :=
  calls.foldl (firstsStep cmp) []

/-- The cells of the list hold the keys and values of the calls, in order. -/
def Content (t : Tree κ ν) (L : List Nat) (acc : List (InsertCall κ ν)) : Prop :=
  List.Forall₂ (fun a c => keyAt t a = some c.pKey ∧ valAt t a = c.pValue) L acc

/-- The C library `strcmp` on byte strings, up to the sign of its result. -/
def strcmp : List Char → List Char → Int
  | [], [] => 0
  | [], _ :: _ => -1
  | _ :: _, [] => 1
  | a :: as, b :: bs =>
    if a.toNat < b.toNat then -1 else if b.toNat < a.toNat then 1 else strcmp as bs

/-- Comparator `compareStr` of the test program (lines 42-44). -/
def compareStr (pKeyOld pKeyNew : String) : Int := strcmp pKeyOld.data pKeyNew.data

/-- Comparator `compareDescendUL` of the test program (lines 46-53). -/
def compareDescendUL (ulOld ulNew : Nat) : Int :=
  if ulOld < ulNew then 1 else if ulOld > ulNew then -1 else 0

/-- The ascending counterpart of `compareDescendUL` ("flip relational for ascend"). -/
def compareAscendUL (ulOld ulNew : Nat) : Int :=
  if ulOld > ulNew then 1 else if ulOld < ulNew then -1 else 0

instance instDecidableReadable (pKey : κ) (sizeTkey : Nat) (pValue : Option ν)
    (sizeTvalue : Nat) : Decidable (Readable pKey sizeTkey pValue sizeTvalue) :=
  inferInstanceAs (Decidable ((0 < sizeTkey → Bytes.size pKey = sizeTkey) ∧
    (0 < sizeTvalue → pValue.map Bytes.size = some sizeTvalue)))

/-- Keys and values of type `unsigned long`: eight bytes, the low-order bytes first. -/
instance instBytesNat : Bytes Nat where
  size _ := 8
  take n a := if 8 ≤ n then a else a % 256 ^ n
  take_size _ := if_pos (Nat.le_refl 8)

/-- Keys and values that are C strings: the bytes before the terminator. -/
instance instBytesString : Bytes String where
  size s := s.data.length
  take n s := ⟨s.data.take n⟩
  take_size s := by cases s; simp

/-- One call of the mutating interface. -/
inductive Op (κ ν : Type) where
  | insert (pKey : κ) (sizeTkey : Nat) (pValue : Option ν) (sizeTvalue : Nat)
  | update (pKey : κ) (pValue : Option ν) (sizeTvalue : Nat)
  | delete (pKey : κ)

/-- Perform one call. -/
def Op.run (t : Tree κ ν) : Op κ ν → Except Err (Int × Tree κ ν)
  | .insert k sk v sv => treeInsert t (some k) sk v sv
  | .update k v sv => treeUpdate t (some k) v sv
  | .delete k => treeDelete t (some k)

/-- Perform a sequence of calls on a state; the return values are collected. -/
def runOps : Tree κ ν → List (Op κ ν) → Except Err (List Int × Tree κ ν)
  | t, [] => pure ([], t)
  | t, op :: ops => do
    let (r, t2) ← op.run t
    let (rs, t3) ← runOps t2 ops
    pure (r :: rs, t3)

/-- The return values of a run. -/
def returns {α : Type} (r : Except Err (α × Tree κ ν)) : Except Err α :=
  r.map (fun x => x.1)

/-- Continue a run with one more call on its final state. -/
def andThen {α β : Type} (r : Except Err (α × Tree κ ν))
    (f : Tree κ ν → Except Err (β × Tree κ ν)) : Except Err (β × Tree κ ν) :=
  r.bind (fun x => f x.2)

/-- Read something off the final state of a run. -/
def look {α β : Type} (r : Except Err (α × Tree κ ν)) (f : Tree κ ν → Except Err β) :
    Except Err β :=
  r.bind (fun x => f x.2)

/-- Test case 2 of the test program: the nine keys with key and value copies. -/
def justices : List (InsertCall String String) :=
  [⟨"Scalia", 6, some "Reagan", 6⟩, ⟨"Kennedy", 7, some "Reagan", 6⟩,
    ⟨"Thomas", 6, some "Bush", 4⟩, ⟨"Ginsburg", 8, some "Clinton", 7⟩,
    ⟨"Breyer", 6, some "Clinton", 7⟩, ⟨"Roberts", 7, some "W. Bush", 7⟩,
    ⟨"Alito, Jr", 9, some "W. Bush", 7⟩, ⟨"Sotomayor", 9, some "Obama", 5⟩,
    ⟨"Kagan", 5, some "Obama", 5⟩]

/-- Test case 6 of the test program: the values as keys, `NULL` values. -/
def presidents : List (InsertCall String String) :=
  [⟨"Reagan", 0, none, 0⟩, ⟨"Reagan", 0, none, 0⟩, ⟨"Bush", 0, none, 0⟩,
    ⟨"Clinton", 0, none, 0⟩, ⟨"Clinton", 0, none, 0⟩, ⟨"W. Bush", 0, none, 0⟩,
    ⟨"W. Bush", 0, none, 0⟩, ⟨"Obama", 0, none, 0⟩, ⟨"Obama", 0, none, 0⟩]

/-- Test case 7 of the test program: the numbers 1 to 9 as copied keys. -/
def oneToNine : List (InsertCall Nat String) :=
  [⟨1, 8, some "Scalia", 0⟩, ⟨2, 8, some "Kennedy", 0⟩, ⟨3, 8, some "Thomas", 0⟩,
    ⟨4, 8, some "Ginsburg", 0⟩, ⟨5, 8, some "Breyer", 0⟩, ⟨6, 8, some "Roberts", 0⟩,
    ⟨7, 8, some "Alito, Jr", 0⟩, ⟨8, 8, some "Sotomayor", 0⟩, ⟨9, 8, some "Kagan", 0⟩]

/-- The state a run ends in; the start state when the run faults. -/
def finalState (start : Tree κ ν) (calls : List (InsertCall κ ν)) : Tree κ ν :=
  match insertAll start calls with
  | .ok t => t
  | .error _ => start

/-- Calls of the first delete scenario: 2, 1, 3 under the ascending comparator, so that the
node of key 2 is the root with two children and the head of the list. -/
def insert213 : Except Err (List Int × Tree Nat Nat) :=
  runOps (fresh compareAscendUL)
    [.insert 2 0 (some 20) 0, .insert 1 0 (some 10) 0, .insert 3 0 (some 30) 0]

/-- The first delete scenario followed by `treeDelete(2)`. -/
def insert213Delete2 : Except Err (Int × Tree Nat Nat) :=
  andThen insert213 (fun t => treeDelete t (some 2))

/-- Calls of the second delete scenario: the root 5 with the single child 4 is deleted, then 3
is inserted. -/
def insert54Delete5Insert3 : Except Err (List Int × Tree Nat Nat) :=
  runOps (fresh compareAscendUL)
    [.insert 5 0 (some 50) 0, .insert 4 0 (some 40) 0, .delete 5, .insert 3 0 (some 30) 0]

/-- Calls of the third delete scenario: the root 2 with the single child 1 is deleted. -/
def insert21Delete2 : Except Err (List Int × Tree Nat Nat) :=
  runOps (fresh compareAscendUL)
    [.insert 2 0 (some 20) 0, .insert 1 0 (some 10) 0, .delete 2]

/-- Calls of the fourth delete scenario: 2, 3, 1 under the ascending comparator, so that the
predecessor of the root key 2 is the tail of the list. -/
def insert231 : Except Err (List Int × Tree Nat Nat) :=
  runOps (fresh compareAscendUL)
    [.insert 2 0 (some 20) 0, .insert 3 0 (some 30) 0, .insert 1 0 (some 10) 0]

/-- The fourth delete scenario followed by `treeDelete(2)`. -/
def insert231Delete2 : Except Err (Int × Tree Nat Nat) :=
  andThen insert231 (fun t => treeDelete t (some 2))

/-- Calls of the update scenario: key 2 is inserted with a copied value of length 1 and then
updated with a borrowed value. -/
def insert2Update2 : Except Err (List Int × Tree Nat Nat) :=
  runOps (fresh compareAscendUL) [.insert 2 0 (some 7) 1, .update 2 (some 8) 0]

/-- The recorded value length and the ownership flag of the value buffer of the node at `a`. -/
def valueRecord (t : Tree κ ν) (a : Nat) : Option (Nat × Option Bool) :=
  (t.mem a).map (fun n => (n.sizeTvalue, n.pValue.map (fun b => b.owned)))

/-- The subtree that hangs beside the hole of a frame. -/
def Frame.sib : Frame → Sh
  | .L _ r => r
  | .R l _ => l

/-- The root of the shape is a RED node under the colouring `col`. -/
def RedRoot (col : Nat → Option Color) : Sh → Prop
  | .nil => False
  | .node _ a _ => col a = some .NODE_RED

/-- The innermost frame of the path is a RED node. -/
def RedTop (col : Nat → Option Color) : List Frame → Prop
  | [] => False
  | f :: _ => col f.addr = some .NODE_RED

/-- The red-black conditions below the root of a shape: no RED node has a RED child, and every
path down to an absent child crosses `n` nodes that are not RED. -/
def RB (col : Nat → Option Color) : Sh → Nat → Prop
  | .nil, n => n = 0
  | .node l a r, n =>
    ∃ m, RB col l m ∧ RB col r m ∧
      ((col a = some .NODE_RED ∧ n = m ∧ ¬ RedRoot col l ∧ ¬ RedRoot col r) ∨
        (col a ≠ some .NODE_RED ∧ n = m + 1))

/-- The red-black conditions around the hole of a path, for a hole of black height `n`. -/
def CtxRB (col : Nat → Option Color) : List Frame → Nat → Prop
  | [], _ => True
  | f :: c, n =>
    RB col f.sib n ∧
      ((col f.addr = some .NODE_RED ∧ ¬ RedRoot col f.sib ∧ ¬ RedTop col c ∧ CtxRB col c n) ∨
        (col f.addr ≠ some .NODE_RED ∧ CtxRB col c (n + 1)))

/-- The state of the fix-up walk: the current subtree has a RED root and is red-black, and so
is everything around it; only the current node and its parent may both be RED. -/
def Pre (col : Nat → Option Color) (c : List Frame) (X : Sh) : Prop :=
  RedRoot col X ∧ ∃ n, CtxRB col c n ∧ RB col X n

/-- The colours when the fix-up loop ends: the tree is red-black, or it would be if its RED
root were BLACK (the root and the child the walk stopped at are both RED). -/
def AlmostRB (col : Nat → Option Color) (T : Sh) : Prop :=
  (∃ N, RB col T N) ∨ ∃ f X, T = f.fill X ∧ col f.addr = some .NODE_RED ∧ Pre col [f] X

/-- The number of BLACK nodes on every path from the node behind `p` down to an absent child;
`none` when two such paths differ in that number (or a cell is missing, or the fuel runs out
before the walk ends). -/
def blackHeight (t : Tree κ ν) : Nat → Ptr → Option Nat
  | _, none => some 0
  | 0, some _ => none
  | fuel + 1, some a =>
    match t.mem a with
    | none => none
    | some n =>
      match blackHeight t fuel n.pLeft, blackHeight t fuel n.pRight with
      | some hl, some hr =>
        if hl = hr then some (hl + (if n.color = .NODE_BLACK then 1 else 0)) else none
      | _, _ => none

/-- The colour behind a pointer; `none` for `NULL` and for a freed cell. -/
def colorOfPtr (t : Tree κ ν) (p : Ptr) : Option Color := p.bind (colorAt t)

/-- No RED node below `p` (inclusive) has a RED child; the walk follows the child pointers. -/
def redRedFree (t : Tree κ ν) : Nat → Ptr → Bool
  | _, none => true
  | 0, some _ => false
  | fuel + 1, some a =>
    match t.mem a with
    | none => false
    | some n =>
      (decide (n.color = .NODE_BLACK) ||
        (decide (colorOfPtr t n.pLeft ≠ some .NODE_RED) &&
          decide (colorOfPtr t n.pRight ≠ some .NODE_RED)))
      && redRedFree t fuel n.pLeft && redRedFree t fuel n.pRight

/-- The recorded key length and the ownership flag of the key buffer of the node at `a`. -/
def keyRecord (t : Tree κ ν) (a : Nat) : Option (Nat × Option Bool) :=
  (t.mem a).map (fun n => (n.sizeTkey, n.pKey.map (fun b => b.owned)))

/-- The fields of the handle `struct tree` apart from the comparator. -/
structure Handle (κ : Type) where
  ulTreeLen : Nat
  pr : Ptr
  ph : Ptr
  pt : Ptr
  ppArray : Option (List (Option κ))
  ppArraySorted : Option (List (Option κ))
  deriving DecidableEq

/-- The handle fields of a state. -/
def handleOf (t : Tree κ ν) : Handle κ :=
  ⟨t.ulTreeLen, t.pr, t.ph, t.pt, t.ppArray, t.ppArraySorted⟩

/-- Calls of the black-height scenario: 1 to 6 in ascending order. -/
def insert1to6 : Except Err (List Int × Tree Nat Nat) :=
  runOps (fresh compareAscendUL)
    [.insert 1 0 (some 10) 0, .insert 2 0 (some 20) 0, .insert 3 0 (some 30) 0,
      .insert 4 0 (some 40) 0, .insert 5 0 (some 50) 0, .insert 6 0 (some 60) 0]

/-- The black-height scenario followed by `treeDelete(1)`. -/
def insert1to6Delete1 : Except Err (Int × Tree Nat Nat) :=
  andThen insert1to6 (fun t => treeDelete t (some 1))

/-- Calls of the list scenario: 1, 2, 3 in ascending order, then `treeDelete(2)`; the node of
key 2 is the root with two children, and its predecessor is the head of the list. -/
def insert123Delete2 : Except Err (List Int × Tree Nat Nat) :=
  runOps (fresh compareAscendUL)
    [.insert 1 0 (some 10) 0, .insert 2 0 (some 20) 0, .insert 3 0 (some 30) 0, .delete 2]

/-- Calls of the first ownership scenario: a borrowed value is replaced by a copied one. -/
def insert2UpdateCopy : Except Err (List Int × Tree Nat Nat) :=
  runOps (fresh compareAscendUL) [.insert 2 0 (some 7) 0, .update 2 (some 8) 3]

/-- Calls of the second ownership scenario: the borrowed key 2 with two children is deleted
and takes over the copied key 1 of its predecessor. -/
def insertMixedDelete2 : Except Err (List Int × Tree Nat Nat) :=
  runOps (fresh compareAscendUL)
    [.insert 2 0 (some 20) 0, .insert 1 8 (some 10) 0, .insert 3 0 (some 30) 0, .delete 2]

/-- Calls of the parent-link scenario: the root 1 with the single right child 2 is deleted. -/
def insert12Delete1 : Except Err (List Int × Tree Nat Nat) :=
  runOps (fresh compareAscendUL)
    [.insert 1 0 (some 10) 0, .insert 2 0 (some 20) 0, .delete 1]

/-- Calls of the one-key scenario: a key is inserted and deleted again. -/
def insert2Delete2 : Except Err (List Int × Tree Nat Nat) :=
  runOps (fresh compareAscendUL) [.insert 2 0 (some 20) 0, .delete 2]

/-- The key sequence of the recursive in-order traversal of the tree of shape `T` in the heap
of `t`: left subtree, node, right subtree. -/
def inorderKeys (t : Tree κ ν) : Sh → List (Option κ)
  | .nil => []
  | .node l a r => inorderKeys t l ++ keyAt t a :: inorderKeys t r

/-- The concrete scenario of the specification: Scalia, Kennedy, Thomas with the values K1, K2,
K3 under `compareStr`; keys and values are copied (lengths as `strlen` gives them) or
borrowed (lengths 0). -/
def threeJustices (copy : Bool) : Except Err (List Int × Tree String String) :=
  runOps (fresh compareStr)
    [.insert "Scalia" (if copy then 6 else 0) (some "K1") (if copy then 2 else 0),
      .insert "Kennedy" (if copy then 7 else 0) (some "K2") (if copy then 2 else 0),
      .insert "Thomas" (if copy then 6 else 0) (some "K3") (if copy then 2 else 0)]

/-- The concrete scenario followed by `treeDelete(Scalia)`. -/
def threeJusticesDelete (copy : Bool) : Except Err (Int × Tree String String) :=
  andThen (threeJustices copy) (fun t => treeDelete t (some "Scalia"))

/-- The state after inserting 2, 1, 3 under the ascending comparator. -/
def threeNodes : Tree Nat Nat :=
  finalState (fresh compareAscendUL) [⟨2, 0, none, 0⟩, ⟨1, 0, none, 0⟩, ⟨3, 0, none, 0⟩]

/-- The shape of the tree of `threeNodes`: the root cell 0 with the children 1 and 2. -/
def threeShape : Sh := .node (.node .nil 1 .nil) 0 (.node .nil 2 .nil)

/-- The keys stored in the subtree behind `p`, left to right; the walk follows the child
pointers. -/
def subtreeKeys (t : Tree κ ν) : Nat → Ptr → List (Option κ)
  | _, none => []
  | 0, some _ => []
  | fuel + 1, some a =>
    match t.mem a with
    | none => []
    | some n =>
      subtreeKeys t fuel n.pLeft ++ n.pKey.map (fun b => b.content) ::
        subtreeKeys t fuel n.pRight

/-- The comparator puts the stored key `x` strictly before the key `k`. -/
def keyBelow (t : Tree κ ν) (k : κ) (x : Option κ) : Bool :=
  match x with
  | none => false
  | some kx => decide (t.pfCmp kx k < 0)

/-- The comparator puts the stored key `x` strictly after the key `k`. -/
def keyAbove (t : Tree κ ν) (k : κ) (x : Option κ) : Bool :=
  match x with
  | none => false
  | some kx => decide (0 < t.pfCmp kx k)

/-- The subtree behind `p` is a binary search tree with unique keys: at every node, every key
in the left subtree compares strictly less than the node's key and every key in the right
subtree strictly greater. -/
def searchTree (t : Tree κ ν) : Nat → Ptr → Bool
  | _, none => true
  | 0, some _ => false
  | fuel + 1, some a =>
    match t.mem a with
    | none => false
    | some n =>
      match n.pKey with
      | none => false
      | some k =>
        (subtreeKeys t fuel n.pLeft).all (keyBelow t k.content) &&
          (subtreeKeys t fuel n.pRight).all (keyAbove t k.content) &&
          searchTree t fuel n.pLeft && searchTree t fuel n.pRight

/-- Calls of the key-length scenario: d, c, e, a, cc, ab are inserted under `compareStr` with
copied keys (lengths as `strlen` gives them), then c and cc are deleted.  The node that held c
now holds a copy of ab with the recorded key length 1. -/
def sixStrings : Except Err (List Int × Tree String String) :=
  runOps (fresh compareStr)
    [.insert "d" 1 none 0, .insert "c" 1 none 0, .insert "e" 1 none 0, .insert "a" 1 none 0,
      .insert "cc" 2 none 0, .insert "ab" 2 none 0, .delete "c", .delete "cc"]

/-- The key-length scenario followed by `treeDelete(d)`. -/
def sixStringsDelete : Except Err (Int × Tree String String) :=
  andThen sixStrings (fun t => treeDelete t (some "d"))

/-- Calls of the value-length scenario: 2, 1, 3 are inserted under the ascending comparator,
key 1 with a copied value of length 1, which is then updated to a copied value of length 7. -/
def staleValueLength : Except Err (List Int × Tree Nat String) :=
  runOps (fresh compareAscendUL)
    [.insert 2 0 (some "two") 0, .insert 1 0 (some "K") 1, .insert 3 0 (some "three") 0,
      .update 1 (some "Kennedy") 7]

/-- The value-length scenario followed by `treeDelete(2)`. -/
def staleValueLengthDelete : Except Err (Int × Tree Nat String) :=
  andThen staleValueLength (fun t => treeDelete t (some 2))

/-- The parent pointer of the hole of a path in a tree whose root cell has the parent
pointer `rp`. -/
def topQ (rp : Ptr) : List Frame → Ptr
  | [] => rp
  | f :: _ => some f.addr

/-- The heap `m` holds the path `c` around a hole that is reached through the pointer `h`,
in a tree whose root cell has the parent pointer `rp`. -/
def RepPQ (m : Nat → Option (Node κ ν)) (rp : Ptr) : List Frame → Ptr → Prop
  | [], _ => True
  | .L a r :: c, h =>
    ∃ n, m a = some n ∧ n.pParent = topQ rp c ∧ n.pLeft = h ∧ n.pRight = r.root ∧
      Rep m (some a) r ∧ RepPQ m rp c (some a)
  | .R l a :: c, h =>
    ∃ n, m a = some n ∧ n.pParent = topQ rp c ∧ n.pLeft = l.root ∧ n.pRight = h ∧
      Rep m (some a) l ∧ RepPQ m rp c (some a)

/-- The handle and heap `t` hold the tree of shape `T`, and the root cell has the parent
pointer `rp`. -/
structure TreeWFp (t : Tree κ ν) (rp : Ptr) (T : Sh) : Prop where
  rep : Rep t.mem rp T
  root : t.pr = T.root
  nodup : T.addrs.Nodup

/-- The invariant of every reachable state: the cells below the root pointer form a finite
binary tree `T` with correct parent links and a key in every cell; the parent pointer `rp`
of the root cell is `NULL` or points to a freed cell; every cell ever allocated lies below
the allocation mark. -/
structure Sound (t : Tree κ ν) (rp : Ptr) (T : Sh) : Prop where
  wf : TreeWFp t rp T
  gone : ∀ d, rp = some d → t.mem d = none
  dom : ∀ a, (t.mem a).isSome → a < t.brk
  below : ∀ d, rp = some d → d < t.brk
  keys : ∀ a ∈ T.addrs, (keyAt t a).isSome

/-- The states agree on the root pointer, the allocation mark and the tree links of every
cell, and no cell has lost its key. -/
structure SameTree (t t2 : Tree κ ν) : Prop where
  pr : t2.pr = t.pr
  brk : t2.brk = t.brk
  links : ∀ a, (t2.mem a).map Node.links = (t.mem a).map Node.links
  keys : ∀ a, (keyAt t a).isSome → (keyAt t2 a).isSome

/-- The state right after `initNode` has allocated and linked the blank cell (lines 257-264),
before the list tail is updated and key and value are stored. -/
def allocState (t : Tree κ ν) (sizeTkey sizeTvalue : Nat) : Tree κ ν :=
  { t with
    ulTreeLen := t.ulTreeLen + 1, brk := t.brk + 1,
    mem := fun b =>
      if b = t.brk then
        some { sizeTkey := sizeTkey, pKey := none, sizeTvalue := sizeTvalue, pValue := none,
               color := .NODE_RED, pPrev := t.pt, pNext := none, pParent := none,
               pRight := none, pLeft := none }
      else t.mem b }

/-- The states a program can bring a container into: `treeInit` on a new handle, and then any
calls of the interface that return (a call that runs into undefined behaviour ends the
program's defined life).  Keys and value pointers may be `NULL`, lengths are arbitrary. -/
inductive Reachable : Tree κ ν → Prop
  | init (pfCmp : κ → κ → Int) : Reachable (fresh pfCmp)
  | reinit {t : Tree κ ν} (pfCmp : κ → κ → Int) : Reachable t → Reachable (treeInit t pfCmp)
  | insert {t t2 : Tree κ ν} {r : Int} (pKey : Option κ) (sizeTkey : Nat) (pValue : Option ν)
      (sizeTvalue : Nat) :
      Reachable t → treeInsert t pKey sizeTkey pValue sizeTvalue = .ok (r, t2) → Reachable t2
  | update {t t2 : Tree κ ν} {r : Int} (pKey : Option κ) (pValue : Option ν)
      (sizeTvalue : Nat) :
      Reachable t → treeUpdate t pKey pValue sizeTvalue = .ok (r, t2) → Reachable t2
  | delete {t t2 : Tree κ ν} {r : Int} (pKey : Option κ) :
      Reachable t → treeDelete t pKey = .ok (r, t2) → Reachable t2
  | array {t t2 : Tree κ ν} {arr : Option (List (Option κ))} :
      Reachable t → treeArray t = .ok (arr, t2) → Reachable t2
  | arraySorted {t t2 : Tree κ ν} {arr : Option (List (Option κ))} :
      Reachable t → treeArraySorted t = .ok (arr, t2) → Reachable t2
  | free {t t2 : Tree κ ν} : Reachable t → treeFree t = .ok t2 → Reachable t2

/-- The key `k` compares unequal to the stored key `x`; a cell without a key has no key to
compare with. -/
def keyDiffers (t : Tree κ ν) (k : κ) (x : Option κ) : Bool :=
  match x with
  | none => true
  | some kx => decide (t.pfCmp kx k ≠ 0)

/-- The state a run ends in; `dflt` when the run faults. -/
def endState {α : Type} (r : Except Err (α × Tree κ ν)) (dflt : Tree κ ν) : Tree κ ν :=
  match r with
  | .ok x => x.2
  | .error _ => dflt

/-- Three inserts of the strings ab, ac, ad, each with key length 1, so that only the first
byte of every key is copied. -/
def shortKeys : Except Err (List Int × Tree String String) :=
  runOps (fresh compareStr)
    [.insert "ab" 1 (some "first") 0, .insert "ac" 1 (some "second") 0,
      .insert "ad" 1 (some "third") 0]

/-- Seven inserts with copied keys (key length `strlen`) followed by three deletes; the
first and the last delete hit nodes with two children. -/
def sevenStrings : Except Err (List Int × Tree String String) :=
  runOps (fresh compareStr)
    [.insert "f" 1 none 0, .insert "d" 1 none 0, .insert "g" 1 none 0, .insert "ca" 2 none 0,
      .insert "e" 1 none 0, .insert "cz" 2 none 0, .insert "h" 1 none 0,
      .delete "d", .delete "e", .delete "f"]

/-- The seven-strings scenario followed by another `treeInsert` of the key ca. -/
def sevenStringsInsert : Except Err (Int × Tree String String) :=
  andThen sevenStrings (fun t => treeInsert t (some "ca") 2 none 0)

/-- Calls of all three mutating kinds: inserts of 2, 1, 3, an update of 1 and a delete of the
root 2, which has two children. -/
def fiveCalls : Except Err (List Int × Tree Nat Nat) :=
  runOps (fresh compareAscendUL)
    [.insert 2 0 (some 20) 0, .insert 1 0 (some 10) 0, .insert 3 0 (some 30) 0,
      .update 1 (some 11) 0, .delete 2]

/-- The lengths given with a key and a value stay inside the bytes: `memcpy` reads at most
the bytes of the key, and a value that is copied is non-null and has at least the bytes that
`memcpy` reads. -/
def InBounds (pKey : κ) (sizeTkey : Nat) (pValue : Option ν) (sizeTvalue : Nat) : Prop :=
  sizeTkey ≤ Bytes.size pKey ∧
    (0 < sizeTvalue → pValue.map (fun v => decide (sizeTvalue ≤ Bytes.size v)) = some true)

instance instDecidableInBounds (pKey : κ) (sizeTkey : Nat) (pValue : Option ν)
    (sizeTvalue : Nat) : Decidable (InBounds pKey sizeTkey pValue sizeTvalue) :=
  inferInstanceAs (Decidable (sizeTkey ≤ Bytes.size pKey ∧
    (0 < sizeTvalue → pValue.map (fun v => decide (sizeTvalue ≤ Bytes.size v)) = some true)))

/-- The key bytes a new node holds: the first `sizeTkey` bytes of the key when they are
copied, the key itself when it is borrowed. -/
def keptKey (sizeTkey : Nat) (pKey : κ) : κ :=
  if 0 < sizeTkey then Bytes.take sizeTkey pKey else pKey

/-- The value bytes a new node holds: the first `sizeTvalue` bytes of the value when they
are copied, the value itself when it is borrowed. -/
def keptValue (sizeTvalue : Nat) (pValue : Option ν) : Option ν :=
  if 0 < sizeTvalue then pValue.map (Bytes.take sizeTvalue) else pValue

/-- The state of a container that was only inserted into, without any condition on the
comparator: `T` is the tree, and it satisfies the red-black conditions below the root. -/
structure Grown (t : Tree κ ν) (T : Sh) : Prop where
  wf : TreeWF t T
  dom : ∀ a, (t.mem a).isSome → a < t.brk
  keys : ∀ a ∈ T.addrs, (keyAt t a).isSome
  tail : ∀ q, t.pt = some q → (t.mem q).isSome
  head : t.ph = none ↔ t.pt = none
  rb : ∃ N, RB (colorAt t) T N

/-! ## Theorems -/

@[simp] theorem ok_bind {ε α β : Type} (a : α) (f : α → Except ε β) :
    (Except.ok a >>= f) = f a := rfl

@[simp] theorem error_bind {ε α β : Type} (e : ε) (f : α → Except ε β) :
    (Except.error e >>= f) = Except.error e := rfl

@[simp] theorem pure_eq_ok {ε α : Type} (a : α) : (pure a : Except ε α) = Except.ok a := rfl

@[simp] theorem store_mem (t : Tree κ ν) (a : Nat) (n : Node κ ν) (b : Nat) :
    (t.store a n).mem b = if b = a then some n else t.mem b := rfl

@[simp] theorem store_pr (t : Tree κ ν) (a : Nat) (n : Node κ ν) : (t.store a n).pr = t.pr := rfl

@[simp] theorem store_ph (t : Tree κ ν) (a : Nat) (n : Node κ ν) : (t.store a n).ph = t.ph := rfl

@[simp] theorem store_pt (t : Tree κ ν) (a : Nat) (n : Node κ ν) : (t.store a n).pt = t.pt := rfl

@[simp] theorem store_brk (t : Tree κ ν) (a : Nat) (n : Node κ ν) :
    (t.store a n).brk = t.brk := rfl

@[simp] theorem store_len (t : Tree κ ν) (a : Nat) (n : Node κ ν) :
    (t.store a n).ulTreeLen = t.ulTreeLen := rfl

@[simp] theorem store_cmp (t : Tree κ ν) (a : Nat) (n : Node κ ν) :
    (t.store a n).pfCmp = t.pfCmp := rfl

@[simp] theorem store_arr (t : Tree κ ν) (a : Nat) (n : Node κ ν) :
    (t.store a n).ppArray = t.ppArray := rfl

@[simp] theorem store_arrSorted (t : Tree κ ν) (a : Nat) (n : Node κ ν) :
    (t.store a n).ppArraySorted = t.ppArraySorted := rfl

theorem load_some {t : Tree κ ν} {a : Nat} {n : Node κ ν} (h : t.mem a = some n) :
    t.load (some a) = .ok n := by
  simp [Tree.load, h]

theorem modify_some {t : Tree κ ν} {a : Nat} {n : Node κ ν} (h : t.mem a = some n)
    (f : Node κ ν → Node κ ν) : t.modify (some a) f = .ok (t.store a (f n)) := by
  simp [Tree.modify, h]

@[simp] theorem Sh.root_node (l r : Sh) (a : Nat) : (Sh.node l a r).root = some a := rfl

@[simp] theorem Sh.root_nil : Sh.nil.root = none := rfl

theorem addrs_plug (c : List Frame) (s : Sh) :
    (plug c s).addrs = pathL c ++ s.addrs ++ pathR c := by
  induction c generalizing s with
  | nil => simp [plug, pathL, pathR]
  | cons f c ih =>
    cases f <;> simp [plug, Frame.fill, pathL, pathR, ih, Sh.addrs, List.append_assoc]

theorem plug_append (c d : List Frame) (s : Sh) : plug (c ++ d) s = plug d (plug c s) := by
  induction c generalizing s with
  | nil => rfl
  | cons f c ih => simp [plug, ih]

theorem exists_plug {T : Sh} {a : Nat} (h : a ∈ T.addrs) :
    ∃ c l r, T = plug c (.node l a r) := by
  induction T with
  | nil => simp [Sh.addrs] at h
  | node l b r ihl ihr =>
    simp only [Sh.addrs, List.mem_append, List.mem_cons] at h
    rcases h with h | h | h
    · obtain ⟨c, l1, r1, e⟩ := ihl h
      exact ⟨c ++ [Frame.L b r], l1, r1, by rw [plug_append, ← e]; rfl⟩
    · exact ⟨[], l, r, by rw [h]; rfl⟩
    · obtain ⟨c, l1, r1, e⟩ := ihr h
      exact ⟨c ++ [Frame.R l b], l1, r1, by rw [plug_append, ← e]; rfl⟩

theorem root_plug_cons (f : Frame) (c : List Frame) (s : Sh) :
    ∃ b, (plug (f :: c) s).root = some b ∧ (b ∈ pathL (f :: c) ∨ b ∈ pathR (f :: c)) := by
  induction c generalizing f s with
  | nil => cases f <;> simp [plug, Frame.fill, Sh.root, pathL, pathR]
  | cons g c ih =>
    obtain ⟨b, hb, hm⟩ := ih g (f.fill s)
    refine ⟨b, by simpa [plug] using hb, ?_⟩
    cases f <;> cases g <;> simp [pathL, pathR] at hm ⊢ <;> tauto

/-- The root of a plugged tree does not depend on the (non-empty) content of the hole. -/
theorem root_plug_indep (f : Frame) (c : List Frame) (s s2 : Sh) :
    (plug (f :: c) s).root = (plug (f :: c) s2).root := by
  induction c generalizing f s s2 with
  | nil => cases f <;> rfl
  | cons g c ih => exact ih g _ _

theorem rep_plug (m : Nat → Option (Node κ ν)) (c : List Frame) (s : Sh) :
    Rep m none (plug c s) ↔ Rep m (top c) s ∧ RepP m c s.root := by
  induction c generalizing s with
  | nil => simp [plug, top, RepP]
  | cons f c ih =>
    cases f with
    | L a r =>
      simp only [plug, Frame.fill, ih, Rep, RepP, top, Frame.addr, Sh.root]
      constructor
      · rintro ⟨⟨n, h1, h2, h3, h4, h5, h6⟩, h7⟩
        exact ⟨h5, n, h1, h2, h3, h4, h6, h7⟩
      · rintro ⟨h5, n, h1, h2, h3, h4, h6, h7⟩
        exact ⟨⟨n, h1, h2, h3, h4, h5, h6⟩, h7⟩
    | R l a =>
      simp only [plug, Frame.fill, ih, Rep, RepP, top, Frame.addr, Sh.root]
      constructor
      · rintro ⟨⟨n, h1, h2, h3, h4, h5, h6⟩, h7⟩
        exact ⟨h6, n, h1, h2, h3, h4, h5, h7⟩
      · rintro ⟨h6, n, h1, h2, h3, h4, h5, h7⟩
        exact ⟨⟨n, h1, h2, h3, h4, h5, h6⟩, h7⟩

theorem rep_congr {m m2 : Nat → Option (Node κ ν)} {s : Sh} {par : Ptr}
    (h : ∀ a ∈ s.addrs, m2 a = m a) : Rep m2 par s ↔ Rep m par s := by
  induction s generalizing par with
  | nil => simp [Rep]
  | node l a r ihl ihr =>
    simp only [Rep]
    rw [h a (by simp [Sh.addrs]), ihl (fun b hb => h b (by simp [Sh.addrs, hb])),
      ihr (fun b hb => h b (by simp [Sh.addrs, hb]))]

theorem repP_congr {m m2 : Nat → Option (Node κ ν)} {c : List Frame} {p : Ptr}
    (h : ∀ a, a ∈ pathL c ∨ a ∈ pathR c → m2 a = m a) : RepP m2 c p ↔ RepP m c p := by
  induction c generalizing p with
  | nil => simp [RepP]
  | cons f c ih =>
    cases f with
    | L a r =>
      simp only [RepP]
      rw [h a (by simp [pathR]), rep_congr (fun b hb => h b (by simp [pathR, hb])),
        ih (fun b hb => h b (by rcases hb with hb | hb <;> simp [pathL, pathR, hb]))]
    | R l a =>
      simp only [RepP]
      rw [h a (by simp [pathL]), rep_congr (fun b hb => h b (by simp [pathL, hb])),
        ih (fun b hb => h b (by rcases hb with hb | hb <;> simp [pathL, pathR, hb]))]

theorem rotateLeftRB_heap (t : Tree κ ν) (x y : Nat) (nx ny : Node κ ν)
    (hx : t.mem x = some nx) (hy : t.mem y = some ny) (hxr : nx.pRight = some y)
    (hxy : x ≠ y)
    (hb : ∀ b, ny.pLeft = some b → (t.mem b).isSome ∧ b ≠ x ∧ b ≠ y)
    (hp : ∀ p, nx.pParent = some p → (t.mem p).isSome ∧ p ≠ x ∧ p ≠ y ∧ some p ≠ ny.pLeft) :
    rotateLeftRB t (some x) = .ok
      { t with mem := rotLMem t x y nx ny, pr := if nx.pParent = none then some y else t.pr } := by
  cases hyl : ny.pLeft with
  | none =>
    cases hxp : nx.pParent with
    | none =>
      simp only [rotateLeftRB, Tree.getRight, Tree.getLeft, Tree.getParent, Tree.setRight,
        Tree.setLeft, Tree.setParent, Tree.load, Tree.modify, hx, hy, hxr, hxy, Ne.symm hxy,
        hyl, hxp, ok_bind, pure_eq_ok, store_mem, if_true, if_false, ite_true, ite_false,
        Option.isSome_some, Option.isSome_none, Bool.false_eq_true]
      simp only [Tree.store, Except.ok.injEq, Tree.mk.injEq, true_and, and_true]
      funext a
      simp only [rotLMem, hyl, hxp]
      split_ifs <;> simp_all
    | some p =>
      obtain ⟨hpm, hpx, hpy, -⟩ := hp p hxp
      obtain ⟨np, hnp⟩ := Option.isSome_iff_exists.mp hpm
      by_cases hl : np.pLeft = some x
      · simp only [rotateLeftRB, Tree.getRight, Tree.getLeft, Tree.getParent, Tree.setRight,
          Tree.setLeft, Tree.setParent, Tree.load, Tree.modify, hx, hy, hxr, hxy, Ne.symm hxy,
          hyl, hxp, hnp, hpx, hpy, Ne.symm hpx, Ne.symm hpy, hl,
          ok_bind, pure_eq_ok, store_mem, if_true, if_false, ite_true, ite_false,
          Option.isSome_some, Option.isSome_none, Bool.false_eq_true]
        simp only [Tree.store, Except.ok.injEq, Tree.mk.injEq, true_and, and_true]
        refine ⟨by simp, ?_⟩
        funext a
        simp only [rotLMem, hyl, hxp]
        split_ifs <;> simp_all
      · have hl2 : ¬ some x = np.pLeft := fun e => hl e.symm
        simp only [rotateLeftRB, Tree.getRight, Tree.getLeft, Tree.getParent, Tree.setRight,
          Tree.setLeft, Tree.setParent, Tree.load, Tree.modify, hx, hy, hxr, hxy, Ne.symm hxy,
          hyl, hxp, hnp, hpx, hpy, Ne.symm hpx, Ne.symm hpy, hl, hl2,
          ok_bind, pure_eq_ok, store_mem, if_true, if_false, ite_true, ite_false,
          Option.isSome_some, Option.isSome_none, Bool.false_eq_true]
        simp only [Tree.store, Except.ok.injEq, Tree.mk.injEq, true_and, and_true]
        refine ⟨by simp, ?_⟩
        funext a
        simp only [rotLMem, hyl, hxp]
        split_ifs <;> simp_all
  | some b =>
    obtain ⟨hbm, hbx, hby⟩ := hb b hyl
    obtain ⟨nb, hnb⟩ := Option.isSome_iff_exists.mp hbm
    cases hxp : nx.pParent with
    | none =>
      simp only [rotateLeftRB, Tree.getRight, Tree.getLeft, Tree.getParent, Tree.setRight,
        Tree.setLeft, Tree.setParent, Tree.load, Tree.modify, hx, hy, hxr, hxy, Ne.symm hxy,
        hyl, hxp, hnb, hbx, hby, Ne.symm hbx, Ne.symm hby,
        ok_bind, pure_eq_ok, store_mem, if_true, if_false, ite_true, ite_false,
        Option.isSome_some, Option.isSome_none, Bool.false_eq_true]
      simp only [Tree.store, Except.ok.injEq, Tree.mk.injEq, true_and, and_true]
      funext a
      simp only [rotLMem, hyl, hxp]
      split_ifs <;> simp_all
    | some p =>
      obtain ⟨hpm, hpx, hpy, hpb⟩ := hp p hxp
      obtain ⟨np, hnp⟩ := Option.isSome_iff_exists.mp hpm
      have hpb2 : p ≠ b := fun e => hpb (by rw [hyl, e])
      by_cases hl : np.pLeft = some x
      · simp only [rotateLeftRB, Tree.getRight, Tree.getLeft, Tree.getParent, Tree.setRight,
          Tree.setLeft, Tree.setParent, Tree.load, Tree.modify, hx, hy, hxr, hxy, Ne.symm hxy,
          hyl, hxp, hnp, hpx, hpy, Ne.symm hpx, Ne.symm hpy, hl,
          hnb, hbx, hby, Ne.symm hbx, Ne.symm hby, hpb2, Ne.symm hpb2,
          ok_bind, pure_eq_ok, store_mem, if_true, if_false, ite_true, ite_false,
          Option.isSome_some, Option.isSome_none, Bool.false_eq_true]
        simp only [Tree.store, Except.ok.injEq, Tree.mk.injEq, true_and, and_true]
        refine ⟨by simp, ?_⟩
        funext a
        simp only [rotLMem, hyl, hxp, Option.some.injEq]
        by_cases h1 : a = x
        · simp [h1, hxy]
        by_cases h2 : a = y
        · simp [h1, h2, Ne.symm hxy]
        by_cases h3 : a = b
        · simp [h1, h2, h3, hnb, hbx, hby, Ne.symm hpb2]
        by_cases h4 : a = p
        · simp [h1, h2, h3, h4, hnp, hl, hpx, hpy, hpb2]
        simp [h1, h2, h3, h4]
      · have hl2 : ¬ some x = np.pLeft := fun e => hl e.symm
        simp only [rotateLeftRB, Tree.getRight, Tree.getLeft, Tree.getParent, Tree.setRight,
          Tree.setLeft, Tree.setParent, Tree.load, Tree.modify, hx, hy, hxr, hxy, Ne.symm hxy,
          hyl, hxp, hnp, hpx, hpy, Ne.symm hpx, Ne.symm hpy, hl, hl2,
          hnb, hbx, hby, Ne.symm hbx, Ne.symm hby, hpb2, Ne.symm hpb2,
          ok_bind, pure_eq_ok, store_mem, if_true, if_false, ite_true, ite_false,
          Option.isSome_some, Option.isSome_none, Bool.false_eq_true]
        simp only [Tree.store, Except.ok.injEq, Tree.mk.injEq, true_and, and_true]
        refine ⟨by simp, ?_⟩
        funext a
        simp only [rotLMem, hyl, hxp, Option.some.injEq]
        by_cases h1 : a = x
        · simp [h1, hxy]
        by_cases h2 : a = y
        · simp [h1, h2, Ne.symm hxy]
        by_cases h3 : a = b
        · simp [h1, h2, h3, hnb, hbx, hby, Ne.symm hpb2]
        by_cases h4 : a = p
        · simp [h1, h2, h3, h4, hnp, hl, hpx, hpy, hpb2]
        simp [h1, h2, h3, h4]

theorem rotateRightRB_heap (t : Tree κ ν) (x y : Nat) (nx ny : Node κ ν)
    (hx : t.mem x = some nx) (hy : t.mem y = some ny) (hxl : nx.pLeft = some y)
    (hxy : x ≠ y)
    (hb : ∀ b, ny.pRight = some b → (t.mem b).isSome ∧ b ≠ x ∧ b ≠ y)
    (hp : ∀ p, nx.pParent = some p → (t.mem p).isSome ∧ p ≠ x ∧ p ≠ y ∧ some p ≠ ny.pRight) :
    rotateRightRB t (some x) = .ok
      { t with mem := rotRMem t x y nx ny, pr := if nx.pParent = none then some y else t.pr } := by
  cases hyr : ny.pRight with
  | none =>
    cases hxp : nx.pParent with
    | none =>
      simp only [rotateRightRB, Tree.getLeft, Tree.getRight, Tree.getParent, Tree.setLeft,
        Tree.setRight, Tree.setParent, Tree.load, Tree.modify, hx, hy, hxl, hxy, Ne.symm hxy,
        hyr, hxp, ok_bind, pure_eq_ok, store_mem, if_true, if_false, ite_true, ite_false,
        Option.isSome_some, Option.isSome_none, Bool.false_eq_true]
      simp only [Tree.store, Except.ok.injEq, Tree.mk.injEq, true_and, and_true]
      funext a
      simp only [rotRMem, hyr, hxp]
      split_ifs <;> simp_all
    | some p =>
      obtain ⟨hpm, hpx, hpy, -⟩ := hp p hxp
      obtain ⟨np, hnp⟩ := Option.isSome_iff_exists.mp hpm
      by_cases hl : np.pRight = some x
      · simp only [rotateRightRB, Tree.getLeft, Tree.getRight, Tree.getParent, Tree.setLeft,
          Tree.setRight, Tree.setParent, Tree.load, Tree.modify, hx, hy, hxl, hxy, Ne.symm hxy,
          hyr, hxp, hnp, hpx, hpy, Ne.symm hpx, Ne.symm hpy, hl,
          ok_bind, pure_eq_ok, store_mem, if_true, if_false, ite_true, ite_false,
          Option.isSome_some, Option.isSome_none, Bool.false_eq_true]
        simp only [Tree.store, Except.ok.injEq, Tree.mk.injEq, true_and, and_true]
        refine ⟨by simp, ?_⟩
        funext a
        simp only [rotRMem, hyr, hxp]
        split_ifs <;> simp_all
      · have hl2 : ¬ some x = np.pRight := fun e => hl e.symm
        simp only [rotateRightRB, Tree.getLeft, Tree.getRight, Tree.getParent, Tree.setLeft,
          Tree.setRight, Tree.setParent, Tree.load, Tree.modify, hx, hy, hxl, hxy, Ne.symm hxy,
          hyr, hxp, hnp, hpx, hpy, Ne.symm hpx, Ne.symm hpy, hl, hl2,
          ok_bind, pure_eq_ok, store_mem, if_true, if_false, ite_true, ite_false,
          Option.isSome_some, Option.isSome_none, Bool.false_eq_true]
        simp only [Tree.store, Except.ok.injEq, Tree.mk.injEq, true_and, and_true]
        refine ⟨by simp, ?_⟩
        funext a
        simp only [rotRMem, hyr, hxp]
        split_ifs <;> simp_all
  | some b =>
    obtain ⟨hbm, hbx, hby⟩ := hb b hyr
    obtain ⟨nb, hnb⟩ := Option.isSome_iff_exists.mp hbm
    cases hxp : nx.pParent with
    | none =>
      simp only [rotateRightRB, Tree.getLeft, Tree.getRight, Tree.getParent, Tree.setLeft,
        Tree.setRight, Tree.setParent, Tree.load, Tree.modify, hx, hy, hxl, hxy, Ne.symm hxy,
        hyr, hxp, hnb, hbx, hby, Ne.symm hbx, Ne.symm hby,
        ok_bind, pure_eq_ok, store_mem, if_true, if_false, ite_true, ite_false,
        Option.isSome_some, Option.isSome_none, Bool.false_eq_true]
      simp only [Tree.store, Except.ok.injEq, Tree.mk.injEq, true_and, and_true]
      funext a
      simp only [rotRMem, hyr, hxp]
      split_ifs <;> simp_all
    | some p =>
      obtain ⟨hpm, hpx, hpy, hpb⟩ := hp p hxp
      obtain ⟨np, hnp⟩ := Option.isSome_iff_exists.mp hpm
      have hpb2 : p ≠ b := fun e => hpb (by rw [hyr, e])
      by_cases hl : np.pRight = some x
      · simp only [rotateRightRB, Tree.getLeft, Tree.getRight, Tree.getParent, Tree.setLeft,
          Tree.setRight, Tree.setParent, Tree.load, Tree.modify, hx, hy, hxl, hxy, Ne.symm hxy,
          hyr, hxp, hnp, hpx, hpy, Ne.symm hpx, Ne.symm hpy, hl,
          hnb, hbx, hby, Ne.symm hbx, Ne.symm hby, hpb2, Ne.symm hpb2,
          ok_bind, pure_eq_ok, store_mem, if_true, if_false, ite_true, ite_false,
          Option.isSome_some, Option.isSome_none, Bool.false_eq_true]
        simp only [Tree.store, Except.ok.injEq, Tree.mk.injEq, true_and, and_true]
        refine ⟨by simp, ?_⟩
        funext a
        simp only [rotRMem, hyr, hxp, Option.some.injEq]
        by_cases h1 : a = x
        · simp [h1, hxy]
        by_cases h2 : a = y
        · simp [h1, h2, Ne.symm hxy]
        by_cases h3 : a = b
        · simp [h1, h2, h3, hnb, hbx, hby, Ne.symm hpb2]
        by_cases h4 : a = p
        · simp [h1, h2, h3, h4, hnp, hl, hpx, hpy, hpb2]
        simp [h1, h2, h3, h4]
      · have hl2 : ¬ some x = np.pRight := fun e => hl e.symm
        simp only [rotateRightRB, Tree.getLeft, Tree.getRight, Tree.getParent, Tree.setLeft,
          Tree.setRight, Tree.setParent, Tree.load, Tree.modify, hx, hy, hxl, hxy, Ne.symm hxy,
          hyr, hxp, hnp, hpx, hpy, Ne.symm hpx, Ne.symm hpy, hl, hl2,
          hnb, hbx, hby, Ne.symm hbx, Ne.symm hby, hpb2, Ne.symm hpb2,
          ok_bind, pure_eq_ok, store_mem, if_true, if_false, ite_true, ite_false,
          Option.isSome_some, Option.isSome_none, Bool.false_eq_true]
        simp only [Tree.store, Except.ok.injEq, Tree.mk.injEq, true_and, and_true]
        refine ⟨by simp, ?_⟩
        funext a
        simp only [rotRMem, hyr, hxp, Option.some.injEq]
        by_cases h1 : a = x
        · simp [h1, hxy]
        by_cases h2 : a = y
        · simp [h1, h2, Ne.symm hxy]
        by_cases h3 : a = b
        · simp [h1, h2, h3, hnb, hbx, hby, Ne.symm hpb2]
        by_cases h4 : a = p
        · simp [h1, h2, h3, h4, hnp, hl, hpx, hpy, hpb2]
        simp [h1, h2, h3, h4]

theorem Node.data_core (n : Node κ ν) : n.core.data = n.data := rfl

theorem SameCore.toData {t t2 : Tree κ ν} (h : SameCore t t2) : SameData t t2 where
  cmp := h.cmp
  len := h.len
  arr := h.arr
  arrSorted := h.arrSorted
  ph := h.ph
  pt := h.pt
  brk := h.brk
  cells := fun a => by
    have := congrArg (Option.map Node.data) (h.cells a)
    simpa [Option.map_map, Function.comp_def, Node.data_core] using this

theorem SameData.refl_data (t : Tree κ ν) : SameData t t :=
  ⟨rfl, rfl, rfl, rfl, rfl, rfl, rfl, fun _ => rfl⟩

theorem SameData.trans_data {t t2 t3 : Tree κ ν} (h : SameData t t2) (h2 : SameData t2 t3) :
    SameData t t3 :=
  ⟨h2.cmp.trans h.cmp, h2.len.trans h.len, h2.arr.trans h.arr,
    h2.arrSorted.trans h.arrSorted, h2.ph.trans h.ph, h2.pt.trans h.pt, h2.brk.trans h.brk,
    fun a => (h2.cells a).trans (h.cells a)⟩

theorem SameCore.refl_core (t : Tree κ ν) : SameCore t t :=
  ⟨rfl, rfl, rfl, rfl, rfl, rfl, rfl, fun _ => rfl⟩

theorem SameCore.trans_core {t t2 t3 : Tree κ ν} (h : SameCore t t2) (h2 : SameCore t2 t3) :
    SameCore t t3 :=
  ⟨h2.cmp.trans h.cmp, h2.len.trans h.len, h2.arr.trans h.arr,
    h2.arrSorted.trans h.arrSorted, h2.ph.trans h.ph, h2.pt.trans h.pt, h2.brk.trans h.brk,
    fun a => (h2.cells a).trans (h.cells a)⟩

theorem root_mem {s : Sh} {a : Nat} (h : s.root = some a) : a ∈ s.addrs := by
  cases s with
  | nil => simp [Sh.root] at h
  | node l b r =>
    simp only [Sh.root, Option.some.injEq] at h
    simp [Sh.addrs, h]

theorem top_mem {c : List Frame} {p : Nat} (h : top c = some p) : p ∈ pathL c ∨ p ∈ pathR c := by
  cases c with
  | nil => simp [top] at h
  | cons f c =>
    cases f <;> simp only [top, Frame.addr, Option.some.injEq] at h <;>
      simp [pathL, pathR, h]

theorem rep_root_cell {m : Nat → Option (Node κ ν)} {par : Ptr} {s : Sh} {a : Nat}
    (h : Rep m par s) (ha : s.root = some a) : ∃ n, m a = some n ∧ n.pParent = par := by
  cases s with
  | nil => simp [Sh.root] at ha
  | node l b r =>
    simp only [Sh.root, Option.some.injEq] at ha
    obtain ⟨n, h1, h2, -⟩ := h
    exact ⟨n, ha ▸ h1, h2⟩

theorem rep_reparent {m m2 : Nat → Option (Node κ ν)} {par par2 : Ptr} {s : Sh}
    (h : Rep m par s)
    (hr : ∀ a n, s.root = some a → m a = some n → m2 a = some { n with pParent := par2 })
    (hf : ∀ a ∈ s.addrs, s.root ≠ some a → m2 a = m a)
    (hnd : s.addrs.Nodup) : Rep m2 par2 s := by
  cases s with
  | nil => trivial
  | node l b r =>
    obtain ⟨n, h1, h2, h3, h4, h5, h6⟩ := h
    simp only [Sh.addrs, List.nodup_append, List.nodup_cons] at hnd
    obtain ⟨hl, ⟨hbr, hr2⟩, hd⟩ := hnd
    have hbl : b ∉ l.addrs := fun hm => hd hm (List.mem_cons_self _ _)
    refine ⟨_, hr b n rfl h1, rfl, h3, h4, ?_, ?_⟩
    · refine (rep_congr fun a ha => hf a (by simp [Sh.addrs, ha]) ?_).mpr h5
      simp only [Sh.root, ne_eq, Option.some.injEq]
      rintro rfl
      exact hbl ha
    · refine (rep_congr fun a ha => hf a (by simp [Sh.addrs, ha]) ?_).mpr h6
      simp only [Sh.root, ne_eq, Option.some.injEq]
      rintro rfl
      exact hbr ha

theorem rep_mem_cell {m : Nat → Option (Node κ ν)} {par : Ptr} {s : Sh} {a : Nat}
    (h : Rep m par s) (ha : a ∈ s.addrs) : (m a).isSome := by
  induction s generalizing par with
  | nil => simp [Sh.addrs] at ha
  | node l b r ihl ihr =>
    obtain ⟨n, h1, -, -, -, h5, h6⟩ := h
    simp only [Sh.addrs, List.mem_append, List.mem_cons] at ha
    rcases ha with ha | ha | ha
    · exact ihl h5 ha
    · simp [ha, h1]
    · exact ihr h6 ha

theorem repP_mem_cell {m : Nat → Option (Node κ ν)} {c : List Frame} {p : Ptr} {a : Nat}
    (h : RepP m c p) (ha : a ∈ pathL c ∨ a ∈ pathR c) : (m a).isSome := by
  induction c generalizing p with
  | nil => simp [pathL, pathR] at ha
  | cons f c ih =>
    cases f with
    | L b r =>
      obtain ⟨n, h1, -, -, -, h5, h6⟩ := h
      simp only [pathL, pathR, List.mem_append, List.mem_cons] at ha
      rcases ha with ha | (ha | ha) | ha
      · exact ih h6 (Or.inl ha)
      · simp [ha, h1]
      · exact rep_mem_cell h5 ha
      · exact ih h6 (Or.inr ha)
    | R l b =>
      obtain ⟨n, h1, -, -, -, h5, h6⟩ := h
      simp only [pathL, pathR, List.mem_append, List.mem_cons, List.mem_singleton,
        List.not_mem_nil, or_false] at ha
      rcases ha with (ha | ha | ha) | ha
      · exact ih h6 (Or.inl ha)
      · exact rep_mem_cell h5 ha
      · simp [ha, h1]
      · exact ih h6 (Or.inr ha)

theorem repP_retarget {m m2 : Nat → Option (Node κ ν)} {c : List Frame} {x : Nat} {q : Ptr}
    (hP : RepP m c (some x)) (hxL : x ∉ pathL c)
    (hR : (pathR c).Nodup) (hLR : (pathL c).Disjoint (pathR c)) (hL : (pathL c).Nodup)
    (htop : ∀ p n, top c = some p → m p = some n →
      m2 p = some (if n.pLeft = some x then { n with pLeft := q } else { n with pRight := q }))
    (hf : ∀ a, a ∈ pathL c ∨ a ∈ pathR c → some a ≠ top c → m2 a = m a) :
    RepP m2 c q := by
  cases c with
  | nil => trivial
  | cons f c =>
    cases f with
    | L p r =>
      obtain ⟨n, h1, h2, h3, h4, h5, h6⟩ := hP
      simp only [pathL, pathR, List.nodup_append, List.nodup_cons, List.mem_append,
        List.disjoint_append_right, List.disjoint_cons_right, List.disjoint_cons_left,
        List.cons_append, not_or] at hxL hR hLR hL
      obtain ⟨⟨hpr, hpR⟩, ⟨hr, hcR, hrR⟩⟩ := hR
      obtain ⟨hpL, hLr, hLR2⟩ := hLR
      refine ⟨{ n with pLeft := q }, (htop p n rfl h1).trans (by rw [if_pos h3]), h2, rfl, h4,
        ?_, ?_⟩
      · refine (rep_congr fun a ha => hf a (by simp [pathR, ha]) ?_).mpr h5
        simp only [top, Frame.addr, ne_eq, Option.some.injEq]
        rintro rfl
        exact hpr ha
      · refine (repP_congr fun a ha => hf a ?_ ?_).mpr h6
        · rcases ha with ha | ha <;> simp [pathL, pathR, ha]
        · simp only [top, Frame.addr, ne_eq, Option.some.injEq]
          rintro rfl
          exact ha.elim hpL hpR
    | R l p =>
      obtain ⟨n, h1, h2, h3, h4, h5, h6⟩ := hP
      simp only [pathL, pathR, List.nodup_append, List.nodup_cons, List.mem_append,
        List.disjoint_append_left, List.disjoint_cons_left, List.disjoint_append_right,
        List.mem_singleton, List.nodup_nil, List.not_mem_nil, List.disjoint_singleton,
        List.disjoint_nil_left, List.disjoint_nil_right,
        List.disjoint_cons_right, not_or, not_false_eq_true, and_true, true_and] at hxL hR hLR hL
      have hne : ¬ n.pLeft = some x := by
        rw [h3]
        intro e
        exact hxL.2.1 (root_mem e)
      refine ⟨{ n with pRight := q }, (htop p n rfl h1).trans (by rw [if_neg hne]), h2, h3, rfl,
        ?_, ?_⟩
      · refine (rep_congr fun a ha => hf a (by simp [pathL, ha]) ?_).mpr h5
        simp only [top, Frame.addr, ne_eq, Option.some.injEq]
        rintro rfl
        exact hL.2.1.2 ha
      · refine (repP_congr fun a ha => hf a ?_ ?_).mpr h6
        · rcases ha with ha | ha <;> simp [pathL, pathR, ha]
        · simp only [top, Frame.addr, ne_eq, Option.some.injEq]
          rintro rfl
          exact ha.elim hL.2.2.2 hLR.2.2

theorem rotLMem_frame (t : Tree κ ν) (x y : Nat) (nx ny : Node κ ν) (a : Nat)
    (h1 : a ≠ x) (h2 : a ≠ y) (h3 : some a ≠ ny.pLeft) (h4 : some a ≠ nx.pParent) :
    rotLMem t x y nx ny a = t.mem a := by
  simp [rotLMem, h1, h2, h3, h4]

theorem rotLMem_x (t : Tree κ ν) (x y : Nat) (nx ny : Node κ ν) :
    rotLMem t x y nx ny x = some { nx with pRight := ny.pLeft, pParent := some y } := by
  simp [rotLMem]

theorem rotLMem_y (t : Tree κ ν) (x y : Nat) (nx ny : Node κ ν) (hxy : x ≠ y) :
    rotLMem t x y nx ny y = some { ny with pLeft := some x, pParent := nx.pParent } := by
  simp [rotLMem, Ne.symm hxy]

theorem rotLMem_core (t : Tree κ ν) (x y : Nat) (nx ny : Node κ ν)
    (hx : t.mem x = some nx) (hy : t.mem y = some ny) (a : Nat) :
    (rotLMem t x y nx ny a).map Node.core = (t.mem a).map Node.core := by
  simp only [rotLMem]
  split_ifs with h1 h2 h3 h4
  · simp [h1, hx, Node.core]
  · simp [h2, hy, Node.core]
  · rcases t.mem a with _ | n
    · rfl
    · simp [Node.core]
  · cases h : t.mem a with
    | none => simp [h]
    | some n => by_cases hl : n.pLeft = some x <;> simp [hl, Node.core]
  · rfl

theorem addrs_rotL (c : List Frame) (A B C : Sh) (x y : Nat) :
    (plug c (.node (.node A x B) y C)).addrs = (plug c (.node A x (.node B y C))).addrs := by
  simp [addrs_plug, Sh.addrs]

theorem rotateLeftRB_wf {t : Tree κ ν} {c : List Frame} {A B C : Sh} {x y : Nat}
    (h : TreeWF t (plug c (.node A x (.node B y C)))) :
    ∃ t2, rotateLeftRB t (some x) = .ok t2 ∧
      TreeWF t2 (plug c (.node (.node A x B) y C)) ∧ SameCore t t2 := by
  obtain ⟨hrep, hroot, hnd⟩ := h
  have hnd0 := hnd
  rw [rep_plug] at hrep
  obtain ⟨⟨nx, hx, hxp, hxl, hxr, hA, ny, hy, hyp, hyl, hyr, hB, hC⟩, hP⟩ := hrep
  simp only [Sh.root] at hxr hP
  rw [addrs_plug] at hnd
  simp only [Sh.addrs, List.nodup_append, List.nodup_cons, List.mem_append, List.mem_cons,
    List.disjoint_append_left, List.disjoint_append_right, List.disjoint_cons_left,
    List.disjoint_cons_right, not_or] at hnd
  obtain ⟨⟨hndL, ⟨hndA, ⟨⟨hxB, hxy, hxC⟩, hndB, ⟨hyC, hndC⟩, hBy, hBC⟩, hxA, hAB, hyA, hAC⟩,
    hLA, ⟨hxL, hLB, hyL, hLC⟩⟩, hndR, hLR, hAR, hxR, hBR, hyR, hCR⟩ := hnd
  have hbpre : ∀ b, ny.pLeft = some b → (t.mem b).isSome ∧ b ≠ x ∧ b ≠ y := by
    intro b hb
    rw [hyl] at hb
    have hm := root_mem hb
    exact ⟨rep_mem_cell hB hm, fun e => hxB (e ▸ hm), fun e => hBy (e ▸ hm)⟩
  have hppre : ∀ p, nx.pParent = some p →
      (t.mem p).isSome ∧ p ≠ x ∧ p ≠ y ∧ some p ≠ ny.pLeft := by
    intro p hp
    rw [hxp] at hp
    have hm := top_mem hp
    refine ⟨repP_mem_cell hP hm, ?_, ?_, ?_⟩
    · rintro rfl
      exact hm.elim hxL hxR
    · rintro rfl
      exact hm.elim hyL hyR
    · rw [hyl]
      intro e
      have hm2 := root_mem e.symm
      exact hm.elim (fun h1 => hLB h1 hm2) (fun h1 => hBR hm2 h1)
  refine ⟨_, rotateLeftRB_heap t x y nx ny hx hy hxr hxy hbpre hppre, ⟨?_, ?_, ?_⟩, ?_⟩
  · -- representation
    rw [rep_plug]
    constructor
    · refine ⟨_, rotLMem_y t x y nx ny hxy, hxp, rfl, hyr,
        ⟨_, rotLMem_x t x y nx ny, rfl, hxl, hyl, ?_, ?_⟩, ?_⟩
      · refine (rep_congr fun a ha => rotLMem_frame t x y nx ny a ?_ ?_ ?_ ?_).mpr hA
        · rintro rfl; exact hxA ha
        · rintro rfl; exact hyA ha
        · rw [hyl]; intro e; exact hAB ha (root_mem e.symm)
        · rw [hxp]; intro e
          exact (top_mem e.symm).elim (fun h1 => hLA h1 ha) (fun h1 => hAR ha h1)
      · refine rep_reparent hB ?_ ?_ hndB
        · intro b nb hb hnb
          have hm := root_mem hb
          have h1 : b ≠ x := fun e => hxB (e ▸ hm)
          have h2 : b ≠ y := fun e => hBy (e ▸ hm)
          simp [rotLMem, h1, h2, hyl, hb, hnb]
        · intro a ha hr
          refine rotLMem_frame t x y nx ny a ?_ ?_ ?_ ?_
          · rintro rfl; exact hxB ha
          · rintro rfl; exact hBy ha
          · rw [hyl]; exact fun e => hr e.symm
          · rw [hxp]; intro e
            exact (top_mem e.symm).elim (fun h1 => hLB h1 ha) (fun h1 => hBR ha h1)
      · refine (rep_congr fun a ha => rotLMem_frame t x y nx ny a ?_ ?_ ?_ ?_).mpr hC
        · rintro rfl; exact hxC ha
        · rintro rfl; exact hyC ha
        · rw [hyl]; intro e; exact hBC (root_mem e.symm) ha
        · rw [hxp]; intro e
          exact (top_mem e.symm).elim (fun h1 => hLC h1 ha) (fun h1 => hCR ha h1)
    · refine repP_retarget hP hxL hndR hLR hndL ?_ ?_
      · intro p np hp hnp
        obtain ⟨-, h1, h2, h3⟩ := hppre p (hxp.trans hp)
        have h4 : ¬ some p = B.root := hyl ▸ h3
        simp [rotLMem, h1, h2, hyl, h4, hxp, hp, hnp]
      · intro a ha hne
        refine rotLMem_frame t x y nx ny a ?_ ?_ ?_ ?_
        · rintro rfl; exact ha.elim hxL hxR
        · rintro rfl; exact ha.elim hyL hyR
        · rw [hyl]; intro e
          exact ha.elim (fun h1 => hLB h1 (root_mem e.symm)) (fun h1 => hBR (root_mem e.symm) h1)
        · rw [hxp]; exact hne
  · -- root
    cases c with
    | nil =>
      simp only [top] at hxp
      simp [hxp, plug, Sh.root]
    | cons f c =>
      simp only [top] at hxp
      simp only [hxp, reduceCtorEq, if_false]
      rw [hroot]
      exact root_plug_indep f c _ _
  · exact (addrs_rotL c A B C x y) ▸ hnd0
  · exact ⟨rfl, rfl, rfl, rfl, rfl, rfl, rfl, rotLMem_core t x y nx ny hx hy⟩

theorem repP_retargetR {m m2 : Nat → Option (Node κ ν)} {c : List Frame} {x : Nat} {q : Ptr}
    (hP : RepP m c (some x)) (hxR : x ∉ pathR c)
    (hR : (pathR c).Nodup) (hLR : (pathL c).Disjoint (pathR c)) (hL : (pathL c).Nodup)
    (htop : ∀ p n, top c = some p → m p = some n →
      m2 p = some (if n.pRight = some x then { n with pRight := q } else { n with pLeft := q }))
    (hf : ∀ a, a ∈ pathL c ∨ a ∈ pathR c → some a ≠ top c → m2 a = m a) :
    RepP m2 c q := by
  cases c with
  | nil => trivial
  | cons f c =>
    cases f with
    | L p r =>
      obtain ⟨n, h1, h2, h3, h4, h5, h6⟩ := hP
      simp only [pathL, pathR, List.nodup_append, List.nodup_cons, List.mem_append,
        List.disjoint_append_right, List.disjoint_cons_right, List.disjoint_cons_left,
        List.cons_append, List.mem_cons, not_or] at hxR hR hLR hL
      obtain ⟨⟨hpr, hpR⟩, ⟨hr, hcR, hrR⟩⟩ := hR
      obtain ⟨hpL, hLr, hLR2⟩ := hLR
      have hne : ¬ n.pRight = some x := by
        rw [h4]
        intro e
        exact hxR.2.1 (root_mem e)
      refine ⟨{ n with pLeft := q }, (htop p n rfl h1).trans (by rw [if_neg hne]), h2, rfl, h4,
        ?_, ?_⟩
      · refine (rep_congr fun a ha => hf a (by simp [pathR, ha]) ?_).mpr h5
        simp only [top, Frame.addr, ne_eq, Option.some.injEq]
        rintro rfl
        exact hpr ha
      · refine (repP_congr fun a ha => hf a ?_ ?_).mpr h6
        · rcases ha with ha | ha <;> simp [pathL, pathR, ha]
        · simp only [top, Frame.addr, ne_eq, Option.some.injEq]
          rintro rfl
          exact ha.elim hpL hpR
    | R l p =>
      obtain ⟨n, h1, h2, h3, h4, h5, h6⟩ := hP
      simp only [pathL, pathR, List.nodup_append, List.nodup_cons, List.mem_append,
        List.disjoint_append_left, List.disjoint_cons_left, List.disjoint_append_right,
        List.mem_singleton, List.nodup_nil, List.not_mem_nil, List.disjoint_singleton,
        List.disjoint_nil_left, List.disjoint_nil_right,
        List.disjoint_cons_right, not_or, not_false_eq_true, and_true, true_and] at hxR hR hLR hL
      refine ⟨{ n with pRight := q }, (htop p n rfl h1).trans (by rw [if_pos h4]), h2, h3, rfl,
        ?_, ?_⟩
      · refine (rep_congr fun a ha => hf a (by simp [pathL, ha]) ?_).mpr h5
        simp only [top, Frame.addr, ne_eq, Option.some.injEq]
        rintro rfl
        exact hL.2.1.2 ha
      · refine (repP_congr fun a ha => hf a ?_ ?_).mpr h6
        · rcases ha with ha | ha <;> simp [pathL, pathR, ha]
        · simp only [top, Frame.addr, ne_eq, Option.some.injEq]
          rintro rfl
          exact ha.elim hL.2.2.2 hLR.2.2

theorem rotRMem_frame (t : Tree κ ν) (x y : Nat) (nx ny : Node κ ν) (a : Nat)
    (h1 : a ≠ x) (h2 : a ≠ y) (h3 : some a ≠ ny.pRight) (h4 : some a ≠ nx.pParent) :
    rotRMem t x y nx ny a = t.mem a := by
  simp [rotRMem, h1, h2, h3, h4]

theorem rotRMem_x (t : Tree κ ν) (x y : Nat) (nx ny : Node κ ν) :
    rotRMem t x y nx ny x = some { nx with pLeft := ny.pRight, pParent := some y } := by
  simp [rotRMem]

theorem rotRMem_y (t : Tree κ ν) (x y : Nat) (nx ny : Node κ ν) (hxy : x ≠ y) :
    rotRMem t x y nx ny y = some { ny with pRight := some x, pParent := nx.pParent } := by
  simp [rotRMem, Ne.symm hxy]

theorem rotRMem_core (t : Tree κ ν) (x y : Nat) (nx ny : Node κ ν)
    (hx : t.mem x = some nx) (hy : t.mem y = some ny) (a : Nat) :
    (rotRMem t x y nx ny a).map Node.core = (t.mem a).map Node.core := by
  simp only [rotRMem]
  split_ifs with h1 h2 h3 h4
  · simp [h1, hx, Node.core]
  · simp [h2, hy, Node.core]
  · rcases t.mem a with _ | n
    · rfl
    · simp [Node.core]
  · cases h : t.mem a with
    | none => simp [h]
    | some n => by_cases hl : n.pRight = some x <;> simp [hl, Node.core]
  · rfl

theorem addrs_rotR (c : List Frame) (A B C : Sh) (x y : Nat) :
    (plug c (.node A y (.node B x C))).addrs = (plug c (.node (.node A y B) x C)).addrs := by
  simp [addrs_plug, Sh.addrs]

theorem rotateRightRB_wf {t : Tree κ ν} {c : List Frame} {A B C : Sh} {x y : Nat}
    (h : TreeWF t (plug c (.node (.node A y B) x C))) :
    ∃ t2, rotateRightRB t (some x) = .ok t2 ∧
      TreeWF t2 (plug c (.node A y (.node B x C))) ∧ SameCore t t2 := by
  obtain ⟨hrep, hroot, hnd⟩ := h
  have hnd0 := hnd
  rw [rep_plug] at hrep
  obtain ⟨⟨nx, hx, hxp, hxl, hxr, ⟨ny, hy, hyp, hyl, hyr, hA, hB⟩, hC⟩, hP⟩ := hrep
  simp only [Sh.root] at hxl hP
  rw [addrs_plug] at hnd
  simp only [Sh.addrs, List.nodup_append, List.nodup_cons, List.mem_append, List.mem_cons,
    List.disjoint_append_left, List.disjoint_append_right, List.disjoint_cons_left,
    List.disjoint_cons_right, not_or] at hnd
  obtain ⟨⟨hndL, ⟨⟨hndA, ⟨hyB, hndB⟩, hyA, hAB⟩, ⟨hxC, hndC⟩, ⟨hxA, hxy, hxB⟩, hAC, hyC, hBC⟩,
    ⟨hLA, hyL, hLB⟩, hxL, hLC⟩, hndR, hLR, ⟨hAR, hyR, hBR⟩, hxR, hCR⟩ := hnd
  have hbpre : ∀ b, ny.pRight = some b → (t.mem b).isSome ∧ b ≠ x ∧ b ≠ y := by
    intro b hb
    rw [hyr] at hb
    have hm := root_mem hb
    exact ⟨rep_mem_cell hB hm, fun e => hxB (e ▸ hm), fun e => hyB (e ▸ hm)⟩
  have hppre : ∀ p, nx.pParent = some p →
      (t.mem p).isSome ∧ p ≠ x ∧ p ≠ y ∧ some p ≠ ny.pRight := by
    intro p hp
    rw [hxp] at hp
    have hm := top_mem hp
    refine ⟨repP_mem_cell hP hm, ?_, ?_, ?_⟩
    · rintro rfl
      exact hm.elim hxL hxR
    · rintro rfl
      exact hm.elim hyL hyR
    · rw [hyr]
      intro e
      have hm2 := root_mem e.symm
      exact hm.elim (fun h1 => hLB h1 hm2) (fun h1 => hBR hm2 h1)
  refine ⟨_, rotateRightRB_heap t x y nx ny hx hy hxl hxy hbpre hppre, ⟨?_, ?_, ?_⟩, ?_⟩
  · -- representation
    rw [rep_plug]
    constructor
    · refine ⟨_, rotRMem_y t x y nx ny hxy, hxp, hyl, rfl, ?_,
        ⟨_, rotRMem_x t x y nx ny, rfl, hyr, hxr, ?_, ?_⟩⟩
      · refine (rep_congr fun a ha => rotRMem_frame t x y nx ny a ?_ ?_ ?_ ?_).mpr hA
        · rintro rfl; exact hxA ha
        · rintro rfl; exact hyA ha
        · rw [hyr]; intro e; exact hAB ha (root_mem e.symm)
        · rw [hxp]; intro e
          exact (top_mem e.symm).elim (fun h1 => hLA h1 ha) (fun h1 => hAR ha h1)
      · refine rep_reparent hB ?_ ?_ hndB
        · intro b nb hb hnb
          have hm := root_mem hb
          have h1 : b ≠ x := fun e => hxB (e ▸ hm)
          have h2 : b ≠ y := fun e => hyB (e ▸ hm)
          simp [rotRMem, h1, h2, hyr, hb, hnb]
        · intro a ha hr
          refine rotRMem_frame t x y nx ny a ?_ ?_ ?_ ?_
          · rintro rfl; exact hxB ha
          · rintro rfl; exact hyB ha
          · rw [hyr]; exact fun e => hr e.symm
          · rw [hxp]; intro e
            exact (top_mem e.symm).elim (fun h1 => hLB h1 ha) (fun h1 => hBR ha h1)
      · refine (rep_congr fun a ha => rotRMem_frame t x y nx ny a ?_ ?_ ?_ ?_).mpr hC
        · rintro rfl; exact hxC ha
        · rintro rfl; exact hyC ha
        · rw [hyr]; intro e; exact hBC (root_mem e.symm) ha
        · rw [hxp]; intro e
          exact (top_mem e.symm).elim (fun h1 => hLC h1 ha) (fun h1 => hCR ha h1)
    · refine repP_retargetR hP hxR hndR hLR hndL ?_ ?_
      · intro p np hp hnp
        obtain ⟨-, h1, h2, h3⟩ := hppre p (hxp.trans hp)
        have h4 : ¬ some p = B.root := hyr ▸ h3
        simp [rotRMem, h1, h2, hyr, h4, hxp, hp, hnp]
      · intro a ha hne
        refine rotRMem_frame t x y nx ny a ?_ ?_ ?_ ?_
        · rintro rfl; exact ha.elim hxL hxR
        · rintro rfl; exact ha.elim hyL hyR
        · rw [hyr]; intro e
          exact ha.elim (fun h1 => hLB h1 (root_mem e.symm)) (fun h1 => hBR (root_mem e.symm) h1)
        · rw [hxp]; exact hne
  · -- root
    cases c with
    | nil =>
      simp only [top] at hxp
      simp [hxp, plug, Sh.root]
    | cons f c =>
      simp only [top] at hxp
      simp only [hxp, reduceCtorEq, if_false]
      rw [hroot]
      exact root_plug_indep f c _ _
  · exact (addrs_rotR c A B C x y) ▸ hnd0
  · exact ⟨rfl, rfl, rfl, rfl, rfl, rfl, rfl, rotRMem_core t x y nx ny hx hy⟩

theorem SameCore.colorAt_eq {t t2 : Tree κ ν} (h : SameCore t t2) (a : Nat) :
    colorAt t2 a = colorAt t a := by
  have := congrArg (Option.map (fun n : Node κ ν => n.color)) (h.cells a)
  simpa [colorAt, Option.map_map, Function.comp_def, Node.core] using this

theorem wf_cell {t : Tree κ ν} {c : List Frame} {l r : Sh} {a : Nat}
    (h : TreeWF t (plug c (.node l a r))) :
    ∃ n, t.mem a = some n ∧ n.pParent = top c ∧ n.pLeft = l.root ∧ n.pRight = r.root := by
  obtain ⟨n, h1, h2, h3, h4, -⟩ := ((rep_plug t.mem c _).mp h.rep).1
  exact ⟨n, h1, h2, h3, h4⟩

theorem getParent_wf {t : Tree κ ν} {c : List Frame} {l r : Sh} {a : Nat}
    (h : TreeWF t (plug c (.node l a r))) : t.getParent (some a) = .ok (top c) := by
  obtain ⟨n, h1, h2, -⟩ := wf_cell h
  simp [Tree.getParent, load_some h1, h2]

theorem getLeft_wf {t : Tree κ ν} {c : List Frame} {l r : Sh} {a : Nat}
    (h : TreeWF t (plug c (.node l a r))) : t.getLeft (some a) = .ok l.root := by
  obtain ⟨n, h1, -, h3, -⟩ := wf_cell h
  simp [Tree.getLeft, load_some h1, h3]

theorem getRight_wf {t : Tree κ ν} {c : List Frame} {l r : Sh} {a : Nat}
    (h : TreeWF t (plug c (.node l a r))) : t.getRight (some a) = .ok r.root := by
  obtain ⟨n, h1, -, -, h4⟩ := wf_cell h
  simp [Tree.getRight, load_some h1, h4]

theorem wf_mem_cell {t : Tree κ ν} {T : Sh} {a : Nat} (h : TreeWF t T) (ha : a ∈ T.addrs) :
    ∃ n, t.mem a = some n :=
  Option.isSome_iff_exists.mp (rep_mem_cell h.rep ha)

theorem getColor_of {t : Tree κ ν} {a : Nat} {col : Color} (h : colorAt t a = some col) :
    t.getColor (some a) = .ok col := by
  unfold colorAt at h
  cases hm : t.mem a with
  | none => simp [hm] at h
  | some n =>
    simp only [hm, Option.map_some', Option.some.injEq] at h
    simp [Tree.getColor, load_some hm, h]

theorem colorAt_of_wf {t : Tree κ ν} {T : Sh} {a : Nat} (h : TreeWF t T) (ha : a ∈ T.addrs) :
    ∃ col, colorAt t a = some col := by
  obtain ⟨n, hn⟩ := wf_mem_cell h ha
  exact ⟨n.color, by simp [colorAt, hn]⟩

theorem rep_links {m m2 : Nat → Option (Node κ ν)}
    (h : ∀ a, (m2 a).map Node.links = (m a).map Node.links) {par : Ptr} {s : Sh} :
    Rep m par s → Rep m2 par s := by
  induction s generalizing par with
  | nil => intro _; trivial
  | node l a r ihl ihr =>
    rintro ⟨n, h1, h2, h3, h4, h5, h6⟩
    have ha := h a
    rw [h1] at ha
    cases hm : m2 a with
    | none => simp [hm] at ha
    | some n2 =>
      simp only [hm, Option.map_some', Option.some.injEq, Node.links, Prod.mk.injEq] at ha
      exact ⟨n2, hm, ha.1.trans h2, ha.2.1.trans h3, ha.2.2.trans h4, ihl h5, ihr h6⟩

theorem setColor_wf {t : Tree κ ν} {T : Sh} {a : Nat} (h : TreeWF t T) (ha : a ∈ T.addrs)
    (col : Color) :
    ∃ t2, t.setColor (some a) col = .ok t2 ∧ TreeWF t2 T ∧ SameData t t2 ∧
      ∀ b, colorAt t2 b = if b = a then some col else colorAt t b := by
  obtain ⟨n, hn⟩ := wf_mem_cell h ha
  refine ⟨_, modify_some hn _, ⟨?_, h.root, h.nodup⟩, ⟨rfl, rfl, rfl, rfl, rfl, rfl, rfl, ?_⟩, ?_⟩
  · refine rep_links (fun b => ?_) h.rep
    by_cases hb : b = a
    · simp [hb, hn, Node.links]
    · simp [hb]
  · intro b
    by_cases hb : b = a
    · simp [hb, hn, Node.data]
    · simp [hb]
  · intro b
    by_cases hb : b = a
    · simp [colorAt, hb]
    · simp [colorAt, hb]

/-- A node inside a plugged tree is not its root unless the path is empty. -/
theorem root_plug_ne {f : Frame} {c : List Frame} {l r : Sh} {a : Nat}
    (hnd : (plug (f :: c) (.node l a r)).addrs.Nodup) :
    (plug (f :: c) (.node l a r)).root ≠ some a := by
  obtain ⟨b, hb, hm⟩ := root_plug_cons f c (.node l a r)
  rw [hb]
  simp only [ne_eq, Option.some.injEq]
  rintro rfl
  rw [addrs_plug] at hnd
  simp only [Sh.addrs, List.nodup_append, List.nodup_cons, List.mem_append, List.mem_cons,
    List.disjoint_append_left, List.disjoint_append_right, List.disjoint_cons_left,
    List.disjoint_cons_right, not_or] at hnd
  rcases hm with hm | hm
  · exact hnd.1.2.2.2.1 hm
  · exact hnd.2.2.2.2.1 hm

theorem mem_plug_addrs (c : List Frame) (l r : Sh) (a : Nat) :
    a ∈ (plug c (.node l a r)).addrs := by
  simp [addrs_plug, Sh.addrs]

theorem getParent_setColor {t t2 : Tree κ ν} {x : Ptr} {col : Color}
    (h : t.setColor x col = .ok t2) (q : Ptr) : t2.getParent q = t.getParent q := by
  cases x with
  | none => simp [Tree.setColor, Tree.modify] at h
  | some x =>
    cases hm : t.mem x with
    | none => simp [Tree.setColor, Tree.modify, hm] at h
    | some n =>
      simp only [Tree.setColor, modify_some hm, Except.ok.injEq] at h
      subst h
      cases q with
      | none => rfl
      | some q =>
        by_cases hq : q = x
        · simp [Tree.getParent, Tree.load, hq, hm]
        · simp [Tree.getParent, Tree.load, hq]

theorem isRedPtr_black {t : Tree κ ν} {T : Sh} (h : TreeWF t T) {pU : Ptr}
    (hm : ∀ u, pU = some u → u ∈ T.addrs)
    (hU : ∀ u, pU = some u → colorAt t u ≠ some .NODE_RED) :
    isRedPtr t pU = .ok false := by
  cases pU with
  | none => rfl
  | some u =>
    obtain ⟨col, hcol⟩ := colorAt_of_wf h (hm u rfl)
    have hne : col ≠ .NODE_RED := fun e => hU u rfl (e ▸ hcol)
    simp [isRedPtr, getColor_of hcol, hne]

theorem isRedPtr_red {t : Tree κ ν} {u : Nat} (hU : colorAt t u = some .NODE_RED) :
    isRedPtr t (some u) = .ok true := by
  simp [isRedPtr, getColor_of hU]

theorem resolveRB_recolor {t : Tree κ ν} {T : Sh} (h : TreeWF t T) {a p g u : Nat}
    (hpa : t.getParent (some a) = .ok (some p)) (hgp : t.getParent (some p) = .ok (some g))
    (hp : p ∈ T.addrs) (hg : g ∈ T.addrs) (hu : u ∈ T.addrs)
    (hcu : colorAt t u = some .NODE_RED) :
    ∃ t2, resolveRB t (some a) (some u) = .ok (some g, t2) ∧ TreeWF t2 T ∧ SameData t t2 ∧
      ∀ b, colorAt t2 b =
        if b = u then some .NODE_BLACK else if b = p then some .NODE_BLACK
        else if b = g then some .NODE_RED else colorAt t b := by
  obtain ⟨t1, e1, w1, d1, c1⟩ := setColor_wf h hg .NODE_RED
  obtain ⟨t2, e2, w2, d2, c2⟩ := setColor_wf w1 hp .NODE_BLACK
  obtain ⟨t3, e3, w3, d3, c3⟩ := setColor_wf w2 hu .NODE_BLACK
  have g1 := getParent_setColor e1
  have g2 := getParent_setColor e2
  have g3 := getParent_setColor e3
  refine ⟨t3, ?_, w3, (d1.trans_data d2).trans_data d3, ?_⟩
  · simp only [resolveRB, isRedPtr_red hcu, if_true, ok_bind, pure_eq_ok,
      hpa, hgp, e1, e2, e3, g1, g2, g3]
  · intro b
    rw [c3, c2, c1]

theorem not_mem_root {s : Sh} {a : Nat} (h : a ∉ s.addrs) : ¬ some a = s.root :=
  fun e => h (root_mem e.symm)

theorem resolveRB_LL {t : Tree κ ν} {c : List Frame} {l r S U : Sh} {a p g : Nat}
    (h : TreeWF t (plug c (.node (.node (.node l a r) p S) g U)))
    (hU : ∀ u, U.root = some u → colorAt t u ≠ some .NODE_RED) :
    ∃ t2, resolveRB t (some a) U.root = .ok (some a, t2) ∧
      TreeWF t2 (plug c (.node (.node l a r) p (.node S g U))) ∧ SameData t t2 ∧
      ∀ b, colorAt t2 b =
        if b = g then some .NODE_RED else if b = p then some .NODE_BLACK else colorAt t b := by
  have hA : TreeWF t (plug (.L p S :: .L g U :: c) (.node l a r)) := h
  have hP : TreeWF t (plug (.L g U :: c) (.node (.node l a r) p S)) := h
  have hnd := h.nodup
  rw [addrs_plug] at hnd
  simp only [Sh.addrs, List.nodup_append, List.nodup_cons, List.mem_append, List.mem_cons,
    List.disjoint_append_left, List.disjoint_append_right, List.disjoint_cons_left,
    List.disjoint_cons_right, not_or] at hnd
  have haS : a ∉ S.addrs := by tauto
  have hmU : ∀ u, U.root = some u → u ∈ (plug c (.node (.node (.node l a r) p S) g U)).addrs := by
    intro u hu
    simp [addrs_plug, Sh.addrs, root_mem hu]
  have hpm : p ∈ (plug c (.node (.node (.node l a r) p S) g U)).addrs := by
    simp [addrs_plug, Sh.addrs]
  have hgm : g ∈ (plug c (.node (.node (.node l a r) p S) g U)).addrs := by
    simp [addrs_plug, Sh.addrs]
  obtain ⟨t1, e1, w1, d1, c1⟩ := setColor_wf h hpm .NODE_BLACK
  obtain ⟨t2, e2, w2, d2, c2⟩ := setColor_wf w1 hgm .NODE_RED
  obtain ⟨t3, e3, w3, d3⟩ := rotateRightRB_wf w2
  have hA1 : TreeWF t1 (plug (.L p S :: .L g U :: c) (.node l a r)) := w1
  have hP1 : TreeWF t1 (plug (.L g U :: c) (.node (.node l a r) p S)) := w1
  have hA2 : TreeWF t2 (plug (.L p S :: .L g U :: c) (.node l a r)) := w2
  have hP2 : TreeWF t2 (plug (.L g U :: c) (.node (.node l a r) p S)) := w2
  refine ⟨t3, ?_, w3, (d1.trans_data d2).trans_data d3.toData, ?_⟩
  · simp only [resolveRB, isRedPtr_black h hmU hU, ok_bind, pure_eq_ok,
      Bool.false_eq_true, if_false, getParent_wf hA, getParent_wf hP, getLeft_wf h, top,
      Frame.addr, Sh.root_node, decide_True, if_true, getRight_wf hP, not_mem_root haS,
      Option.isSome_some, e1, getParent_wf hA1, getParent_wf hP1, e2, getParent_wf hA2,
      getParent_wf hP2, e3]
  · intro b
    rw [d3.colorAt_eq, c2, c1]

theorem resolveRB_LR {t : Tree κ ν} {c : List Frame} {l r S U : Sh} {a p g : Nat}
    (h : TreeWF t (plug c (.node (.node S p (.node l a r)) g U)))
    (hU : ∀ u, U.root = some u → colorAt t u ≠ some .NODE_RED) :
    ∃ t2, resolveRB t (some a) U.root = .ok (some p, t2) ∧
      TreeWF t2 (plug c (.node (.node S p l) a (.node r g U))) ∧ SameData t t2 ∧
      ∀ b, colorAt t2 b =
        if b = g then some .NODE_RED else if b = a then some .NODE_BLACK else colorAt t b := by
  have hA : TreeWF t (plug (.R S p :: .L g U :: c) (.node l a r)) := h
  have hP : TreeWF t (plug (.L g U :: c) (.node S p (.node l a r))) := h
  have hmU : ∀ u, U.root = some u → u ∈ (plug c (.node (.node S p (.node l a r)) g U)).addrs := by
    intro u hu
    simp [addrs_plug, Sh.addrs, root_mem hu]
  obtain ⟨t1, e1, w1, d1⟩ := rotateLeftRB_wf hP
  have hP1 : TreeWF t1 (plug (.L a r :: .L g U :: c) (.node S p l)) := w1
  have hG1 : TreeWF t1 (plug c (.node (.node (.node S p l) a r) g U)) := w1
  have ham : a ∈ (plug c (.node (.node (.node S p l) a r) g U)).addrs := by
    simp [addrs_plug, Sh.addrs]
  have hgm : g ∈ (plug c (.node (.node (.node S p l) a r) g U)).addrs := by
    simp [addrs_plug, Sh.addrs]
  obtain ⟨t2, e2, w2, d2, c2⟩ := setColor_wf hG1 ham .NODE_BLACK
  obtain ⟨t3, e3, w3, d3, c3⟩ := setColor_wf w2 hgm .NODE_RED
  obtain ⟨t4, e4, w4, d4⟩ := rotateRightRB_wf w3
  have hP2 : TreeWF t2 (plug (.L a r :: .L g U :: c) (.node S p l)) := w2
  have hA2 : TreeWF t2 (plug (.L g U :: c) (.node (.node S p l) a r)) := w2
  have hP3 : TreeWF t3 (plug (.L a r :: .L g U :: c) (.node S p l)) := w3
  have hA3 : TreeWF t3 (plug (.L g U :: c) (.node (.node S p l) a r)) := w3
  refine ⟨t4, ?_, w4, ((d1.toData.trans_data d2).trans_data d3).trans_data d4.toData, ?_⟩
  · simp only [resolveRB, isRedPtr_black h hmU hU, ok_bind, pure_eq_ok,
      Bool.false_eq_true, if_false, getParent_wf hA, getParent_wf hP, getLeft_wf h, top,
      Frame.addr, Sh.root_node, decide_True, if_true, getRight_wf hP,
      Option.isSome_some, e1, getParent_wf hP1, e2, getParent_wf hP2, getParent_wf hA2, e3,
      getParent_wf hP3, getParent_wf hA3, e4]
  · intro b
    rw [d4.colorAt_eq, c3, c2, d1.colorAt_eq]

theorem resolveRB_RR {t : Tree κ ν} {c : List Frame} {l r S U : Sh} {a p g : Nat}
    (h : TreeWF t (plug c (.node U g (.node S p (.node l a r)))))
    (hU : ∀ u, U.root = some u → colorAt t u ≠ some .NODE_RED) :
    ∃ t2, resolveRB t (some a) U.root = .ok (some a, t2) ∧
      TreeWF t2 (plug c (.node (.node U g S) p (.node l a r))) ∧ SameData t t2 ∧
      ∀ b, colorAt t2 b =
        if b = g then some .NODE_RED else if b = p then some .NODE_BLACK else colorAt t b := by
  have hA : TreeWF t (plug (.R S p :: .R U g :: c) (.node l a r)) := h
  have hP : TreeWF t (plug (.R U g :: c) (.node S p (.node l a r))) := h
  have hnd := h.nodup
  rw [addrs_plug] at hnd
  simp only [Sh.addrs, List.nodup_append, List.nodup_cons, List.mem_append, List.mem_cons,
    List.disjoint_append_left, List.disjoint_append_right, List.disjoint_cons_left,
    List.disjoint_cons_right, not_or] at hnd
  have haS : a ∉ S.addrs := by tauto
  have hpU : p ∉ U.addrs := by tauto
  have hmU : ∀ u, U.root = some u → u ∈ (plug c (.node U g (.node S p (.node l a r)))).addrs := by
    intro u hu
    simp [addrs_plug, Sh.addrs, root_mem hu]
  have hpm : p ∈ (plug c (.node U g (.node S p (.node l a r)))).addrs := by
    simp [addrs_plug, Sh.addrs]
  have hgm : g ∈ (plug c (.node U g (.node S p (.node l a r)))).addrs := by
    simp [addrs_plug, Sh.addrs]
  obtain ⟨t1, e1, w1, d1, c1⟩ := setColor_wf h hpm .NODE_BLACK
  obtain ⟨t2, e2, w2, d2, c2⟩ := setColor_wf w1 hgm .NODE_RED
  obtain ⟨t3, e3, w3, d3⟩ := rotateLeftRB_wf w2
  have hA1 : TreeWF t1 (plug (.R S p :: .R U g :: c) (.node l a r)) := w1
  have hP1 : TreeWF t1 (plug (.R U g :: c) (.node S p (.node l a r))) := w1
  have hA2 : TreeWF t2 (plug (.R S p :: .R U g :: c) (.node l a r)) := w2
  have hP2 : TreeWF t2 (plug (.R U g :: c) (.node S p (.node l a r))) := w2
  refine ⟨t3, ?_, w3, (d1.trans_data d2).trans_data d3.toData, ?_⟩
  · simp only [resolveRB, isRedPtr_black h hmU hU, ok_bind, pure_eq_ok,
      Bool.false_eq_true, if_false, getParent_wf hA, getParent_wf hP, getLeft_wf h, top,
      Frame.addr, Sh.root_node, not_mem_root hpU, decide_False, getLeft_wf hP,
      not_mem_root haS, Option.isSome_some, if_true, e1, getParent_wf hA1, getParent_wf hP1, e2,
      getParent_wf hA2, getParent_wf hP2, e3]
  · intro b
    rw [d3.colorAt_eq, c2, c1]

theorem resolveRB_RL {t : Tree κ ν} {c : List Frame} {l r S U : Sh} {a p g : Nat}
    (h : TreeWF t (plug c (.node U g (.node (.node l a r) p S))))
    (hU : ∀ u, U.root = some u → colorAt t u ≠ some .NODE_RED) :
    ∃ t2, resolveRB t (some a) U.root = .ok (some p, t2) ∧
      TreeWF t2 (plug c (.node (.node U g l) a (.node r p S))) ∧ SameData t t2 ∧
      ∀ b, colorAt t2 b =
        if b = g then some .NODE_RED else if b = a then some .NODE_BLACK else colorAt t b := by
  have hA : TreeWF t (plug (.L p S :: .R U g :: c) (.node l a r)) := h
  have hP : TreeWF t (plug (.R U g :: c) (.node (.node l a r) p S)) := h
  have hnd := h.nodup
  rw [addrs_plug] at hnd
  simp only [Sh.addrs, List.nodup_append, List.nodup_cons, List.mem_append, List.mem_cons,
    List.disjoint_append_left, List.disjoint_append_right, List.disjoint_cons_left,
    List.disjoint_cons_right, not_or] at hnd
  have hpU : p ∉ U.addrs := by tauto
  have hmU : ∀ u, U.root = some u → u ∈ (plug c (.node U g (.node (.node l a r) p S))).addrs := by
    intro u hu
    simp [addrs_plug, Sh.addrs, root_mem hu]
  obtain ⟨t1, e1, w1, d1⟩ := rotateRightRB_wf hP
  have hP1 : TreeWF t1 (plug (.R l a :: .R U g :: c) (.node r p S)) := w1
  have hG1 : TreeWF t1 (plug c (.node U g (.node l a (.node r p S)))) := w1
  have ham : a ∈ (plug c (.node U g (.node l a (.node r p S)))).addrs := by
    simp [addrs_plug, Sh.addrs]
  have hgm : g ∈ (plug c (.node U g (.node l a (.node r p S)))).addrs := by
    simp [addrs_plug, Sh.addrs]
  obtain ⟨t2, e2, w2, d2, c2⟩ := setColor_wf hG1 ham .NODE_BLACK
  obtain ⟨t3, e3, w3, d3, c3⟩ := setColor_wf w2 hgm .NODE_RED
  obtain ⟨t4, e4, w4, d4⟩ := rotateLeftRB_wf w3
  have hP2 : TreeWF t2 (plug (.R l a :: .R U g :: c) (.node r p S)) := w2
  have hA2 : TreeWF t2 (plug (.R U g :: c) (.node l a (.node r p S))) := w2
  have hP3 : TreeWF t3 (plug (.R l a :: .R U g :: c) (.node r p S)) := w3
  have hA3 : TreeWF t3 (plug (.R U g :: c) (.node l a (.node r p S))) := w3
  refine ⟨t4, ?_, w4, ((d1.toData.trans_data d2).trans_data d3).trans_data d4.toData, ?_⟩
  · simp only [resolveRB, isRedPtr_black h hmU hU, ok_bind, pure_eq_ok,
      Bool.false_eq_true, if_false, getParent_wf hA, getParent_wf hP, getLeft_wf h, top,
      Frame.addr, Sh.root_node, not_mem_root hpU, decide_False, getLeft_wf hP, if_true,
      Option.isSome_some, e1, getParent_wf hP1, e2, getParent_wf hP2, getParent_wf hA2, e3,
      getParent_wf hP3, getParent_wf hA3, e4]
  · intro b
    rw [d4.colorAt_eq, c3, c2, d1.colorAt_eq]

theorem balanceCond_root {t : Tree κ ν} {l r : Sh} {a : Nat}
    (h : TreeWF t (plug [] (.node l a r))) : balanceCond t (some a) = .ok false := by
  have := h.root
  simp only [plug, Sh.root_node] at this
  simp [balanceCond, this]

theorem balanceCond_cons {t : Tree κ ν} {f : Frame} {c : List Frame} {l r : Sh} {a : Nat}
    (h : TreeWF t (plug (f :: c) (.node l a r))) {q : Color}
    (hc : colorAt t f.addr = some q) :
    balanceCond t (some a) = .ok (decide (q = .NODE_RED) && !c.isEmpty) := by
  have hne : ¬ some a = t.pr := by
    rw [h.root]
    exact fun e => root_plug_ne h.nodup e.symm
  have hF : ∃ l2 r2, f.fill (.node l a r) = .node l2 f.addr r2 := by
    cases f <;> exact ⟨_, _, rfl⟩
  obtain ⟨l2, r2, hF⟩ := hF
  have hP : TreeWF t (plug c (.node l2 f.addr r2)) := by
    rw [← hF]
    exact h
  simp only [balanceCond, hne, if_false, getParent_wf h, top, ok_bind, getColor_of hc,
    getParent_wf hP, pure_eq_ok]
  by_cases hcol : q = .NODE_RED
  · cases c <;> simp [hcol, top]
  · simp [hcol]

theorem balanceLoop_done {t : Tree κ ν} {q : Ptr} (h : balanceCond t q = .ok false)
    (fuel : Nat) : balanceLoop fuel t q = .ok t := by
  cases fuel <;> simp [balanceLoop, h]

/-- The parent of the current node is RED and the uncle decides between recolouring and
rotating: the shape after one round of the loop. -/
theorem balanceStep_wf {t : Tree κ ν} {f1 f2 : Frame} {c : List Frame} {l r : Sh} {a : Nat}
    (h : TreeWF t (plug (f1 :: f2 :: c) (.node l a r))) :
    ∃ q t2 T2, balanceStep t (some a) = .ok (q, t2) ∧ TreeWF t2 T2 ∧
      T2.addrs = (plug (f1 :: f2 :: c) (.node l a r)).addrs ∧ SameData t t2 ∧
      ((∃ l2 a2 r2, T2 = plug c (.node l2 a2 r2) ∧ q = some a2) ∨
        balanceCond t2 q = .ok false) := by
  have hnd := h.nodup
  rw [addrs_plug] at hnd
  cases f2 with
  | L g U =>
    cases f1 with
    | L p S =>
      have hA : TreeWF t (plug (.L p S :: .L g U :: c) (.node l a r)) := h
      have hP : TreeWF t (plug (.L g U :: c) (.node (.node l a r) p S)) := h
      have hG : TreeWF t (plug c (.node (.node (.node l a r) p S) g U)) := h
      have hstep : balanceStep t (some a) = resolveRB t (some a) U.root := by
        simp only [balanceStep, getParent_wf hA, getParent_wf hP, getLeft_wf hG, top,
          Frame.addr, Sh.root_node, ok_bind, if_true, getRight_wf hG]
      by_cases hU : ∃ u, U.root = some u ∧ colorAt t u = some .NODE_RED
      · obtain ⟨u, hu, hcu⟩ := hU
        have hum := root_mem hu
        obtain ⟨t2, e, w, d, -⟩ := resolveRB_recolor (a := a) (p := p) (g := g) h
          (by simp [getParent_wf hA, top, Frame.addr])
          (by simp [getParent_wf hP, top, Frame.addr])
          (by simp [addrs_plug, pathL, pathR, Sh.addrs])
          (by simp [addrs_plug, pathL, pathR, Sh.addrs])
          (by simp [addrs_plug, pathL, pathR, Sh.addrs, hum]) hcu
        exact ⟨_, t2, _, by rw [hstep, hu, e], w, rfl, d, Or.inl ⟨_, g, _, rfl, rfl⟩⟩
      · have hU2 : ∀ u, U.root = some u → colorAt t u ≠ some .NODE_RED :=
          fun u hu hc => hU ⟨u, hu, hc⟩
        obtain ⟨t2, e, w, d, hc⟩ := resolveRB_LL hG hU2
        refine ⟨_, t2, _, by rw [hstep, e], w, by simp [addrs_plug, Sh.addrs, pathL, pathR], d,
          Or.inr ?_⟩
        have w2 : TreeWF t2 (plug (.L p (.node S g U) :: c) (.node l a r)) := w
        have hpg : p ≠ g := by
          simp only [pathL, pathR, Sh.addrs, List.nodup_append, List.nodup_cons,
            List.mem_append, List.mem_cons, List.disjoint_append_left,
            List.disjoint_append_right, List.disjoint_cons_left, List.disjoint_cons_right,
            List.cons_append, List.mem_singleton, List.disjoint_singleton, not_or] at hnd
          tauto
        rw [balanceCond_cons w2 (q := .NODE_BLACK) (by simp [hc, Frame.addr, hpg])]
        simp
    | R S p =>
      have hA : TreeWF t (plug (.R S p :: .L g U :: c) (.node l a r)) := h
      have hP : TreeWF t (plug (.L g U :: c) (.node S p (.node l a r))) := h
      have hG : TreeWF t (plug c (.node (.node S p (.node l a r)) g U)) := h
      have hstep : balanceStep t (some a) = resolveRB t (some a) U.root := by
        simp only [balanceStep, getParent_wf hA, getParent_wf hP, getLeft_wf hG, top,
          Frame.addr, Sh.root_node, ok_bind, if_true, getRight_wf hG]
      by_cases hU : ∃ u, U.root = some u ∧ colorAt t u = some .NODE_RED
      · obtain ⟨u, hu, hcu⟩ := hU
        have hum := root_mem hu
        obtain ⟨t2, e, w, d, -⟩ := resolveRB_recolor (a := a) (p := p) (g := g) h
          (by simp [getParent_wf hA, top, Frame.addr])
          (by simp [getParent_wf hP, top, Frame.addr])
          (by simp [addrs_plug, pathL, pathR, Sh.addrs])
          (by simp [addrs_plug, pathL, pathR, Sh.addrs])
          (by simp [addrs_plug, pathL, pathR, Sh.addrs, hum]) hcu
        exact ⟨_, t2, _, by rw [hstep, hu, e], w, rfl, d, Or.inl ⟨_, g, _, rfl, rfl⟩⟩
      · have hU2 : ∀ u, U.root = some u → colorAt t u ≠ some .NODE_RED :=
          fun u hu hc => hU ⟨u, hu, hc⟩
        obtain ⟨t2, e, w, d, hc⟩ := resolveRB_LR hG hU2
        refine ⟨_, t2, _, by rw [hstep, e], w, by simp [addrs_plug, Sh.addrs, pathL, pathR], d,
          Or.inr ?_⟩
        have w2 : TreeWF t2 (plug (.L a (.node r g U) :: c) (.node S p l)) := w
        have hag : a ≠ g := by
          simp only [pathL, pathR, Sh.addrs, List.nodup_append, List.nodup_cons,
            List.mem_append, List.mem_cons, List.disjoint_append_left,
            List.disjoint_append_right, List.disjoint_cons_left, List.disjoint_cons_right,
            List.cons_append, List.mem_singleton, List.disjoint_singleton, not_or] at hnd
          tauto
        rw [balanceCond_cons w2 (q := .NODE_BLACK) (by simp [hc, Frame.addr, hag])]
        simp
  | R U g =>
    have hpU : ¬ some f1.addr = U.root := by
      apply not_mem_root
      cases f1 <;>
        simp only [pathL, pathR, Sh.addrs, List.nodup_append, List.nodup_cons,
          List.mem_append, List.mem_cons, List.disjoint_append_left, List.disjoint_append_right,
          List.disjoint_cons_left, List.disjoint_cons_right, List.cons_append,
          List.mem_singleton, List.disjoint_singleton, not_or] at hnd <;>
        simp only [Frame.addr] <;> tauto
    cases f1 with
    | L p S =>
      have hA : TreeWF t (plug (.L p S :: .R U g :: c) (.node l a r)) := h
      have hP : TreeWF t (plug (.R U g :: c) (.node (.node l a r) p S)) := h
      have hG : TreeWF t (plug c (.node U g (.node (.node l a r) p S))) := h
      simp only [Frame.addr] at hpU
      have hstep : balanceStep t (some a) = resolveRB t (some a) U.root := by
        simp only [balanceStep, getParent_wf hA, getParent_wf hP, getLeft_wf hG, top,
          Frame.addr, ok_bind, hpU, if_false]
      by_cases hU : ∃ u, U.root = some u ∧ colorAt t u = some .NODE_RED
      · obtain ⟨u, hu, hcu⟩ := hU
        have hum := root_mem hu
        obtain ⟨t2, e, w, d, -⟩ := resolveRB_recolor (a := a) (p := p) (g := g) h
          (by simp [getParent_wf hA, top, Frame.addr])
          (by simp [getParent_wf hP, top, Frame.addr])
          (by simp [addrs_plug, pathL, pathR, Sh.addrs])
          (by simp [addrs_plug, pathL, pathR, Sh.addrs])
          (by simp [addrs_plug, pathL, pathR, Sh.addrs, hum]) hcu
        exact ⟨_, t2, _, by rw [hstep, hu, e], w, rfl, d, Or.inl ⟨_, g, _, rfl, rfl⟩⟩
      · have hU2 : ∀ u, U.root = some u → colorAt t u ≠ some .NODE_RED :=
          fun u hu hc => hU ⟨u, hu, hc⟩
        obtain ⟨t2, e, w, d, hc⟩ := resolveRB_RL hG hU2
        refine ⟨_, t2, _, by rw [hstep, e], w, by simp [addrs_plug, Sh.addrs, pathL, pathR], d,
          Or.inr ?_⟩
        have w2 : TreeWF t2 (plug (.R (.node U g l) a :: c) (.node r p S)) := w
        have hag : a ≠ g := by
          simp only [pathL, pathR, Sh.addrs, List.nodup_append, List.nodup_cons,
            List.mem_append, List.mem_cons, List.disjoint_append_left,
            List.disjoint_append_right, List.disjoint_cons_left, List.disjoint_cons_right,
            List.cons_append, List.mem_singleton, List.disjoint_singleton, not_or] at hnd
          tauto
        rw [balanceCond_cons w2 (q := .NODE_BLACK) (by simp [hc, Frame.addr, hag])]
        simp
    | R S p =>
      have hA : TreeWF t (plug (.R S p :: .R U g :: c) (.node l a r)) := h
      have hP : TreeWF t (plug (.R U g :: c) (.node S p (.node l a r))) := h
      have hG : TreeWF t (plug c (.node U g (.node S p (.node l a r)))) := h
      simp only [Frame.addr] at hpU
      have hstep : balanceStep t (some a) = resolveRB t (some a) U.root := by
        simp only [balanceStep, getParent_wf hA, getParent_wf hP, getLeft_wf hG, top,
          Frame.addr, ok_bind, hpU, if_false]
      by_cases hU : ∃ u, U.root = some u ∧ colorAt t u = some .NODE_RED
      · obtain ⟨u, hu, hcu⟩ := hU
        have hum := root_mem hu
        obtain ⟨t2, e, w, d, -⟩ := resolveRB_recolor (a := a) (p := p) (g := g) h
          (by simp [getParent_wf hA, top, Frame.addr])
          (by simp [getParent_wf hP, top, Frame.addr])
          (by simp [addrs_plug, pathL, pathR, Sh.addrs])
          (by simp [addrs_plug, pathL, pathR, Sh.addrs])
          (by simp [addrs_plug, pathL, pathR, Sh.addrs, hum]) hcu
        exact ⟨_, t2, _, by rw [hstep, hu, e], w, rfl, d, Or.inl ⟨_, g, _, rfl, rfl⟩⟩
      · have hU2 : ∀ u, U.root = some u → colorAt t u ≠ some .NODE_RED :=
          fun u hu hc => hU ⟨u, hu, hc⟩
        obtain ⟨t2, e, w, d, hc⟩ := resolveRB_RR hG hU2
        refine ⟨_, t2, _, by rw [hstep, e], w, by simp [addrs_plug, Sh.addrs, pathL, pathR], d,
          Or.inr ?_⟩
        have w2 : TreeWF t2 (plug (.R (.node U g S) p :: c) (.node l a r)) := w
        have hpg : p ≠ g := by
          simp only [pathL, pathR, Sh.addrs, List.nodup_append, List.nodup_cons,
            List.mem_append, List.mem_cons, List.disjoint_append_left,
            List.disjoint_append_right, List.disjoint_cons_left, List.disjoint_cons_right,
            List.cons_append, List.mem_singleton, List.disjoint_singleton, not_or] at hnd
          tauto
        rw [balanceCond_cons w2 (q := .NODE_BLACK) (by simp [hc, Frame.addr, hpg])]
        simp

theorem balanceLoop_wf (fuel : Nat) :
    ∀ {t : Tree κ ν} {c : List Frame} {l r : Sh} {a : Nat},
      TreeWF t (plug c (.node l a r)) → c.length ≤ fuel →
      ∃ t2 T2, balanceLoop fuel t (some a) = .ok t2 ∧ TreeWF t2 T2 ∧
        T2.addrs = (plug c (.node l a r)).addrs ∧ SameData t t2 := by
  induction fuel with
  | zero =>
    intro t c l r a h hf
    have hc : c = [] := List.length_eq_zero.mp (Nat.le_zero.mp hf)
    subst hc
    exact ⟨t, _, balanceLoop_done (balanceCond_root h) 0, h, rfl, SameData.refl_data t⟩
  | succ n ih =>
    intro t c l r a h hf
    match c, h, hf with
    | [], h, _ => exact ⟨t, _, balanceLoop_done (balanceCond_root h) _, h, rfl, SameData.refl_data t⟩
    | [f], h, _ =>
      obtain ⟨col, hcol⟩ := colorAt_of_wf (a := f.addr) h
        (by cases f <;> simp [addrs_plug, pathL, pathR, Frame.addr])
      have hb := balanceCond_cons h hcol
      simp only [List.isEmpty_nil, Bool.not_true, Bool.and_false] at hb
      exact ⟨t, _, balanceLoop_done hb _, h, rfl, SameData.refl_data t⟩
    | f1 :: f2 :: c, h, hf =>
      obtain ⟨col, hcol⟩ := colorAt_of_wf (a := f1.addr) h
        (by cases f1 <;> cases f2 <;> simp [addrs_plug, pathL, pathR, Frame.addr])
      have hb := balanceCond_cons h hcol
      by_cases hred : col = .NODE_RED
      · simp only [hred, decide_True, List.isEmpty_cons, Bool.not_false, Bool.and_self] at hb
        obtain ⟨q, t2, T2, e, w, ha, d, hq⟩ := balanceStep_wf h
        rcases hq with ⟨l2, a2, r2, hT, hq⟩ | hq
        · subst hT hq
          obtain ⟨t3, T3, e3, w3, ha3, d3⟩ := ih w (by simp at hf; omega)
          exact ⟨t3, T3, by simp [balanceLoop, hb, e, e3], w3, ha3.trans ha, d.trans_data d3⟩
        · exact ⟨t2, T2, by simp [balanceLoop, hb, e, balanceLoop_done hq], w, ha, d⟩
      · simp only [hred, decide_False, Bool.false_and] at hb
        exact ⟨t, _, balanceLoop_done hb _, h, rfl, SameData.refl_data t⟩

theorem length_path_le (c : List Frame) : c.length ≤ (pathL c).length + (pathR c).length := by
  induction c with
  | nil => simp
  | cons f c ih => cases f <;> simp [pathL, pathR] <;> omega

theorem length_path_lt (c : List Frame) (l r : Sh) (a : Nat) :
    c.length < (plug c (.node l a r)).addrs.length := by
  have := length_path_le c
  simp only [addrs_plug, Sh.addrs, List.length_append, List.length_cons]
  omega

theorem isRedPtr_wf {t : Tree κ ν} {T : Sh} (h : TreeWF t T) {p : Ptr}
    (hm : ∀ u, p = some u → u ∈ T.addrs) :
    ∃ b, isRedPtr t p = .ok b ∧ (b = true ↔ RedAt t p) := by
  cases p with
  | none => exact ⟨false, rfl, by simp [RedAt]⟩
  | some u =>
    obtain ⟨col, hcol⟩ := colorAt_of_wf h (hm u rfl)
    refine ⟨decide (col = .NODE_RED), by simp [isRedPtr, getColor_of hcol], ?_⟩
    simp [RedAt, hcol]

theorem balanceTree_wf {t : Tree κ ν} {T : Sh} {a : Nat} (h : TreeWF t T) (ha : a ∈ T.addrs)
    (hfuel : T.addrs.length ≤ t.brk) (hred : colorAt t a = some .NODE_RED) :
    ∃ t2 T2, balanceTree t (some a) = .ok t2 ∧ TreeWF t2 T2 ∧ T2.addrs = T.addrs ∧
      SameData t t2 ∧ RootOK t2 := by
  obtain ⟨c, l, r, hT⟩ := exists_plug ha
  subst hT
  obtain ⟨t1, T1, e1, w1, ha1, d1⟩ := balanceLoop_wf t.brk h
    (by have := length_path_lt c l r a; omega)
  have hne : T1.addrs ≠ [] := by
    rw [ha1]
    exact List.ne_nil_of_mem ha
  cases T1 with
  | nil => simp [Sh.addrs] at hne
  | node L x R =>
    have w0 : TreeWF t1 (plug [] (.node L x R)) := w1
    obtain ⟨n, hn, -, hl, hr⟩ := wf_cell w0
    have hroot : t1.pr = some x := w1.root
    have hcx : colorAt t1 x = some n.color := by simp [colorAt, hn]
    have hxm : x ∈ (Sh.node L x R).addrs := by simp [Sh.addrs]
    obtain ⟨bl, ebl, hbl⟩ := isRedPtr_wf (p := L.root) w1
      (fun u hu => by simp [Sh.addrs, root_mem hu])
    obtain ⟨br, ebr, hbr⟩ := isRedPtr_wf (p := R.root) w1
      (fun u hu => by simp [Sh.addrs, root_mem hu])
    obtain ⟨t2, e2, w2, d2, c2⟩ := setColor_wf w1 hxm .NODE_BLACK
    have hok2 : RootOK t2 := by
      obtain ⟨n2, hn2⟩ := wf_mem_cell w2 hxm
      refine ⟨x, n2, w2.root, hn2, Or.inl ?_⟩
      have := c2 x
      simpa [colorAt, hn2] using this
    have hstart : balanceTree t (some a) =
        (do
          let c ← t1.getColor t1.pr
          if c = .NODE_RED then
            let l ← t1.getLeft t1.pr
            let lRed ← isRedPtr t1 l
            if lRed then t1.setColor t1.pr .NODE_BLACK
            else
              let r ← t1.getRight t1.pr
              let rRed ← isRedPtr t1 r
              if rRed then t1.setColor t1.pr .NODE_BLACK else pure t1
          else pure t1) := by
      simp only [balanceTree, getColor_of hred, ok_bind, if_true, e1]
    rw [hstart, hroot]
    simp only [getColor_of hcx, ok_bind, getLeft_wf w0, getRight_wf w0, ebl, ebr, e2, pure_eq_ok]
    by_cases hcol : n.color = .NODE_RED
    · simp only [hcol, if_true]
      by_cases h1 : bl = true
      · simp only [h1, if_true]
        exact ⟨t2, _, rfl, w2, ha1, d1.trans_data d2, hok2⟩
      · simp only [h1, if_false]
        by_cases h2 : br = true
        · simp only [h2, if_true]
          exact ⟨t2, _, rfl, w2, ha1, d1.trans_data d2, hok2⟩
        · simp only [h2, if_false]
          refine ⟨t1, _, rfl, w1, ha1, d1, x, n, hroot, hn, Or.inr ⟨?_, ?_⟩⟩
          · rw [hl]; exact fun hh => h1 (hbl.mpr hh)
          · rw [hr]; exact fun hh => h2 (hbr.mpr hh)
    · simp only [hcol, if_false]
      refine ⟨t1, _, rfl, w1, ha1, d1, x, n, hroot, hn, Or.inl ?_⟩
      cases hc : n.color with
      | NODE_RED => exact absurd hc hcol
      | NODE_BLACK => rfl

theorem copyBytes_exact {α : Type} [Bytes α] {n : Nat} {a : α} (h : Bytes.size a = n) :
    copyBytes n a = .ok a := by
  simp [copyBytes, ← h, Bytes.take_size]

theorem initNode_fresh (t : Tree κ ν) (k : κ) (sizeTkey : Nat) (pValue : Option ν)
    (sizeTvalue : Nat) (hv : Readable k sizeTkey pValue sizeTvalue)
    (hpt : ∀ q, t.pt = some q → (t.mem q).isSome ∧ q ≠ t.brk)
    (hph : t.ph = none ↔ t.pt = none) :
    initNode t none (some ⟨k, false⟩) sizeTkey (pValue.map (fun v => ⟨v, false⟩)) sizeTvalue =
      .ok (some t.brk,
        { t with
          ulTreeLen := t.ulTreeLen + 1, brk := t.brk + 1,
          ph := if t.ph = none then some t.brk else t.ph, pt := some t.brk,
          mem := initMem t t.brk (newCell t.pt k sizeTkey pValue sizeTvalue) }) := by
  have hval : ∀ (m : Tree κ ν) (n : Node κ ν), m.mem t.brk = some n → n.pValue = none →
      copyValue m (some t.brk) (pValue.map (fun v => ⟨v, false⟩)) sizeTvalue =
        .ok (m.store t.brk
          { n with pValue := pValue.map (fun v => ⟨v, decide (0 < sizeTvalue)⟩) }) := by
    intro m n hn hnv
    by_cases hs : 0 < sizeTvalue
    · obtain ⟨v, hvv, hsz⟩ := Option.map_eq_some'.mp (hv.2 hs)
      simp [copyValue, load_some hn, hnv, hs, hvv, keyOf, copyBytes_exact hsz, modify_some hn]
    · simp [copyValue, load_some hn, hnv, hs, modify_some hn]
  have hkv : ∀ (m : Tree κ ν) (n : Node κ ν), m.mem t.brk = some n → n.pValue = none →
      n.pKey = none →
      copyKeyValue m (some t.brk) (some ⟨k, false⟩) sizeTkey (pValue.map (fun v => ⟨v, false⟩))
        sizeTvalue =
        .ok (m.store t.brk
          { n with pKey := some ⟨k, decide (0 < sizeTkey)⟩,
                   pValue := pValue.map (fun v => ⟨v, decide (0 < sizeTvalue)⟩) }) := by
    intro m n hn hnv hnk
    by_cases hs : 0 < sizeTkey
    · simp only [copyKeyValue, load_some hn, ok_bind, hnk, Option.isSome_none,
        Bool.false_eq_true, false_and, if_false, hs, if_true, keyOf, copyBytes_exact (hv.1 hs),
        modify_some hn, pure_eq_ok]
      rw [hval _ { n with pKey := some ⟨k, true⟩ } (by simp) hnv]
      simp only [Tree.store, Except.ok.injEq, Tree.mk.injEq, true_and, and_true]
      funext b
      by_cases hb : b = t.brk <;> simp [hb, hs]
    · simp only [copyKeyValue, load_some hn, ok_bind, hnk, Option.isSome_none,
        Bool.false_eq_true, false_and, if_false, hs, modify_some hn, pure_eq_ok]
      rw [hval _ { n with pKey := some ⟨k, false⟩ } (by simp) hnv]
      simp only [Tree.store, Except.ok.injEq, Tree.mk.injEq, true_and, and_true]
      funext b
      by_cases hb : b = t.brk <;> simp [hb, hs]
  cases hp : t.pt with
  | none =>
    have hph2 : t.ph = none := hph.mpr hp
    simp only [initNode, hph2, ok_bind, pure_eq_ok]
    rw [hkv _ ({ sizeTkey := sizeTkey, pKey := none, sizeTvalue := sizeTvalue, pValue := none,
                  color := .NODE_RED, pPrev := t.pt, pNext := none, pParent := none,
                  pRight := none, pLeft := none } : Node κ ν) (by simp) rfl rfl]
    simp only [Tree.store, ok_bind, Except.ok.injEq, Prod.mk.injEq, true_and, Tree.mk.injEq,
      and_true, if_true, hp]
    funext b
    by_cases hb : b = t.brk <;> simp [hb, initMem, newCell, hp]
  | some q =>
    obtain ⟨hq, hqz⟩ := hpt q hp
    obtain ⟨nq, hnq⟩ := Option.isSome_iff_exists.mp hq
    have hph2 : t.ph ≠ none := fun e => by simp [hph.mp e] at hp
    obtain ⟨h0, hh0⟩ := Option.ne_none_iff_exists'.mp hph2
    simp only [initNode, hh0, ok_bind, pure_eq_ok, Tree.setNext, hp]
    rw [modify_some (n := nq) (by simp [hqz, hnq])]
    simp only [ok_bind]
    rw [hkv _ ({ sizeTkey := sizeTkey, pKey := none, sizeTvalue := sizeTvalue, pValue := none,
                  color := .NODE_RED, pPrev := t.pt, pNext := none, pParent := none,
                  pRight := none, pLeft := none } : Node κ ν) (by simp [Tree.store, Ne.symm hqz, hp]) rfl rfl]
    simp only [Tree.store, ok_bind, Except.ok.injEq, Prod.mk.injEq, true_and, Tree.mk.injEq,
      and_true, reduceCtorEq, if_false]
    funext b
    by_cases hb : b = t.brk
    · simp [hb, initMem, newCell, hp]
    · by_cases hbq : b = q
      · simp [hbq, initMem, hqz, hnq, hp]
      · simp [hb, hbq, initMem, hp]

theorem SameData.keyAt_eq {t t2 : Tree κ ν} (h : SameData t t2) (a : Nat) :
    keyAt t2 a = keyAt t a := by
  have := congrArg (fun o : Option (Node κ ν) => o.bind (fun n => n.pKey.map (fun b => b.content)))
    (h.cells a)
  simpa [keyAt, Option.map_eq_bind, Option.bind_assoc, Node.data, Function.comp_def] using this

theorem SameData.valAt_eq {t t2 : Tree κ ν} (h : SameData t t2) (a : Nat) :
    valAt t2 a = valAt t a := by
  have := congrArg
    (fun o : Option (Node κ ν) => o.bind (fun n => n.pValue.map (fun b => b.content)))
    (h.cells a)
  simpa [valAt, Option.map_eq_bind, Option.bind_assoc, Node.data, Function.comp_def] using this

theorem SameData.nextAt_eq {t t2 : Tree κ ν} (h : SameData t t2) (a : Nat) :
    nextAt t2 a = nextAt t a := by
  have := congrArg (Option.map (fun n : Node κ ν => n.pNext)) (h.cells a)
  simpa [nextAt, Option.map_map, Function.comp_def, Node.data] using this

theorem SameData.isSome_eq {t t2 : Tree κ ν} (h : SameData t t2) (a : Nat) :
    (t2.mem a).isSome = (t.mem a).isSome := by
  have := congrArg Option.isSome (h.cells a)
  simpa using this

theorem Chain.congr {t t2 : Tree κ ν} {L : List Nat} {p : Ptr}
    (h : ∀ a ∈ L, nextAt t2 a = nextAt t a) : Chain t p L → Chain t2 p L := by
  induction L generalizing p with
  | nil => exact id
  | cons a L ih =>
    rintro ⟨h1, q, h2, h3⟩
    exact ⟨h1, q, (h a (by simp)).trans h2, ih (fun b hb => h b (by simp [hb])) h3⟩

theorem TotalCmp.eq_symm {cmp : κ → κ → Int} (h : TotalCmp cmp) {a b : κ} (e : cmp a b = 0) :
    cmp b a = 0 := by
  have h1 := h.antisymm a b
  have h2 := h.antisymm b a
  omega

theorem TotalCmp.lt_trans {cmp : κ → κ → Int} (h : TotalCmp cmp) {a b c : κ}
    (h1 : cmp a b < 0) (h2 : cmp b c < 0) : cmp a c < 0 := by
  have h3 := h.le_trans a b c (le_of_lt h1) (le_of_lt h2)
  rcases lt_or_eq_of_le h3 with h4 | h4
  · exact h4
  · have h5 := h.eq_symm h4
    have h6 := h.le_trans c a b (le_of_eq h5) (le_of_lt h1)
    have h7 := (h.antisymm b c).mp h2
    omega

theorem TotalCmp.gt_of_lt_gt {cmp : κ → κ → Int} (h : TotalCmp cmp) {a b k : κ}
    (h1 : cmp a b < 0) (h2 : 0 < cmp a k) : 0 < cmp b k := by
  have h3 := (h.antisymm k a).mpr h2
  have h4 := h.lt_trans h3 h1
  exact (h.antisymm k b).mp h4

theorem TotalCmp.eq_lt {cmp : κ → κ → Int} (h : TotalCmp cmp) {a b c : κ}
    (h1 : cmp a b = 0) (h2 : cmp a c < 0) : cmp b c < 0 := by
  have h3 := h.le_trans b a c (le_of_eq (h.eq_symm h1)) (le_of_lt h2)
  rcases lt_or_eq_of_le h3 with h4 | h4
  · exact h4
  · have h5 := h.le_trans c b a (le_of_eq (h.eq_symm h4)) (le_of_eq (h.eq_symm h1))
    have h7 := (h.antisymm a c).mp h2
    omega

theorem TotalCmp.eq_gt {cmp : κ → κ → Int} (h : TotalCmp cmp) {a b c : κ}
    (h1 : cmp a b = 0) (h2 : 0 < cmp a c) : 0 < cmp b c := by
  have h3 := (h.antisymm c a).mpr h2
  have h4 : cmp c b < 0 := by
    have h5 := h.le_trans c a b (le_of_lt h3) (le_of_eq h1)
    rcases lt_or_eq_of_le h5 with h6 | h6
    · exact h6
    · have h7 := h.le_trans a b c (le_of_eq h1) (le_of_eq (h.eq_symm h6))
      omega
  exact (h.antisymm c b).mp h4

theorem TotalCmp.lt_eq {cmp : κ → κ → Int} (h : TotalCmp cmp) {a b c : κ}
    (h1 : cmp a b < 0) (h2 : cmp b c = 0) : cmp a c < 0 := by
  have h3 := h.le_trans a b c (le_of_lt h1) (le_of_eq h2)
  rcases lt_or_eq_of_le h3 with h4 | h4
  · exact h4
  · have h5 := h.le_trans b c a (le_of_eq h2) (le_of_eq (h.eq_symm h4))
    have h7 := (h.antisymm a b).mp h1
    omega

theorem nodup_bounded_length {l : List Nat} {n : Nat} (hnd : l.Nodup) (hb : ∀ a ∈ l, a < n) :
    l.length ≤ n := by
  have h1 : l.toFinset ⊆ Finset.range n := by
    intro a ha
    simp only [List.mem_toFinset] at ha
    simpa using hb a ha
  have h2 := Finset.card_le_card h1
  rwa [List.toFinset_card_of_nodup hnd, Finset.card_range] at h2

theorem Inv.mem_lt {t : Tree κ ν} {T : Sh} {L : List Nat} (h : Inv t T L) {a : Nat}
    (ha : a ∈ T.addrs) : a < t.brk :=
  h.dom a (rep_mem_cell h.wf.rep ha)

theorem Inv.fuel {t : Tree κ ν} {T : Sh} {L : List Nat} (h : Inv t T L) :
    T.addrs.length ≤ t.brk :=
  nodup_bounded_length h.wf.nodup (fun _ ha => h.mem_lt ha)

theorem Inv.brk_not_mem {t : Tree κ ν} {T : Sh} {L : List Nat} (h : Inv t T L) :
    t.brk ∉ T.addrs := fun hm => Nat.lt_irrefl _ (h.mem_lt hm)

theorem rep_links_on {m m2 : Nat → Option (Node κ ν)} {par : Ptr} {s : Sh}
    (h : ∀ a ∈ s.addrs, (m2 a).map Node.links = (m a).map Node.links) :
    Rep m par s → Rep m2 par s := by
  induction s generalizing par with
  | nil => intro _; trivial
  | node l a r ihl ihr =>
    rintro ⟨n, h1, h2, h3, h4, h5, h6⟩
    have ha := h a (by simp [Sh.addrs])
    rw [h1] at ha
    cases hm : m2 a with
    | none => simp [hm] at ha
    | some n2 =>
      simp only [hm, Option.map_some', Option.some.injEq, Node.links, Prod.mk.injEq] at ha
      exact ⟨n2, hm, ha.1.trans h2, ha.2.1.trans h3, ha.2.2.trans h4,
        ihl (fun b hb => h b (by simp [Sh.addrs, hb])) h5,
        ihr (fun b hb => h b (by simp [Sh.addrs, hb])) h6⟩

theorem attachRight_wf {t1 : Tree κ ν} {c : List Frame} {l : Sh} {a z : Nat}
    (h : TreeWF t1 (plug c (.node l a .nil))) (hz : z ∉ (plug c (.node l a .nil)).addrs)
    {nz : Node κ ν} (hnz : t1.mem z = some nz) (hzl : nz.pLeft = none)
    (hzr : nz.pRight = none) :
    ∃ t2 t3, t1.setRight (some a) (some z) = .ok t2 ∧ t2.setParent (some z) (some a) = .ok t3 ∧
      TreeWF t3 (plug c (.node l a (.node .nil z .nil))) ∧ SameCore t1 t3 := by
  obtain ⟨na, hna, hap, hal, har⟩ := wf_cell h
  have hnd := h.nodup
  rw [addrs_plug] at hnd hz
  simp only [Sh.addrs, List.nodup_append, List.nodup_cons, List.mem_append, List.mem_cons,
    List.disjoint_append_left, List.disjoint_append_right, List.disjoint_cons_left,
    List.disjoint_cons_right, List.append_nil, List.not_mem_nil, List.nodup_nil,
    List.disjoint_nil_right, List.disjoint_nil_left,
    not_false_eq_true, and_true, true_and, or_false, not_or] at hnd hz
  have haz : a ≠ z := by rintro rfl; tauto
  have hrep := (rep_plug t1.mem c _).mp h.rep
  obtain ⟨⟨-, -, -, -, -, hl, -⟩, hP⟩ := hrep
  refine ⟨_, _, modify_some hna _, modify_some (n := nz) (by simp [Ne.symm haz, hnz]) _,
    ⟨?_, ?_, ?_⟩, ⟨rfl, rfl, rfl, rfl, rfl, rfl, rfl, ?_⟩⟩
  · rw [rep_plug]
    constructor
    · refine ⟨{ na with pRight := some z }, by simp [haz], hap, hal, rfl, ?_,
        ⟨{ nz with pParent := some a }, by simp, rfl, hzl, hzr, trivial, trivial⟩⟩
      refine (rep_congr fun b hb => ?_).mpr hl
      have h1 : b ≠ z := by rintro rfl; tauto
      have h2 : b ≠ a := by rintro rfl; tauto
      simp [h1, h2]
    · refine (repP_congr fun b hb => ?_).mpr hP
      have h1 : b ≠ z := by rintro rfl; tauto
      have h2 : b ≠ a := by rintro rfl; tauto
      simp [h1, h2]
  · simp only [store_pr]
    rw [h.root]
    cases c with
    | nil => rfl
    | cons f c => exact root_plug_indep f c _ _
  · rw [addrs_plug]
    simp only [Sh.addrs, List.nodup_append, List.nodup_cons, List.mem_append, List.mem_cons,
      List.disjoint_append_left, List.disjoint_append_right, List.disjoint_cons_left,
      List.disjoint_cons_right, List.append_nil, List.not_mem_nil, List.nodup_nil,
      List.nil_append, List.disjoint_nil_right, List.disjoint_nil_left, not_false_eq_true,
      and_true, true_and, or_false, not_or]
    tauto
  · intro b
    by_cases h1 : b = z
    · simp [h1, hnz, Node.core]
    · by_cases h2 : b = a
      · simp [h1, h2, haz, hna, Node.core]
      · simp [h1, h2]

theorem attachLeft_wf {t1 : Tree κ ν} {c : List Frame} {r : Sh} {a z : Nat}
    (h : TreeWF t1 (plug c (.node .nil a r))) (hz : z ∉ (plug c (.node .nil a r)).addrs)
    {nz : Node κ ν} (hnz : t1.mem z = some nz) (hzl : nz.pLeft = none)
    (hzr : nz.pRight = none) :
    ∃ t2 t3, t1.setLeft (some a) (some z) = .ok t2 ∧ t2.setParent (some z) (some a) = .ok t3 ∧
      TreeWF t3 (plug c (.node (.node .nil z .nil) a r)) ∧ SameCore t1 t3 := by
  obtain ⟨na, hna, hap, hal, har⟩ := wf_cell h
  have hnd := h.nodup
  rw [addrs_plug] at hnd hz
  simp only [Sh.addrs, List.nodup_append, List.nodup_cons, List.mem_append, List.mem_cons,
    List.disjoint_append_left, List.disjoint_append_right, List.disjoint_cons_left,
    List.disjoint_cons_right, List.append_nil, List.nil_append, List.not_mem_nil,
    List.nodup_nil, List.disjoint_nil_right, List.disjoint_nil_left,
    not_false_eq_true, and_true, true_and, or_false, false_or,
    not_or] at hnd hz
  have haz : a ≠ z := by rintro rfl; tauto
  have hrep := (rep_plug t1.mem c _).mp h.rep
  obtain ⟨⟨-, -, -, -, -, -, hr⟩, hP⟩ := hrep
  refine ⟨_, _, modify_some hna _, modify_some (n := nz) (by simp [Ne.symm haz, hnz]) _,
    ⟨?_, ?_, ?_⟩, ⟨rfl, rfl, rfl, rfl, rfl, rfl, rfl, ?_⟩⟩
  · rw [rep_plug]
    constructor
    · refine ⟨{ na with pLeft := some z }, by simp [haz], hap, rfl, har,
        ⟨{ nz with pParent := some a }, by simp, rfl, hzl, hzr, trivial, trivial⟩, ?_⟩
      refine (rep_congr fun b hb => ?_).mpr hr
      have h1 : b ≠ z := by rintro rfl; tauto
      have h2 : b ≠ a := by rintro rfl; tauto
      simp [h1, h2]
    · refine (repP_congr fun b hb => ?_).mpr hP
      have h1 : b ≠ z := by rintro rfl; tauto
      have h2 : b ≠ a := by rintro rfl; tauto
      simp [h1, h2]
  · simp only [store_pr]
    rw [h.root]
    cases c with
    | nil => rfl
    | cons f c => exact root_plug_indep f c _ _
  · rw [addrs_plug]
    simp only [Sh.addrs, List.nodup_append, List.nodup_cons, List.mem_append, List.mem_cons,
      List.disjoint_append_left, List.disjoint_append_right, List.disjoint_cons_left,
      List.disjoint_cons_right, List.append_nil, List.not_mem_nil, List.nodup_nil,
      List.nil_append, List.cons_append, List.disjoint_nil_right, List.disjoint_nil_left,
      not_false_eq_true, and_true, true_and, or_false, false_or, not_or]
    tauto
  · intro b
    by_cases h1 : b = z
    · simp [h1, hnz, Node.core]
    · by_cases h2 : b = a
      · simp [h1, h2, haz, hna, Node.core]
      · simp [h1, h2]

theorem chain_ph_none {t : Tree κ ν} {L : List Nat} {p : Ptr} (h : Chain t p L) :
    p = none ↔ L = [] := by
  cases L with
  | nil => simpa [Chain] using h
  | cons a L => simp [h.1]

theorem chain_cell {t : Tree κ ν} {L : List Nat} {p : Ptr} (h : Chain t p L) {a : Nat}
    (ha : a ∈ L) : (t.mem a).isSome := by
  induction L generalizing p with
  | nil => simp at ha
  | cons b L ih =>
    obtain ⟨-, q, h2, h3⟩ := h
    rcases List.mem_cons.mp ha with rfl | h4
    · unfold nextAt at h2
      cases hm : t.mem a with
      | none => simp [hm] at h2
      | some n => rfl
    · exact ih h3 h4

theorem chain_snoc {t t2 : Tree κ ν} {z : Nat} (hz : nextAt t2 z = some none) :
    ∀ (L : List Nat) (p : Ptr), Chain t p L → (L ++ [z]).Nodup →
      (∀ b ∈ L, nextAt t2 b = if L.getLast? = some b then some (some z) else nextAt t b) →
      Chain t2 (if L = [] then some z else p) (L ++ [z]) := by
  intro L
  induction L with
  | nil =>
    intro p _ _ _
    exact ⟨rfl, none, hz, rfl⟩
  | cons a L ih =>
    intro p hc hnd hn
    obtain ⟨h1, q, h2, h3⟩ := hc
    simp only [List.cons_append, List.nodup_cons, List.mem_append, List.mem_singleton,
      not_or] at hnd
    by_cases hL : L = []
    · subst hL
      have hq : q = none := h3
      refine ⟨h1, some z, ?_, ?_⟩
      · rw [hn a (by simp)]
        simp
      · exact ⟨rfl, none, hz, rfl⟩
    · have hlast : (a :: L).getLast? = L.getLast? := by
        cases L with
        | nil => exact absurd rfl hL
        | cons b L => simp [List.getLast?_cons_cons]
      have hane : ¬ L.getLast? = some a := by
        intro e
        exact hnd.1.1 (List.mem_of_getLast?_eq_some e)
      refine ⟨h1, q, ?_, ?_⟩
      · rw [hn a (by simp), hlast, if_neg hane]
        exact h2
      · have := ih q h3 hnd.2 (fun b hb => by
          rw [hn b (by simp [hb]), hlast])
        simpa [hL] using this

theorem initState_cell (t : Tree κ ν) (k : κ) (sk : Nat) (pv : Option ν) (sv : Nat) :
    (initState t k sk pv sv).mem t.brk = some (newCell t.pt k sk pv sv) := by
  simp [initState, initMem]

theorem initState_old (t : Tree κ ν) (k : κ) (sk : Nat) (pv : Option ν) (sv : Nat) {b : Nat}
    (hb : b ≠ t.brk) :
    ∃ f : Node κ ν → Node κ ν, (initState t k sk pv sv).mem b = (t.mem b).map f ∧
      ∀ n, (f n).links = n.links ∧ (f n).pKey = n.pKey ∧ (f n).pValue = n.pValue ∧
        (f n).color = n.color ∧
        (f n).pNext = if some b = t.pt then some t.brk else n.pNext := by
  by_cases h : some b = t.pt
  · refine ⟨fun n => { n with pNext := some t.brk }, by simp [initState, initMem, hb, h], ?_⟩
    intro n
    simp [Node.links, h]
  · refine ⟨id, by simp [initState, initMem, hb, h], ?_⟩
    intro n
    simp [h]

theorem initState_keyAt (t : Tree κ ν) (k : κ) (sk : Nat) (pv : Option ν) (sv : Nat) {b : Nat}
    (hb : b ≠ t.brk) : keyAt (initState t k sk pv sv) b = keyAt t b := by
  obtain ⟨f, h1, h2⟩ := initState_old t k sk pv sv hb
  unfold keyAt
  rw [h1]
  cases t.mem b with
  | none => rfl
  | some n => simp [(h2 n).2.1]

theorem initState_valAt (t : Tree κ ν) (k : κ) (sk : Nat) (pv : Option ν) (sv : Nat) {b : Nat}
    (hb : b ≠ t.brk) : valAt (initState t k sk pv sv) b = valAt t b := by
  obtain ⟨f, h1, h2⟩ := initState_old t k sk pv sv hb
  unfold valAt
  rw [h1]
  cases t.mem b with
  | none => rfl
  | some n => simp [(h2 n).2.2.1]

theorem initState_colorAt (t : Tree κ ν) (k : κ) (sk : Nat) (pv : Option ν) (sv : Nat) {b : Nat}
    (hb : b ≠ t.brk) : colorAt (initState t k sk pv sv) b = colorAt t b := by
  obtain ⟨f, h1, h2⟩ := initState_old t k sk pv sv hb
  unfold colorAt
  rw [h1]
  cases t.mem b with
  | none => rfl
  | some n => simp [(h2 n).2.2.2.1]

theorem initState_isSome (t : Tree κ ν) (k : κ) (sk : Nat) (pv : Option ν) (sv : Nat) {b : Nat}
    (hb : b ≠ t.brk) : ((initState t k sk pv sv).mem b).isSome = (t.mem b).isSome := by
  obtain ⟨f, h1, -⟩ := initState_old t k sk pv sv hb
  rw [h1]
  cases t.mem b <;> rfl

theorem initState_wf {t : Tree κ ν} {T : Sh} {L : List Nat} (h : Inv t T L) (k : κ) (sk : Nat)
    (pv : Option ν) (sv : Nat) : TreeWF (initState t k sk pv sv) T := by
  refine ⟨rep_links_on (fun a ha => ?_) h.wf.rep, h.wf.root, h.wf.nodup⟩
  have hb : a ≠ t.brk := fun e => h.brk_not_mem (e ▸ ha)
  obtain ⟨f, h1, h2⟩ := initState_old t k sk pv sv hb
  rw [h1]
  cases t.mem a with
  | none => rfl
  | some n => simp [(h2 n).1]

theorem Inv.nodupL {t : Tree κ ν} {T : Sh} {L : List Nat} (h : Inv t T L) : L.Nodup :=
  h.perm.nodup_iff.mpr h.wf.nodup

theorem Inv.brk_not_memL {t : Tree κ ν} {T : Sh} {L : List Nat} (h : Inv t T L) :
    t.brk ∉ L := fun hm => h.brk_not_mem (h.perm.mem_iff.mp hm)

theorem initState_chain {t : Tree κ ν} {T : Sh} {L : List Nat} (h : Inv t T L) (k : κ)
    (sk : Nat) (pv : Option ν) (sv : Nat) :
    Chain (initState t k sk pv sv) (initState t k sk pv sv).ph (L ++ [t.brk]) := by
  have hz : nextAt (initState t k sk pv sv) t.brk = some none := by
    simp [nextAt, initState_cell, newCell]
  have hnd : (L ++ [t.brk]).Nodup := by
    rw [List.nodup_append]
    exact ⟨h.nodupL, List.nodup_singleton _, by
      simpa [List.disjoint_singleton] using h.brk_not_memL⟩
  have := chain_snoc hz L t.ph h.chain hnd (fun b hb => by
    have hbz : b ≠ t.brk := fun e => h.brk_not_memL (e ▸ hb)
    obtain ⟨f, h1, h2⟩ := initState_old t k sk pv sv hbz
    obtain ⟨n, hn⟩ := Option.isSome_iff_exists.mp (chain_cell h.chain hb)
    unfold nextAt
    rw [h1, hn, ← h.tail]
    simp only [Option.map_some', (h2 n).2.2.2.2, eq_comm (a := some b)]
    split_ifs <;> rfl)
  have hph : (initState t k sk pv sv).ph = if L = [] then some t.brk else t.ph := by
    simp only [initState, chain_ph_none h.chain]
  rw [hph]
  exact this

theorem initNode_fresh_state (t : Tree κ ν) (k : κ) (sizeTkey : Nat) (pValue : Option ν)
    (sizeTvalue : Nat) (hv : Readable k sizeTkey pValue sizeTvalue) {T : Sh} {L : List Nat}
    (h : Inv t T L) :
    initNode t none (some ⟨k, false⟩) sizeTkey (pValue.map (fun v => ⟨v, false⟩)) sizeTvalue =
      .ok (some t.brk, initState t k sizeTkey pValue sizeTvalue) := by
  refine initNode_fresh t k sizeTkey pValue sizeTvalue hv ?_ ?_
  · intro q hq
    have hm : q ∈ L := List.mem_of_getLast?_eq_some (h.tail ▸ hq)
    have hc := chain_cell h.chain hm
    exact ⟨hc, fun e => h.brk_not_memL (e ▸ hm)⟩
  · rw [chain_ph_none h.chain, h.tail, List.getLast?_eq_none_iff]

theorem initState_key (t : Tree κ ν) (k : κ) (sk : Nat) (pv : Option ν) (sv : Nat) :
    keyAt (initState t k sk pv sv) t.brk = some k := by
  simp [keyAt, initState_cell, newCell]

theorem initState_val (t : Tree κ ν) (k : κ) (sk : Nat) (pv : Option ν) (sv : Nat) :
    valAt (initState t k sk pv sv) t.brk = pv := by
  cases pv <;> simp [valAt, initState_cell, newCell]

theorem inserted_of_sameData {t : Tree κ ν} {T : Sh} {L : List Nat} (hC : TotalCmp t.pfCmp)
    (hI : Inv t T L) (k : κ) (sk : Nat) (pv : Option ν) (sv : Nat)
    {t4 : Tree κ ν} {T4 : Sh} (w4 : TreeWF t4 T4)
    (D : SameData (initState t k sk pv sv) t4) (l1 l2 : List Nat)
    (hT : T.addrs = l1 ++ l2) (hT3 : T4.addrs = l1 ++ t.brk :: l2)
    (hlt : ∀ b ∈ l1, LtK t b k) (hgt : ∀ b ∈ l2, GtK t b k) (hok : RootOK t4) :
    Inserted t t4 L k pv := by
  have ha4 : T4.addrs = T4.addrs := rfl
  have hcmp : t4.pfCmp = t.pfCmp := D.cmp
  have hkey : ∀ b, b ≠ t.brk → keyAt t4 b = keyAt t b := fun b hb =>
    (D.keyAt_eq b).trans (initState_keyAt t k sk pv sv hb)
  have hkz : keyAt t4 t.brk = some k := (D.keyAt_eq _).trans (initState_key t k sk pv sv)
  have hmemT : ∀ b, b ∈ T.addrs → b ≠ t.brk := fun b hb e => hI.brk_not_mem (e ▸ hb)
  have hbst := hI.bst
  rw [hT, List.pairwise_append] at hbst
  obtain ⟨hb1, hb2, hb12⟩ := hbst
  have hold : ∀ a b, a ∈ T.addrs → b ∈ T.addrs → LtAt t a b → LtAt t4 a b := by
    intro a b ha hb hab ka kb h1 h2
    rw [hkey a (hmemT a ha)] at h1
    rw [hkey b (hmemT b hb)] at h2
    rw [hcmp]
    exact hab ka kb h1 h2
  refine ⟨⟨T4, ⟨w4, ?_, ?_, ?_, ?_, ?_, ?_, ?_⟩⟩, hkz, ?_, ?_, hcmp, hok⟩
  · intro a ha
    rw [D.isSome_eq] at ha
    rw [D.brk]
    by_cases haz : a = t.brk
    · simp [initState, haz]
    · rw [initState_isSome t k sk pv sv haz] at ha
      have := hI.dom a ha
      simp only [initState]
      omega
  · rw [D.ph]
    exact (initState_chain hI k sk pv sv).congr (fun a _ => D.nextAt_eq a)
  · rw [D.pt]
    simp [initState]
  · rw [D.len]
    simp [initState, hI.len]
  · rw [ha4, hT3]
    have h1 : (L ++ [t.brk]).Perm (t.brk :: (l1 ++ l2)) := by
      refine (List.perm_append_comm).trans ?_
      simpa using (hT ▸ hI.perm)
    exact h1.trans List.perm_middle.symm
  · intro a ha
    rw [ha4, hT3] at ha
    by_cases haz : a = t.brk
    · rw [haz, hkz]; rfl
    · rw [hkey a haz]
      refine hI.keys a ?_
      rw [hT]
      simp only [List.mem_append, List.mem_cons] at ha ⊢
      tauto
  · rw [ha4, hT3, List.pairwise_append, List.pairwise_cons]
    refine ⟨?_, ⟨?_, ?_⟩, ?_⟩
    · exact hb1.imp_of_mem (fun ha hb hab =>
        hold _ _ (by rw [hT]; simp [ha]) (by rw [hT]; simp [hb]) hab)
    · intro b hb ka kb h1 h2
      rw [hkz] at h1
      cases h1
      rw [hkey b (hmemT b (by rw [hT]; simp [hb]))] at h2
      rw [hcmp]
      exact (hC.antisymm _ _).mpr (hgt b hb kb h2)
    · exact hb2.imp_of_mem (fun ha hb hab =>
        hold _ _ (by rw [hT]; simp [ha]) (by rw [hT]; simp [hb]) hab)
    · intro a ha b hb
      rcases List.mem_cons.mp hb with rfl | hb
      · intro ka kb h1 h2
        rw [hkz] at h2
        cases h2
        rw [hkey a (hmemT a (by rw [hT]; simp [ha]))] at h1
        rw [hcmp]
        exact hlt a ha ka h1
      · exact hold _ _ (by rw [hT]; simp [ha]) (by rw [hT]; simp [hb]) (hb12 a ha b hb)
  · exact (D.valAt_eq _).trans (initState_val t k sk pv sv)
  · intro b hb
    exact ⟨hkey b hb, (D.valAt_eq b).trans (initState_valAt t k sk pv sv hb)⟩

theorem finish_insert {t : Tree κ ν} {T : Sh} {L : List Nat} (hC : TotalCmp t.pfCmp)
    (hI : Inv t T L) (k : κ) (sk : Nat) (pv : Option ν) (sv : Nat)
    {t3 : Tree κ ν} {T3 : Sh} (hw : TreeWF t3 T3)
    (hs : SameCore (initState t k sk pv sv) t3) (l1 l2 : List Nat)
    (hT : T.addrs = l1 ++ l2) (hT3 : T3.addrs = l1 ++ t.brk :: l2)
    (hlt : ∀ b ∈ l1, LtK t b k) (hgt : ∀ b ∈ l2, GtK t b k) :
    ∃ t4, balanceTree t3 (some t.brk) = .ok t4 ∧ Inserted t t4 L k pv := by
  have hzm : t.brk ∈ T3.addrs := by simp [hT3]
  have hlen : T3.addrs.length ≤ t3.brk := by
    have := hI.fuel
    rw [hs.brk, hT3]
    rw [hT] at this
    simp only [initState, List.length_append, List.length_cons] at this ⊢
    omega
  have hred : colorAt t3 t.brk = some .NODE_RED := by
    rw [hs.colorAt_eq]
    simp [colorAt, initState_cell, newCell]
  obtain ⟨t4, T4, e, w4, ha4, d, hok⟩ := balanceTree_wf hw hzm hlen hred
  exact ⟨t4, e, inserted_of_sameData hC hI k sk pv sv w4 (hs.toData.trans_data d) l1 l2 hT
    (ha4.trans hT3) hlt hgt hok⟩

theorem bst_node {R : Nat → Nat → Prop} {c : List Frame} {l r : Sh} {a : Nat}
    (h : (plug c (.node l a r)).addrs.Pairwise R) :
    (∀ b ∈ l.addrs, R b a) ∧ (∀ b ∈ r.addrs, R a b) := by
  rw [addrs_plug] at h
  simp only [Sh.addrs, List.pairwise_append, List.pairwise_cons, List.mem_append,
    List.mem_cons] at h
  obtain ⟨⟨-, ⟨-, ⟨h1, -⟩, h2⟩, -⟩, -⟩ := h
  exact ⟨fun b hb => h2 b hb a (Or.inl rfl), h1⟩

theorem keyAt_cell {t : Tree κ ν} {a : Nat} {n : Node κ ν} (hn : t.mem a = some n)
    (hk : (keyAt t a).isSome) : ∃ ka, keyOf n.pKey = .ok ka ∧ keyAt t a = some ka := by
  unfold keyAt at hk ⊢
  rw [hn] at hk ⊢
  cases hp : n.pKey with
  | none => simp [hp] at hk
  | some b => exact ⟨b.content, rfl, by simp [hp]⟩

theorem initNode_occupied (t : Tree κ ν) (p : Nat) (pKey : Option (Buf κ)) (sk : Nat)
    (pv : Option (Buf ν)) (sv : Nat) : initNode t (some p) pKey sk pv sv = .ok (none, t) := rfl

theorem insertLoop_spec {t : Tree κ ν} {T : Sh} {L : List Nat} (hC : TotalCmp t.pfCmp)
    (hI : Inv t T L) (k : κ) (sk : Nat) (pv : Option ν) (sv : Nat) (hv : Readable k sk pv sv) :
    ∀ (fuel : Nat) (c : List Frame) (l r : Sh) (a : Nat), T = plug c (.node l a r) →
      (Sh.node l a r).addrs.length ≤ fuel →
      (∀ b ∈ pathL c, LtK t b k) → (∀ b ∈ pathR c, GtK t b k) →
      (insertLoop k sk pv sv fuel t (some a) = .ok (0, t) ∧
          ∃ b ∈ T.addrs, ∃ kb, keyAt t b = some kb ∧ t.pfCmp kb k = 0) ∨
        (∃ t2, insertLoop k sk pv sv fuel t (some a) = .ok (1, t2) ∧ Inserted t t2 L k pv ∧
          ∀ b ∈ T.addrs, ∀ kb, keyAt t b = some kb → t.pfCmp kb k ≠ 0) := by
  intro fuel
  induction fuel with
  | zero =>
    intro c l r a _ hlen
    simp [Sh.addrs] at hlen
  | succ fuel ih =>
    intro c l r a hT hlen hlt hgt
    subst hT
    have hwf := hI.wf
    obtain ⟨na, hna, hap, hal, har⟩ := wf_cell hwf
    have ham := mem_plug_addrs c l r a
    obtain ⟨ka, hka, hkat⟩ := keyAt_cell hna (hI.keys a ham)
    obtain ⟨hbl, hbr⟩ := bst_node hI.bst
    have hz := hI.brk_not_mem
    rcases lt_trichotomy (t.pfCmp ka k) 0 with hcmp | hcmp | hcmp
    · -- the stored key is below the new key: go right
      have hltl : ∀ b ∈ l.addrs, LtK t b k := fun b hb kb hkb =>
        hC.lt_trans (hbl b hb kb ka hkb hkat) hcmp
      have hlta : LtK t a k := fun kb hkb => by
        rw [hkat] at hkb
        cases hkb
        exact hcmp
      cases r with
      | nil =>
        right
        have hw1 := initState_wf hI k sk pv sv
        obtain ⟨t2, t3, e2, e3, w3, s3⟩ := attachRight_wf hw1 hz
          (initState_cell t k sk pv sv) rfl rfl
        obtain ⟨t4, e4, hins⟩ := finish_insert hC hI k sk pv sv w3 s3
          (pathL c ++ (l.addrs ++ [a])) (pathR c)
          (by simp [addrs_plug, Sh.addrs]) (by simp [addrs_plug, Sh.addrs])
          (by
            intro b hb
            simp only [List.mem_append, List.mem_singleton] at hb
            rcases hb with hb | hb | rfl
            · exact hlt b hb
            · exact hltl b hb
            · exact hlta)
          hgt
        refine ⟨t4, ?_, hins, ?_⟩
        · simp only [insertLoop, load_some hna, ok_bind, hka, hcmp, if_true, har, Sh.root_nil,
            initNode_fresh_state t k sk pv sv hv hI, Option.isSome_some, e2, e3, e4,
            pure_eq_ok]
        · intro b hb kb hkb
          rw [addrs_plug] at hb
          simp only [Sh.addrs, List.mem_append, List.mem_cons, List.not_mem_nil,
            or_false] at hb
          rcases hb with (hb | hb | rfl) | hb
          · exact ne_of_lt (hlt b hb kb hkb)
          · exact ne_of_lt (hltl b hb kb hkb)
          · exact ne_of_lt (hlta kb hkb)
          · exact ne_of_gt (hgt b hb kb hkb)
      | node rl ra rr =>
        have hstep : insertLoop k sk pv sv (fuel + 1) t (some a) =
            insertLoop k sk pv sv fuel t (some ra) := by
          simp only [insertLoop, load_some hna, ok_bind, hka, hcmp, if_true, har,
            Sh.root_node, initNode_occupied, Option.isSome_none, Bool.false_eq_true, if_false,
            Tree.getRight, pure_eq_ok]
        rw [hstep]
        refine ih (.R l a :: c) rl rr ra rfl ?_ ?_ hgt
        · simp only [Sh.addrs, List.length_append, List.length_cons] at hlen ⊢
          omega
        · intro b hb
          simp only [pathL, List.mem_append, List.mem_singleton] at hb
          rcases hb with hb | hb | rfl
          · exact hlt b hb
          · exact hltl b hb
          · exact hlta
    · -- equal keys
      left
      refine ⟨?_, a, ham, ka, hkat, hcmp⟩
      simp only [insertLoop, load_some hna, ok_bind, hka, hcmp, lt_self_iff_false, if_false,
        gt_iff_lt, pure_eq_ok]
    · -- the stored key is above the new key: go left
      have hnlt : ¬ t.pfCmp ka k < 0 := not_lt.mpr (le_of_lt hcmp)
      have hgtr : ∀ b ∈ r.addrs, GtK t b k := fun b hb kb hkb =>
        hC.gt_of_lt_gt (hbr b hb ka kb hkat hkb) hcmp
      have hgta : GtK t a k := fun kb hkb => by
        rw [hkat] at hkb
        cases hkb
        exact hcmp
      cases l with
      | nil =>
        right
        have hw1 := initState_wf hI k sk pv sv
        obtain ⟨t2, t3, e2, e3, w3, s3⟩ := attachLeft_wf hw1 hz
          (initState_cell t k sk pv sv) rfl rfl
        obtain ⟨t4, e4, hins⟩ := finish_insert hC hI k sk pv sv w3 s3
          (pathL c) (a :: r.addrs ++ pathR c)
          (by simp [addrs_plug, Sh.addrs]) (by simp [addrs_plug, Sh.addrs])
          hlt
          (by
            intro b hb
            simp only [List.mem_append, List.mem_cons] at hb
            rcases hb with (rfl | hb) | hb
            · exact hgta
            · exact hgtr b hb
            · exact hgt b hb)
        refine ⟨t4, ?_, hins, ?_⟩
        · simp only [insertLoop, load_some hna, ok_bind, hka, hnlt, if_false, gt_iff_lt, hcmp,
            if_true, hal, Sh.root_nil,
            initNode_fresh_state t k sk pv sv hv hI, Option.isSome_some, e2, e3, e4,
            pure_eq_ok]
        · intro b hb kb hkb
          rw [addrs_plug] at hb
          simp only [Sh.addrs, List.mem_append, List.mem_cons, List.not_mem_nil,
            false_or] at hb
          rcases hb with (hb | rfl | hb) | hb
          · exact ne_of_lt (hlt b hb kb hkb)
          · exact ne_of_gt (hgta kb hkb)
          · exact ne_of_gt (hgtr b hb kb hkb)
          · exact ne_of_gt (hgt b hb kb hkb)
      | node ll la lr =>
        have hstep : insertLoop k sk pv sv (fuel + 1) t (some a) =
            insertLoop k sk pv sv fuel t (some la) := by
          simp only [insertLoop, load_some hna, ok_bind, hka, hnlt, if_false, gt_iff_lt, hcmp,
            if_true, hal, Sh.root_node, initNode_occupied, Option.isSome_none,
            Bool.false_eq_true, Tree.getLeft, pure_eq_ok]
        rw [hstep]
        refine ih (.L a r :: c) ll lr la rfl ?_ hlt ?_
        · simp only [Sh.addrs, List.length_append, List.length_cons] at hlen ⊢
          omega
        · intro b hb
          simp only [pathR, List.mem_append, List.mem_cons] at hb
          rcases hb with (rfl | hb) | hb
          · exact hgta
          · exact hgtr b hb
          · exact hgt b hb

theorem treeInsert_spec {t : Tree κ ν} {T : Sh} {L : List Nat} (hC : TotalCmp t.pfCmp)
    (hI : Inv t T L) (k : κ) (sk : Nat) (pv : Option ν) (sv : Nat) (hv : Readable k sk pv sv) :
    (treeInsert t (some k) sk pv sv = .ok (0, t) ∧
        ∃ b ∈ T.addrs, ∃ kb, keyAt t b = some kb ∧ t.pfCmp kb k = 0) ∨
      (∃ t2, treeInsert t (some k) sk pv sv = .ok (1, t2) ∧ Inserted t t2 L k pv ∧
        ∀ b ∈ T.addrs, ∀ kb, keyAt t b = some kb → t.pfCmp kb k ≠ 0) := by
  cases T with
  | nil =>
    right
    have hroot : t.pr = none := hI.wf.root
    have hcell := initState_cell t k sk pv sv
    refine ⟨{ (initState t k sk pv sv).store t.brk
        { newCell t.pt k sk pv sv with color := .NODE_BLACK } with pr := some t.brk },
      ?_, ?_, by simp [Sh.addrs]⟩
    · simp only [treeInsert, hroot, initNode_fresh_state t k sk pv sv hv hI, ok_bind,
        Option.isSome_some, if_true, Tree.setColor, modify_some hcell, pure_eq_ok]
    · refine inserted_of_sameData hC hI k sk pv sv
        (show TreeWF _ (Sh.node .nil t.brk .nil) from ⟨?_, rfl, by simp [Sh.addrs]⟩)
        ⟨rfl, rfl, rfl, rfl, rfl, rfl, rfl, ?_⟩ [] [] (by simp [Sh.addrs]) (by simp [Sh.addrs])
        (by simp) (by simp) ?_
      · exact ⟨{ newCell t.pt k sk pv sv with color := .NODE_BLACK }, by simp, rfl, rfl, rfl,
          trivial, trivial⟩
      · intro a
        by_cases ha : a = t.brk
        · simp [ha, hcell, Node.data]
        · simp [ha]
      · exact ⟨t.brk, { newCell t.pt k sk pv sv with color := .NODE_BLACK }, rfl, by simp,
          Or.inl rfl⟩
  | node l a r =>
    have hroot : t.pr = some a := hI.wf.root
    have hstart : treeInsert t (some k) sk pv sv = insertLoop k sk pv sv t.brk t (some a) := by
      simp only [treeInsert, hroot, initNode_occupied, ok_bind, Option.isSome_none,
        Bool.false_eq_true, if_false]
    rw [hstart]
    exact insertLoop_spec hC hI k sk pv sv hv t.brk [] l r a rfl hI.fuel (by simp [pathL])
      (by simp [pathR])

theorem pathL_append (c d : List Frame) : pathL (c ++ d) = pathL d ++ pathL c := by
  induction c with
  | nil => simp [pathL]
  | cons f c ih => cases f <;> simp [pathL, ih]

theorem pathR_append (c d : List Frame) : pathR (c ++ d) = pathR c ++ pathR d := by
  induction c with
  | nil => simp [pathR]
  | cons f c ih => cases f <;> simp [pathR, ih]

theorem writeAt_arrOf (K : Nat → Option κ) (done : List Nat) (n x : Nat)
    (h : done.length < n) :
    writeAt (arrOf K done n) done.length (K x) = .ok (arrOf K (done ++ [x]) n) := by
  have hlen : (arrOf K done n).length = n := by
    simp only [arrOf, List.length_append, List.length_map, List.length_replicate]
    omega
  obtain ⟨m, hm⟩ : ∃ m, n - done.length = m + 1 := ⟨n - done.length - 1, by omega⟩
  have hm2 : n - (done.length + 1) = m := by omega
  simp only [writeAt, hlen, h, if_true, arrOf, Except.ok.injEq, List.length_append,
    List.length_singleton, List.map_append, List.map_cons, List.map_nil, hm, hm2]
  rw [List.set_append_right _ _ (by simp)]
  simp [List.replicate_succ]

theorem arrOf_full (K : Nat → Option κ) (done : List Nat) :
    arrOf K done done.length = done.map K := by
  simp [arrOf]

theorem leftmost_spec {t : Tree κ ν} :
    ∀ (fuel : Nat) (s : Sh) (c : List Frame) (a : Nat) (q : Ptr), TreeWF t (plug c s) →
      s.root = some a → s.addrs.length ≤ fuel →
      ∃ cs m r, s = plug cs (.node .nil m r) ∧ pathL cs = [] ∧
        leftmostLoop t fuel (some a) q = .ok (some m) := by
  intro fuel
  induction fuel with
  | zero =>
    intro s c a q _ hr hlen
    cases s with
    | nil => simp at hr
    | node l b r => simp [Sh.addrs] at hlen
  | succ fuel ih =>
    intro s c a q hw hr hlen
    cases s with
    | nil => simp at hr
    | node l b r =>
      simp only [Sh.root_node, Option.some.injEq] at hr
      subst hr
      cases l with
      | nil =>
        refine ⟨[], b, r, rfl, rfl, ?_⟩
        simp only [leftmostLoop, getLeft_wf hw, Sh.root_nil, ok_bind, pure_eq_ok]
      | node ll la lr =>
        have hw2 : TreeWF t (plug (.L b r :: c) (.node ll la lr)) := hw
        obtain ⟨cs, m, r2, hs, hp, hl⟩ := ih (.node ll la lr) (.L b r :: c) la (some b) hw2 rfl
          (by simp only [Sh.addrs, List.length_append, List.length_cons] at hlen ⊢; omega)
        refine ⟨cs ++ [.L b r], m, r2, ?_, ?_, ?_⟩
        · rw [plug_append, ← hs]; rfl
        · rw [pathL_append, hp]; rfl
        · simp only [leftmostLoop, getLeft_wf hw, Sh.root_node, ok_bind, hl]

theorem keyAt_of_cell {t : Tree κ ν} {a : Nat} {n : Node κ ν} (hn : t.mem a = some n) :
    n.pKey.map (fun b => b.content) = keyAt t a := by
  simp [keyAt, hn]

theorem climb_spec {t : Tree κ ν} {T : Sh} (hw : TreeWF t T) :
    ∀ (d : List Frame) (fuel : Nat) (sfin : Sh) (pN : Nat), T = plug d sfin →
      sfin.root = some pN → d.length ≤ fuel →
      ∃ q idx arr,
        climbLoop t fuel (top d) (some pN) (pathL d ++ sfin.addrs).length
            (arrOf (keyAt t) (pathL d ++ sfin.addrs) T.addrs.length) = .ok (q, idx, arr) ∧
          ((q = none ∧ arr = arrOf (keyAt t) T.addrs T.addrs.length) ∨
            (∃ c2 s2 a2, T = plug c2 s2 ∧ s2.root = some a2 ∧ q = some a2 ∧
              idx = (pathL c2).length ∧ arr = arrOf (keyAt t) (pathL c2) T.addrs.length ∧
              s2.addrs.length + (pathR c2).length + 1 ≤ (pathR d).length)) := by
  intro d
  induction d with
  | nil =>
    intro fuel sfin pN hT _ _
    refine ⟨none, (pathL [] ++ sfin.addrs).length,
      arrOf (keyAt t) (pathL [] ++ sfin.addrs) T.addrs.length,
      by cases fuel <;> simp [climbLoop, top], Or.inl ⟨rfl, ?_⟩⟩
    simp [hT, plug, pathL]
  | cons f d ih =>
    intro fuel sfin pN hT hr hlen
    obtain ⟨fuel, rfl⟩ : ∃ m, fuel = m + 1 := ⟨fuel - 1, by simp at hlen; omega⟩
    have hlen2 : d.length ≤ fuel := by simpa using hlen
    have hpm : pN ∈ sfin.addrs := root_mem hr
    have hnd := hw.nodup
    rw [hT, addrs_plug] at hnd
    cases f with
    | L p r =>
      have hT2 : T = plug d (.node sfin p r) := hT
      have hw2 : TreeWF t (plug d (.node sfin p r)) := hT2 ▸ hw
      obtain ⟨np, hnp, hpp, hpl, hpr⟩ := wf_cell hw2
      have hne : ¬ r.root = some pN := by
        intro e
        have hm := root_mem e
        have hdis := List.disjoint_of_nodup_append hnd
        exact hdis (List.mem_append_right _ hpm) (by simp [pathR, hm])
      have hlt : (pathL d ++ sfin.addrs).length < T.addrs.length := by
        rw [hT2, addrs_plug]
        simp only [Sh.addrs, List.length_append, List.length_cons]
        omega
      have hwr := writeAt_arrOf (keyAt t) (pathL d ++ sfin.addrs) T.addrs.length p hlt
      cases r with
      | nil =>
        obtain ⟨q, idx, arr, e, hres⟩ := ih fuel (.node sfin p .nil) p hT2 rfl hlen2
        refine ⟨q, idx, arr, ?_, ?_⟩
        · simp only [Sh.root_nil] at hne
          simp only [climbLoop, top, Frame.addr, load_some hnp, ok_bind, ne_eq, hpr,
            Sh.root_nil, hne, not_false_eq_true, if_true, hpl, hr, Option.isSome_some, pathL,
            keyAt_of_cell hnp, hwr, pure_eq_ok, Option.isSome_none,
            Bool.false_eq_true, if_false, hpp]
          simpa [Sh.addrs, List.append_assoc] using e
        · rcases hres with h1 | ⟨c2, s2, a2, h1, h2, h3, h4, h5, h6⟩
          · exact Or.inl h1
          · refine Or.inr ⟨c2, s2, a2, h1, h2, h3, h4, h5, ?_⟩
            simp only [pathR, List.length_append, List.length_cons] at h6 ⊢
            omega
      | node rl ra rr =>
        refine ⟨some ra, _, _, ?_, Or.inr ⟨.R sfin p :: d, .node rl ra rr, ra, hT, rfl, rfl,
          rfl, rfl, ?_⟩⟩
        · simp only [Sh.root_node] at hne
          simp only [climbLoop, top, Frame.addr, load_some hnp, ok_bind, ne_eq, hpr,
            Sh.root_node, hne, not_false_eq_true, if_true, hpl, hr, Option.isSome_some, pathL,
            keyAt_of_cell hnp, hwr, pure_eq_ok]
          simp [List.append_assoc, Nat.add_assoc]
        · simp only [pathR, Sh.addrs, List.length_append, List.length_cons]
          omega
    | R l p =>
      have hT2 : T = plug d (.node l p sfin) := hT
      have hw2 : TreeWF t (plug d (.node l p sfin)) := hT2 ▸ hw
      obtain ⟨np, hnp, hpp, hpl, hpr⟩ := wf_cell hw2
      obtain ⟨q, idx, arr, e, hres⟩ := ih fuel (.node l p sfin) p hT2 rfl hlen2
      refine ⟨q, idx, arr, ?_, ?_⟩
      · simp only [climbLoop, top, Frame.addr, load_some hnp, ok_bind, ne_eq, hpr, hr,
          not_true_eq_false, if_false, hpp, pathL]
        simpa [Sh.addrs, List.append_assoc] using e
      · rcases hres with h1 | ⟨c2, s2, a2, h1, h2, h3, h4, h5, h6⟩
        · exact Or.inl h1
        · exact Or.inr ⟨c2, s2, a2, h1, h2, h3, h4, h5, by simpa [pathR] using h6⟩

theorem sortedLoop_spec {t : Tree κ ν} {T : Sh} (hw : TreeWF t T)
    (hbrk : T.addrs.length ≤ t.brk) :
    ∀ (fuel : Nat) (c : List Frame) (s : Sh) (a : Nat), T = plug c s → s.root = some a →
      s.addrs.length + (pathR c).length ≤ fuel →
      sortedLoop t fuel (some a) (pathL c).length (arrOf (keyAt t) (pathL c) T.addrs.length) =
        .ok (arrOf (keyAt t) T.addrs T.addrs.length) := by
  intro fuel
  induction fuel with
  | zero =>
    intro c s a _ hr hlen
    have := root_mem hr
    have h0 : s.addrs.length = 0 := by omega
    rw [List.length_eq_zero.mp h0] at this
    simp at this
  | succ fuel ih =>
    intro c s a hT hr hlen
    have hw2 : TreeWF t (plug c s) := hT ▸ hw
    have hsT : s.addrs.length ≤ T.addrs.length := by
      rw [hT, addrs_plug]
      simp only [List.length_append]
      omega
    obtain ⟨cs, m, r, hs, hpl, hlm⟩ := leftmost_spec t.brk s c a (some a) hw2 hr
      (le_trans hsT hbrk)
    have hT2 : T = plug (cs ++ c) (.node .nil m r) := by
      rw [plug_append, ← hs]
      exact hT
    have hw3 : TreeWF t (plug (cs ++ c) (.node .nil m r)) := hT2 ▸ hw
    obtain ⟨nm, hnm, hmp, hml, hmr⟩ := wf_cell hw3
    have hpL : pathL (cs ++ c) = pathL c := by rw [pathL_append, hpl, List.append_nil]
    have hsa : s.addrs.length = 1 + r.addrs.length + (pathR cs).length := by
      rw [hs, addrs_plug, hpl]
      simp only [Sh.addrs, List.length_append, List.length_cons, List.length_nil]
      omega
    have hlt : (pathL c).length < T.addrs.length := by
      rw [hT, addrs_plug]
      simp only [List.length_append]
      omega
    have hwr := writeAt_arrOf (keyAt t) (pathL c) T.addrs.length m hlt
    cases r with
    | nil =>
      obtain ⟨q, idx, arr, e, hres⟩ := climb_spec hw (cs ++ c) t.brk (.node .nil m .nil) m hT2 rfl
        (by
          have := length_path_lt (cs ++ c) .nil .nil m
          rw [← hT2] at this
          omega)
      have e2 : climbLoop t t.brk nm.pParent (some m) ((pathL c).length + 1)
          (arrOf (keyAt t) (pathL c ++ [m]) T.addrs.length) = .ok (q, idx, arr) := by
        rw [hmp]
        simpa [hpL, Sh.addrs] using e
      have hstep : sortedLoop t (fuel + 1) (some a) (pathL c).length
          (arrOf (keyAt t) (pathL c) T.addrs.length) = sortedLoop t fuel q idx arr := by
        simp only [sortedLoop, hlm, ok_bind, load_some hnm, keyAt_of_cell hnm, hwr, hmr,
          Sh.root_nil, e2]
      rw [hstep]
      rcases hres with ⟨rfl, rfl⟩ | ⟨c2, s2, a2, h1, h2, rfl, rfl, rfl, h6⟩
      · cases fuel <;> rfl
      · refine ih c2 s2 a2 h1 h2 ?_
        rw [pathR_append] at h6
        simp only [List.length_append] at h6
        simp only [Sh.addrs, List.length_nil, List.length_cons] at hsa
        omega
    | node rl ra rr =>
      have hstep : sortedLoop t (fuel + 1) (some a) (pathL c).length
          (arrOf (keyAt t) (pathL c) T.addrs.length) =
          sortedLoop t fuel (some ra) ((pathL c).length + 1)
            (arrOf (keyAt t) (pathL c ++ [m]) T.addrs.length) := by
        simp only [sortedLoop, hlm, ok_bind, load_some hnm, keyAt_of_cell hnm, hwr, hmr,
          Sh.root_node]
      rw [hstep]
      have := ih (.R .nil m :: (cs ++ c)) (.node rl ra rr) ra hT2 rfl (by
        simp only [pathR, pathR_append, List.length_append]
        omega)
      simpa [pathL, hpL, Sh.addrs] using this

/-- The iterative traversal of `treeArraySorted` yields the keys of the represented tree in
symmetric order. -/
theorem treeArraySorted_spec {t : Tree κ ν} {T : Sh} (hw : TreeWF t T)
    (hlen : t.ulTreeLen = T.addrs.length) (hbrk : T.addrs.length ≤ t.brk) :
    treeArraySorted t =
      if T.addrs = [] then .ok (none, t)
      else .ok (some (T.addrs.map (keyAt t)),
        { t with ppArraySorted := some (T.addrs.map (keyAt t)) }) := by
  cases T with
  | nil => simp [treeArraySorted, hlen, Sh.addrs]
  | node l a r =>
    have hne : ¬ (Sh.node l a r).addrs = [] := by simp [Sh.addrs]
    have hpos : ¬ t.ulTreeLen ≤ 0 := by
      rw [hlen]
      simp [Sh.addrs]
    have := sortedLoop_spec hw hbrk (t.ulTreeLen + 1) [] (.node l a r) a rfl rfl (by
      simp only [pathR, List.length_nil]
      omega)
    simp only [pathL, List.length_nil, arrOf, List.map_nil, List.nil_append, Nat.sub_zero,
      Nat.sub_self, List.replicate_zero, List.append_nil] at this
    rw [← hlen] at this
    simp only [treeArraySorted, hpos, if_false, hw.root, Sh.root_node, this, ok_bind, hne,
      pure_eq_ok]

theorem getNodeByKeyLoop_none (t : Tree κ ν) (k : κ) (fuel : Nat) :
    getNodeByKeyLoop t k fuel none = .ok none := by
  cases fuel <;> rfl

theorem getNodeByKeyLoop_spec {t : Tree κ ν} {T : Sh} (hC : TotalCmp t.pfCmp)
    (hw : TreeWF t T) (hkeys : ∀ a ∈ T.addrs, (keyAt t a).isSome)
    (hbst : T.addrs.Pairwise (LtAt t)) (k : κ) :
    ∀ (fuel : Nat) (c : List Frame) (l r : Sh) (a : Nat), T = plug c (.node l a r) →
      (Sh.node l a r).addrs.length ≤ fuel →
      (∀ b ∈ pathL c, LtK t b k) → (∀ b ∈ pathR c, GtK t b k) →
      (∃ b ∈ T.addrs, ∃ kb, keyAt t b = some kb ∧ t.pfCmp kb k = 0 ∧
          getNodeByKeyLoop t k fuel (some a) = .ok (some b)) ∨
        ((∀ b ∈ T.addrs, ∀ kb, keyAt t b = some kb → t.pfCmp kb k ≠ 0) ∧
          getNodeByKeyLoop t k fuel (some a) = .ok none) := by
  intro fuel
  induction fuel with
  | zero =>
    intro c l r a _ hlen
    simp [Sh.addrs] at hlen
  | succ fuel ih =>
    intro c l r a hT hlen hlt hgt
    subst hT
    obtain ⟨na, hna, hap, hal, har⟩ := wf_cell hw
    have ham := mem_plug_addrs c l r a
    obtain ⟨ka, hka, hkat⟩ := keyAt_cell hna (hkeys a ham)
    obtain ⟨hbl, hbr⟩ := bst_node hbst
    rcases lt_trichotomy (t.pfCmp ka k) 0 with hcmp | hcmp | hcmp
    · have hne : ¬ t.pfCmp ka k = 0 := ne_of_lt hcmp
      have hngt : ¬ t.pfCmp ka k > 0 := not_lt.mpr (le_of_lt hcmp)
      have hltl : ∀ b ∈ l.addrs, LtK t b k := fun b hb kb hkb =>
        hC.lt_trans (hbl b hb kb ka hkb hkat) hcmp
      have hlta : LtK t a k := fun kb hkb => by
        rw [hkat] at hkb
        cases hkb
        exact hcmp
      have hstep : getNodeByKeyLoop t k (fuel + 1) (some a) =
          getNodeByKeyLoop t k fuel r.root := by
        simp only [getNodeByKeyLoop, load_some hna, ok_bind, hka, hne, if_false, hngt, har]
      rw [hstep]
      cases r with
      | nil =>
        right
        refine ⟨?_, getNodeByKeyLoop_none t k fuel⟩
        intro b hb kb hkb
        rw [addrs_plug] at hb
        simp only [Sh.addrs, List.mem_append, List.mem_cons, List.not_mem_nil,
          or_false] at hb
        rcases hb with (hb | hb | rfl) | hb
        · exact ne_of_lt (hlt b hb kb hkb)
        · exact ne_of_lt (hltl b hb kb hkb)
        · exact ne_of_lt (hlta kb hkb)
        · exact ne_of_gt (hgt b hb kb hkb)
      | node rl ra rr =>
        refine ih (.R l a :: c) rl rr ra rfl ?_ ?_ hgt
        · simp only [Sh.addrs, List.length_append, List.length_cons] at hlen ⊢
          omega
        · intro b hb
          simp only [pathL, List.mem_append, List.mem_singleton] at hb
          rcases hb with hb | hb | rfl
          · exact hlt b hb
          · exact hltl b hb
          · exact hlta
    · left
      refine ⟨a, ham, ka, hkat, hcmp, ?_⟩
      simp only [getNodeByKeyLoop, load_some hna, ok_bind, hka, hcmp, if_true, pure_eq_ok]
    · have hne : ¬ t.pfCmp ka k = 0 := ne_of_gt hcmp
      have hgtr : ∀ b ∈ r.addrs, GtK t b k := fun b hb kb hkb =>
        hC.gt_of_lt_gt (hbr b hb ka kb hkat hkb) hcmp
      have hgta : GtK t a k := fun kb hkb => by
        rw [hkat] at hkb
        cases hkb
        exact hcmp
      have hstep : getNodeByKeyLoop t k (fuel + 1) (some a) =
          getNodeByKeyLoop t k fuel l.root := by
        simp only [getNodeByKeyLoop, load_some hna, ok_bind, hka, hne, if_false, gt_iff_lt,
          hcmp, if_true, hal]
      rw [hstep]
      cases l with
      | nil =>
        right
        refine ⟨?_, getNodeByKeyLoop_none t k fuel⟩
        intro b hb kb hkb
        rw [addrs_plug] at hb
        simp only [Sh.addrs, List.mem_append, List.mem_cons, List.not_mem_nil,
          false_or] at hb
        rcases hb with (hb | rfl | hb) | hb
        · exact ne_of_lt (hlt b hb kb hkb)
        · exact ne_of_gt (hgta kb hkb)
        · exact ne_of_gt (hgtr b hb kb hkb)
        · exact ne_of_gt (hgt b hb kb hkb)
      | node ll la lr =>
        refine ih (.L a r :: c) ll lr la rfl ?_ hlt ?_
        · simp only [Sh.addrs, List.length_append, List.length_cons] at hlen ⊢
          omega
        · intro b hb
          simp only [pathR, List.mem_append, List.mem_cons] at hb
          rcases hb with (rfl | hb) | hb
          · exact hgta
          · exact hgtr b hb
          · exact hgt b hb

theorem getNodeByKey_spec {t : Tree κ ν} {T : Sh} (hC : TotalCmp t.pfCmp)
    (hw : TreeWF t T) (hkeys : ∀ a ∈ T.addrs, (keyAt t a).isSome)
    (hbst : T.addrs.Pairwise (LtAt t)) (hbrk : T.addrs.length ≤ t.brk) (k : κ) :
    (∃ b ∈ T.addrs, ∃ kb, keyAt t b = some kb ∧ t.pfCmp kb k = 0 ∧
        getNodeByKey t (some k) = .ok (some b)) ∨
      ((∀ b ∈ T.addrs, ∀ kb, keyAt t b = some kb → t.pfCmp kb k ≠ 0) ∧
        getNodeByKey t (some k) = .ok none) := by
  cases T with
  | nil =>
    right
    refine ⟨by simp [Sh.addrs], ?_⟩
    have hr : t.pr = none := hw.root
    simp only [getNodeByKey, hr, getNodeByKeyLoop_none]
  | node l a r =>
    have hr : t.pr = some a := hw.root
    simp only [getNodeByKey, hr]
    exact getNodeByKeyLoop_spec hC hw hkeys hbst k t.brk [] l r a rfl hbrk (by simp [pathL])
      (by simp [pathR])

theorem treeValue_of_found {t : Tree κ ν} {k : κ} {b : Nat}
    (h : getNodeByKey t (some k) = .ok (some b)) (hm : (t.mem b).isSome) :
    treeValue t (some k) = .ok (valAt t b) := by
  obtain ⟨n, hn⟩ := Option.isSome_iff_exists.mp hm
  simp [treeValue, h, load_some hn, valAt, hn]

theorem treeValue_of_absent {t : Tree κ ν} {k : κ}
    (h : getNodeByKey t (some k) = .ok none) : treeValue t (some k) = .ok none := by
  simp [treeValue, h]

/-- Two cells of a search tree whose keys both compare equal to `k` are the same cell. -/
theorem bst_unique {t : Tree κ ν} {l : List Nat} (hC : TotalCmp t.pfCmp)
    (hbst : l.Pairwise (LtAt t)) {a b : Nat} (ha : a ∈ l) (hb : b ∈ l) {k ka kb : κ}
    (hka : keyAt t a = some ka) (hkb : keyAt t b = some kb) (h1 : t.pfCmp ka k = 0)
    (h2 : t.pfCmp kb k = 0) : a = b := by
  by_contra hne
  have key : ∀ x y kx ky, keyAt t x = some kx → keyAt t y = some ky → t.pfCmp kx k = 0 →
      t.pfCmp ky k = 0 → LtAt t x y → False := by
    intro x y kx ky hx hy e1 e2 hlt
    have h3 := hlt kx ky hx hy
    have h4 := hC.lt_eq h3 e2
    omega
  induction l with
  | nil => simp at ha
  | cons c l ih =>
    rw [List.pairwise_cons] at hbst
    rcases List.mem_cons.mp ha with rfl | ha2
    · rcases List.mem_cons.mp hb with rfl | hb2
      · exact hne rfl
      · exact key _ _ _ _ hka hkb h1 h2 (hbst.1 b hb2)
    · rcases List.mem_cons.mp hb with rfl | hb2
      · exact key _ _ _ _ hkb hka h2 h1 (hbst.1 a ha2)
      · exact ih hbst.2 ha2 hb2

theorem forall2_mem_left {α β : Type} {R : α → β → Prop} {l1 : List α} {l2 : List β}
    (h : List.Forall₂ R l1 l2) {a : α} (ha : a ∈ l1) : ∃ b ∈ l2, R a b := by
  induction h with
  | nil => simp at ha
  | cons hr _ ih =>
    rcases List.mem_cons.mp ha with rfl | ha2
    · exact ⟨_, List.mem_cons_self _ _, hr⟩
    · obtain ⟨b, hb, hab⟩ := ih ha2
      exact ⟨b, List.mem_cons_of_mem _ hb, hab⟩

theorem forall2_mem_right {α β : Type} {R : α → β → Prop} {l1 : List α} {l2 : List β}
    (h : List.Forall₂ R l1 l2) {b : β} (hb : b ∈ l2) : ∃ a ∈ l1, R a b := by
  induction h with
  | nil => simp at hb
  | cons hr _ ih =>
    rcases List.mem_cons.mp hb with rfl | hb2
    · exact ⟨_, List.mem_cons_self _ _, hr⟩
    · obtain ⟨a, ha, hab⟩ := ih hb2
      exact ⟨a, List.mem_cons_of_mem _ ha, hab⟩

theorem forall2_imp_mem {α β : Type} {R S : α → β → Prop} {l1 : List α} {l2 : List β}
    (h : List.Forall₂ R l1 l2) (hi : ∀ a ∈ l1, ∀ b, R a b → S a b) : List.Forall₂ S l1 l2 := by
  induction h with
  | nil => exact List.Forall₂.nil
  | cons hr _ ih =>
    exact List.Forall₂.cons (hi _ (List.mem_cons_self _ _) _ hr)
      (ih (fun a ha b hab => hi a (List.mem_cons_of_mem _ ha) b hab))

theorem fresh_inv (cmp : κ → κ → Int) : Inv (fresh cmp : Tree κ ν) .nil [] where
  wf := ⟨trivial, rfl, List.nodup_nil⟩
  dom := fun a h => by simp [fresh, treeInit, blank] at h
  chain := rfl
  tail := rfl
  len := rfl
  perm := List.Perm.refl _
  keys := fun a h => by simp [Sh.addrs] at h
  bst := List.Pairwise.nil

theorem insertAll_spec :
    ∀ (calls : List (InsertCall κ ν)) (t : Tree κ ν) (T : Sh) (L : List Nat)
      (acc : List (InsertCall κ ν)), Inv t T L → TotalCmp t.pfCmp → Content t L acc →
      (∀ c ∈ calls, Readable c.pKey c.sizeTkey c.pValue c.sizeTvalue) → (acc ≠ [] → RootOK t) →
      ∃ t2 T2 L2, insertAll t calls = .ok t2 ∧ Inv t2 T2 L2 ∧
        Content t2 L2 (calls.foldl (firstsStep t.pfCmp) acc) ∧ t2.pfCmp = t.pfCmp ∧
        (calls.foldl (firstsStep t.pfCmp) acc ≠ [] → RootOK t2) := by
  intro calls
  induction calls with
  | nil =>
    intro t T L acc hI _ hc _ hr
    exact ⟨t, T, L, rfl, hI, hc, rfl, hr⟩
  | cons c cs ih =>
    intro t T L acc hI hC hc hv hr
    have hvc := hv c (List.mem_cons_self _ _)
    have hvs : ∀ d ∈ cs, Readable d.pKey d.sizeTkey d.pValue d.sizeTvalue :=
      fun d hd => hv d (List.mem_cons_of_mem _ hd)
    rcases treeInsert_spec hC hI c.pKey c.sizeTkey c.pValue c.sizeTvalue hvc with
      ⟨e, b, hb, kb, hkb, hcmp⟩ | ⟨t2, e, hins, hnew⟩
    · have hany : acc.any (sameKey t.pfCmp c.pKey) = true := by
        obtain ⟨d, hd, hkd, -⟩ := forall2_mem_left hc (hI.perm.mem_iff.mpr hb)
        rw [List.any_eq_true]
        refine ⟨d, hd, ?_⟩
        rw [hkb] at hkd
        cases hkd
        simp [sameKey, hcmp]
      obtain ⟨t3, T3, L3, e3, hI3, hc3, hp3, hr3⟩ := ih t T L acc hI hC hc hvs hr
      refine ⟨t3, T3, L3, ?_, hI3, ?_, hp3, ?_⟩
      · simp only [insertAll, e, ok_bind, e3]
      · simpa [List.foldl_cons, firstsStep, hany] using hc3
      · simpa [List.foldl_cons, firstsStep, hany] using hr3
    · have hany : ¬ acc.any (sameKey t.pfCmp c.pKey) = true := by
        rw [List.any_eq_true]
        rintro ⟨d, hd, hs⟩
        obtain ⟨a, ha, hka, -⟩ := forall2_mem_right hc hd
        have := hnew a (hI.perm.mem_iff.mp ha) d.pKey hka
        simp [sameKey] at hs
        exact this hs
      obtain ⟨T2, hI2⟩ := hins.inv
      have hc2 : Content t2 (L ++ [t.brk]) (acc ++ [c]) := by
        refine List.rel_append ?_ (List.Forall₂.cons ⟨hins.key, hins.val⟩ List.Forall₂.nil)
        refine forall2_imp_mem hc (fun a ha d hd => ?_)
        have hne : a ≠ t.brk := fun e => hI.brk_not_memL (e ▸ ha)
        obtain ⟨h1, h2⟩ := hins.old a hne
        exact ⟨h1.trans hd.1, h2.trans hd.2⟩
      obtain ⟨t3, T3, L3, e3, hI3, hc3, hp3, hr3⟩ := ih t2 T2 (L ++ [t.brk]) (acc ++ [c]) hI2
        (hins.cmp ▸ hC) hc2 hvs (fun _ => hins.rootOK)
      rw [hins.cmp] at hc3 hr3 hp3
      refine ⟨t3, T3, L3, ?_, hI3, ?_, hp3, ?_⟩
      · simp only [insertAll, e, ok_bind, e3]
      · simpa [List.foldl_cons, firstsStep, hany] using hc3
      · simpa [List.foldl_cons, firstsStep, hany] using hr3

/-- The state after a sequence of inserts into a fresh container. -/
theorem insertAll_fresh (cmp : κ → κ → Int) (hC : TotalCmp cmp)
    (calls : List (InsertCall κ ν))
    (hv : ∀ c ∈ calls, Readable c.pKey c.sizeTkey c.pValue c.sizeTvalue) :
    ∃ t T L, insertAll (fresh cmp) calls = .ok t ∧ Inv t T L ∧
      Content t L (firsts cmp calls) ∧ t.pfCmp = cmp ∧ (firsts cmp calls ≠ [] → RootOK t) :=
  insertAll_spec calls (fresh cmp) .nil [] [] (fresh_inv cmp) hC List.Forall₂.nil hv
    (fun h => absurd rfl h)

theorem strcmp_antisymm : ∀ a b : List Char, strcmp a b < 0 ↔ 0 < strcmp b a := by
  intro a
  induction a with
  | nil => intro b; cases b <;> simp [strcmp]
  | cons x xs ih =>
    intro b
    cases b with
    | nil => simp [strcmp]
    | cons y ys =>
      simp only [strcmp]
      split_ifs <;> first | omega | simp | exact ih ys

theorem strcmp_le_trans : ∀ a b c : List Char,
    strcmp a b ≤ 0 → strcmp b c ≤ 0 → strcmp a c ≤ 0 := by
  intro a
  induction a with
  | nil => intro b c _ _; cases c <;> simp [strcmp]
  | cons x xs ih =>
    intro b c
    cases b with
    | nil => simp [strcmp]
    | cons y ys =>
      cases c with
      | nil => simp [strcmp]
      | cons z zs =>
        simp only [strcmp]
        split_ifs <;> first | omega | simp | exact ih ys zs

theorem compareStr_total : TotalCmp compareStr :=
  ⟨fun a b => strcmp_antisymm a.data b.data,
    fun a b c => strcmp_le_trans a.data b.data c.data⟩

theorem compareAscendUL_total : TotalCmp compareAscendUL := by
  constructor
  · intro a b
    simp only [compareAscendUL]
    split_ifs <;> omega
  · intro a b c
    simp only [compareAscendUL]
    split_ifs <;> omega

theorem sameKey_trans {cmp : κ → κ → Int} (hC : TotalCmp cmp) {d c : InsertCall κ ν} {k : κ}
    (h1 : sameKey cmp c.pKey d = true) (h2 : sameKey cmp k c = true) :
    sameKey cmp k d = true := by
  simp only [sameKey, decide_eq_true_eq] at h1 h2 ⊢
  have h3 := hC.le_trans d.pKey c.pKey k (le_of_eq h1) (le_of_eq h2)
  have h4 := hC.le_trans k c.pKey d.pKey (le_of_eq (hC.eq_symm h2)) (le_of_eq (hC.eq_symm h1))
  have h5 := hC.antisymm d.pKey k
  have h6 := hC.antisymm k d.pKey
  omega

theorem foldl_firsts_find {cmp : κ → κ → Int} (hC : TotalCmp cmp) (k : κ) :
    ∀ (calls acc : List (InsertCall κ ν)),
      (calls.foldl (firstsStep cmp) acc).find? (sameKey cmp k) =
        (acc.find? (sameKey cmp k)).or (calls.find? (sameKey cmp k)) := by
  intro calls
  induction calls with
  | nil => intro acc; simp
  | cons c cs ih =>
    intro acc
    rw [List.foldl_cons, ih]
    unfold firstsStep
    by_cases hany : acc.any (sameKey cmp c.pKey) = true
    · rw [if_pos hany]
      by_cases hp : sameKey cmp k c = true
      · obtain ⟨d, hd, hdc⟩ := List.any_eq_true.mp hany
        have hdk := sameKey_trans hC hdc hp
        cases hf : acc.find? (sameKey cmp k) with
        | none => exact absurd hdk (List.find?_eq_none.mp hf d hd)
        | some x => rfl
      · simp [List.find?_cons, hp]
    · rw [if_neg hany, List.find?_append, Option.or_assoc]
      congr 1
      cases hp : sameKey cmp k c <;> simp [List.find?_cons, hp]

theorem firsts_find {cmp : κ → κ → Int} (hC : TotalCmp cmp) (k : κ)
    (calls : List (InsertCall κ ν)) :
    (firsts cmp calls).find? (sameKey cmp k) = calls.find? (sameKey cmp k) := by
  unfold firsts
  rw [foldl_firsts_find hC k calls []]
  simp

/-- C1, amended: for a comparator that is a consistent total order and a sequence of
`treeInsert` calls (non-null keys, duplicates allowed) in which every positive key or value
length is the byte length of the key or value it comes with, on a fresh container, the
inserts all return and `treeValue k` then returns the value pointer content of the first call
whose key compares equal to `k`, and `NULL` when no inserted key compares equal to `k`. -/
theorem treeValue_after_inserts (cmp : κ → κ → Int) (hC : TotalCmp cmp)
    (calls : List (InsertCall κ ν))
    (hv : ∀ c ∈ calls, Readable c.pKey c.sizeTkey c.pValue c.sizeTvalue)
    (k : κ) :
    ∃ t, insertAll (fresh cmp) calls = .ok t ∧
      treeValue t (some k) = .ok ((calls.find? (sameKey cmp k)).bind (fun c => c.pValue)) := by
  obtain ⟨t, T, L, e, hI, hc, hcmp, -⟩ := insertAll_fresh cmp hC calls hv
  refine ⟨t, e, ?_⟩
  rw [← firsts_find hC k calls]
  have hC2 : TotalCmp t.pfCmp := hcmp ▸ hC
  rcases getNodeByKey_spec hC2 hI.wf hI.keys hI.bst hI.fuel k with
    ⟨b, hb, kb, hkb, hcb, hg⟩ | ⟨hnone, hg⟩
  · rw [treeValue_of_found hg (rep_mem_cell hI.wf.rep hb)]
    cases hf : (firsts cmp calls).find? (sameKey cmp k) with
    | none =>
      exfalso
      obtain ⟨d, hd, hkd, -⟩ := forall2_mem_left hc (hI.perm.mem_iff.mpr hb)
      have := List.find?_eq_none.mp hf d hd
      rw [hkb] at hkd
      cases hkd
      simp [sameKey, ← hcmp, hcb] at this
    | some d =>
      have hdm := List.mem_of_find?_eq_some hf
      have hdp := List.find?_some hf
      obtain ⟨a, ha, hka, hva⟩ := forall2_mem_right hc hdm
      simp only [sameKey, decide_eq_true_eq] at hdp
      have hab : a = b := bst_unique hC2 hI.bst (hI.perm.mem_iff.mp ha) hb hka hkb
        (by rw [hcmp]; exact hdp) hcb
      subst hab
      simp [hva]
  · rw [treeValue_of_absent hg]
    cases hf : (firsts cmp calls).find? (sameKey cmp k) with
    | none => rfl
    | some d =>
      exfalso
      have hdm := List.mem_of_find?_eq_some hf
      have hdp := List.find?_some hf
      obtain ⟨a, ha, hka, -⟩ := forall2_mem_right hc hdm
      simp only [sameKey, decide_eq_true_eq] at hdp
      exact hnone a (hI.perm.mem_iff.mp ha) d.pKey hka (by rw [hcmp]; exact hdp)

theorem insertLoop_of_found (k : κ) (sk : Nat) (pv : Option ν) (sv : Nat) (t : Tree κ ν)
    (b : Nat) :
    ∀ (fuel : Nat) (p : Ptr), getNodeByKeyLoop t k fuel p = .ok (some b) →
      insertLoop k sk pv sv fuel t p = .ok (0, t) := by
  intro fuel
  induction fuel with
  | zero =>
    intro p h
    cases p <;> simp [getNodeByKeyLoop] at h
  | succ fuel ih =>
    intro p h
    cases p with
    | none => simp [getNodeByKeyLoop] at h
    | some a =>
      cases hm : t.mem a with
      | none => simp [getNodeByKeyLoop, Tree.load, hm] at h
      | some n =>
        cases hk : n.pKey with
        | none => simp [getNodeByKeyLoop, load_some hm, hk, keyOf] at h
        | some kb =>
          simp only [getNodeByKeyLoop, load_some hm, hk, keyOf, ok_bind, pure_eq_ok] at h
          rcases lt_trichotomy (t.pfCmp kb.content k) 0 with hc | hc | hc
          · have hne : ¬ t.pfCmp kb.content k = 0 := ne_of_lt hc
            have hngt : ¬ t.pfCmp kb.content k > 0 := not_lt.mpr (le_of_lt hc)
            simp only [hne, if_false, hngt] at h
            cases hr : n.pRight with
            | none =>
              rw [hr] at h
              cases fuel <;> simp [getNodeByKeyLoop] at h
            | some r =>
              rw [hr] at h
              simp only [insertLoop, load_some hm, hk, keyOf, ok_bind, hc, if_true, hr,
                initNode_occupied, Option.isSome_none, Bool.false_eq_true, if_false,
                Tree.getRight, pure_eq_ok]
              exact ih _ h
          · simp only [insertLoop, load_some hm, hk, keyOf, ok_bind, hc, lt_self_iff_false,
              if_false, gt_iff_lt, pure_eq_ok]
          · have hne : ¬ t.pfCmp kb.content k = 0 := ne_of_gt hc
            have hnlt : ¬ t.pfCmp kb.content k < 0 := not_lt.mpr (le_of_lt hc)
            simp only [hne, if_false, gt_iff_lt, hc, if_true] at h
            cases hl : n.pLeft with
            | none =>
              rw [hl] at h
              cases fuel <;> simp [getNodeByKeyLoop] at h
            | some l =>
              rw [hl] at h
              simp only [insertLoop, load_some hm, hk, keyOf, ok_bind, hnlt, if_false,
                gt_iff_lt, hc, if_true, hl, initNode_occupied, Option.isSome_none,
                Bool.false_eq_true, Tree.getLeft, pure_eq_ok]
              exact ih _ h

/-- In every container state in which the container's search (`getNodeByKey`, which
`treeValue`, `treeUpdate` and `treeDelete` use) finds a node for the key `k`, `treeInsert k`
returns 0 and the state after the call is the state before it: length, stored values, tree
shape and colours, list and cached snapshots. -/
theorem treeInsert_duplicate_noop (t : Tree κ ν) (k : κ) (b : Nat) (sizeTkey : Nat)
    (pValue : Option ν) (sizeTvalue : Nat) (h : getNodeByKey t (some k) = .ok (some b)) :
    treeInsert t (some k) sizeTkey pValue sizeTvalue = .ok (0, t) := by
  simp only [getNodeByKey] at h
  cases hr : t.pr with
  | none =>
    rw [hr] at h
    cases hb : t.brk <;> simp [hb, getNodeByKeyLoop] at h
  | some a =>
    rw [hr] at h
    simp only [treeInsert, hr, initNode_occupied, ok_bind, Option.isSome_none,
      Bool.false_eq_true, if_false]
    exact insertLoop_of_found k sizeTkey pValue sizeTvalue t b _ _ h

/-- After a sequence of inserts into a fresh container the search finds every key that
compares equal to an inserted key. -/
theorem getNodeByKey_after_inserts (cmp : κ → κ → Int) (hC : TotalCmp cmp)
    (calls : List (InsertCall κ ν))
    (hv : ∀ c ∈ calls, Readable c.pKey c.sizeTkey c.pValue c.sizeTvalue)
    (k : κ) (hk : ∃ c ∈ calls, cmp c.pKey k = 0) :
    ∃ t b, insertAll (fresh cmp) calls = .ok t ∧ getNodeByKey t (some k) = .ok (some b) := by
  obtain ⟨t, T, L, e, hI, hc, hcmp, -⟩ := insertAll_fresh cmp hC calls hv
  have hC2 : TotalCmp t.pfCmp := hcmp ▸ hC
  rcases getNodeByKey_spec hC2 hI.wf hI.keys hI.bst hI.fuel k with
    ⟨b, -, -, -, -, hg⟩ | ⟨hnone, -⟩
  · exact ⟨t, b, e, hg⟩
  · exfalso
    obtain ⟨c, hcm, hck⟩ := hk
    have hf : (calls.find? (sameKey cmp k)).isSome := by
      rw [List.find?_isSome]
      exact ⟨c, hcm, by simp [sameKey, hck]⟩
    rw [← firsts_find hC k calls] at hf
    obtain ⟨d, hd⟩ := Option.isSome_iff_exists.mp hf
    obtain ⟨a, ha, hka, -⟩ := forall2_mem_right hc (List.mem_of_find?_eq_some hd)
    have hdp := List.find?_some hd
    simp only [sameKey, decide_eq_true_eq] at hdp
    exact hnone a (hI.perm.mem_iff.mp ha) d.pKey hka (by rw [hcmp]; exact hdp)

/-! ## Evaluations on concrete call sequences -/

set_option maxRecDepth 100000

/-- Witness of C1, amended, on test case 2: all hypotheses hold, and the lookup of Thomas gives the
value of its insert. -/
theorem treeValue_after_inserts_witness :
    TotalCmp compareStr ∧ (∀ c ∈ justices, Readable c.pKey c.sizeTkey c.pValue c.sizeTvalue) ∧
      ∃ t, insertAll (fresh compareStr) justices = .ok t ∧
        treeValue t (some "Thomas") = .ok (some "Bush") :=
  ⟨compareStr_total, by decide,
    (treeValue_after_inserts compareStr compareStr_total justices (by decide) "Thomas").imp
      (fun _ h => ⟨h.1, h.2.trans (by decide)⟩)⟩

/-- In the state after test case 7 the search finds key 4, and inserting it again returns 0
and gives back the same state. -/
theorem treeInsert_duplicate_noop_example :
    getNodeByKey (finalState (fresh compareDescendUL) oneToNine) (some 4) = .ok (some 3) ∧
      treeInsert (finalState (fresh compareDescendUL) oneToNine) (some 4) 8 (some "again") 0 =
        .ok (0, finalState (fresh compareDescendUL) oneToNine) :=
  ⟨by decide,
    treeInsert_duplicate_noop (finalState (fresh compareDescendUL) oneToNine) 4 3 8
      (some "again") 0 (by decide)⟩

/-- C5: on the state after inserting 2, 1, 3 (ascending comparator), key 2 is live and
`treeDelete(2)` returns 1, the length drops from 3 to 2, and the lookup and the sorted snapshot
no longer show 2; but the list head `ph` still points at the freed predecessor node, so
`treeArray` reads freed memory instead of returning a snapshot without 2. -/
theorem treeDelete_leaves_head_dangling :
    returns insert213 = .ok [1, 1, 1] ∧
    look insert213 (fun t => treeValue t (some 2)) = .ok (some 20) ∧
    look insert213 (fun t => pure (treeLength t)) = .ok 3 ∧
    returns (andThen insert213 treeArray) = .ok (some [some 2, some 1, some 3]) ∧
    returns insert213Delete2 = .ok 1 ∧
    look insert213Delete2 (fun t => pure (treeLength t)) = .ok 2 ∧
    look insert213Delete2 (fun t => treeValue t (some 2)) = .ok none ∧
    returns (andThen insert213Delete2 treeArraySorted) = .ok (some [some 1, some 3]) ∧
    look insert213Delete2 (fun t => pure t.ph) = .ok (some 1) ∧
    look insert213Delete2 (fun t => pure (t.mem 1).isNone) = .ok true ∧
    returns (andThen insert213Delete2 treeArray) = .error .useAfterFree := by
  decide

/-- C6: after inserting 5, 4, deleting 5 and inserting 3 (all calls return 1), key 2 is not
live, yet `treeInsert(2, v)` does not return: the rotation at the root follows the root's
parent pointer, which still points at the freed node of key 5. -/
theorem treeInsert_after_root_delete_faults :
    returns insert54Delete5Insert3 = .ok [1, 1, 1, 1] ∧
    look insert54Delete5Insert3 (fun t => getNodeByKey t (some 2)) = .ok none ∧
    look insert54Delete5Insert3 (fun t => t.getParent t.pr) = .ok (some 0) ∧
    look insert54Delete5Insert3 (fun t => pure (t.mem 0).isNone) = .ok true ∧
    returns (andThen insert54Delete5Insert3 (fun t => treeInsert t (some 2) 0 (some 20) 0)) =
      .error .useAfterFree := by
  decide

/-- C7: after inserting 2, 1 and deleting 2 (all calls return 1) the container holds one key,
and `treeArraySorted` does not return a one-entry snapshot: after writing key 1 it climbs
through the root's parent pointer, which still points at the freed node of key 2. -/
theorem treeArraySorted_after_root_delete_faults :
    returns insert21Delete2 = .ok [1, 1, 1] ∧
    look insert21Delete2 (fun t => pure (treeLength t)) = .ok 1 ∧
    returns (andThen insert21Delete2 treeArray) = .ok (some [some 1]) ∧
    look insert21Delete2 (fun t => t.getParent t.pr) = .ok (some 0) ∧
    look insert21Delete2 (fun t => pure (t.mem 0).isNone) = .ok true ∧
    returns (andThen insert21Delete2 treeArraySorted) = .error .useAfterFree := by
  decide

/-- C8: after inserting 2, 3, 1 the snapshot is 2, 3, 1 and key 2 is live; `treeDelete(2)`
returns 1, but it frees the predecessor node, which is the list tail, without moving `pt`, so
the following `treeInsert(2, v)` appends behind a freed node instead of giving 3, 1, 2. -/
theorem treeInsert_after_delete_tail_dangles :
    returns insert231 = .ok [1, 1, 1] ∧
    returns (andThen insert231 treeArray) = .ok (some [some 2, some 3, some 1]) ∧
    returns insert231Delete2 = .ok 1 ∧
    look insert231Delete2 (fun t => pure t.pt) = .ok (some 2) ∧
    look insert231Delete2 (fun t => pure (t.mem 2).isNone) = .ok true ∧
    returns (andThen insert231Delete2 (fun t => treeInsert t (some 2) 0 (some 21) 0)) =
      .error .useAfterFree := by
  decide

/-- C9: after `treeInsert(2, v, 1)` (value copied) and `treeUpdate(2, v2, 0)` (value borrowed)
key 2 is live with value `v2`, but the recorded value length is still 1, so the next
`treeUpdate(2, v3, 0)` frees the caller's `v2` instead of returning 1. -/
theorem treeUpdate_frees_borrowed_value :
    returns insert2Update2 = .ok [1, 1] ∧
    look insert2Update2 (fun t => treeValue t (some 2)) = .ok (some 8) ∧
    look insert2Update2 (fun t => pure (valueRecord t 0)) = .ok (some (1, some false)) ∧
    returns (andThen insert2Update2 (fun t => treeUpdate t (some 2) (some 9) 0)) =
      .error .invalidFree := by
  decide

/-- C10, as stated, fails: after the inserts of test case 6 (Reagan, Reagan, Bush, Clinton,
Clinton, W. Bush, W. Bush, Obama, Obama; five of them succeed) the root is RED, and so it is
after inserting 1, 2, 3, 4 under the ascending comparator. -/
theorem root_red_after_inserts :
    (insertAll (fresh compareStr) presidents).bind (fun t => t.getColor t.pr) =
      .ok .NODE_RED ∧
    (insertAll (fresh compareAscendUL)
        ([⟨1, 0, none, 0⟩, ⟨2, 0, none, 0⟩, ⟨3, 0, none, 0⟩, ⟨4, 0, none, 0⟩] :
          List (InsertCall Nat Nat))).bind (fun t => t.getColor t.pr) = .ok .NODE_RED := by
  decide

/-! ## The red-black conditions under insertion, and further scenarios -/

theorem redRoot_congr {col col2 : Nat → Option Color} {s : Sh}
    (h : ∀ b ∈ s.addrs, col2 b = col b) : RedRoot col2 s ↔ RedRoot col s := by
  cases s with
  | nil => simp [RedRoot]
  | node l a r => simp [RedRoot, h a (by simp [Sh.addrs])]

theorem rb_congr {col col2 : Nat → Option Color} :
    ∀ {s : Sh} {n : Nat}, (∀ b ∈ s.addrs, col2 b = col b) → (RB col2 s n ↔ RB col s n) := by
  intro s
  induction s with
  | nil => intro n _; simp [RB]
  | node l a r ihl ihr =>
    intro n h
    have hl : ∀ b ∈ l.addrs, col2 b = col b := fun b hb => h b (by simp [Sh.addrs, hb])
    have hr : ∀ b ∈ r.addrs, col2 b = col b := fun b hb => h b (by simp [Sh.addrs, hb])
    simp only [RB, h a (by simp [Sh.addrs]), redRoot_congr hl, redRoot_congr hr]
    constructor
    · rintro ⟨m, h1, h2, h3⟩
      exact ⟨m, (ihl hl).mp h1, (ihr hr).mp h2, h3⟩
    · rintro ⟨m, h1, h2, h3⟩
      exact ⟨m, (ihl hl).mpr h1, (ihr hr).mpr h2, h3⟩

theorem sib_addrs_subset (f : Frame) (c : List Frame) :
    ∀ b ∈ f.sib.addrs, b ∈ pathAddrs (f :: c) := by
  intro b hb
  cases f <;> simp [Frame.sib] at hb <;> simp [pathAddrs, pathL, pathR, hb]

theorem frame_addr_mem (f : Frame) (c : List Frame) : f.addr ∈ pathAddrs (f :: c) := by
  cases f <;> simp [pathAddrs, pathL, pathR, Frame.addr]

theorem pathAddrs_subset (f : Frame) (c : List Frame) :
    ∀ b ∈ pathAddrs c, b ∈ pathAddrs (f :: c) := by
  intro b hb
  simp only [pathAddrs, List.mem_append] at hb
  cases f <;> simp only [pathAddrs, pathL, pathR, List.mem_append, List.mem_cons] <;> tauto

theorem redTop_congr {col col2 : Nat → Option Color} {c : List Frame}
    (h : ∀ b ∈ pathAddrs c, col2 b = col b) : RedTop col2 c ↔ RedTop col c := by
  cases c with
  | nil => simp [RedTop]
  | cons f c => simp [RedTop, h _ (frame_addr_mem f c)]

theorem ctxRB_congr {col col2 : Nat → Option Color} :
    ∀ {c : List Frame} {n : Nat}, (∀ b ∈ pathAddrs c, col2 b = col b) →
      (CtxRB col2 c n ↔ CtxRB col c n) := by
  intro c
  induction c with
  | nil => intro n _; simp [CtxRB]
  | cons f c ih =>
    intro n h
    have hs : ∀ b ∈ f.sib.addrs, col2 b = col b := fun b hb => h b (sib_addrs_subset f c b hb)
    have hc : ∀ b ∈ pathAddrs c, col2 b = col b := fun b hb => h b (pathAddrs_subset f c b hb)
    simp only [CtxRB, h _ (frame_addr_mem f c), rb_congr hs, redRoot_congr hs, redTop_congr hc,
      ih hc]

/-- A red-black tree with a hole: putting a red-black subtree of the right black height into
the hole gives a red-black tree, provided its root and the innermost frame are not both RED. -/
theorem rb_plug {col : Nat → Option Color} :
    ∀ (c : List Frame) (X : Sh) (n : Nat), CtxRB col c n → RB col X n →
      (RedRoot col X → ¬ RedTop col c) → ∃ N, RB col (plug c X) N := by
  intro c
  induction c with
  | nil => intro X n _ h _; exact ⟨n, h⟩
  | cons f c ih =>
    intro X n hc hX hr
    obtain ⟨hs, hf⟩ := hc
    rcases hf with ⟨hred, hsr, htop, hctx⟩ | ⟨hblack, hctx⟩
    · have hX2 : ¬ RedRoot col X := fun h => hr h hred
      refine ih (f.fill X) n hctx ?_ (fun _ => htop)
      cases f with
      | L a r => exact ⟨n, hX, hs, Or.inl ⟨hred, rfl, hX2, hsr⟩⟩
      | R l a => exact ⟨n, hs, hX, Or.inl ⟨hred, rfl, hsr, hX2⟩⟩
    · refine ih (f.fill X) (n + 1) hctx ?_ ?_
      · cases f with
        | L a r => exact ⟨n, hX, hs, Or.inr ⟨hblack, rfl⟩⟩
        | R l a => exact ⟨n, hs, hX, Or.inr ⟨hblack, rfl⟩⟩
      · intro h
        cases f <;> exact absurd h hblack

/-- The converse of `rb_plug`: a red-black tree splits into a red-black subtree and a
red-black path around it. -/
theorem rb_unplug {col : Nat → Option Color} :
    ∀ (c : List Frame) (X : Sh) (N : Nat), RB col (plug c X) N →
      ∃ n, CtxRB col c n ∧ RB col X n ∧ (RedRoot col X → ¬ RedTop col c) := by
  intro c
  induction c with
  | nil => intro X N h; exact ⟨N, trivial, h, fun _ h => h⟩
  | cons f c ih =>
    intro X N h
    obtain ⟨n, hc, hf, hr⟩ := ih (f.fill X) N h
    cases f with
    | L a r =>
      obtain ⟨m, h1, h2, h3⟩ := hf
      rcases h3 with ⟨hred, rfl, hx, hs⟩ | ⟨hblack, rfl⟩
      · exact ⟨n, ⟨h2, Or.inl ⟨hred, hs, hr hred, hc⟩⟩, h1, fun h _ => hx h⟩
      · exact ⟨m, ⟨h2, Or.inr ⟨hblack, hc⟩⟩, h1, fun _ h => hblack h⟩
    | R l a =>
      obtain ⟨m, h1, h2, h3⟩ := hf
      rcases h3 with ⟨hred, rfl, hs, hx⟩ | ⟨hblack, rfl⟩
      · exact ⟨n, ⟨h1, Or.inl ⟨hred, hs, hr hred, hc⟩⟩, h2, fun h _ => hx h⟩
      · exact ⟨m, ⟨h1, Or.inr ⟨hblack, hc⟩⟩, h2, fun _ h => hblack h⟩

theorem red_ne_black {x : Option Color} (h : x = some .NODE_BLACK) : x ≠ some .NODE_RED := by
  rw [h]; simp

/-- What the walk knows when the parent is RED: the sibling and the uncle subtree have the
black height of the current subtree, the sibling root is not RED, the grandparent is not RED,
and the path above the grandparent is red-black for one more black node. -/
theorem pre_red_parent {col : Nat → Option Color} {f1 f2 : Frame} {c : List Frame} {X : Sh}
    (pre : Pre col (f1 :: f2 :: c) X) (hp : col f1.addr = some .NODE_RED) :
    RedRoot col X ∧ ∃ n, RB col X n ∧ RB col f1.sib n ∧ ¬ RedRoot col f1.sib ∧
      col f2.addr ≠ some .NODE_RED ∧ RB col f2.sib n ∧ CtxRB col c (n + 1) := by
  obtain ⟨hXr, n, ⟨hSrb, hf1⟩, hXrb⟩ := pre
  rcases hf1 with ⟨-, hSr, htop, hUrb, hf2⟩ | ⟨hne, -⟩
  · rcases hf2 with ⟨hg, -⟩ | ⟨hg, hh⟩
    · exact absurd hg htop
    · exact ⟨hXr, n, hXrb, hSrb, hSr, hg, hUrb, hh⟩
  · exact absurd hp hne

/-- Colours after the single right rotation at the grandparent (left-left case). -/
theorem rb_rotLL {col col2 : Nat → Option Color} {c : List Frame} {X S U : Sh} {p g : Nat}
    (hX : ∀ b ∈ X.addrs, col2 b = col b) (hS : ∀ b ∈ S.addrs, col2 b = col b)
    (hU : ∀ b ∈ U.addrs, col2 b = col b) (hc : ∀ b ∈ pathAddrs c, col2 b = col b)
    (hp2 : col2 p = some .NODE_BLACK) (hg2 : col2 g = some .NODE_RED)
    (hp : col p = some .NODE_RED) (hUr : ¬ RedRoot col U)
    (pre : Pre col (.L p S :: .L g U :: c) X) :
    ∃ N, RB col2 (plug c (.node X p (.node S g U))) N := by
  obtain ⟨-, n, hXrb, hSrb, hSr, -, hUrb, hctx⟩ := pre_red_parent pre hp
  simp only [Frame.sib] at hSrb hSr hUrb
  refine rb_plug c _ (n + 1) ((ctxRB_congr hc).mpr hctx) ?_
    (fun h => absurd h (red_ne_black hp2))
  exact ⟨n, (rb_congr hX).mpr hXrb,
    ⟨n, (rb_congr hS).mpr hSrb, (rb_congr hU).mpr hUrb,
      Or.inl ⟨hg2, rfl, fun h => hSr ((redRoot_congr hS).mp h),
        fun h => hUr ((redRoot_congr hU).mp h)⟩⟩,
    Or.inr ⟨red_ne_black hp2, rfl⟩⟩

/-- Colours after the single left rotation at the grandparent (right-right case). -/
theorem rb_rotRR {col col2 : Nat → Option Color} {c : List Frame} {X S U : Sh} {p g : Nat}
    (hX : ∀ b ∈ X.addrs, col2 b = col b) (hS : ∀ b ∈ S.addrs, col2 b = col b)
    (hU : ∀ b ∈ U.addrs, col2 b = col b) (hc : ∀ b ∈ pathAddrs c, col2 b = col b)
    (hp2 : col2 p = some .NODE_BLACK) (hg2 : col2 g = some .NODE_RED)
    (hp : col p = some .NODE_RED) (hUr : ¬ RedRoot col U)
    (pre : Pre col (.R S p :: .R U g :: c) X) :
    ∃ N, RB col2 (plug c (.node (.node U g S) p X)) N := by
  obtain ⟨-, n, hXrb, hSrb, hSr, -, hUrb, hctx⟩ := pre_red_parent pre hp
  simp only [Frame.sib] at hSrb hSr hUrb
  refine rb_plug c _ (n + 1) ((ctxRB_congr hc).mpr hctx) ?_
    (fun h => absurd h (red_ne_black hp2))
  exact ⟨n,
    ⟨n, (rb_congr hU).mpr hUrb, (rb_congr hS).mpr hSrb,
      Or.inl ⟨hg2, rfl, fun h => hUr ((redRoot_congr hU).mp h),
        fun h => hSr ((redRoot_congr hS).mp h)⟩⟩,
    (rb_congr hX).mpr hXrb, Or.inr ⟨red_ne_black hp2, rfl⟩⟩

/-- Colours after the double rotation of the left-right case. -/
theorem rb_rotLR {col col2 : Nat → Option Color} {c : List Frame} {l r S U : Sh} {a p g : Nat}
    (hl : ∀ b ∈ l.addrs, col2 b = col b) (hr : ∀ b ∈ r.addrs, col2 b = col b)
    (hS : ∀ b ∈ S.addrs, col2 b = col b)
    (hU : ∀ b ∈ U.addrs, col2 b = col b) (hc : ∀ b ∈ pathAddrs c, col2 b = col b)
    (ha2 : col2 a = some .NODE_BLACK) (hg2 : col2 g = some .NODE_RED)
    (hp2 : col2 p = some .NODE_RED)
    (hp : col p = some .NODE_RED) (hUr : ¬ RedRoot col U)
    (pre : Pre col (.R S p :: .L g U :: c) (.node l a r)) :
    ∃ N, RB col2 (plug c (.node (.node S p l) a (.node r g U))) N := by
  obtain ⟨hXr, n, hXrb, hSrb, hSr, -, hUrb, hctx⟩ := pre_red_parent pre hp
  simp only [Frame.sib] at hSrb hSr hUrb
  simp only [RedRoot] at hXr
  obtain ⟨m, hlrb, hrrb, hx⟩ := hXrb
  rcases hx with ⟨-, rfl, hlr, hrr⟩ | ⟨hne, -⟩
  · refine rb_plug c _ (n + 1) ((ctxRB_congr hc).mpr hctx) ?_
      (fun h => absurd h (red_ne_black ha2))
    exact ⟨n,
      ⟨n, (rb_congr hS).mpr hSrb, (rb_congr hl).mpr hlrb,
        Or.inl ⟨hp2, rfl, fun h => hSr ((redRoot_congr hS).mp h),
          fun h => hlr ((redRoot_congr hl).mp h)⟩⟩,
      ⟨n, (rb_congr hr).mpr hrrb, (rb_congr hU).mpr hUrb,
        Or.inl ⟨hg2, rfl, fun h => hrr ((redRoot_congr hr).mp h),
          fun h => hUr ((redRoot_congr hU).mp h)⟩⟩,
      Or.inr ⟨red_ne_black ha2, rfl⟩⟩
  · exact absurd hXr hne

/-- Colours after the double rotation of the right-left case. -/
theorem rb_rotRL {col col2 : Nat → Option Color} {c : List Frame} {l r S U : Sh} {a p g : Nat}
    (hl : ∀ b ∈ l.addrs, col2 b = col b) (hr : ∀ b ∈ r.addrs, col2 b = col b)
    (hS : ∀ b ∈ S.addrs, col2 b = col b)
    (hU : ∀ b ∈ U.addrs, col2 b = col b) (hc : ∀ b ∈ pathAddrs c, col2 b = col b)
    (ha2 : col2 a = some .NODE_BLACK) (hg2 : col2 g = some .NODE_RED)
    (hp2 : col2 p = some .NODE_RED)
    (hp : col p = some .NODE_RED) (hUr : ¬ RedRoot col U)
    (pre : Pre col (.L p S :: .R U g :: c) (.node l a r)) :
    ∃ N, RB col2 (plug c (.node (.node U g l) a (.node r p S))) N := by
  obtain ⟨hXr, n, hXrb, hSrb, hSr, -, hUrb, hctx⟩ := pre_red_parent pre hp
  simp only [Frame.sib] at hSrb hSr hUrb
  simp only [RedRoot] at hXr
  obtain ⟨m, hlrb, hrrb, hx⟩ := hXrb
  rcases hx with ⟨-, rfl, hlr, hrr⟩ | ⟨hne, -⟩
  · refine rb_plug c _ (n + 1) ((ctxRB_congr hc).mpr hctx) ?_
      (fun h => absurd h (red_ne_black ha2))
    exact ⟨n,
      ⟨n, (rb_congr hU).mpr hUrb, (rb_congr hl).mpr hlrb,
        Or.inl ⟨hg2, rfl, fun h => hUr ((redRoot_congr hU).mp h),
          fun h => hlr ((redRoot_congr hl).mp h)⟩⟩,
      ⟨n, (rb_congr hr).mpr hrrb, (rb_congr hS).mpr hSrb,
        Or.inl ⟨hp2, rfl, fun h => hrr ((redRoot_congr hr).mp h),
          fun h => hSr ((redRoot_congr hS).mp h)⟩⟩,
      Or.inr ⟨red_ne_black ha2, rfl⟩⟩
  · exact absurd hXr hne

/-- A red-black subtree with a RED root gains one black node when its root is painted
BLACK. -/
theorem rb_blacken {col col2 : Nat → Option Color} {l r : Sh} {u n : Nat}
    (hl : ∀ b ∈ l.addrs, col2 b = col b) (hr : ∀ b ∈ r.addrs, col2 b = col b)
    (hu : col u = some .NODE_RED) (hu2 : col2 u = some .NODE_BLACK)
    (h : RB col (.node l u r) n) : RB col2 (.node l u r) (n + 1) := by
  obtain ⟨m, h1, h2, h3⟩ := h
  rcases h3 with ⟨-, rfl, -, -⟩ | ⟨hne, -⟩
  · exact ⟨n, (rb_congr hl).mpr h1, (rb_congr hr).mpr h2, Or.inr ⟨red_ne_black hu2, rfl⟩⟩
  · exact absurd hu hne

/-- Colours after the recolouring step: parent and uncle BLACK, grandparent RED; the walk goes
on from the grandparent. -/
theorem rb_recolor {col col2 : Nat → Option Color} (f1 f2 : Frame) {c : List Frame}
    {X ul ur : Sh} {u : Nat}
    (hX : ∀ b ∈ X.addrs, col2 b = col b) (hS : ∀ b ∈ f1.sib.addrs, col2 b = col b)
    (hul : ∀ b ∈ ul.addrs, col2 b = col b) (hur : ∀ b ∈ ur.addrs, col2 b = col b)
    (hc : ∀ b ∈ pathAddrs c, col2 b = col b)
    (hp2 : col2 f1.addr = some .NODE_BLACK) (hg2 : col2 f2.addr = some .NODE_RED)
    (hu2 : col2 u = some .NODE_BLACK)
    (hp : col f1.addr = some .NODE_RED) (hU : f2.sib = .node ul u ur)
    (hu : col u = some .NODE_RED)
    (pre : Pre col (f1 :: f2 :: c) X) :
    Pre col2 c (f2.fill (f1.fill X)) := by
  obtain ⟨-, n, hXrb, hSrb, -, -, hUrb, hctx⟩ := pre_red_parent pre hp
  rw [hU] at hUrb
  have hU2 : RB col2 (.node ul u ur) (n + 1) := rb_blacken hul hur hu hu2 hUrb
  have hP2 : RB col2 (f1.fill X) (n + 1) := by
    cases f1 with
    | L p S => exact ⟨n, (rb_congr hX).mpr hXrb, (rb_congr hS).mpr hSrb,
        Or.inr ⟨red_ne_black hp2, rfl⟩⟩
    | R S p => exact ⟨n, (rb_congr hS).mpr hSrb, (rb_congr hX).mpr hXrb,
        Or.inr ⟨red_ne_black hp2, rfl⟩⟩
  have hPr : ¬ RedRoot col2 (f1.fill X) := by
    cases f1 <;> exact fun h => red_ne_black hp2 h
  have hUr : ¬ RedRoot col2 (.node ul u ur) := fun h => red_ne_black hu2 h
  refine ⟨?_, n + 1, (ctxRB_congr hc).mpr hctx, ?_⟩
  · cases f2 <;> exact hg2
  · cases f2 with
    | L g U =>
      simp only [Frame.sib] at hU
      subst hU
      exact ⟨n + 1, hP2, hU2, Or.inl ⟨hg2, rfl, hPr, hUr⟩⟩
    | R U g =>
      simp only [Frame.sib] at hU
      subst hU
      exact ⟨n + 1, hU2, hP2, Or.inl ⟨hg2, rfl, hUr, hPr⟩⟩

/-- The walk stops below a parent that is not RED: the whole tree is red-black. -/
theorem rb_stop_black {col : Nat → Option Color} {f : Frame} {c : List Frame} {X : Sh}
    (pre : Pre col (f :: c) X) (hp : col f.addr ≠ some .NODE_RED) :
    ∃ N, RB col (plug (f :: c) X) N := by
  obtain ⟨-, n, hctx, hX⟩ := pre
  exact rb_plug (f :: c) X n hctx hX (fun _ h => hp h)

/-- The walk stops below a RED root: painting the root BLACK makes the tree red-black. -/
theorem rb_stop_root {col col2 : Nat → Option Color} {f : Frame} {X : Sh}
    (hX : ∀ b ∈ X.addrs, col2 b = col b) (hS : ∀ b ∈ f.sib.addrs, col2 b = col b)
    (hp2 : col2 f.addr = some .NODE_BLACK) (pre : Pre col [f] X) :
    ∃ N, RB col2 (f.fill X) N := by
  obtain ⟨-, n, ⟨hS1, -⟩, hX1⟩ := pre
  cases f with
  | L p S => exact ⟨n + 1, n, (rb_congr hX).mpr hX1, (rb_congr hS).mpr hS1,
      Or.inr ⟨red_ne_black hp2, rfl⟩⟩
  | R S p => exact ⟨n + 1, n, (rb_congr hS).mpr hS1, (rb_congr hX).mpr hX1,
      Or.inr ⟨red_ne_black hp2, rfl⟩⟩

theorem mem_pathAddrs {c : List Frame} {b : Nat} :
    b ∈ pathAddrs c ↔ b ∈ pathL c ∨ b ∈ pathR c := by
  simp [pathAddrs]

theorem nodup_two_parts {L : List Nat} (hnd : L.Nodup) {b : Nat} {s1 s2 : List Nat}
    (h1 : b ∈ s1) (h2 : b ∈ s2) (hc : L.count b ≥ s1.count b + s2.count b) : False := by
  have := List.nodup_iff_count_le_one.mp hnd b
  have := List.one_le_count_iff.mpr h1
  have := List.one_le_count_iff.mpr h2
  omega

/-- The cells of the current subtree, of the two frames above it, of their sibling subtrees and
of the rest of the path are pairwise different. -/
theorem nodup_two_frames {f1 f2 : Frame} {c : List Frame} {X : Sh}
    (hnd : (plug (f1 :: f2 :: c) X).addrs.Nodup) :
    f1.addr ≠ f2.addr ∧ f1.addr ∉ f2.sib.addrs ∧ f2.addr ∉ f2.sib.addrs ∧
      f2.sib.addrs.Nodup ∧ X.addrs.Nodup ∧
      (∀ b ∈ X.addrs, b ≠ f1.addr ∧ b ≠ f2.addr ∧ b ∉ f2.sib.addrs) ∧
      (∀ b ∈ f1.sib.addrs, b ≠ f1.addr ∧ b ≠ f2.addr ∧ b ∉ f2.sib.addrs ∧ b ∉ X.addrs) ∧
      (∀ b ∈ pathAddrs c, b ≠ f1.addr ∧ b ≠ f2.addr ∧ b ∉ f2.sib.addrs ∧ b ∉ X.addrs) := by
  rw [addrs_plug] at hnd
  have hnd0 := hnd
  cases f1 <;> cases f2 <;>
    simp only [pathL, pathR, Sh.addrs, List.nodup_append, List.nodup_cons,
      List.mem_append, List.mem_cons, List.disjoint_append_left,
      List.disjoint_append_right, List.disjoint_cons_left, List.disjoint_cons_right,
      List.cons_append, List.mem_singleton, List.disjoint_singleton, not_or,
      List.disjoint_nil_left, List.disjoint_nil_right, List.not_mem_nil, List.nodup_nil,
      List.append_assoc] at hnd <;>
    simp only [Frame.addr, Frame.sib, mem_pathAddrs] <;>
    refine ⟨by tauto, by tauto, by tauto, by tauto, by tauto, ?_, ?_, ?_⟩ <;>
    intro b hb <;> refine ⟨?_, ?_, ?_⟩ <;> (try constructor) <;>
    first
    | (rintro rfl; tauto)
    | (intro hx
       refine nodup_two_parts hnd0 hb hx ?_
       simp only [pathL, pathR, Sh.addrs, List.count_append, List.count_cons]
       omega)
    | (intro hx
       rcases hb with hb | hb <;>
       · refine nodup_two_parts hnd0 hb hx ?_
         simp only [pathL, pathR, Sh.addrs, List.count_append, List.count_cons]
         omega)

theorem nodup_node {l r : Sh} {a : Nat} (h : (Sh.node l a r).addrs.Nodup) :
    (∀ b ∈ l.addrs, b ≠ a) ∧ (∀ b ∈ r.addrs, b ≠ a) := by
  simp only [Sh.addrs, List.nodup_append, List.nodup_cons, List.disjoint_cons_right] at h
  exact ⟨fun b hb e => h.2.2.1 (e ▸ hb), fun b hb e => h.2.1.1 (e ▸ hb)⟩

theorem ne_left {b x : Nat} {s : List Nat} (hx : x ∉ s) (hb : b ∈ s) : ¬ b = x :=
  fun e => hx (e ▸ hb)

theorem ne_right {b x : Nat} {s : List Nat} (hb : b ∉ s) (hx : x ∈ s) : ¬ b = x :=
  fun e => hb (e ▸ hx)

/-- The colours that a single rotation with its colour swap leaves alone. -/
theorem agree_rot1 (col : Nat → Option Color) {col2 : Nat → Option Color} (f1 f2 : Frame) {c : List Frame} {X : Sh}
    (hnd : (plug (f1 :: f2 :: c) X).addrs.Nodup)
    (hc : ∀ b, col2 b =
      if b = f2.addr then some .NODE_RED else if b = f1.addr then some .NODE_BLACK else col b) :
    (∀ b ∈ X.addrs, col2 b = col b) ∧ (∀ b ∈ f1.sib.addrs, col2 b = col b) ∧
      (∀ b ∈ f2.sib.addrs, col2 b = col b) ∧ (∀ b ∈ pathAddrs c, col2 b = col b) ∧
      col2 f1.addr = some .NODE_BLACK ∧ col2 f2.addr = some .NODE_RED := by
  obtain ⟨h12, h1U, h2U, -, -, hX, hS, hP⟩ := nodup_two_frames hnd
  refine ⟨fun b hb => ?_, fun b hb => ?_, fun b hb => ?_, fun b hb => ?_, ?_, ?_⟩
  · rw [hc, if_neg (hX b hb).2.1, if_neg (hX b hb).1]
  · rw [hc, if_neg (hS b hb).2.1, if_neg (hS b hb).1]
  · rw [hc, if_neg (ne_left h2U (hb)), if_neg (ne_left h1U (hb))]
  · rw [hc, if_neg (hP b hb).2.1, if_neg (hP b hb).1]
  · rw [hc, if_neg h12, if_pos rfl]
  · rw [hc, if_pos rfl]

/-- The colours that a double rotation with its colour swap leaves alone. -/
theorem agree_rot2 (col : Nat → Option Color) {col2 : Nat → Option Color} (f1 f2 : Frame) {c : List Frame}
    {l r : Sh} {a : Nat}
    (hnd : (plug (f1 :: f2 :: c) (.node l a r)).addrs.Nodup)
    (hc : ∀ b, col2 b =
      if b = f2.addr then some .NODE_RED else if b = a then some .NODE_BLACK else col b) :
    (∀ b ∈ l.addrs, col2 b = col b) ∧ (∀ b ∈ r.addrs, col2 b = col b) ∧
      (∀ b ∈ f1.sib.addrs, col2 b = col b) ∧
      (∀ b ∈ f2.sib.addrs, col2 b = col b) ∧ (∀ b ∈ pathAddrs c, col2 b = col b) ∧
      col2 a = some .NODE_BLACK ∧ col2 f2.addr = some .NODE_RED ∧
      col2 f1.addr = col f1.addr := by
  obtain ⟨h12, h1U, h2U, -, hXn, hX, hS, hP⟩ := nodup_two_frames hnd
  obtain ⟨hla, hra⟩ := nodup_node hXn
  have haX : a ∈ (Sh.node l a r).addrs := by simp [Sh.addrs]
  have hlX : ∀ b ∈ l.addrs, b ∈ (Sh.node l a r).addrs := fun b hb => by simp [Sh.addrs, hb]
  have hrX : ∀ b ∈ r.addrs, b ∈ (Sh.node l a r).addrs := fun b hb => by simp [Sh.addrs, hb]
  refine ⟨fun b hb => ?_, fun b hb => ?_, fun b hb => ?_, fun b hb => ?_, fun b hb => ?_,
    ?_, ?_, ?_⟩
  · rw [hc, if_neg (hX b (hlX b hb)).2.1, if_neg (hla b hb)]
  · rw [hc, if_neg (hX b (hrX b hb)).2.1, if_neg (hra b hb)]
  · rw [hc, if_neg (hS b hb).2.1, if_neg (ne_right (hS b hb).2.2.2 (haX))]
  · rw [hc, if_neg (ne_left h2U (hb)), if_neg (ne_left (hX a haX).2.2 (hb))]
  · rw [hc, if_neg (hP b hb).2.1, if_neg (ne_right (hP b hb).2.2.2 (haX))]
  · rw [hc, if_neg (hX a haX).2.1, if_pos rfl]
  · rw [hc, if_pos rfl]
  · rw [hc, if_neg h12, if_neg (Ne.symm (hX a haX).1)]

/-- The colours that the recolouring step leaves alone. -/
theorem agree_recolor (col : Nat → Option Color) {col2 : Nat → Option Color} (f1 f2 : Frame) {c : List Frame}
    {X ul ur : Sh} {u : Nat}
    (hnd : (plug (f1 :: f2 :: c) X).addrs.Nodup) (hU : f2.sib = .node ul u ur)
    (hc : ∀ b, col2 b =
      if b = u then some .NODE_BLACK else if b = f1.addr then some .NODE_BLACK
      else if b = f2.addr then some .NODE_RED else col b) :
    (∀ b ∈ X.addrs, col2 b = col b) ∧ (∀ b ∈ f1.sib.addrs, col2 b = col b) ∧
      (∀ b ∈ ul.addrs, col2 b = col b) ∧ (∀ b ∈ ur.addrs, col2 b = col b) ∧
      (∀ b ∈ pathAddrs c, col2 b = col b) ∧
      col2 f1.addr = some .NODE_BLACK ∧ col2 f2.addr = some .NODE_RED ∧
      col2 u = some .NODE_BLACK := by
  obtain ⟨h12, h1U, h2U, hUn, -, hX, hS, hP⟩ := nodup_two_frames hnd
  rw [hU] at h1U h2U hUn hX hS hP
  obtain ⟨hlu, hru⟩ := nodup_node hUn
  have huU : u ∈ (Sh.node ul u ur).addrs := by simp [Sh.addrs]
  have hlU : ∀ b ∈ ul.addrs, b ∈ (Sh.node ul u ur).addrs := fun b hb => by simp [Sh.addrs, hb]
  have hrU : ∀ b ∈ ur.addrs, b ∈ (Sh.node ul u ur).addrs := fun b hb => by simp [Sh.addrs, hb]
  refine ⟨fun b hb => ?_, fun b hb => ?_, fun b hb => ?_, fun b hb => ?_, fun b hb => ?_,
    ?_, ?_, ?_⟩
  · rw [hc, if_neg (ne_right (hX b hb).2.2 (huU)), if_neg (hX b hb).1,
      if_neg (hX b hb).2.1]
  · rw [hc, if_neg (ne_right (hS b hb).2.2.1 (huU)), if_neg (hS b hb).1,
      if_neg (hS b hb).2.1]
  · rw [hc, if_neg (hlu b hb), if_neg (ne_left h1U (hlU b hb)),
      if_neg (ne_left h2U (hlU b hb))]
  · rw [hc, if_neg (hru b hb), if_neg (ne_left h1U (hrU b hb)),
      if_neg (ne_left h2U (hrU b hb))]
  · rw [hc, if_neg (ne_right (hP b hb).2.2.1 (huU)), if_neg (hP b hb).1,
      if_neg (hP b hb).2.1]
  · rw [hc, if_neg (ne_right h1U (huU)), if_pos rfl]
  · rw [hc, if_neg (ne_right h2U (huU)), if_neg h12.symm, if_pos rfl]
  · rw [hc, if_pos rfl]

theorem not_redRoot_of {t : Tree κ ν} {U : Sh}
    (h : ∀ u, U.root = some u → colorAt t u ≠ some .NODE_RED) : ¬ RedRoot (colorAt t) U := by
  cases U with
  | nil => exact fun h => h
  | node l u r => exact fun hr => h u rfl hr

/-- One round of the fix-up loop below a RED parent: either the colours are pushed up and the
walk goes on from the grandparent, or a rotation makes the whole tree red-black and the
loop condition fails. -/
theorem balanceStep_rb {t : Tree κ ν} {f1 f2 : Frame} {c : List Frame} {l r : Sh} {a : Nat}
    (h : TreeWF t (plug (f1 :: f2 :: c) (.node l a r)))
    (hp : colorAt t f1.addr = some .NODE_RED)
    (pre : Pre (colorAt t) (f1 :: f2 :: c) (.node l a r)) :
    ∃ q t2, balanceStep t (some a) = .ok (q, t2) ∧
      ((∃ l2 a2 r2, q = some a2 ∧ TreeWF t2 (plug c (.node l2 a2 r2)) ∧
          Pre (colorAt t2) c (.node l2 a2 r2)) ∨
        (∃ T2, TreeWF t2 T2 ∧ (∃ N, RB (colorAt t2) T2 N) ∧ balanceCond t2 q = .ok false)) := by
  have hnd := h.nodup
  have hpU : ∀ U g, f2 = .R U g → ¬ some f1.addr = U.root := by
    intro U g e
    subst e
    obtain ⟨-, h1U, -⟩ := nodup_two_frames hnd
    exact not_mem_root h1U
  cases f2 with
  | L g U =>
    cases f1 with
    | L p S =>
      have hA : TreeWF t (plug (.L p S :: .L g U :: c) (.node l a r)) := h
      have hP : TreeWF t (plug (.L g U :: c) (.node (.node l a r) p S)) := h
      have hG : TreeWF t (plug c (.node (.node (.node l a r) p S) g U)) := h
      have hstep : balanceStep t (some a) = resolveRB t (some a) U.root := by
        simp only [balanceStep, getParent_wf hA, getParent_wf hP, getLeft_wf hG, top,
          Frame.addr, Sh.root_node, ok_bind, if_true, getRight_wf hG]
      simp only [Frame.addr] at hp
      by_cases hU : ∃ u, U.root = some u ∧ colorAt t u = some .NODE_RED
      · obtain ⟨u, hu, hcu⟩ := hU
        have hum := root_mem hu
        obtain ⟨t2, e, w, d, hc⟩ := resolveRB_recolor (a := a) (p := p) (g := g) h
          (by simp [getParent_wf hA, top, Frame.addr])
          (by simp [getParent_wf hP, top, Frame.addr])
          (by simp [addrs_plug, pathL, pathR, Sh.addrs])
          (by simp [addrs_plug, pathL, pathR, Sh.addrs])
          (by simp [addrs_plug, pathL, pathR, Sh.addrs, hum]) hcu
        cases U with
        | nil => simp [Sh.root] at hu
        | node ul u2 ur =>
          simp only [Sh.root_node, Option.some.injEq] at hu
          subst hu
          obtain ⟨hX, hS, hul, hur, hca, hp2, hg2, hu2⟩ :=
            agree_recolor (colorAt t) (.L p S) (.L g (.node ul u2 ur)) hnd rfl hc
          refine ⟨_, t2, hstep.trans e, Or.inl ⟨_, g, _, rfl, w, ?_⟩⟩
          exact rb_recolor (.L p S) (.L g (.node ul u2 ur)) hX hS hul hur hca hp2 hg2 hu2 hp rfl
            hcu pre
      · have hU2 : ∀ u, U.root = some u → colorAt t u ≠ some .NODE_RED :=
          fun u hu hc => hU ⟨u, hu, hc⟩
        obtain ⟨t2, e, w, d, hc⟩ := resolveRB_LL hG hU2
        obtain ⟨hX, hS, hUa, hca, hp2, hg2⟩ :=
          agree_rot1 (colorAt t) (.L p S) (.L g U) hnd hc
        refine ⟨_, t2, by rw [hstep, e], Or.inr ⟨_, w, ?_, ?_⟩⟩
        · exact rb_rotLL hX hS hUa hca hp2 hg2 hp (not_redRoot_of hU2) pre
        · have w2 : TreeWF t2 (plug (.L p (.node S g U) :: c) (.node l a r)) := w
          have hne : p ≠ g := by
            obtain ⟨h12, -, -, -, -, hX, -⟩ := nodup_two_frames hnd
            have haX : a ∈ (Sh.node l a r).addrs := by simp [Sh.addrs]
            exact h12
          rw [balanceCond_cons w2 (q := .NODE_BLACK) (by simp [hc, Frame.addr, hne])]
          simp
    | R S p =>
      have hA : TreeWF t (plug (.R S p :: .L g U :: c) (.node l a r)) := h
      have hP : TreeWF t (plug (.L g U :: c) (.node S p (.node l a r))) := h
      have hG : TreeWF t (plug c (.node (.node S p (.node l a r)) g U)) := h
      have hstep : balanceStep t (some a) = resolveRB t (some a) U.root := by
        simp only [balanceStep, getParent_wf hA, getParent_wf hP, getLeft_wf hG, top,
          Frame.addr, Sh.root_node, ok_bind, if_true, getRight_wf hG]
      simp only [Frame.addr] at hp
      by_cases hU : ∃ u, U.root = some u ∧ colorAt t u = some .NODE_RED
      · obtain ⟨u, hu, hcu⟩ := hU
        have hum := root_mem hu
        obtain ⟨t2, e, w, d, hc⟩ := resolveRB_recolor (a := a) (p := p) (g := g) h
          (by simp [getParent_wf hA, top, Frame.addr])
          (by simp [getParent_wf hP, top, Frame.addr])
          (by simp [addrs_plug, pathL, pathR, Sh.addrs])
          (by simp [addrs_plug, pathL, pathR, Sh.addrs])
          (by simp [addrs_plug, pathL, pathR, Sh.addrs, hum]) hcu
        cases U with
        | nil => simp [Sh.root] at hu
        | node ul u2 ur =>
          simp only [Sh.root_node, Option.some.injEq] at hu
          subst hu
          obtain ⟨hX, hS, hul, hur, hca, hp2, hg2, hu2⟩ :=
            agree_recolor (colorAt t) (.R S p) (.L g (.node ul u2 ur)) hnd rfl hc
          refine ⟨_, t2, hstep.trans e, Or.inl ⟨_, g, _, rfl, w, ?_⟩⟩
          exact rb_recolor (.R S p) (.L g (.node ul u2 ur)) hX hS hul hur hca hp2 hg2 hu2 hp rfl
            hcu pre
      · have hU2 : ∀ u, U.root = some u → colorAt t u ≠ some .NODE_RED :=
          fun u hu hc => hU ⟨u, hu, hc⟩
        obtain ⟨t2, e, w, d, hc⟩ := resolveRB_LR hG hU2
        obtain ⟨hl, hr, hS, hUa, hca, ha2, hg2, hp2⟩ :=
          agree_rot2 (colorAt t) (.R S p) (.L g U) hnd hc
        refine ⟨_, t2, by rw [hstep, e], Or.inr ⟨_, w, ?_, ?_⟩⟩
        · exact rb_rotLR hl hr hS hUa hca ha2 hg2 (hp2.trans hp) hp (not_redRoot_of hU2) pre
        · have w2 : TreeWF t2 (plug (.L a (.node r g U) :: c) (.node S p l)) := w
          have hne : a ≠ g := by
            obtain ⟨h12, -, -, -, -, hX, -⟩ := nodup_two_frames hnd
            have haX : a ∈ (Sh.node l a r).addrs := by simp [Sh.addrs]
            exact (hX a haX).2.1
          rw [balanceCond_cons w2 (q := .NODE_BLACK) (by simp [hc, Frame.addr, hne])]
          simp
  | R U g =>
    have hpU := hpU U g rfl
    cases f1 with
    | L p S =>
      have hA : TreeWF t (plug (.L p S :: .R U g :: c) (.node l a r)) := h
      have hP : TreeWF t (plug (.R U g :: c) (.node (.node l a r) p S)) := h
      have hG : TreeWF t (plug c (.node U g (.node (.node l a r) p S))) := h
      simp only [Frame.addr] at hpU
      have hstep : balanceStep t (some a) = resolveRB t (some a) U.root := by
        simp only [balanceStep, getParent_wf hA, getParent_wf hP, getLeft_wf hG, top,
          Frame.addr, ok_bind, hpU, if_false]
      simp only [Frame.addr] at hp
      by_cases hU : ∃ u, U.root = some u ∧ colorAt t u = some .NODE_RED
      · obtain ⟨u, hu, hcu⟩ := hU
        have hum := root_mem hu
        obtain ⟨t2, e, w, d, hc⟩ := resolveRB_recolor (a := a) (p := p) (g := g) h
          (by simp [getParent_wf hA, top, Frame.addr])
          (by simp [getParent_wf hP, top, Frame.addr])
          (by simp [addrs_plug, pathL, pathR, Sh.addrs])
          (by simp [addrs_plug, pathL, pathR, Sh.addrs])
          (by simp [addrs_plug, pathL, pathR, Sh.addrs, hum]) hcu
        cases U with
        | nil => simp [Sh.root] at hu
        | node ul u2 ur =>
          simp only [Sh.root_node, Option.some.injEq] at hu
          subst hu
          obtain ⟨hX, hS, hul, hur, hca, hp2, hg2, hu2⟩ :=
            agree_recolor (colorAt t) (.L p S) (.R (.node ul u2 ur) g) hnd rfl hc
          refine ⟨_, t2, hstep.trans e, Or.inl ⟨_, g, _, rfl, w, ?_⟩⟩
          exact rb_recolor (.L p S) (.R (.node ul u2 ur) g) hX hS hul hur hca hp2 hg2 hu2 hp rfl
            hcu pre
      · have hU2 : ∀ u, U.root = some u → colorAt t u ≠ some .NODE_RED :=
          fun u hu hc => hU ⟨u, hu, hc⟩
        obtain ⟨t2, e, w, d, hc⟩ := resolveRB_RL hG hU2
        obtain ⟨hl, hr, hS, hUa, hca, ha2, hg2, hp2⟩ :=
          agree_rot2 (colorAt t) (.L p S) (.R U g) hnd hc
        refine ⟨_, t2, by rw [hstep, e], Or.inr ⟨_, w, ?_, ?_⟩⟩
        · exact rb_rotRL hl hr hS hUa hca ha2 hg2 (hp2.trans hp) hp (not_redRoot_of hU2) pre
        · have w2 : TreeWF t2 (plug (.R (.node U g l) a :: c) (.node r p S)) := w
          have hne : a ≠ g := by
            obtain ⟨h12, -, -, -, -, hX, -⟩ := nodup_two_frames hnd
            have haX : a ∈ (Sh.node l a r).addrs := by simp [Sh.addrs]
            exact (hX a haX).2.1
          rw [balanceCond_cons w2 (q := .NODE_BLACK) (by simp [hc, Frame.addr, hne])]
          simp
    | R S p =>
      have hA : TreeWF t (plug (.R S p :: .R U g :: c) (.node l a r)) := h
      have hP : TreeWF t (plug (.R U g :: c) (.node S p (.node l a r))) := h
      have hG : TreeWF t (plug c (.node U g (.node S p (.node l a r)))) := h
      simp only [Frame.addr] at hpU
      have hstep : balanceStep t (some a) = resolveRB t (some a) U.root := by
        simp only [balanceStep, getParent_wf hA, getParent_wf hP, getLeft_wf hG, top,
          Frame.addr, ok_bind, hpU, if_false]
      simp only [Frame.addr] at hp
      by_cases hU : ∃ u, U.root = some u ∧ colorAt t u = some .NODE_RED
      · obtain ⟨u, hu, hcu⟩ := hU
        have hum := root_mem hu
        obtain ⟨t2, e, w, d, hc⟩ := resolveRB_recolor (a := a) (p := p) (g := g) h
          (by simp [getParent_wf hA, top, Frame.addr])
          (by simp [getParent_wf hP, top, Frame.addr])
          (by simp [addrs_plug, pathL, pathR, Sh.addrs])
          (by simp [addrs_plug, pathL, pathR, Sh.addrs])
          (by simp [addrs_plug, pathL, pathR, Sh.addrs, hum]) hcu
        cases U with
        | nil => simp [Sh.root] at hu
        | node ul u2 ur =>
          simp only [Sh.root_node, Option.some.injEq] at hu
          subst hu
          obtain ⟨hX, hS, hul, hur, hca, hp2, hg2, hu2⟩ :=
            agree_recolor (colorAt t) (.R S p) (.R (.node ul u2 ur) g) hnd rfl hc
          refine ⟨_, t2, hstep.trans e, Or.inl ⟨_, g, _, rfl, w, ?_⟩⟩
          exact rb_recolor (.R S p) (.R (.node ul u2 ur) g) hX hS hul hur hca hp2 hg2 hu2 hp rfl
            hcu pre
      · have hU2 : ∀ u, U.root = some u → colorAt t u ≠ some .NODE_RED :=
          fun u hu hc => hU ⟨u, hu, hc⟩
        obtain ⟨t2, e, w, d, hc⟩ := resolveRB_RR hG hU2
        obtain ⟨hX, hS, hUa, hca, hp2, hg2⟩ :=
          agree_rot1 (colorAt t) (.R S p) (.R U g) hnd hc
        refine ⟨_, t2, by rw [hstep, e], Or.inr ⟨_, w, ?_, ?_⟩⟩
        · exact rb_rotRR hX hS hUa hca hp2 hg2 hp (not_redRoot_of hU2) pre
        · have w2 : TreeWF t2 (plug (.R (.node U g S) p :: c) (.node l a r)) := w
          have hne : p ≠ g := by
            obtain ⟨h12, -, -, -, -, hX, -⟩ := nodup_two_frames hnd
            have haX : a ∈ (Sh.node l a r).addrs := by simp [Sh.addrs]
            exact h12
          rw [balanceCond_cons w2 (q := .NODE_BLACK) (by simp [hc, Frame.addr, hne])]
          simp

theorem rep_unique {m : Nat → Option (Node κ ν)} :
    ∀ {S S2 : Sh} {par par2 : Ptr}, Rep m par S → Rep m par2 S2 → S.root = S2.root →
      S = S2 := by
  intro S
  induction S with
  | nil =>
    intro S2 par par2 _ _ hr
    cases S2 with
    | nil => rfl
    | node l a r => simp [Sh.root] at hr
  | node l a r ihl ihr =>
    intro S2 par par2 h1 h2 hr
    cases S2 with
    | nil => simp [Sh.root] at hr
    | node l2 a2 r2 =>
      simp only [Sh.root_node, Option.some.injEq] at hr
      subst hr
      obtain ⟨n, hn, -, hl, hrr, r1, r2'⟩ := h1
      obtain ⟨n2, hn2, -, hl2, hrr2, r3, r4⟩ := h2
      rw [hn] at hn2
      cases hn2
      rw [ihl r1 r3 (hl.symm.trans hl2), ihr r2' r4 (hrr.symm.trans hrr2)]

/-- A heap holds at most one tree below its root pointer. -/
theorem treeWF_unique {t : Tree κ ν} {T T2 : Sh} (h : TreeWF t T) (h2 : TreeWF t T2) :
    T = T2 :=
  rep_unique h.rep h2.rep (h.root.symm.trans h2.root)

theorem balanceLoop_rb (fuel : Nat) :
    ∀ {t : Tree κ ν} {c : List Frame} {l r : Sh} {a : Nat},
      TreeWF t (plug c (.node l a r)) → Pre (colorAt t) c (.node l a r) → c.length ≤ fuel →
      ∃ t2 T2, balanceLoop fuel t (some a) = .ok t2 ∧ TreeWF t2 T2 ∧
        AlmostRB (colorAt t2) T2 := by
  induction fuel with
  | zero =>
    intro t c l r a h pre hf
    have hc : c = [] := List.length_eq_zero.mp (Nat.le_zero.mp hf)
    subst hc
    obtain ⟨-, n, -, hX⟩ := pre
    exact ⟨t, _, balanceLoop_done (balanceCond_root h) 0, h, Or.inl ⟨n, hX⟩⟩
  | succ n ih =>
    intro t c l r a h pre hf
    match c, h, pre, hf with
    | [], h, pre, _ =>
      obtain ⟨-, n, -, hX⟩ := pre
      exact ⟨t, _, balanceLoop_done (balanceCond_root h) _, h, Or.inl ⟨n, hX⟩⟩
    | [f], h, pre, _ =>
      obtain ⟨col, hcol⟩ := colorAt_of_wf (a := f.addr) h
        (by cases f <;> simp [addrs_plug, pathL, pathR, Frame.addr])
      have hb := balanceCond_cons h hcol
      simp only [List.isEmpty_nil, Bool.not_true, Bool.and_false] at hb
      refine ⟨t, _, balanceLoop_done hb _, h, ?_⟩
      by_cases hred : col = .NODE_RED
      · exact Or.inr ⟨f, _, rfl, by rw [hcol, hred], pre⟩
      · exact Or.inl (rb_stop_black pre (by rw [hcol]; simpa using hred))
    | f1 :: f2 :: c, h, pre, hf =>
      obtain ⟨col, hcol⟩ := colorAt_of_wf (a := f1.addr) h
        (by cases f1 <;> cases f2 <;> simp [addrs_plug, pathL, pathR, Frame.addr])
      have hb := balanceCond_cons h hcol
      by_cases hred : col = .NODE_RED
      · simp only [hred, decide_True, List.isEmpty_cons, Bool.not_false, Bool.and_self] at hb
        obtain ⟨q, t2, e, hq⟩ := balanceStep_rb h (by rw [hcol, hred]) pre
        rcases hq with ⟨l2, a2, r2, hq, w, pre2⟩ | ⟨T2, w, hrb, hq⟩
        · subst hq
          obtain ⟨t3, T3, e3, w3, h3⟩ := ih w pre2 (by simp at hf; omega)
          exact ⟨t3, T3, by simp [balanceLoop, hb, e, e3], w3, h3⟩
        · exact ⟨t2, T2, by simp [balanceLoop, hb, e, balanceLoop_done hq], w, Or.inl hrb⟩
      · simp only [hred, decide_False, Bool.false_and] at hb
        exact ⟨t, _, balanceLoop_done hb _, h,
          Or.inl (rb_stop_black pre (by rw [hcol]; simpa using hred))⟩

theorem redAt_root_iff (t : Tree κ ν) (S : Sh) : RedAt t S.root ↔ RedRoot (colorAt t) S := by
  cases S with
  | nil => simp [RedAt, RedRoot, Sh.root]
  | node l a r => simp [RedAt, RedRoot, Sh.root]

/-- The fix-up after an insertion: when only the new RED node and its parent may break the
red-black conditions, `balanceTree` returns a red-black tree. -/
theorem balanceTree_rb {t : Tree κ ν} {c : List Frame} {l r : Sh} {a : Nat}
    (h : TreeWF t (plug c (.node l a r)))
    (hfuel : (plug c (.node l a r)).addrs.length ≤ t.brk)
    (pre : Pre (colorAt t) c (.node l a r)) :
    ∃ t2 T2, balanceTree t (some a) = .ok t2 ∧ TreeWF t2 T2 ∧ ∃ N, RB (colorAt t2) T2 N := by
  have hred : colorAt t a = some .NODE_RED := pre.1
  have hlen : c.length ≤ t.brk := by have := length_path_lt c l r a; omega
  obtain ⟨t1, T1, e1, w1, post⟩ := balanceLoop_rb t.brk h pre hlen
  obtain ⟨t1', T1', e1', w1', ha1, -⟩ := balanceLoop_wf t.brk h hlen
  rw [e1] at e1'
  cases e1'
  have hTT := treeWF_unique w1 w1'
  subst hTT
  have hne : T1.addrs ≠ [] := by
    rw [ha1]; simp [addrs_plug, Sh.addrs]
  cases T1 with
  | nil => simp [Sh.addrs] at hne
  | node L x R =>
    have w0 : TreeWF t1 (plug [] (.node L x R)) := w1
    obtain ⟨n, hn, -, hl, hr⟩ := wf_cell w0
    have hroot : t1.pr = some x := w1.root
    have hcx : colorAt t1 x = some n.color := by simp [colorAt, hn]
    have hxm : x ∈ (Sh.node L x R).addrs := by simp [Sh.addrs]
    obtain ⟨bl, ebl, hbl⟩ := isRedPtr_wf (p := L.root) w1
      (fun u hu => by simp [Sh.addrs, root_mem hu])
    obtain ⟨br, ebr, hbr⟩ := isRedPtr_wf (p := R.root) w1
      (fun u hu => by simp [Sh.addrs, root_mem hu])
    rw [redAt_root_iff] at hbl hbr
    obtain ⟨t2, e2, w2, d2, c2⟩ := setColor_wf w1 hxm .NODE_BLACK
    have hstart : balanceTree t (some a) =
        (do
          let c ← t1.getColor t1.pr
          if c = .NODE_RED then
            let l ← t1.getLeft t1.pr
            let lRed ← isRedPtr t1 l
            if lRed then t1.setColor t1.pr .NODE_BLACK
            else
              let r ← t1.getRight t1.pr
              let rRed ← isRedPtr t1 r
              if rRed then t1.setColor t1.pr .NODE_BLACK else pure t1
          else pure t1) := by
      simp only [balanceTree, getColor_of hred, ok_bind, if_true, e1]
    rw [hstart, hroot]
    simp only [getColor_of hcx, ok_bind, getLeft_wf w0, getRight_wf w0, ebl, ebr, e2, pure_eq_ok]
    have hnd := w1.nodup
    obtain ⟨hLx, hRx⟩ := nodup_node hnd
    have hL2 : ∀ b ∈ L.addrs, colorAt t2 b = colorAt t1 b := fun b hb => by
      rw [c2, if_neg (hLx b hb)]
    have hR2 : ∀ b ∈ R.addrs, colorAt t2 b = colorAt t1 b := fun b hb => by
      rw [c2, if_neg (hRx b hb)]
    have hx2 : colorAt t2 x = some .NODE_BLACK := by rw [c2, if_pos rfl]
    rcases post with ⟨N, hrb⟩ | ⟨f, X, hT, hfr, pre1⟩
    · by_cases hcol : n.color = .NODE_RED
      · obtain ⟨m, h1, h2, h3⟩ := hrb
        rcases h3 with ⟨-, rfl, hLr, hRr⟩ | ⟨hne2, -⟩
        · have h1f : bl = false := by
            cases bl with
            | false => rfl
            | true => exact absurd (hbl.mp rfl) hLr
          have h2f : br = false := by
            cases br with
            | false => rfl
            | true => exact absurd (hbr.mp rfl) hRr
          simp only [hcol, if_true, h1f, h2f, Bool.false_eq_true, if_false]
          exact ⟨t1, _, rfl, w1, _, ⟨_, h1, h2, Or.inl ⟨by rw [hcx, hcol], rfl, hLr, hRr⟩⟩⟩
        · exact absurd (by rw [hcx, hcol]) hne2
      · simp only [hcol, if_false]
        exact ⟨t1, _, rfl, w1, N, hrb⟩
    · have hcol : n.color = .NODE_RED := by
        have hfx : f.addr = x := by
          cases f <;> simp only [Frame.fill, Sh.node.injEq] at hT <;> simp [Frame.addr, hT]
        rw [hfx, hcx] at hfr
        simpa using hfr
      have hres : ∃ N, RB (colorAt t2) (.node L x R) N := by
        cases f with
        | L p S =>
          simp only [Frame.fill, Sh.node.injEq] at hT
          obtain ⟨rfl, rfl, rfl⟩ := hT
          exact rb_stop_root (f := .L x R) hL2 hR2 hx2 pre1
        | R S p =>
          simp only [Frame.fill, Sh.node.injEq] at hT
          obtain ⟨rfl, rfl, rfl⟩ := hT
          exact rb_stop_root (f := .R L x) hR2 hL2 hx2 pre1
      have hone : bl = true ∨ br = true := by
        cases f with
        | L p S =>
          simp only [Frame.fill, Sh.node.injEq] at hT
          obtain ⟨rfl, rfl, rfl⟩ := hT
          exact Or.inl (hbl.mpr pre1.1)
        | R S p =>
          simp only [Frame.fill, Sh.node.injEq] at hT
          obtain ⟨rfl, rfl, rfl⟩ := hT
          exact Or.inr (hbr.mpr pre1.1)
      simp only [hcol, if_true]
      by_cases h1 : bl = true
      · simp only [h1, if_true]
        exact ⟨t2, _, rfl, w2, hres⟩
      · simp only [h1, if_false]
        have h2 : br = true := hone.resolve_left h1
        simp only [h2, if_true]
        exact ⟨t2, _, rfl, w2, hres⟩

theorem path_subset_plug (c : List Frame) (s : Sh) :
    ∀ b ∈ pathAddrs c, b ∈ (plug c s).addrs := by
  intro b hb
  rw [mem_pathAddrs] at hb
  rw [addrs_plug]
  simp only [List.mem_append]
  tauto

/-- A new RED leaf in a red-black tree: only the leaf and its parent may both be RED. -/
theorem pre_attach (col : Nat → Option Color) {col2 : Nat → Option Color} {f : Frame} {c : List Frame} {z N : Nat}
    (hagree : ∀ b ∈ (plug (f :: c) .nil).addrs, col2 b = col b)
    (hz : col2 z = some .NODE_RED) (h : RB col (plug (f :: c) .nil) N) :
    Pre col2 (f :: c) (.node .nil z .nil) := by
  obtain ⟨n, hctx, hnil, -⟩ := rb_unplug (f :: c) .nil N h
  have hn : n = 0 := hnil
  subst hn
  refine ⟨hz, 0, ?_, ⟨0, rfl, rfl, Or.inl ⟨hz, rfl, fun h => h, fun h => h⟩⟩⟩
  exact (ctxRB_congr (fun b hb => hagree b (path_subset_plug (f :: c) .nil b hb))).mpr hctx

theorem colorAt_attach {t t3 : Tree κ ν} (k : κ) (sk : Nat) (pv : Option ν) (sv : Nat)
    (s3 : SameCore (initState t k sk pv sv) t3) :
    colorAt t3 t.brk = some .NODE_RED ∧ ∀ b, b ≠ t.brk → colorAt t3 b = colorAt t b := by
  constructor
  · rw [s3.colorAt_eq]
    simp [colorAt, initState_cell, newCell]
  · intro b hb
    rw [s3.colorAt_eq, initState_colorAt t k sk pv sv hb]

/-- C12: after inserting 1 to 6 in ascending order the tree is red-black with a BLACK root and
black height 2; `treeDelete(1)` removes a BLACK leaf without any repair, so afterwards the
paths through the left child of the root cross no BLACK node below the root and those through
the right child cross one: the black heights differ. -/
theorem treeDelete_breaks_black_height :
    returns insert1to6 = .ok [1, 1, 1, 1, 1, 1] ∧
    look insert1to6 (fun t => t.getColor t.pr) = .ok .NODE_BLACK ∧
    look insert1to6 (fun t => pure (redRedFree t t.brk t.pr)) = .ok true ∧
    look insert1to6 (fun t => pure (blackHeight t t.brk t.pr)) = .ok (some 2) ∧
    returns insert1to6Delete1 = .ok 1 ∧
    look insert1to6Delete1 (fun t => t.getColor t.pr) = .ok .NODE_BLACK ∧
    look insert1to6Delete1 (fun t => pure (redRedFree t t.brk t.pr)) = .ok true ∧
    look insert1to6Delete1 (fun t => (t.getLeft t.pr).map (blackHeight t t.brk)) =
      .ok (some 0) ∧
    look insert1to6Delete1 (fun t => (t.getRight t.pr).map (blackHeight t t.brk)) =
      .ok (some 1) ∧
    look insert1to6Delete1 (fun t => pure (blackHeight t t.brk t.pr)) = .ok none := by
  decide

/-- C13: after inserting 1, 2, 3 and deleting 2 (all calls return 1) two keys are live, in the
cells 1 and 2, but the head reference of the list still denotes cell 0, which `treeDelete`
has freed, so following `pNext` from the head reads freed memory. -/
theorem treeDelete_breaks_list :
    returns insert123Delete2 = .ok [1, 1, 1, 1] ∧
    look insert123Delete2 (fun t => pure (treeLength t)) = .ok 2 ∧
    look insert123Delete2 (fun t => pure t.ph) = .ok (some 0) ∧
    look insert123Delete2 (fun t => pure (t.mem 0).isNone) = .ok true ∧
    look insert123Delete2 (fun t => pure ((t.mem 1).isSome, (t.mem 2).isSome)) =
      .ok (true, true) ∧
    look insert123Delete2 (fun t => t.getNext t.ph) = .error .useAfterFree := by
  decide

/-- C14: the recorded lengths are never updated.  After `treeInsert(2, v, 0)` and
`treeUpdate(2, v2, 3)` the node holds a container-owned copy as value with recorded length 0;
after the two-children `treeDelete(2)` of the second scenario the surviving node holds a
container-owned copy of key 1 with recorded key length 0. -/
theorem recorded_lengths_go_stale :
    returns insert2UpdateCopy = .ok [1, 1] ∧
    look insert2UpdateCopy (fun t => treeValue t (some 2)) = .ok (some 8) ∧
    look insert2UpdateCopy (fun t => pure (valueRecord t 0)) = .ok (some (0, some true)) ∧
    returns insertMixedDelete2 = .ok [1, 1, 1, 1] ∧
    look insertMixedDelete2 (fun t => getNodeByKey t (some 1)) = .ok (some 0) ∧
    look insertMixedDelete2 (fun t => pure (keyRecord t 0)) = .ok (some (0, some true)) := by
  decide

/-- C15: on the insert-only state after 2, 1, 3 `treeFree` gives the empty handle, and so does
deleting the only key of a one-key container; but on the state after 2, 1, 3 and
`treeDelete(2)` the head of the list is a freed node and `treeFree` reads it. -/
theorem treeFree_after_delete_faults :
    look insert213 (fun t => (treeFree t).map handleOf) =
      .ok ⟨0, none, none, none, none, none⟩ ∧
    returns insert2Delete2 = .ok [1, 1] ∧
    look insert2Delete2 (fun t => pure (handleOf t)) = .ok ⟨0, none, none, none, none, none⟩ ∧
    look insert2Delete2 (fun t => treeValue t (some 2)) = .ok none ∧
    returns (andThen insert2Delete2 treeArray) = .ok none ∧
    returns (andThen insert2Delete2 treeArraySorted) = .ok none ∧
    returns insert213Delete2 = .ok 1 ∧
    look insert213Delete2 (fun t => (treeFree t).map handleOf) = .error .useAfterFree := by
  decide

/-- C20: after inserting 1, 2 and deleting the root 1, whose only child is 2 (all calls return
1), the promoted root still has a parent reference, and it denotes the freed node. -/
theorem treeDelete_leaves_root_parent :
    returns insert12Delete1 = .ok [1, 1, 1] ∧
    look insert12Delete1 (fun t => pure t.pr) = .ok (some 1) ∧
    look insert12Delete1 (fun t => keyOf ((t.mem 1).bind (fun n => n.pKey))) = .ok 2 ∧
    look insert12Delete1 (fun t => t.getParent t.pr) = .ok (some 0) ∧
    look insert12Delete1 (fun t => pure (t.mem 0).isNone) = .ok true := by
  decide

theorem blackHeight_of_rb {t : Tree κ ν} :
    ∀ {S : Sh} {par : Ptr} {n : Nat} (fuel : Nat), Rep t.mem par S → RB (colorAt t) S n →
      S.addrs.length ≤ fuel → blackHeight t fuel S.root = some n := by
  intro S
  induction S with
  | nil =>
    intro par n fuel _ h _
    have hn : n = 0 := h
    subst hn
    cases fuel <;> rfl
  | node l a r ihl ihr =>
    intro par n fuel hrep hrb hlen
    cases fuel with
    | zero => simp [Sh.addrs] at hlen
    | succ fuel =>
      obtain ⟨nd, hnd, -, hl, hr, repl, repr⟩ := hrep
      obtain ⟨m, hlm, hrm, hcase⟩ := hrb
      have h1 : blackHeight t fuel nd.pLeft = some m := by
        rw [hl]
        exact ihl fuel repl hlm (by
          simp only [Sh.addrs, List.length_append, List.length_cons] at hlen; omega)
      have h2 : blackHeight t fuel nd.pRight = some m := by
        rw [hr]
        exact ihr fuel repr hrm (by
          simp only [Sh.addrs, List.length_append, List.length_cons] at hlen; omega)
      have hcol : colorAt t a = some nd.color := by simp [colorAt, hnd]
      simp only [Sh.root_node, blackHeight, hnd, h1, h2, if_true]
      rcases hcase with ⟨hred, rfl, -, -⟩ | ⟨hblack, rfl⟩
      · rw [hcol] at hred
        simp only [Option.some.injEq] at hred
        simp [hred]
      · rw [hcol] at hblack
        have : nd.color = .NODE_BLACK := by
          cases hc : nd.color with
          | NODE_RED => rw [hc] at hblack; exact absurd rfl hblack
          | NODE_BLACK => rfl
        simp [this]

/-- In every container state in which the container's search (`getNodeByKey`) finds no node
for the key `k`, `treeUpdate` and `treeDelete` return 0 and give back the state they were
called on, and `treeValue` returns `NULL`. -/
theorem noop_of_search_none (t : Tree κ ν) (k : κ) (pValue : Option ν) (sizeTvalue : Nat)
    (h : getNodeByKey t (some k) = .ok none) :
    treeUpdate t (some k) pValue sizeTvalue = .ok (0, t) ∧
      treeDelete t (some k) = .ok (0, t) ∧ treeValue t (some k) = .ok none := by
  refine ⟨?_, ?_, treeValue_of_absent h⟩
  · simp [treeUpdate, h]
  · simp [treeDelete, h]

/-- After a sequence of inserts into a fresh container the search finds no node for a key
that compares unequal to every inserted key. -/
theorem getNodeByKey_absent_after_inserts (cmp : κ → κ → Int) (hC : TotalCmp cmp)
    (calls : List (InsertCall κ ν))
    (hv : ∀ c ∈ calls, Readable c.pKey c.sizeTkey c.pValue c.sizeTvalue)
    (k : κ) (hk : ∀ c ∈ calls, cmp c.pKey k ≠ 0) :
    ∃ t, insertAll (fresh cmp) calls = .ok t ∧ getNodeByKey t (some k) = .ok none := by
  obtain ⟨t, T, L, e, hI, hc, hcmp, -⟩ := insertAll_fresh cmp hC calls hv
  have hC2 : TotalCmp t.pfCmp := hcmp ▸ hC
  rcases getNodeByKey_spec hC2 hI.wf hI.keys hI.bst hI.fuel k with
    ⟨b, hb, kb, hkb, h0, -⟩ | ⟨-, hg⟩
  · exfalso
    obtain ⟨d, hd, hdk, -⟩ := forall2_mem_left hc (hI.perm.mem_iff.mpr hb)
    rw [hkb] at hdk
    cases hdk
    have hnone : calls.find? (sameKey cmp k) = none := by
      rw [List.find?_eq_none]
      intro c hcm
      simpa [sameKey] using hk c hcm
    rw [← firsts_find hC k calls, List.find?_eq_none] at hnone
    have := hnone d hd
    rw [hcmp] at h0
    simp [sameKey, h0] at this
  · exact ⟨t, e, hg⟩

/-- In the state after test case 7 the search finds nothing for key 12, and the three calls
leave the state alone. -/
theorem noop_of_search_none_example :
    getNodeByKey (finalState (fresh compareDescendUL) oneToNine) (some 12) = .ok none ∧
      treeUpdate (finalState (fresh compareDescendUL) oneToNine) (some 12) (some "x") 0 =
        .ok (0, finalState (fresh compareDescendUL) oneToNine) ∧
      treeDelete (finalState (fresh compareDescendUL) oneToNine) (some 12) =
        .ok (0, finalState (fresh compareDescendUL) oneToNine) ∧
      treeValue (finalState (fresh compareDescendUL) oneToNine) (some 12) = .ok none :=
  ⟨by decide,
    noop_of_search_none (finalState (fresh compareDescendUL) oneToNine) 12 (some "x") 0
      (by decide)⟩

/-- C17: the concrete scenario, with copied and with borrowed keys and values: after the three
inserts the length is 3, the sorted snapshot is Kennedy, Scalia, Thomas and the insertion
order snapshot is Scalia, Kennedy, Thomas; after `treeDelete(Scalia)`, which returns 1, the
length is 2, `treeValue(Scalia)` is `NULL` and the sorted snapshot is Kennedy, Thomas. -/
theorem three_justices_scenario (copy : Bool) :
    returns (threeJustices copy) = .ok [1, 1, 1] ∧
    look (threeJustices copy) (fun t => pure (treeLength t)) = .ok 3 ∧
    returns (andThen (threeJustices copy) treeArraySorted) =
      .ok (some [some "Kennedy", some "Scalia", some "Thomas"]) ∧
    returns (andThen (threeJustices copy) treeArray) =
      .ok (some [some "Scalia", some "Kennedy", some "Thomas"]) ∧
    returns (threeJusticesDelete copy) = .ok 1 ∧
    look (threeJusticesDelete copy) (fun t => pure (treeLength t)) = .ok 2 ∧
    look (threeJusticesDelete copy) (fun t => treeValue t (some "Scalia")) = .ok none ∧
    returns (andThen (threeJusticesDelete copy) treeArraySorted) =
      .ok (some [some "Kennedy", some "Thomas"]) := by
  cases copy <;> decide

theorem inorderKeys_eq (t : Tree κ ν) (T : Sh) : inorderKeys t T = T.addrs.map (keyAt t) := by
  induction T with
  | nil => rfl
  | node l a r ihl ihr => simp [inorderKeys, Sh.addrs, ihl, ihr]

/-- C19: for every tree in the heap whose parent references are consistent with its child
references (`TreeWF`), whose recorded length is its node count and whose cells lie below the
allocation mark, `treeArraySorted` returns: `NULL` for the empty tree, and otherwise the array
that holds exactly the key sequence of the recursive in-order traversal, one entry per
node. -/
theorem treeArraySorted_refines_inorder {t : Tree κ ν} {T : Sh} (hw : TreeWF t T)
    (hlen : t.ulTreeLen = T.addrs.length) (hbrk : ∀ a ∈ T.addrs, a < t.brk) :
    treeArraySorted t =
        (if T.addrs = [] then .ok (none, t)
          else .ok (some (inorderKeys t T),
            { t with ppArraySorted := some (inorderKeys t T) })) ∧
      (inorderKeys t T).length = T.addrs.length := by
  rw [inorderKeys_eq]
  exact ⟨treeArraySorted_spec hw hlen (nodup_bounded_length hw.nodup hbrk), by simp⟩

theorem threeNodes_wf : TreeWF threeNodes threeShape :=
  ⟨⟨_, rfl, rfl, rfl, rfl, ⟨_, rfl, rfl, rfl, rfl, trivial, trivial⟩,
      ⟨_, rfl, rfl, rfl, rfl, trivial, trivial⟩⟩, rfl, by decide⟩

/-- Witness of C19 on the tree of the keys 2, 1, 3: the traversal gives 1, 2, 3. -/
theorem treeArraySorted_refines_inorder_witness :
    TreeWF threeNodes threeShape ∧ threeNodes.ulTreeLen = threeShape.addrs.length ∧
      (∀ a ∈ threeShape.addrs, a < threeNodes.brk) ∧
      (treeArraySorted threeNodes =
          (if threeShape.addrs = [] then .ok (none, threeNodes)
            else .ok (some (inorderKeys threeNodes threeShape),
              { threeNodes with ppArraySorted := some (inorderKeys threeNodes threeShape) })) ∧
        (inorderKeys threeNodes threeShape).length = threeShape.addrs.length) ∧
      inorderKeys threeNodes threeShape = [some 1, some 2, some 3] ∧
      (treeArraySorted threeNodes).map (fun x => x.1) = .ok (some [some 1, some 2, some 3]) :=
  ⟨threeNodes_wf, by decide, by decide,
    treeArraySorted_refines_inorder threeNodes_wf (by decide) (by decide), by decide,
    by decide⟩

/-! ## Stale recorded lengths in the two-children delete -/

/-- C21: after the inserts of d, c, e, a, cc, ab with copied keys and the deletes of c and cc
(all calls return 1) the tree is a search tree with the keys a, ab, d, e; `treeDelete(d)`
returns 1 and copies the predecessor's key ab with the stale recorded length 1, so the root
gets the key a while its left child still holds a: the keys are a, a, e and the left key is
not strictly less than the root key. -/
theorem treeDelete_truncates_key :
    returns sixStrings = .ok [1, 1, 1, 1, 1, 1, 1, 1] ∧
    look sixStrings (fun t => pure (searchTree t t.brk t.pr)) = .ok true ∧
    look sixStrings (fun t => pure (subtreeKeys t t.brk t.pr)) =
      .ok [some "a", some "ab", some "d", some "e"] ∧
    look sixStrings (fun t => pure (keyRecord t 1)) = .ok (some (1, some true)) ∧
    returns sixStringsDelete = .ok 1 ∧
    look sixStringsDelete (fun t => pure (subtreeKeys t t.brk t.pr)) =
      .ok [some "a", some "a", some "e"] ∧
    look sixStringsDelete (fun t => keyOf ((t.mem 0).bind (fun n => n.pKey))) = .ok "a" ∧
    look sixStringsDelete (fun t => pure (t.pr, (t.mem 0).bind (fun n => n.pLeft))) =
      .ok (some 0, some 3) ∧
    look sixStringsDelete (fun t => keyOf ((t.mem 3).bind (fun n => n.pKey))) = .ok "a" ∧
    look sixStringsDelete (fun t => pure (searchTree t t.brk t.pr)) = .ok false := by
  decide

/-- C22: after the inserts of 2, 1, 3 and the update of key 1 to a copied value of length 7
(all calls return 1) `treeValue(1)` is Kennedy; `treeDelete(2)` returns 1 and copies the
predecessor's value with the stale recorded length 1, so afterwards `treeValue(1)` is K, while
`treeValue(3)` is unchanged. -/
theorem treeDelete_truncates_value :
    returns staleValueLength = .ok [1, 1, 1, 1] ∧
    look staleValueLength (fun t => treeValue t (some 1)) = .ok (some "Kennedy") ∧
    look staleValueLength (fun t => treeValue t (some 3)) = .ok (some "three") ∧
    look staleValueLength (fun t => pure (valueRecord t 1)) = .ok (some (1, some true)) ∧
    returns staleValueLengthDelete = .ok 1 ∧
    look staleValueLengthDelete (fun t => treeValue t (some 1)) = .ok (some "K") ∧
    look staleValueLengthDelete (fun t => treeValue t (some 3)) = .ok (some "three") ∧
    look staleValueLengthDelete (fun t => treeValue t (some 2)) = .ok none := by
  decide

/-! ## Reachable states: the cells below the root pointer stay a finite tree -/

variable {rp : Ptr}

theorem top_memQ {c : List Frame} {p : Nat} (hq : c = [] → rp = none)
    (h : topQ rp c = some p) : p ∈ pathL c ∨ p ∈ pathR c := by
  cases c with
  | nil => simp [topQ, hq rfl] at h
  | cons f c =>
    cases f <;> simp only [topQ, Frame.addr, Option.some.injEq] at h <;>
      simp [pathL, pathR, h]

theorem rep_plugQ (m : Nat → Option (Node κ ν)) (rp : Ptr) (c : List Frame) (s : Sh) :
    Rep m rp (plug c s) ↔ Rep m (topQ rp c) s ∧ RepPQ m rp c s.root := by
  induction c generalizing s with
  | nil => simp [plug, topQ, RepPQ]
  | cons f c ih =>
    cases f with
    | L a r =>
      simp only [plug, Frame.fill, ih, Rep, RepPQ, topQ, Frame.addr, Sh.root]
      constructor
      · rintro ⟨⟨n, h1, h2, h3, h4, h5, h6⟩, h7⟩
        exact ⟨h5, n, h1, h2, h3, h4, h6, h7⟩
      · rintro ⟨h5, n, h1, h2, h3, h4, h6, h7⟩
        exact ⟨⟨n, h1, h2, h3, h4, h5, h6⟩, h7⟩
    | R l a =>
      simp only [plug, Frame.fill, ih, Rep, RepPQ, topQ, Frame.addr, Sh.root]
      constructor
      · rintro ⟨⟨n, h1, h2, h3, h4, h5, h6⟩, h7⟩
        exact ⟨h6, n, h1, h2, h3, h4, h5, h7⟩
      · rintro ⟨h6, n, h1, h2, h3, h4, h5, h7⟩
        exact ⟨⟨n, h1, h2, h3, h4, h5, h6⟩, h7⟩

theorem repP_congrQ {m m2 : Nat → Option (Node κ ν)} {c : List Frame} {p : Ptr}
    (h : ∀ a, a ∈ pathL c ∨ a ∈ pathR c → m2 a = m a) : RepPQ m2 rp c p ↔ RepPQ m rp c p := by
  induction c generalizing p with
  | nil => simp [RepPQ]
  | cons f c ih =>
    cases f with
    | L a r =>
      simp only [RepPQ]
      rw [h a (by simp [pathR]), rep_congr (fun b hb => h b (by simp [pathR, hb])),
        ih (fun b hb => h b (by rcases hb with hb | hb <;> simp [pathL, pathR, hb]))]
    | R l a =>
      simp only [RepPQ]
      rw [h a (by simp [pathL]), rep_congr (fun b hb => h b (by simp [pathL, hb])),
        ih (fun b hb => h b (by rcases hb with hb | hb <;> simp [pathL, pathR, hb]))]

theorem repP_mem_cellQ {m : Nat → Option (Node κ ν)} {c : List Frame} {p : Ptr} {a : Nat}
    (h : RepPQ m rp c p) (ha : a ∈ pathL c ∨ a ∈ pathR c) : (m a).isSome := by
  induction c generalizing p with
  | nil => simp [pathL, pathR] at ha
  | cons f c ih =>
    cases f with
    | L b r =>
      obtain ⟨n, h1, -, -, -, h5, h6⟩ := h
      simp only [pathL, pathR, List.mem_append, List.mem_cons] at ha
      rcases ha with ha | (ha | ha) | ha
      · exact ih h6 (Or.inl ha)
      · simp [ha, h1]
      · exact rep_mem_cell h5 ha
      · exact ih h6 (Or.inr ha)
    | R l b =>
      obtain ⟨n, h1, -, -, -, h5, h6⟩ := h
      simp only [pathL, pathR, List.mem_append, List.mem_cons, List.mem_singleton,
        List.not_mem_nil, or_false] at ha
      rcases ha with (ha | ha | ha) | ha
      · exact ih h6 (Or.inl ha)
      · exact rep_mem_cell h5 ha
      · simp [ha, h1]
      · exact ih h6 (Or.inr ha)

theorem repP_retargetQ {m m2 : Nat → Option (Node κ ν)} {c : List Frame} {x : Nat} {q : Ptr}
    (hP : RepPQ m rp c (some x)) (hxL : x ∉ pathL c)
    (hR : (pathR c).Nodup) (hLR : (pathL c).Disjoint (pathR c)) (hL : (pathL c).Nodup)
    (htop : ∀ p n, topQ rp c = some p → m p = some n →
      m2 p = some (if n.pLeft = some x then { n with pLeft := q } else { n with pRight := q }))
    (hf : ∀ a, a ∈ pathL c ∨ a ∈ pathR c → some a ≠ topQ rp c → m2 a = m a) :
    RepPQ m2 rp c q := by
  cases c with
  | nil => trivial
  | cons f c =>
    cases f with
    | L p r =>
      obtain ⟨n, h1, h2, h3, h4, h5, h6⟩ := hP
      simp only [pathL, pathR, List.nodup_append, List.nodup_cons, List.mem_append,
        List.disjoint_append_right, List.disjoint_cons_right, List.disjoint_cons_left,
        List.cons_append, not_or] at hxL hR hLR hL
      obtain ⟨⟨hpr, hpR⟩, ⟨hr, hcR, hrR⟩⟩ := hR
      obtain ⟨hpL, hLr, hLR2⟩ := hLR
      refine ⟨{ n with pLeft := q }, (htop p n rfl h1).trans (by rw [if_pos h3]), h2, rfl, h4,
        ?_, ?_⟩
      · refine (rep_congr fun a ha => hf a (by simp [pathR, ha]) ?_).mpr h5
        simp only [topQ, Frame.addr, ne_eq, Option.some.injEq]
        rintro rfl
        exact hpr ha
      · refine (repP_congrQ fun a ha => hf a ?_ ?_).mpr h6
        · rcases ha with ha | ha <;> simp [pathL, pathR, ha]
        · simp only [topQ, Frame.addr, ne_eq, Option.some.injEq]
          rintro rfl
          exact ha.elim hpL hpR
    | R l p =>
      obtain ⟨n, h1, h2, h3, h4, h5, h6⟩ := hP
      simp only [pathL, pathR, List.nodup_append, List.nodup_cons, List.mem_append,
        List.disjoint_append_left, List.disjoint_cons_left, List.disjoint_append_right,
        List.mem_singleton, List.nodup_nil, List.not_mem_nil, List.disjoint_singleton,
        List.disjoint_nil_left, List.disjoint_nil_right,
        List.disjoint_cons_right, not_or, not_false_eq_true, and_true, true_and] at hxL hR hLR hL
      have hne : ¬ n.pLeft = some x := by
        rw [h3]
        intro e
        exact hxL.2.1 (root_mem e)
      refine ⟨{ n with pRight := q }, (htop p n rfl h1).trans (by rw [if_neg hne]), h2, h3, rfl,
        ?_, ?_⟩
      · refine (rep_congr fun a ha => hf a (by simp [pathL, ha]) ?_).mpr h5
        simp only [topQ, Frame.addr, ne_eq, Option.some.injEq]
        rintro rfl
        exact hL.2.1.2 ha
      · refine (repP_congrQ fun a ha => hf a ?_ ?_).mpr h6
        · rcases ha with ha | ha <;> simp [pathL, pathR, ha]
        · simp only [topQ, Frame.addr, ne_eq, Option.some.injEq]
          rintro rfl
          exact ha.elim hL.2.2.2 hLR.2.2

theorem repP_retargetRQ {m m2 : Nat → Option (Node κ ν)} {c : List Frame} {x : Nat} {q : Ptr}
    (hP : RepPQ m rp c (some x)) (hxR : x ∉ pathR c)
    (hR : (pathR c).Nodup) (hLR : (pathL c).Disjoint (pathR c)) (hL : (pathL c).Nodup)
    (htop : ∀ p n, topQ rp c = some p → m p = some n →
      m2 p = some (if n.pRight = some x then { n with pRight := q } else { n with pLeft := q }))
    (hf : ∀ a, a ∈ pathL c ∨ a ∈ pathR c → some a ≠ topQ rp c → m2 a = m a) :
    RepPQ m2 rp c q := by
  cases c with
  | nil => trivial
  | cons f c =>
    cases f with
    | L p r =>
      obtain ⟨n, h1, h2, h3, h4, h5, h6⟩ := hP
      simp only [pathL, pathR, List.nodup_append, List.nodup_cons, List.mem_append,
        List.disjoint_append_right, List.disjoint_cons_right, List.disjoint_cons_left,
        List.cons_append, List.mem_cons, not_or] at hxR hR hLR hL
      obtain ⟨⟨hpr, hpR⟩, ⟨hr, hcR, hrR⟩⟩ := hR
      obtain ⟨hpL, hLr, hLR2⟩ := hLR
      have hne : ¬ n.pRight = some x := by
        rw [h4]
        intro e
        exact hxR.2.1 (root_mem e)
      refine ⟨{ n with pLeft := q }, (htop p n rfl h1).trans (by rw [if_neg hne]), h2, rfl, h4,
        ?_, ?_⟩
      · refine (rep_congr fun a ha => hf a (by simp [pathR, ha]) ?_).mpr h5
        simp only [topQ, Frame.addr, ne_eq, Option.some.injEq]
        rintro rfl
        exact hpr ha
      · refine (repP_congrQ fun a ha => hf a ?_ ?_).mpr h6
        · rcases ha with ha | ha <;> simp [pathL, pathR, ha]
        · simp only [topQ, Frame.addr, ne_eq, Option.some.injEq]
          rintro rfl
          exact ha.elim hpL hpR
    | R l p =>
      obtain ⟨n, h1, h2, h3, h4, h5, h6⟩ := hP
      simp only [pathL, pathR, List.nodup_append, List.nodup_cons, List.mem_append,
        List.disjoint_append_left, List.disjoint_cons_left, List.disjoint_append_right,
        List.mem_singleton, List.nodup_nil, List.not_mem_nil, List.disjoint_singleton,
        List.disjoint_nil_left, List.disjoint_nil_right,
        List.disjoint_cons_right, not_or, not_false_eq_true, and_true, true_and] at hxR hR hLR hL
      refine ⟨{ n with pRight := q }, (htop p n rfl h1).trans (by rw [if_pos h4]), h2, h3, rfl,
        ?_, ?_⟩
      · refine (rep_congr fun a ha => hf a (by simp [pathL, ha]) ?_).mpr h5
        simp only [topQ, Frame.addr, ne_eq, Option.some.injEq]
        rintro rfl
        exact hL.2.1.2 ha
      · refine (repP_congrQ fun a ha => hf a ?_ ?_).mpr h6
        · rcases ha with ha | ha <;> simp [pathL, pathR, ha]
        · simp only [topQ, Frame.addr, ne_eq, Option.some.injEq]
          rintro rfl
          exact ha.elim hL.2.2.2 hLR.2.2

theorem wf_cellQ {t : Tree κ ν} {c : List Frame} {l r : Sh} {a : Nat}
    (h : TreeWFp t rp (plug c (.node l a r))) :
    ∃ n, t.mem a = some n ∧ n.pParent = topQ rp c ∧ n.pLeft = l.root ∧ n.pRight = r.root := by
  obtain ⟨n, h1, h2, h3, h4, -⟩ := ((rep_plugQ t.mem rp c _).mp h.rep).1
  exact ⟨n, h1, h2, h3, h4⟩

theorem getParent_wfQ {t : Tree κ ν} {c : List Frame} {l r : Sh} {a : Nat}
    (h : TreeWFp t rp (plug c (.node l a r))) : t.getParent (some a) = .ok (topQ rp c) := by
  obtain ⟨n, h1, h2, -⟩ := wf_cellQ h
  simp [Tree.getParent, load_some h1, h2]

theorem getLeft_wfQ {t : Tree κ ν} {c : List Frame} {l r : Sh} {a : Nat}
    (h : TreeWFp t rp (plug c (.node l a r))) : t.getLeft (some a) = .ok l.root := by
  obtain ⟨n, h1, -, h3, -⟩ := wf_cellQ h
  simp [Tree.getLeft, load_some h1, h3]

theorem getRight_wfQ {t : Tree κ ν} {c : List Frame} {l r : Sh} {a : Nat}
    (h : TreeWFp t rp (plug c (.node l a r))) : t.getRight (some a) = .ok r.root := by
  obtain ⟨n, h1, -, -, h4⟩ := wf_cellQ h
  simp [Tree.getRight, load_some h1, h4]

theorem wf_mem_cellQ {t : Tree κ ν} {T : Sh} {a : Nat} (h : TreeWFp t rp T) (ha : a ∈ T.addrs) :
    ∃ n, t.mem a = some n :=
  Option.isSome_iff_exists.mp (rep_mem_cell h.rep ha)

theorem colorAt_of_wfQ {t : Tree κ ν} {T : Sh} {a : Nat} (h : TreeWFp t rp T) (ha : a ∈ T.addrs) :
    ∃ col, colorAt t a = some col := by
  obtain ⟨n, hn⟩ := wf_mem_cellQ h ha
  exact ⟨n.color, by simp [colorAt, hn]⟩

theorem setColor_wfQ {t : Tree κ ν} {T : Sh} {a : Nat} (h : TreeWFp t rp T) (ha : a ∈ T.addrs)
    (col : Color) :
    ∃ t2, t.setColor (some a) col = .ok t2 ∧ TreeWFp t2 rp T ∧ SameData t t2 ∧
      ∀ b, colorAt t2 b = if b = a then some col else colorAt t b := by
  obtain ⟨n, hn⟩ := wf_mem_cellQ h ha
  refine ⟨_, modify_some hn _, ⟨?_, h.root, h.nodup⟩, ⟨rfl, rfl, rfl, rfl, rfl, rfl, rfl, ?_⟩, ?_⟩
  · refine rep_links (fun b => ?_) h.rep
    by_cases hb : b = a
    · simp [hb, hn, Node.links]
    · simp [hb]
  · intro b
    by_cases hb : b = a
    · simp [hb, hn, Node.data]
    · simp [hb]
  · intro b
    by_cases hb : b = a
    · simp [colorAt, hb]
    · simp [colorAt, hb]

theorem isRedPtr_blackQ {t : Tree κ ν} {T : Sh} (h : TreeWFp t rp T) {pU : Ptr}
    (hm : ∀ u, pU = some u → u ∈ T.addrs)
    (hU : ∀ u, pU = some u → colorAt t u ≠ some .NODE_RED) :
    isRedPtr t pU = .ok false := by
  cases pU with
  | none => rfl
  | some u =>
    obtain ⟨col, hcol⟩ := colorAt_of_wfQ h (hm u rfl)
    have hne : col ≠ .NODE_RED := fun e => hU u rfl (e ▸ hcol)
    simp [isRedPtr, getColor_of hcol, hne]

theorem isRedPtr_wfQ {t : Tree κ ν} {T : Sh} (h : TreeWFp t rp T) {p : Ptr}
    (hm : ∀ u, p = some u → u ∈ T.addrs) :
    ∃ b, isRedPtr t p = .ok b ∧ (b = true ↔ RedAt t p) := by
  cases p with
  | none => exact ⟨false, rfl, by simp [RedAt]⟩
  | some u =>
    obtain ⟨col, hcol⟩ := colorAt_of_wfQ h (hm u rfl)
    refine ⟨decide (col = .NODE_RED), by simp [isRedPtr, getColor_of hcol], ?_⟩
    simp [RedAt, hcol]

theorem resolveRB_recolorQ {t : Tree κ ν} {T : Sh} (h : TreeWFp t rp T) {a p g u : Nat}
    (hpa : t.getParent (some a) = .ok (some p)) (hgp : t.getParent (some p) = .ok (some g))
    (hp : p ∈ T.addrs) (hg : g ∈ T.addrs) (hu : u ∈ T.addrs)
    (hcu : colorAt t u = some .NODE_RED) :
    ∃ t2, resolveRB t (some a) (some u) = .ok (some g, t2) ∧ TreeWFp t2 rp T ∧ SameData t t2 ∧
      ∀ b, colorAt t2 b =
        if b = u then some .NODE_BLACK else if b = p then some .NODE_BLACK
        else if b = g then some .NODE_RED else colorAt t b := by
  obtain ⟨t1, e1, w1, d1, c1⟩ := setColor_wfQ h hg .NODE_RED
  obtain ⟨t2, e2, w2, d2, c2⟩ := setColor_wfQ w1 hp .NODE_BLACK
  obtain ⟨t3, e3, w3, d3, c3⟩ := setColor_wfQ w2 hu .NODE_BLACK
  have g1 := getParent_setColor e1
  have g2 := getParent_setColor e2
  have g3 := getParent_setColor e3
  refine ⟨t3, ?_, w3, (d1.trans_data d2).trans_data d3, ?_⟩
  · simp only [resolveRB, isRedPtr_red hcu, if_true, ok_bind, pure_eq_ok,
      hpa, hgp, e1, e2, e3, g1, g2, g3]
  · intro b
    rw [c3, c2, c1]

theorem rotateLeftRB_wfQ {t : Tree κ ν} {c : List Frame} {A B C : Sh} {x y : Nat}
    (h : TreeWFp t rp (plug c (.node A x (.node B y C))))
    (hq : c = [] → rp = none) :
    ∃ t2, rotateLeftRB t (some x) = .ok t2 ∧
      TreeWFp t2 rp (plug c (.node (.node A x B) y C)) ∧ SameCore t t2 := by
  obtain ⟨hrep, hroot, hnd⟩ := h
  have hnd0 := hnd
  rw [rep_plugQ] at hrep
  obtain ⟨⟨nx, hx, hxp, hxl, hxr, hA, ny, hy, hyp, hyl, hyr, hB, hC⟩, hP⟩ := hrep
  simp only [Sh.root] at hxr hP
  rw [addrs_plug] at hnd
  simp only [Sh.addrs, List.nodup_append, List.nodup_cons, List.mem_append, List.mem_cons,
    List.disjoint_append_left, List.disjoint_append_right, List.disjoint_cons_left,
    List.disjoint_cons_right, not_or] at hnd
  obtain ⟨⟨hndL, ⟨hndA, ⟨⟨hxB, hxy, hxC⟩, hndB, ⟨hyC, hndC⟩, hBy, hBC⟩, hxA, hAB, hyA, hAC⟩,
    hLA, ⟨hxL, hLB, hyL, hLC⟩⟩, hndR, hLR, hAR, hxR, hBR, hyR, hCR⟩ := hnd
  have hbpre : ∀ b, ny.pLeft = some b → (t.mem b).isSome ∧ b ≠ x ∧ b ≠ y := by
    intro b hb
    rw [hyl] at hb
    have hm := root_mem hb
    exact ⟨rep_mem_cell hB hm, fun e => hxB (e ▸ hm), fun e => hBy (e ▸ hm)⟩
  have hppre : ∀ p, nx.pParent = some p →
      (t.mem p).isSome ∧ p ≠ x ∧ p ≠ y ∧ some p ≠ ny.pLeft := by
    intro p hp
    rw [hxp] at hp
    have hm := top_memQ hq hp
    refine ⟨repP_mem_cellQ hP hm, ?_, ?_, ?_⟩
    · rintro rfl
      exact hm.elim hxL hxR
    · rintro rfl
      exact hm.elim hyL hyR
    · rw [hyl]
      intro e
      have hm2 := root_mem e.symm
      exact hm.elim (fun h1 => hLB h1 hm2) (fun h1 => hBR hm2 h1)
  refine ⟨_, rotateLeftRB_heap t x y nx ny hx hy hxr hxy hbpre hppre, ⟨?_, ?_, ?_⟩, ?_⟩
  · -- representation
    rw [rep_plugQ]
    constructor
    · refine ⟨_, rotLMem_y t x y nx ny hxy, hxp, rfl, hyr,
        ⟨_, rotLMem_x t x y nx ny, rfl, hxl, hyl, ?_, ?_⟩, ?_⟩
      · refine (rep_congr fun a ha => rotLMem_frame t x y nx ny a ?_ ?_ ?_ ?_).mpr hA
        · rintro rfl; exact hxA ha
        · rintro rfl; exact hyA ha
        · rw [hyl]; intro e; exact hAB ha (root_mem e.symm)
        · rw [hxp]; intro e
          exact (top_memQ hq e.symm).elim (fun h1 => hLA h1 ha) (fun h1 => hAR ha h1)
      · refine rep_reparent hB ?_ ?_ hndB
        · intro b nb hb hnb
          have hm := root_mem hb
          have h1 : b ≠ x := fun e => hxB (e ▸ hm)
          have h2 : b ≠ y := fun e => hBy (e ▸ hm)
          simp [rotLMem, h1, h2, hyl, hb, hnb]
        · intro a ha hr
          refine rotLMem_frame t x y nx ny a ?_ ?_ ?_ ?_
          · rintro rfl; exact hxB ha
          · rintro rfl; exact hBy ha
          · rw [hyl]; exact fun e => hr e.symm
          · rw [hxp]; intro e
            exact (top_memQ hq e.symm).elim (fun h1 => hLB h1 ha) (fun h1 => hBR ha h1)
      · refine (rep_congr fun a ha => rotLMem_frame t x y nx ny a ?_ ?_ ?_ ?_).mpr hC
        · rintro rfl; exact hxC ha
        · rintro rfl; exact hyC ha
        · rw [hyl]; intro e; exact hBC (root_mem e.symm) ha
        · rw [hxp]; intro e
          exact (top_memQ hq e.symm).elim (fun h1 => hLC h1 ha) (fun h1 => hCR ha h1)
    · refine repP_retargetQ hP hxL hndR hLR hndL ?_ ?_
      · intro p np hp hnp
        obtain ⟨-, h1, h2, h3⟩ := hppre p (hxp.trans hp)
        have h4 : ¬ some p = B.root := hyl ▸ h3
        simp [rotLMem, h1, h2, hyl, h4, hxp, hp, hnp]
      · intro a ha hne
        refine rotLMem_frame t x y nx ny a ?_ ?_ ?_ ?_
        · rintro rfl; exact ha.elim hxL hxR
        · rintro rfl; exact ha.elim hyL hyR
        · rw [hyl]; intro e
          exact ha.elim (fun h1 => hLB h1 (root_mem e.symm)) (fun h1 => hBR (root_mem e.symm) h1)
        · rw [hxp]; exact hne
  · -- root
    cases c with
    | nil =>
      simp only [topQ, hq rfl] at hxp
      simp [hxp, plug, Sh.root]
    | cons f c =>
      simp only [topQ] at hxp
      simp only [hxp, reduceCtorEq, if_false]
      rw [hroot]
      exact root_plug_indep f c _ _
  · exact (addrs_rotL c A B C x y) ▸ hnd0
  · exact ⟨rfl, rfl, rfl, rfl, rfl, rfl, rfl, rotLMem_core t x y nx ny hx hy⟩

theorem rotateRightRB_wfQ {t : Tree κ ν} {c : List Frame} {A B C : Sh} {x y : Nat}
    (h : TreeWFp t rp (plug c (.node (.node A y B) x C)))
    (hq : c = [] → rp = none) :
    ∃ t2, rotateRightRB t (some x) = .ok t2 ∧
      TreeWFp t2 rp (plug c (.node A y (.node B x C))) ∧ SameCore t t2 := by
  obtain ⟨hrep, hroot, hnd⟩ := h
  have hnd0 := hnd
  rw [rep_plugQ] at hrep
  obtain ⟨⟨nx, hx, hxp, hxl, hxr, ⟨ny, hy, hyp, hyl, hyr, hA, hB⟩, hC⟩, hP⟩ := hrep
  simp only [Sh.root] at hxl hP
  rw [addrs_plug] at hnd
  simp only [Sh.addrs, List.nodup_append, List.nodup_cons, List.mem_append, List.mem_cons,
    List.disjoint_append_left, List.disjoint_append_right, List.disjoint_cons_left,
    List.disjoint_cons_right, not_or] at hnd
  obtain ⟨⟨hndL, ⟨⟨hndA, ⟨hyB, hndB⟩, hyA, hAB⟩, ⟨hxC, hndC⟩, ⟨hxA, hxy, hxB⟩, hAC, hyC, hBC⟩,
    ⟨hLA, hyL, hLB⟩, hxL, hLC⟩, hndR, hLR, ⟨hAR, hyR, hBR⟩, hxR, hCR⟩ := hnd
  have hbpre : ∀ b, ny.pRight = some b → (t.mem b).isSome ∧ b ≠ x ∧ b ≠ y := by
    intro b hb
    rw [hyr] at hb
    have hm := root_mem hb
    exact ⟨rep_mem_cell hB hm, fun e => hxB (e ▸ hm), fun e => hyB (e ▸ hm)⟩
  have hppre : ∀ p, nx.pParent = some p →
      (t.mem p).isSome ∧ p ≠ x ∧ p ≠ y ∧ some p ≠ ny.pRight := by
    intro p hp
    rw [hxp] at hp
    have hm := top_memQ hq hp
    refine ⟨repP_mem_cellQ hP hm, ?_, ?_, ?_⟩
    · rintro rfl
      exact hm.elim hxL hxR
    · rintro rfl
      exact hm.elim hyL hyR
    · rw [hyr]
      intro e
      have hm2 := root_mem e.symm
      exact hm.elim (fun h1 => hLB h1 hm2) (fun h1 => hBR hm2 h1)
  refine ⟨_, rotateRightRB_heap t x y nx ny hx hy hxl hxy hbpre hppre, ⟨?_, ?_, ?_⟩, ?_⟩
  · -- representation
    rw [rep_plugQ]
    constructor
    · refine ⟨_, rotRMem_y t x y nx ny hxy, hxp, hyl, rfl, ?_,
        ⟨_, rotRMem_x t x y nx ny, rfl, hyr, hxr, ?_, ?_⟩⟩
      · refine (rep_congr fun a ha => rotRMem_frame t x y nx ny a ?_ ?_ ?_ ?_).mpr hA
        · rintro rfl; exact hxA ha
        · rintro rfl; exact hyA ha
        · rw [hyr]; intro e; exact hAB ha (root_mem e.symm)
        · rw [hxp]; intro e
          exact (top_memQ hq e.symm).elim (fun h1 => hLA h1 ha) (fun h1 => hAR ha h1)
      · refine rep_reparent hB ?_ ?_ hndB
        · intro b nb hb hnb
          have hm := root_mem hb
          have h1 : b ≠ x := fun e => hxB (e ▸ hm)
          have h2 : b ≠ y := fun e => hyB (e ▸ hm)
          simp [rotRMem, h1, h2, hyr, hb, hnb]
        · intro a ha hr
          refine rotRMem_frame t x y nx ny a ?_ ?_ ?_ ?_
          · rintro rfl; exact hxB ha
          · rintro rfl; exact hyB ha
          · rw [hyr]; exact fun e => hr e.symm
          · rw [hxp]; intro e
            exact (top_memQ hq e.symm).elim (fun h1 => hLB h1 ha) (fun h1 => hBR ha h1)
      · refine (rep_congr fun a ha => rotRMem_frame t x y nx ny a ?_ ?_ ?_ ?_).mpr hC
        · rintro rfl; exact hxC ha
        · rintro rfl; exact hyC ha
        · rw [hyr]; intro e; exact hBC (root_mem e.symm) ha
        · rw [hxp]; intro e
          exact (top_memQ hq e.symm).elim (fun h1 => hLC h1 ha) (fun h1 => hCR ha h1)
    · refine repP_retargetRQ hP hxR hndR hLR hndL ?_ ?_
      · intro p np hp hnp
        obtain ⟨-, h1, h2, h3⟩ := hppre p (hxp.trans hp)
        have h4 : ¬ some p = B.root := hyr ▸ h3
        simp [rotRMem, h1, h2, hyr, h4, hxp, hp, hnp]
      · intro a ha hne
        refine rotRMem_frame t x y nx ny a ?_ ?_ ?_ ?_
        · rintro rfl; exact ha.elim hxL hxR
        · rintro rfl; exact ha.elim hyL hyR
        · rw [hyr]; intro e
          exact ha.elim (fun h1 => hLB h1 (root_mem e.symm)) (fun h1 => hBR (root_mem e.symm) h1)
        · rw [hxp]; exact hne
  · -- root
    cases c with
    | nil =>
      simp only [topQ, hq rfl] at hxp
      simp [hxp, plug, Sh.root]
    | cons f c =>
      simp only [topQ] at hxp
      simp only [hxp, reduceCtorEq, if_false]
      rw [hroot]
      exact root_plug_indep f c _ _
  · exact (addrs_rotR c A B C x y) ▸ hnd0
  · exact ⟨rfl, rfl, rfl, rfl, rfl, rfl, rfl, rotRMem_core t x y nx ny hx hy⟩

theorem rotateLeftRB_dangling (t : Tree κ ν) (x y d : Nat) (nx ny : Node κ ν)
    (hx : t.mem x = some nx) (hy : t.mem y = some ny) (hxr : nx.pRight = some y)
    (hxy : x ≠ y)
    (hb : ∀ b, ny.pLeft = some b → (t.mem b).isSome ∧ b ≠ x ∧ b ≠ y)
    (hxp : nx.pParent = some d) (hd : t.mem d = none) :
    rotateLeftRB t (some x) = .error .useAfterFree := by
  have hdx : d ≠ x := by rintro rfl; simp [hx] at hd
  have hdy : d ≠ y := by rintro rfl; simp [hy] at hd
  cases hyl : ny.pLeft with
  | none =>
    simp only [rotateLeftRB, Tree.getRight, Tree.getLeft, Tree.getParent, Tree.setRight,
      Tree.setLeft, Tree.setParent, Tree.load, Tree.modify, hx, hy, hxr, hxy, Ne.symm hxy,
      hyl, hxp, hd, hdx, hdy, ok_bind, error_bind, pure_eq_ok, store_mem, if_true, if_false,
      ite_true, ite_false, Option.isSome_some, Option.isSome_none, Bool.false_eq_true]
  | some b =>
    obtain ⟨hbm, hbx, hby⟩ := hb b hyl
    obtain ⟨nb, hnb⟩ := Option.isSome_iff_exists.mp hbm
    have hdb : d ≠ b := by rintro rfl; simp [hnb] at hd
    simp only [rotateLeftRB, Tree.getRight, Tree.getLeft, Tree.getParent, Tree.setRight,
      Tree.setLeft, Tree.setParent, Tree.load, Tree.modify, hx, hy, hxr, hxy, Ne.symm hxy,
      hyl, hxp, hd, hdx, hdy, hdb, hnb, hbx, hby, Ne.symm hbx, Ne.symm hby,
      ok_bind, error_bind, pure_eq_ok, store_mem, if_true, if_false,
      ite_true, ite_false, Option.isSome_some, Option.isSome_none, Bool.false_eq_true]

theorem rotateRightRB_dangling (t : Tree κ ν) (x y d : Nat) (nx ny : Node κ ν)
    (hx : t.mem x = some nx) (hy : t.mem y = some ny) (hxl : nx.pLeft = some y)
    (hxy : x ≠ y)
    (hb : ∀ b, ny.pRight = some b → (t.mem b).isSome ∧ b ≠ x ∧ b ≠ y)
    (hxp : nx.pParent = some d) (hd : t.mem d = none) :
    rotateRightRB t (some x) = .error .useAfterFree := by
  have hdx : d ≠ x := by rintro rfl; simp [hx] at hd
  have hdy : d ≠ y := by rintro rfl; simp [hy] at hd
  cases hyr : ny.pRight with
  | none =>
    simp only [rotateRightRB, Tree.getRight, Tree.getLeft, Tree.getParent, Tree.setRight,
      Tree.setLeft, Tree.setParent, Tree.load, Tree.modify, hx, hy, hxl, hxy, Ne.symm hxy,
      hyr, hxp, hd, hdx, hdy, ok_bind, error_bind, pure_eq_ok, store_mem, if_true, if_false,
      ite_true, ite_false, Option.isSome_some, Option.isSome_none, Bool.false_eq_true]
  | some b =>
    obtain ⟨hbm, hbx, hby⟩ := hb b hyr
    obtain ⟨nb, hnb⟩ := Option.isSome_iff_exists.mp hbm
    have hdb : d ≠ b := by rintro rfl; simp [hnb] at hd
    simp only [rotateRightRB, Tree.getRight, Tree.getLeft, Tree.getParent, Tree.setRight,
      Tree.setLeft, Tree.setParent, Tree.load, Tree.modify, hx, hy, hxl, hxy, Ne.symm hxy,
      hyr, hxp, hd, hdx, hdy, hdb, hnb, hbx, hby, Ne.symm hbx, Ne.symm hby,
      ok_bind, error_bind, pure_eq_ok, store_mem, if_true, if_false,
      ite_true, ite_false, Option.isSome_some, Option.isSome_none, Bool.false_eq_true]

/-- A left rotation that returns has produced the rotated tree; at a root whose parent
pointer dangles it does not return. -/
theorem rotateLeftRB_ok {t t2 : Tree κ ν} {c : List Frame} {A B C : Sh} {x y : Nat}
    (h : TreeWFp t rp (plug c (.node A x (.node B y C))))
    (hg : ∀ d, rp = some d → t.mem d = none)
    (e : rotateLeftRB t (some x) = .ok t2) :
    TreeWFp t2 rp (plug c (.node (.node A x B) y C)) ∧ SameCore t t2 := by
  by_cases hq : c = [] → rp = none
  · obtain ⟨t3, e3, w3, d3⟩ := rotateLeftRB_wfQ h hq
    rw [e3] at e
    cases e
    exact ⟨w3, d3⟩
  · exfalso
    simp only [Classical.not_imp] at hq
    obtain ⟨hc, hrp⟩ := hq
    subst hc
    obtain ⟨d, hd⟩ := Option.ne_none_iff_exists'.mp hrp
    obtain ⟨nx, hx, hxp, hxl, hxr, hA, ny, hy, hyp, hyl, hyr, hB, hC⟩ := h.rep
    have hnd := h.nodup
    simp only [plug, Sh.addrs, List.nodup_append, List.nodup_cons, List.mem_append,
      List.mem_cons, List.disjoint_append_left, List.disjoint_append_right,
      List.disjoint_cons_left, List.disjoint_cons_right, not_or] at hnd
    have hxy : x ≠ y := by tauto
    have hbpre : ∀ b, ny.pLeft = some b → (t.mem b).isSome ∧ b ≠ x ∧ b ≠ y := by
      intro b hb
      rw [hyl] at hb
      have hm := root_mem hb
      refine ⟨rep_mem_cell hB hm, ?_, ?_⟩
      · rintro rfl; tauto
      · rintro rfl; tauto
    rw [rotateLeftRB_dangling t x y d nx ny hx hy hxr hxy hbpre (hxp.trans hd) (hg d hd)] at e
    cases e

/-- A right rotation that returns has produced the rotated tree; at a root whose parent
pointer dangles it does not return. -/
theorem rotateRightRB_ok {t t2 : Tree κ ν} {c : List Frame} {A B C : Sh} {x y : Nat}
    (h : TreeWFp t rp (plug c (.node (.node A y B) x C)))
    (hg : ∀ d, rp = some d → t.mem d = none)
    (e : rotateRightRB t (some x) = .ok t2) :
    TreeWFp t2 rp (plug c (.node A y (.node B x C))) ∧ SameCore t t2 := by
  by_cases hq : c = [] → rp = none
  · obtain ⟨t3, e3, w3, d3⟩ := rotateRightRB_wfQ h hq
    rw [e3] at e
    cases e
    exact ⟨w3, d3⟩
  · exfalso
    simp only [Classical.not_imp] at hq
    obtain ⟨hc, hrp⟩ := hq
    subst hc
    obtain ⟨d, hd⟩ := Option.ne_none_iff_exists'.mp hrp
    obtain ⟨nx, hx, hxp, hxl, hxr, ⟨ny, hy, hyp, hyl, hyr, hA, hB⟩, hC⟩ := h.rep
    have hnd := h.nodup
    simp only [plug, Sh.addrs, List.nodup_append, List.nodup_cons, List.mem_append,
      List.mem_cons, List.disjoint_append_left, List.disjoint_append_right,
      List.disjoint_cons_left, List.disjoint_cons_right, not_or] at hnd
    have hxy : x ≠ y := by rintro rfl; tauto
    have hbpre : ∀ b, ny.pRight = some b → (t.mem b).isSome ∧ b ≠ x ∧ b ≠ y := by
      intro b hb
      rw [hyr] at hb
      have hm := root_mem hb
      refine ⟨rep_mem_cell hB hm, ?_, ?_⟩
      · rintro rfl; tauto
      · rintro rfl; tauto
    rw [rotateRightRB_dangling t x y d nx ny hx hy hxl hxy hbpre (hxp.trans hd) (hg d hd)] at e
    cases e

theorem SameData.mem_none_data {t t2 : Tree κ ν} (h : SameData t t2) {d : Nat}
    (hd : t.mem d = none) : t2.mem d = none := by
  have := h.isSome_eq d
  rw [hd] at this
  simpa using this

theorem SameData.gone {t t2 : Tree κ ν} (h : SameData t t2)
    (hg : ∀ d, rp = some d → t.mem d = none) : ∀ d, rp = some d → t2.mem d = none :=
  fun d hd => h.mem_none_data (hg d hd)

theorem bind_eq_ok {α β : Type} {x : Except Err α} {f : α → Except Err β} {b : β}
    (h : (x >>= f) = .ok b) : ∃ a, x = .ok a ∧ f a = .ok b := by
  cases x with
  | error e => cases h
  | ok a => exact ⟨a, rfl, h⟩

theorem resolveRB_LL_ok {t : Tree κ ν} {c : List Frame} {l r S U : Sh} {a p g : Nat}
    {res : Ptr × Tree κ ν}
    (h : TreeWFp t rp (plug c (.node (.node (.node l a r) p S) g U)))
    (hU : ∀ u, U.root = some u → colorAt t u ≠ some .NODE_RED)
    (hg : ∀ d, rp = some d → t.mem d = none)
    (e : resolveRB t (some a) U.root = .ok res) :
    res.1 = some a ∧ TreeWFp res.2 rp (plug c (.node (.node l a r) p (.node S g U))) ∧
      SameData t res.2 := by
  have hA : TreeWFp t rp (plug (.L p S :: .L g U :: c) (.node l a r)) := h
  have hP : TreeWFp t rp (plug (.L g U :: c) (.node (.node l a r) p S)) := h
  have hnd := h.nodup
  rw [addrs_plug] at hnd
  simp only [Sh.addrs, List.nodup_append, List.nodup_cons, List.mem_append, List.mem_cons,
    List.disjoint_append_left, List.disjoint_append_right, List.disjoint_cons_left,
    List.disjoint_cons_right, not_or] at hnd
  have haS : a ∉ S.addrs := by tauto
  have hmU : ∀ u, U.root = some u → u ∈ (plug c (.node (.node (.node l a r) p S) g U)).addrs := by
    intro u hu
    simp [addrs_plug, Sh.addrs, root_mem hu]
  have hpm : p ∈ (plug c (.node (.node (.node l a r) p S) g U)).addrs := by
    simp [addrs_plug, Sh.addrs]
  have hgm : g ∈ (plug c (.node (.node (.node l a r) p S) g U)).addrs := by
    simp [addrs_plug, Sh.addrs]
  obtain ⟨t1, e1, w1, d1, c1⟩ := setColor_wfQ h hpm .NODE_BLACK
  obtain ⟨t2, e2, w2, d2, c2⟩ := setColor_wfQ w1 hgm .NODE_RED
  have hA1 : TreeWFp t1 rp (plug (.L p S :: .L g U :: c) (.node l a r)) := w1
  have hP1 : TreeWFp t1 rp (plug (.L g U :: c) (.node (.node l a r) p S)) := w1
  have hA2 : TreeWFp t2 rp (plug (.L p S :: .L g U :: c) (.node l a r)) := w2
  have hP2 : TreeWFp t2 rp (plug (.L g U :: c) (.node (.node l a r) p S)) := w2
  simp only [resolveRB, isRedPtr_blackQ h hmU hU, ok_bind, pure_eq_ok,
    Bool.false_eq_true, if_false, getParent_wfQ hA, getParent_wfQ hP, getLeft_wfQ h, topQ,
    Frame.addr, Sh.root_node, decide_True, if_true, getRight_wfQ hP, not_mem_root haS,
    Option.isSome_some, e1, getParent_wfQ hA1, getParent_wfQ hP1, e2, getParent_wfQ hA2,
    getParent_wfQ hP2] at e
  obtain ⟨t3, hrot, e⟩ := bind_eq_ok e
  cases e
  obtain ⟨w3, d3⟩ := rotateRightRB_ok w2 ((d1.trans_data d2).gone hg) hrot
  exact ⟨rfl, w3, (d1.trans_data d2).trans_data d3.toData⟩

theorem resolveRB_LR_ok {t : Tree κ ν} {c : List Frame} {l r S U : Sh} {a p g : Nat}
    {res : Ptr × Tree κ ν}
    (h : TreeWFp t rp (plug c (.node (.node S p (.node l a r)) g U)))
    (hU : ∀ u, U.root = some u → colorAt t u ≠ some .NODE_RED)
    (hg : ∀ d, rp = some d → t.mem d = none)
    (e : resolveRB t (some a) U.root = .ok res) :
    res.1 = some p ∧ TreeWFp res.2 rp (plug c (.node (.node S p l) a (.node r g U))) ∧
      SameData t res.2 := by
  have hA : TreeWFp t rp (plug (.R S p :: .L g U :: c) (.node l a r)) := h
  have hP : TreeWFp t rp (plug (.L g U :: c) (.node S p (.node l a r))) := h
  have hmU : ∀ u, U.root = some u → u ∈ (plug c (.node (.node S p (.node l a r)) g U)).addrs := by
    intro u hu
    simp [addrs_plug, Sh.addrs, root_mem hu]
  obtain ⟨t1, e1, w1, d1⟩ := rotateLeftRB_wfQ hP (by simp)
  have hP1 : TreeWFp t1 rp (plug (.L a r :: .L g U :: c) (.node S p l)) := w1
  have hG1 : TreeWFp t1 rp (plug c (.node (.node (.node S p l) a r) g U)) := w1
  have ham : a ∈ (plug c (.node (.node (.node S p l) a r) g U)).addrs := by
    simp [addrs_plug, Sh.addrs]
  have hgm : g ∈ (plug c (.node (.node (.node S p l) a r) g U)).addrs := by
    simp [addrs_plug, Sh.addrs]
  obtain ⟨t2, e2, w2, d2, c2⟩ := setColor_wfQ hG1 ham .NODE_BLACK
  obtain ⟨t3, e3, w3, d3, c3⟩ := setColor_wfQ w2 hgm .NODE_RED
  have hP2 : TreeWFp t2 rp (plug (.L a r :: .L g U :: c) (.node S p l)) := w2
  have hA2 : TreeWFp t2 rp (plug (.L g U :: c) (.node (.node S p l) a r)) := w2
  have hP3 : TreeWFp t3 rp (plug (.L a r :: .L g U :: c) (.node S p l)) := w3
  have hA3 : TreeWFp t3 rp (plug (.L g U :: c) (.node (.node S p l) a r)) := w3
  simp only [resolveRB, isRedPtr_blackQ h hmU hU, ok_bind, pure_eq_ok,
    Bool.false_eq_true, if_false, getParent_wfQ hA, getParent_wfQ hP, getLeft_wfQ h, topQ,
    Frame.addr, Sh.root_node, decide_True, if_true, getRight_wfQ hP,
    Option.isSome_some, e1, getParent_wfQ hP1, e2, getParent_wfQ hP2, getParent_wfQ hA2, e3,
    getParent_wfQ hP3, getParent_wfQ hA3] at e
  obtain ⟨t4, hrot, e⟩ := bind_eq_ok e
  cases e
  have dd := (d1.toData.trans_data d2).trans_data d3
  obtain ⟨w4, d4⟩ := rotateRightRB_ok w3 (dd.gone hg) hrot
  exact ⟨rfl, w4, dd.trans_data d4.toData⟩

theorem resolveRB_RR_ok {t : Tree κ ν} {c : List Frame} {l r S U : Sh} {a p g : Nat}
    {res : Ptr × Tree κ ν}
    (h : TreeWFp t rp (plug c (.node U g (.node S p (.node l a r)))))
    (hU : ∀ u, U.root = some u → colorAt t u ≠ some .NODE_RED)
    (hg : ∀ d, rp = some d → t.mem d = none)
    (e : resolveRB t (some a) U.root = .ok res) :
    res.1 = some a ∧ TreeWFp res.2 rp (plug c (.node (.node U g S) p (.node l a r))) ∧
      SameData t res.2 := by
  have hA : TreeWFp t rp (plug (.R S p :: .R U g :: c) (.node l a r)) := h
  have hP : TreeWFp t rp (plug (.R U g :: c) (.node S p (.node l a r))) := h
  have hnd := h.nodup
  rw [addrs_plug] at hnd
  simp only [Sh.addrs, List.nodup_append, List.nodup_cons, List.mem_append, List.mem_cons,
    List.disjoint_append_left, List.disjoint_append_right, List.disjoint_cons_left,
    List.disjoint_cons_right, not_or] at hnd
  have haS : a ∉ S.addrs := by tauto
  have hpU : p ∉ U.addrs := by tauto
  have hmU : ∀ u, U.root = some u → u ∈ (plug c (.node U g (.node S p (.node l a r)))).addrs := by
    intro u hu
    simp [addrs_plug, Sh.addrs, root_mem hu]
  have hpm : p ∈ (plug c (.node U g (.node S p (.node l a r)))).addrs := by
    simp [addrs_plug, Sh.addrs]
  have hgm : g ∈ (plug c (.node U g (.node S p (.node l a r)))).addrs := by
    simp [addrs_plug, Sh.addrs]
  obtain ⟨t1, e1, w1, d1, c1⟩ := setColor_wfQ h hpm .NODE_BLACK
  obtain ⟨t2, e2, w2, d2, c2⟩ := setColor_wfQ w1 hgm .NODE_RED
  have hA1 : TreeWFp t1 rp (plug (.R S p :: .R U g :: c) (.node l a r)) := w1
  have hP1 : TreeWFp t1 rp (plug (.R U g :: c) (.node S p (.node l a r))) := w1
  have hA2 : TreeWFp t2 rp (plug (.R S p :: .R U g :: c) (.node l a r)) := w2
  have hP2 : TreeWFp t2 rp (plug (.R U g :: c) (.node S p (.node l a r))) := w2
  simp only [resolveRB, isRedPtr_blackQ h hmU hU, ok_bind, pure_eq_ok,
    Bool.false_eq_true, if_false, getParent_wfQ hA, getParent_wfQ hP, getLeft_wfQ h, topQ,
    Frame.addr, Sh.root_node, not_mem_root hpU, decide_False, getLeft_wfQ hP,
    not_mem_root haS, Option.isSome_some, if_true, e1, getParent_wfQ hA1, getParent_wfQ hP1, e2,
    getParent_wfQ hA2, getParent_wfQ hP2] at e
  obtain ⟨t3, hrot, e⟩ := bind_eq_ok e
  cases e
  obtain ⟨w3, d3⟩ := rotateLeftRB_ok w2 ((d1.trans_data d2).gone hg) hrot
  exact ⟨rfl, w3, (d1.trans_data d2).trans_data d3.toData⟩

theorem resolveRB_RL_ok {t : Tree κ ν} {c : List Frame} {l r S U : Sh} {a p g : Nat}
    {res : Ptr × Tree κ ν}
    (h : TreeWFp t rp (plug c (.node U g (.node (.node l a r) p S))))
    (hU : ∀ u, U.root = some u → colorAt t u ≠ some .NODE_RED)
    (hg : ∀ d, rp = some d → t.mem d = none)
    (e : resolveRB t (some a) U.root = .ok res) :
    res.1 = some p ∧ TreeWFp res.2 rp (plug c (.node (.node U g l) a (.node r p S))) ∧
      SameData t res.2 := by
  have hA : TreeWFp t rp (plug (.L p S :: .R U g :: c) (.node l a r)) := h
  have hP : TreeWFp t rp (plug (.R U g :: c) (.node (.node l a r) p S)) := h
  have hnd := h.nodup
  rw [addrs_plug] at hnd
  simp only [Sh.addrs, List.nodup_append, List.nodup_cons, List.mem_append, List.mem_cons,
    List.disjoint_append_left, List.disjoint_append_right, List.disjoint_cons_left,
    List.disjoint_cons_right, not_or] at hnd
  have hpU : p ∉ U.addrs := by tauto
  have hmU : ∀ u, U.root = some u → u ∈ (plug c (.node U g (.node (.node l a r) p S))).addrs := by
    intro u hu
    simp [addrs_plug, Sh.addrs, root_mem hu]
  obtain ⟨t1, e1, w1, d1⟩ := rotateRightRB_wfQ hP (by simp)
  have hP1 : TreeWFp t1 rp (plug (.R l a :: .R U g :: c) (.node r p S)) := w1
  have hG1 : TreeWFp t1 rp (plug c (.node U g (.node l a (.node r p S)))) := w1
  have ham : a ∈ (plug c (.node U g (.node l a (.node r p S)))).addrs := by
    simp [addrs_plug, Sh.addrs]
  have hgm : g ∈ (plug c (.node U g (.node l a (.node r p S)))).addrs := by
    simp [addrs_plug, Sh.addrs]
  obtain ⟨t2, e2, w2, d2, c2⟩ := setColor_wfQ hG1 ham .NODE_BLACK
  obtain ⟨t3, e3, w3, d3, c3⟩ := setColor_wfQ w2 hgm .NODE_RED
  have hP2 : TreeWFp t2 rp (plug (.R l a :: .R U g :: c) (.node r p S)) := w2
  have hA2 : TreeWFp t2 rp (plug (.R U g :: c) (.node l a (.node r p S))) := w2
  have hP3 : TreeWFp t3 rp (plug (.R l a :: .R U g :: c) (.node r p S)) := w3
  have hA3 : TreeWFp t3 rp (plug (.R U g :: c) (.node l a (.node r p S))) := w3
  simp only [resolveRB, isRedPtr_blackQ h hmU hU, ok_bind, pure_eq_ok,
    Bool.false_eq_true, if_false, getParent_wfQ hA, getParent_wfQ hP, getLeft_wfQ h, topQ,
    Frame.addr, Sh.root_node, not_mem_root hpU, decide_False, getLeft_wfQ hP, if_true,
    Option.isSome_some, e1, getParent_wfQ hP1, e2, getParent_wfQ hP2, getParent_wfQ hA2, e3,
    getParent_wfQ hP3, getParent_wfQ hA3] at e
  obtain ⟨t4, hrot, e⟩ := bind_eq_ok e
  cases e
  have dd := (d1.toData.trans_data d2).trans_data d3
  obtain ⟨w4, d4⟩ := rotateLeftRB_ok w3 (dd.gone hg) hrot
  exact ⟨rfl, w4, dd.trans_data d4.toData⟩

theorem load_gone {t : Tree κ ν} (hg : ∀ d, rp = some d → t.mem d = none) :
    ∃ err, t.load rp = .error err := by
  cases rp with
  | none => exact ⟨.nullDeref, rfl⟩
  | some d => exact ⟨.useAfterFree, by simp [Tree.load, hg d rfl]⟩

theorem getParent_gone {t : Tree κ ν} (hg : ∀ d, rp = some d → t.mem d = none) :
    ∃ err, t.getParent rp = .error err := by
  obtain ⟨err, h⟩ := load_gone hg
  exact ⟨err, by simp [Tree.getParent, h]⟩

theorem getLeft_gone {t : Tree κ ν} (hg : ∀ d, rp = some d → t.mem d = none) :
    ∃ err, t.getLeft rp = .error err := by
  obtain ⟨err, h⟩ := load_gone hg
  exact ⟨err, by simp [Tree.getLeft, h]⟩

/-- One round of the loop of `balanceTree` that returns leaves a tree of the same cells and
a current node inside it. -/
theorem balanceStep_ok {t t2 : Tree κ ν} {T : Sh} {a : Nat} {p2 : Ptr}
    (h : TreeWFp t rp T) (ha : a ∈ T.addrs) (hg : ∀ d, rp = some d → t.mem d = none)
    (e : balanceStep t (some a) = .ok (p2, t2)) :
    ∃ T2 a2, p2 = some a2 ∧ a2 ∈ T2.addrs ∧ TreeWFp t2 rp T2 ∧ T2.addrs = T.addrs ∧
      SameData t t2 := by
  obtain ⟨c, l, r, hT⟩ := exists_plug ha
  subst hT
  obtain ⟨err, herr⟩ := getParent_gone (t := t) hg
  obtain ⟨err2, herr2⟩ := getLeft_gone (t := t) hg
  rcases c with _ | ⟨f1, _ | ⟨f2, c⟩⟩
  · exfalso
    simp only [balanceStep, getParent_wfQ h, topQ, ok_bind, herr, error_bind] at e
    cases e
  · exfalso
    have hF : ∃ l2 r2, f1.fill (.node l a r) = .node l2 f1.addr r2 := by
      cases f1 <;> exact ⟨_, _, rfl⟩
    obtain ⟨l2, r2, hF⟩ := hF
    have hP : TreeWFp t rp (plug [] (.node l2 f1.addr r2)) := by
      rw [← hF]
      exact h
    simp only [balanceStep, getParent_wfQ h, getParent_wfQ hP, topQ, ok_bind, herr2,
      error_bind] at e
    cases e
  · have hnd := h.nodup
    rw [addrs_plug] at hnd
    cases f2 with
    | L g U =>
      cases f1 with
      | L p S =>
        have hA : TreeWFp t rp (plug (.L p S :: .L g U :: c) (.node l a r)) := h
        have hP : TreeWFp t rp (plug (.L g U :: c) (.node (.node l a r) p S)) := h
        have hG : TreeWFp t rp (plug c (.node (.node (.node l a r) p S) g U)) := h
        have hstep : balanceStep t (some a) = resolveRB t (some a) U.root := by
          simp only [balanceStep, getParent_wfQ hA, getParent_wfQ hP, getLeft_wfQ hG, topQ,
            Frame.addr, Sh.root_node, ok_bind, if_true, getRight_wfQ hG]
        rw [hstep] at e
        by_cases hU : ∃ u, U.root = some u ∧ colorAt t u = some .NODE_RED
        · obtain ⟨u, hu, hcu⟩ := hU
          have hum := root_mem hu
          obtain ⟨t3, e3, w, d, -⟩ := resolveRB_recolorQ (a := a) (p := p) (g := g) h
            (by simp [getParent_wfQ hA, topQ, Frame.addr])
            (by simp [getParent_wfQ hP, topQ, Frame.addr])
            (by simp [addrs_plug, pathL, pathR, Sh.addrs])
            (by simp [addrs_plug, pathL, pathR, Sh.addrs])
            (by simp [addrs_plug, pathL, pathR, Sh.addrs, hum]) hcu
          rw [hu, e3] at e
          cases e
          exact ⟨_, g, rfl, by simp [addrs_plug, pathL, pathR, Sh.addrs], w, rfl, d⟩
        · have hU2 : ∀ u, U.root = some u → colorAt t u ≠ some .NODE_RED :=
            fun u hu hc => hU ⟨u, hu, hc⟩
          obtain ⟨e1, w, d⟩ := resolveRB_LL_ok hG hU2 hg e
          exact ⟨_, a, e1, by simp [addrs_plug, Sh.addrs], w,
            by simp [addrs_plug, Sh.addrs, pathL, pathR], d⟩
      | R S p =>
        have hA : TreeWFp t rp (plug (.R S p :: .L g U :: c) (.node l a r)) := h
        have hP : TreeWFp t rp (plug (.L g U :: c) (.node S p (.node l a r))) := h
        have hG : TreeWFp t rp (plug c (.node (.node S p (.node l a r)) g U)) := h
        have hstep : balanceStep t (some a) = resolveRB t (some a) U.root := by
          simp only [balanceStep, getParent_wfQ hA, getParent_wfQ hP, getLeft_wfQ hG, topQ,
            Frame.addr, Sh.root_node, ok_bind, if_true, getRight_wfQ hG]
        rw [hstep] at e
        by_cases hU : ∃ u, U.root = some u ∧ colorAt t u = some .NODE_RED
        · obtain ⟨u, hu, hcu⟩ := hU
          have hum := root_mem hu
          obtain ⟨t3, e3, w, d, -⟩ := resolveRB_recolorQ (a := a) (p := p) (g := g) h
            (by simp [getParent_wfQ hA, topQ, Frame.addr])
            (by simp [getParent_wfQ hP, topQ, Frame.addr])
            (by simp [addrs_plug, pathL, pathR, Sh.addrs])
            (by simp [addrs_plug, pathL, pathR, Sh.addrs])
            (by simp [addrs_plug, pathL, pathR, Sh.addrs, hum]) hcu
          rw [hu, e3] at e
          cases e
          exact ⟨_, g, rfl, by simp [addrs_plug, pathL, pathR, Sh.addrs], w, rfl, d⟩
        · have hU2 : ∀ u, U.root = some u → colorAt t u ≠ some .NODE_RED :=
            fun u hu hc => hU ⟨u, hu, hc⟩
          obtain ⟨e1, w, d⟩ := resolveRB_LR_ok hG hU2 hg e
          exact ⟨_, p, e1, by simp [addrs_plug, Sh.addrs], w,
            by simp [addrs_plug, Sh.addrs, pathL, pathR], d⟩
    | R U g =>
      have hpU : ¬ some f1.addr = U.root := by
        apply not_mem_root
        cases f1 <;>
          simp only [pathL, pathR, Sh.addrs, List.nodup_append, List.nodup_cons,
            List.mem_append, List.mem_cons, List.disjoint_append_left, List.disjoint_append_right,
            List.disjoint_cons_left, List.disjoint_cons_right, List.cons_append,
            List.mem_singleton, List.disjoint_singleton, not_or] at hnd <;>
          simp only [Frame.addr] <;> tauto
      cases f1 with
      | L p S =>
        have hA : TreeWFp t rp (plug (.L p S :: .R U g :: c) (.node l a r)) := h
        have hP : TreeWFp t rp (plug (.R U g :: c) (.node (.node l a r) p S)) := h
        have hG : TreeWFp t rp (plug c (.node U g (.node (.node l a r) p S))) := h
        simp only [Frame.addr] at hpU
        have hstep : balanceStep t (some a) = resolveRB t (some a) U.root := by
          simp only [balanceStep, getParent_wfQ hA, getParent_wfQ hP, getLeft_wfQ hG, topQ,
            Frame.addr, ok_bind, hpU, if_false]
        rw [hstep] at e
        by_cases hU : ∃ u, U.root = some u ∧ colorAt t u = some .NODE_RED
        · obtain ⟨u, hu, hcu⟩ := hU
          have hum := root_mem hu
          obtain ⟨t3, e3, w, d, -⟩ := resolveRB_recolorQ (a := a) (p := p) (g := g) h
            (by simp [getParent_wfQ hA, topQ, Frame.addr])
            (by simp [getParent_wfQ hP, topQ, Frame.addr])
            (by simp [addrs_plug, pathL, pathR, Sh.addrs])
            (by simp [addrs_plug, pathL, pathR, Sh.addrs])
            (by simp [addrs_plug, pathL, pathR, Sh.addrs, hum]) hcu
          rw [hu, e3] at e
          cases e
          exact ⟨_, g, rfl, by simp [addrs_plug, pathL, pathR, Sh.addrs], w, rfl, d⟩
        · have hU2 : ∀ u, U.root = some u → colorAt t u ≠ some .NODE_RED :=
            fun u hu hc => hU ⟨u, hu, hc⟩
          obtain ⟨e1, w, d⟩ := resolveRB_RL_ok hG hU2 hg e
          exact ⟨_, p, e1, by simp [addrs_plug, Sh.addrs], w,
            by simp [addrs_plug, Sh.addrs, pathL, pathR], d⟩
      | R S p =>
        have hA : TreeWFp t rp (plug (.R S p :: .R U g :: c) (.node l a r)) := h
        have hP : TreeWFp t rp (plug (.R U g :: c) (.node S p (.node l a r))) := h
        have hG : TreeWFp t rp (plug c (.node U g (.node S p (.node l a r)))) := h
        simp only [Frame.addr] at hpU
        have hstep : balanceStep t (some a) = resolveRB t (some a) U.root := by
          simp only [balanceStep, getParent_wfQ hA, getParent_wfQ hP, getLeft_wfQ hG, topQ,
            Frame.addr, ok_bind, hpU, if_false]
        rw [hstep] at e
        by_cases hU : ∃ u, U.root = some u ∧ colorAt t u = some .NODE_RED
        · obtain ⟨u, hu, hcu⟩ := hU
          have hum := root_mem hu
          obtain ⟨t3, e3, w, d, -⟩ := resolveRB_recolorQ (a := a) (p := p) (g := g) h
            (by simp [getParent_wfQ hA, topQ, Frame.addr])
            (by simp [getParent_wfQ hP, topQ, Frame.addr])
            (by simp [addrs_plug, pathL, pathR, Sh.addrs])
            (by simp [addrs_plug, pathL, pathR, Sh.addrs])
            (by simp [addrs_plug, pathL, pathR, Sh.addrs, hum]) hcu
          rw [hu, e3] at e
          cases e
          exact ⟨_, g, rfl, by simp [addrs_plug, pathL, pathR, Sh.addrs], w, rfl, d⟩
        · have hU2 : ∀ u, U.root = some u → colorAt t u ≠ some .NODE_RED :=
            fun u hu hc => hU ⟨u, hu, hc⟩
          obtain ⟨e1, w, d⟩ := resolveRB_RR_ok hG hU2 hg e
          exact ⟨_, a, e1, by simp [addrs_plug, Sh.addrs], w,
            by simp [addrs_plug, Sh.addrs, pathL, pathR], d⟩

/-- The loop of `balanceTree`, when it returns, leaves a tree of the same cells. -/
theorem balanceLoop_ok (fuel : Nat) :
    ∀ {t t2 : Tree κ ν} {T : Sh} {a : Nat},
      TreeWFp t rp T → a ∈ T.addrs → (∀ d, rp = some d → t.mem d = none) →
      balanceLoop fuel t (some a) = .ok t2 →
      ∃ T2, TreeWFp t2 rp T2 ∧ T2.addrs = T.addrs ∧ SameData t t2 := by
  induction fuel with
  | zero =>
    intro t t2 T a h ha hg e
    simp only [balanceLoop] at e
    obtain ⟨b, hb, e⟩ := bind_eq_ok e
    cases b with
    | true => cases e
    | false =>
      cases e
      exact ⟨T, h, rfl, SameData.refl_data t⟩
  | succ n ih =>
    intro t t2 T a h ha hg e
    simp only [balanceLoop] at e
    obtain ⟨b, hb, e⟩ := bind_eq_ok e
    cases b with
    | true =>
      simp only [if_true] at e
      obtain ⟨⟨p2, t1⟩, hs, e⟩ := bind_eq_ok e
      obtain ⟨T1, a1, hp, ha1, w1, hT1, d1⟩ := balanceStep_ok h ha hg hs
      subst hp
      obtain ⟨T2, w2, hT2, d2⟩ := ih w1 ha1 (d1.gone hg) e
      exact ⟨T2, w2, hT2.trans hT1, d1.trans_data d2⟩
    | false =>
      cases e
      exact ⟨T, h, rfl, SameData.refl_data t⟩

/-- A call of `balanceTree` that returns leaves a tree of the same cells. -/
theorem balanceTree_ok {t t2 : Tree κ ν} {T : Sh} {p : Ptr} (h : TreeWFp t rp T)
    (hp : ∀ a, p = some a → a ∈ T.addrs) (hg : ∀ d, rp = some d → t.mem d = none)
    (e : balanceTree t p = .ok t2) :
    ∃ T2, TreeWFp t2 rp T2 ∧ T2.addrs = T.addrs ∧ SameData t t2 := by
  cases p with
  | none =>
    simp only [balanceTree, pure_eq_ok, Except.ok.injEq] at e
    subst e
    exact ⟨T, h, rfl, SameData.refl_data t⟩
  | some a =>
    have ha := hp a rfl
    obtain ⟨col, hcol⟩ := colorAt_of_wfQ h ha
    simp only [balanceTree, getColor_of hcol, ok_bind] at e
    by_cases hred : col = .NODE_RED
    · simp only [hred, if_true] at e
      obtain ⟨t1, e1, e⟩ := bind_eq_ok e
      obtain ⟨T1, w1, ha1, d1⟩ := balanceLoop_ok t.brk h ha hg e1
      have hne : T1.addrs ≠ [] := by
        rw [ha1]
        exact List.ne_nil_of_mem ha
      cases T1 with
      | nil => simp [Sh.addrs] at hne
      | node L x R =>
        have w0 : TreeWFp t1 rp (plug [] (.node L x R)) := w1
        obtain ⟨n, hn, -, hl, hr⟩ := wf_cellQ w0
        have hroot : t1.pr = some x := w1.root
        have hcx : colorAt t1 x = some n.color := by simp [colorAt, hn]
        have hxm : x ∈ (Sh.node L x R).addrs := by simp [Sh.addrs]
        obtain ⟨bl, ebl, hbl⟩ := isRedPtr_wfQ (p := L.root) w1
          (fun u hu => by simp [Sh.addrs, root_mem hu])
        obtain ⟨br, ebr, hbr⟩ := isRedPtr_wfQ (p := R.root) w1
          (fun u hu => by simp [Sh.addrs, root_mem hu])
        obtain ⟨t3, e3, w3, d3, c3⟩ := setColor_wfQ w1 hxm .NODE_BLACK
        rw [hroot] at e
        simp only [getColor_of hcx, ok_bind, getLeft_wfQ w0, getRight_wfQ w0, ebl, ebr, e3,
          pure_eq_ok] at e
        have hA : t2 = t1 ∨ t2 = t3 := by
          by_cases hcol2 : n.color = .NODE_RED
          · simp only [hcol2, if_true] at e
            cases bl <;> cases br <;>
              simp only [Bool.false_eq_true, if_true, if_false, Except.ok.injEq] at e <;>
              first
              | exact Or.inl e.symm
              | exact Or.inr e.symm
          · simp only [hcol2, if_false, Except.ok.injEq] at e
            exact Or.inl e.symm
        rcases hA with rfl | rfl
        · exact ⟨_, w1, ha1, d1⟩
        · exact ⟨_, w3, ha1, d1.trans_data d3⟩
    · simp only [hred, if_false, pure_eq_ok, Except.ok.injEq] at e
      subst e
      exact ⟨T, h, rfl, SameData.refl_data t⟩

theorem SameTree.refl_tree (t : Tree κ ν) : SameTree t t :=
  ⟨rfl, rfl, fun _ => rfl, fun _ h => h⟩

theorem SameTree.trans_tree {t t2 t3 : Tree κ ν} (h : SameTree t t2) (h2 : SameTree t2 t3) :
    SameTree t t3 :=
  ⟨h2.pr.trans h.pr, h2.brk.trans h.brk, fun a => (h2.links a).trans (h.links a),
    fun a ha => h2.keys a (h.keys a ha)⟩

theorem SameTree.isSome_tree {t t2 : Tree κ ν} (h : SameTree t t2) (a : Nat) :
    (t2.mem a).isSome = (t.mem a).isSome := by
  have := congrArg Option.isSome (h.links a)
  simpa using this

theorem SameTree.mem_none_tree {t t2 : Tree κ ν} (h : SameTree t t2) {d : Nat}
    (hd : t.mem d = none) : t2.mem d = none := by
  have := h.isSome_tree d
  rw [hd] at this
  simpa using this

theorem Sound.of_sameTree {t t2 : Tree κ ν} {T : Sh} (h : Sound t rp T) (s : SameTree t t2) :
    Sound t2 rp T where
  wf := ⟨rep_links s.links h.wf.rep, s.pr.trans h.wf.root, h.wf.nodup⟩
  gone := fun d hd => s.mem_none_tree (h.gone d hd)
  dom := fun a ha => by
    rw [s.brk]
    exact h.dom a (by rw [← s.isSome_tree]; exact ha)
  below := fun d hd => by
    rw [s.brk]
    exact h.below d hd
  keys := fun a ha => s.keys a (h.keys a ha)

theorem Sound.of_sameData {t t2 : Tree κ ν} {T T2 : Sh} (h : Sound t rp T)
    (w : TreeWFp t2 rp T2) (ha : T2.addrs = T.addrs) (d : SameData t t2) :
    Sound t2 rp T2 where
  wf := w
  gone := d.gone h.gone
  dom := fun a hm => by
    rw [d.brk]
    exact h.dom a (by rw [← d.isSome_eq]; exact hm)
  below := fun x hx => by
    rw [d.brk]
    exact h.below x hx
  keys := fun a hm => by
    rw [d.keyAt_eq]
    exact h.keys a (ha ▸ hm)

theorem keyAt_isSome {t : Tree κ ν} {a : Nat} :
    (keyAt t a).isSome ↔ ∃ n, t.mem a = some n ∧ n.pKey.isSome := by
  unfold keyAt
  cases t.mem a with
  | none => simp
  | some n => cases n.pKey <;> simp

/-- A field assignment that leaves the tree links alone and keeps a key in place. -/
theorem modify_sameTree {t t2 : Tree κ ν} {p : Ptr} {f : Node κ ν → Node κ ν}
    (e : t.modify p f = .ok t2) (hl : ∀ n, (f n).links = n.links)
    (hk : ∀ n, n.pKey.isSome → (f n).pKey.isSome) : SameTree t t2 := by
  cases p with
  | none => simp [Tree.modify] at e
  | some a =>
    cases hm : t.mem a with
    | none => simp [Tree.modify, hm] at e
    | some n =>
      simp only [modify_some hm, Except.ok.injEq] at e
      subst e
      refine ⟨rfl, rfl, fun b => ?_, fun b hb => ?_⟩
      · by_cases h : b = a
        · simp [h, hm, hl]
        · simp [h]
      · rw [keyAt_isSome] at hb ⊢
        by_cases h : b = a
        · subst h
          obtain ⟨n2, h2, h3⟩ := hb
          rw [hm] at h2
          cases h2
          exact ⟨f n, by simp, hk n h3⟩
        · simpa [h] using hb

theorem setPrev_sameTree {t t2 : Tree κ ν} {p v : Ptr} (e : t.setPrev p v = .ok t2) :
    SameTree t t2 :=
  modify_sameTree e (fun _ => rfl) (fun _ h => h)

theorem setNext_sameTree {t t2 : Tree κ ν} {p v : Ptr} (e : t.setNext p v = .ok t2) :
    SameTree t t2 :=
  modify_sameTree e (fun _ => rfl) (fun _ h => h)

theorem setColor_sameTree {t t2 : Tree κ ν} {p : Ptr} {c : Color}
    (e : t.setColor p c = .ok t2) : SameTree t t2 :=
  modify_sameTree e (fun _ => rfl) (fun _ h => h)

theorem copyValue_sameTree {t t2 : Tree κ ν} {p : Ptr} {v : Option (Buf ν)} {sv : Nat}
    (e : copyValue t p v sv = .ok t2) : SameTree t t2 := by
  simp only [copyValue] at e
  obtain ⟨n, -, e⟩ := bind_eq_ok e
  split at e
  all_goals
    obtain ⟨-, -, e⟩ := bind_eq_ok e
    split at e
    · obtain ⟨x, -, e⟩ := bind_eq_ok e
      obtain ⟨w, -, e⟩ := bind_eq_ok e
      exact modify_sameTree e (fun _ => rfl) (fun _ h => h)
    · exact modify_sameTree e (fun _ => rfl) (fun _ h => h)

theorem copyKeyValue_sameTree {t t2 : Tree κ ν} {p : Ptr} {k : Option (Buf κ)} {sk : Nat}
    {v : Option (Buf ν)} {sv : Nat} (hk : k.isSome)
    (e : copyKeyValue t p k sk v sv = .ok t2) : SameTree t t2 := by
  simp only [copyKeyValue] at e
  obtain ⟨n, -, e⟩ := bind_eq_ok e
  split at e
  all_goals
    obtain ⟨-, -, e⟩ := bind_eq_ok e
    split at e
    · obtain ⟨x, -, e⟩ := bind_eq_ok e
      obtain ⟨w, -, e⟩ := bind_eq_ok e
      obtain ⟨t1, e1, e⟩ := bind_eq_ok e
      exact (modify_sameTree e1 (fun _ => rfl) (fun _ _ => rfl)).trans_tree
        (copyValue_sameTree e)
    · obtain ⟨t1, e1, e⟩ := bind_eq_ok e
      exact (modify_sameTree e1 (fun _ => rfl) (fun _ _ => hk)).trans_tree
        (copyValue_sameTree e)

theorem resetList_sameTree {t t2 : Tree κ ν} {p : Ptr} (e : resetList t p = .ok t2) :
    SameTree t t2 := by
  simp only [resetList] at e
  obtain ⟨prev, -, e⟩ := bind_eq_ok e
  split at e
  · obtain ⟨next, -, e⟩ := bind_eq_ok e
    split at e
    · obtain ⟨t1, e1, e⟩ := bind_eq_ok e
      obtain ⟨next2, -, e⟩ := bind_eq_ok e
      obtain ⟨prev2, -, e⟩ := bind_eq_ok e
      exact (setNext_sameTree e1).trans_tree (setPrev_sameTree e)
    · obtain ⟨t1, e1, e⟩ := bind_eq_ok e
      obtain ⟨prev2, -, e⟩ := bind_eq_ok e
      cases e
      exact (setNext_sameTree e1).trans_tree ⟨rfl, rfl, fun _ => rfl, fun _ h => h⟩
  · obtain ⟨next, -, e⟩ := bind_eq_ok e
    obtain ⟨t1, e1, e⟩ := bind_eq_ok e
    obtain ⟨next2, -, e⟩ := bind_eq_ok e
    cases e
    exact (setPrev_sameTree e1).trans_tree ⟨rfl, rfl, fun _ => rfl, fun _ h => h⟩

theorem copyValue_key {t t2 : Tree κ ν} {p : Ptr} {v : Option (Buf ν)} {sv : Nat} {a : Nat}
    (e : copyValue t p v sv = .ok t2) (h : (keyAt t a).isSome) : (keyAt t2 a).isSome :=
  (copyValue_sameTree e).keys a h

theorem modify_cell {t t2 : Tree κ ν} {a : Nat} {f : Node κ ν → Node κ ν}
    (e : t.modify (some a) f = .ok t2) : ∃ n, t.mem a = some n ∧ t2.mem a = some (f n) := by
  cases hm : t.mem a with
  | none => simp [Tree.modify, hm] at e
  | some n =>
    simp only [modify_some hm, Except.ok.injEq] at e
    subst e
    exact ⟨n, rfl, by simp⟩

theorem copyKeyValue_key {t t2 : Tree κ ν} {a : Nat} {k : Option (Buf κ)} {sk : Nat}
    {v : Option (Buf ν)} {sv : Nat} (hk : k.isSome)
    (e : copyKeyValue t (some a) k sk v sv = .ok t2) : (keyAt t2 a).isSome := by
  simp only [copyKeyValue] at e
  obtain ⟨n, -, e⟩ := bind_eq_ok e
  split at e
  all_goals
    obtain ⟨-, -, e⟩ := bind_eq_ok e
    split at e
    · obtain ⟨x, -, e⟩ := bind_eq_ok e
      obtain ⟨w, -, e⟩ := bind_eq_ok e
      obtain ⟨t1, e1, e⟩ := bind_eq_ok e
      obtain ⟨n1, -, h1⟩ := modify_cell e1
      exact copyValue_key e (keyAt_isSome.mpr ⟨_, h1, rfl⟩)
    · obtain ⟨t1, e1, e⟩ := bind_eq_ok e
      obtain ⟨n1, -, h1⟩ := modify_cell e1
      exact copyValue_key e (keyAt_isSome.mpr ⟨_, h1, hk⟩)

/-- A call of `initNode` on an empty slot that returns has allocated the cell at the
allocation mark; apart from list links, key and value the state is `allocState`. -/
theorem initNode_ok {t t2 : Tree κ ν} {k : Option (Buf κ)} {sk : Nat} {v : Option (Buf ν)}
    {sv : Nat} {p : Ptr} (hk : k.isSome) (e : initNode t none k sk v sv = .ok (p, t2)) :
    p = some t.brk ∧ SameTree (allocState t sk sv) t2 ∧ (keyAt t2 t.brk).isSome := by
  simp only [initNode] at e
  split at e
  all_goals
    obtain ⟨t1, e1, e⟩ := bind_eq_ok e
    obtain ⟨t3, e3, e⟩ := bind_eq_ok e
    simp only [pure_eq_ok, Except.ok.injEq, Prod.mk.injEq] at e
    obtain ⟨rfl, rfl⟩ := e
    have s2 : SameTree t1 { t1 with pt := some t.brk } :=
      ⟨rfl, rfl, fun _ => rfl, fun _ h => h⟩
    refine ⟨rfl, SameTree.trans_tree ?_ (s2.trans_tree (copyKeyValue_sameTree hk e3)),
      copyKeyValue_key hk e3⟩
  · simp only [pure_eq_ok, Except.ok.injEq] at e1
    subst e1
    exact ⟨rfl, rfl, fun _ => rfl, fun _ h => h⟩
  · exact setNext_sameTree e1

theorem keyAt_alloc (t : Tree κ ν) (sk sv : Nat) {a : Nat} (h : a ≠ t.brk) :
    keyAt (allocState t sk sv) a = keyAt t a := by
  simp [keyAt, allocState, h]

theorem Sound.brk_fresh {t : Tree κ ν} {T : Sh} (h : Sound t rp T) : t.brk ∉ T.addrs :=
  fun hm => Nat.lt_irrefl _ (h.dom _ (rep_mem_cell h.wf.rep hm))

theorem Sound.alloc {t : Tree κ ν} {T : Sh} (h : Sound t rp T) (sk sv : Nat) :
    Sound (allocState t sk sv) rp T where
  wf := by
    refine ⟨(rep_congr fun a ha => ?_).mpr h.wf.rep, h.wf.root, h.wf.nodup⟩
    have : a ≠ t.brk := fun e => h.brk_fresh (e ▸ ha)
    simp [allocState, this]
  gone := fun d hd => by
    have : d ≠ t.brk := Nat.ne_of_lt (h.below d hd)
    simp [allocState, this, h.gone d hd]
  dom := fun a ha => by
    by_cases hb : a = t.brk
    · simp [allocState, hb]
    · simp only [allocState, hb, if_false] at ha
      exact Nat.lt_succ_of_lt (h.dom a ha)
  below := fun d hd => Nat.lt_succ_of_lt (h.below d hd)
  keys := fun a ha => by
    have : a ≠ t.brk := fun e => h.brk_fresh (e ▸ ha)
    rw [keyAt_alloc t sk sv this]
    exact h.keys a ha

/-- A tree that has taken in the cell `z`, which has a key, is sound again. -/
theorem Sound.grow {t1 t3 : Tree κ ν} {T T3 : Sh} {z : Nat} (h : Sound t1 rp T)
    (w : TreeWFp t3 rp T3) (hT : ∀ b, b ∈ T3.addrs → b = z ∨ b ∈ T.addrs)
    (hz : (keyAt t1 z).isSome) (d : SameCore t1 t3) : Sound t3 rp T3 where
  wf := w
  gone := d.toData.gone h.gone
  dom := fun a hm => by
    rw [d.brk]
    exact h.dom a (by rw [← d.toData.isSome_eq]; exact hm)
  below := fun x hx => by
    rw [d.brk]
    exact h.below x hx
  keys := fun a hm => by
    rw [d.toData.keyAt_eq]
    rcases hT a hm with rfl | hm
    · exact hz
    · exact h.keys a hm

theorem attachRight_wfQ {t1 : Tree κ ν} {c : List Frame} {l : Sh} {a z : Nat}
    (h : TreeWFp t1 rp (plug c (.node l a .nil))) (hz : z ∉ (plug c (.node l a .nil)).addrs)
    {nz : Node κ ν} (hnz : t1.mem z = some nz) (hzl : nz.pLeft = none)
    (hzr : nz.pRight = none) :
    ∃ t2 t3, t1.setRight (some a) (some z) = .ok t2 ∧ t2.setParent (some z) (some a) = .ok t3 ∧
      TreeWFp t3 rp (plug c (.node l a (.node .nil z .nil))) ∧ SameCore t1 t3 := by
  obtain ⟨na, hna, hap, hal, har⟩ := wf_cellQ h
  have hnd := h.nodup
  rw [addrs_plug] at hnd hz
  simp only [Sh.addrs, List.nodup_append, List.nodup_cons, List.mem_append, List.mem_cons,
    List.disjoint_append_left, List.disjoint_append_right, List.disjoint_cons_left,
    List.disjoint_cons_right, List.append_nil, List.not_mem_nil, List.nodup_nil,
    List.disjoint_nil_right, List.disjoint_nil_left,
    not_false_eq_true, and_true, true_and, or_false, not_or] at hnd hz
  have haz : a ≠ z := by rintro rfl; tauto
  have hrep := (rep_plugQ t1.mem rp c _).mp h.rep
  obtain ⟨⟨-, -, -, -, -, hl, -⟩, hP⟩ := hrep
  refine ⟨_, _, modify_some hna _, modify_some (n := nz) (by simp [Ne.symm haz, hnz]) _,
    ⟨?_, ?_, ?_⟩, ⟨rfl, rfl, rfl, rfl, rfl, rfl, rfl, ?_⟩⟩
  · rw [rep_plugQ]
    constructor
    · refine ⟨{ na with pRight := some z }, by simp [haz], hap, hal, rfl, ?_,
        ⟨{ nz with pParent := some a }, by simp, rfl, hzl, hzr, trivial, trivial⟩⟩
      refine (rep_congr fun b hb => ?_).mpr hl
      have h1 : b ≠ z := by rintro rfl; tauto
      have h2 : b ≠ a := by rintro rfl; tauto
      simp [h1, h2]
    · refine (repP_congrQ fun b hb => ?_).mpr hP
      have h1 : b ≠ z := by rintro rfl; tauto
      have h2 : b ≠ a := by rintro rfl; tauto
      simp [h1, h2]
  · simp only [store_pr]
    rw [h.root]
    cases c with
    | nil => rfl
    | cons f c => exact root_plug_indep f c _ _
  · rw [addrs_plug]
    simp only [Sh.addrs, List.nodup_append, List.nodup_cons, List.mem_append, List.mem_cons,
      List.disjoint_append_left, List.disjoint_append_right, List.disjoint_cons_left,
      List.disjoint_cons_right, List.append_nil, List.not_mem_nil, List.nodup_nil,
      List.nil_append, List.disjoint_nil_right, List.disjoint_nil_left, not_false_eq_true,
      and_true, true_and, or_false, not_or]
    tauto
  · intro b
    by_cases h1 : b = z
    · simp [h1, hnz, Node.core]
    · by_cases h2 : b = a
      · simp [h1, h2, haz, hna, Node.core]
      · simp [h1, h2]

theorem attachLeft_wfQ {t1 : Tree κ ν} {c : List Frame} {r : Sh} {a z : Nat}
    (h : TreeWFp t1 rp (plug c (.node .nil a r))) (hz : z ∉ (plug c (.node .nil a r)).addrs)
    {nz : Node κ ν} (hnz : t1.mem z = some nz) (hzl : nz.pLeft = none)
    (hzr : nz.pRight = none) :
    ∃ t2 t3, t1.setLeft (some a) (some z) = .ok t2 ∧ t2.setParent (some z) (some a) = .ok t3 ∧
      TreeWFp t3 rp (plug c (.node (.node .nil z .nil) a r)) ∧ SameCore t1 t3 := by
  obtain ⟨na, hna, hap, hal, har⟩ := wf_cellQ h
  have hnd := h.nodup
  rw [addrs_plug] at hnd hz
  simp only [Sh.addrs, List.nodup_append, List.nodup_cons, List.mem_append, List.mem_cons,
    List.disjoint_append_left, List.disjoint_append_right, List.disjoint_cons_left,
    List.disjoint_cons_right, List.append_nil, List.nil_append, List.not_mem_nil,
    List.nodup_nil, List.disjoint_nil_right, List.disjoint_nil_left,
    not_false_eq_true, and_true, true_and, or_false, false_or,
    not_or] at hnd hz
  have haz : a ≠ z := by rintro rfl; tauto
  have hrep := (rep_plugQ t1.mem rp c _).mp h.rep
  obtain ⟨⟨-, -, -, -, -, -, hr⟩, hP⟩ := hrep
  refine ⟨_, _, modify_some hna _, modify_some (n := nz) (by simp [Ne.symm haz, hnz]) _,
    ⟨?_, ?_, ?_⟩, ⟨rfl, rfl, rfl, rfl, rfl, rfl, rfl, ?_⟩⟩
  · rw [rep_plugQ]
    constructor
    · refine ⟨{ na with pLeft := some z }, by simp [haz], hap, rfl, har,
        ⟨{ nz with pParent := some a }, by simp, rfl, hzl, hzr, trivial, trivial⟩, ?_⟩
      refine (rep_congr fun b hb => ?_).mpr hr
      have h1 : b ≠ z := by rintro rfl; tauto
      have h2 : b ≠ a := by rintro rfl; tauto
      simp [h1, h2]
    · refine (repP_congrQ fun b hb => ?_).mpr hP
      have h1 : b ≠ z := by rintro rfl; tauto
      have h2 : b ≠ a := by rintro rfl; tauto
      simp [h1, h2]
  · simp only [store_pr]
    rw [h.root]
    cases c with
    | nil => rfl
    | cons f c => exact root_plug_indep f c _ _
  · rw [addrs_plug]
    simp only [Sh.addrs, List.nodup_append, List.nodup_cons, List.mem_append, List.mem_cons,
      List.disjoint_append_left, List.disjoint_append_right, List.disjoint_cons_left,
      List.disjoint_cons_right, List.append_nil, List.not_mem_nil, List.nodup_nil,
      List.nil_append, List.cons_append, List.disjoint_nil_right, List.disjoint_nil_left,
      not_false_eq_true, and_true, true_and, or_false, false_or, not_or]
    tauto
  · intro b
    by_cases h1 : b = z
    · simp [h1, hnz, Node.core]
    · by_cases h2 : b = a
      · simp [h1, h2, haz, hna, Node.core]
      · simp [h1, h2]

theorem links_cell {t : Tree κ ν} {a : Nat} {x : Ptr × Ptr × Ptr}
    (h : (t.mem a).map Node.links = some x) :
    ∃ n, t.mem a = some n ∧ n.pParent = x.1 ∧ n.pLeft = x.2.1 ∧ n.pRight = x.2.2 := by
  cases hm : t.mem a with
  | none => simp [hm] at h
  | some n =>
    simp only [hm, Option.map_some', Option.some.injEq, Node.links] at h
    subst h
    exact ⟨n, rfl, rfl, rfl, rfl⟩

/-- The state after `initNode` has created a cell: the old tree is intact and the new cell
has a key and no tree links. -/
theorem initNode_sound {t t2 : Tree κ ν} {T : Sh} {k : κ} {sk : Nat} {v : Option (Buf ν)}
    {sv : Nat} {p : Ptr} (h : Sound t rp T)
    (e : initNode t none (some ⟨k, false⟩) sk v sv = .ok (p, t2)) :
    p = some t.brk ∧ Sound t2 rp T ∧ (keyAt t2 t.brk).isSome ∧
      ∃ nz, t2.mem t.brk = some nz ∧ nz.pLeft = none ∧ nz.pRight = none ∧ nz.pParent = none := by
  obtain ⟨hp, s, hk⟩ := initNode_ok (k := some ⟨k, false⟩) rfl e
  refine ⟨hp, (h.alloc sk sv).of_sameTree s, hk, ?_⟩
  have hl := s.links t.brk
  simp only [allocState, if_true, Option.map_some', Node.links] at hl
  obtain ⟨nz, h1, h2, h3, h4⟩ := links_cell hl
  exact ⟨nz, h1, h3, h4, h2⟩

/-- The insert loop, when it returns, leaves a sound tree. -/
theorem insertLoop_ok (k : κ) (sk : Nat) (pv : Option ν) (sv : Nat) (fuel : Nat) :
    ∀ {t t2 : Tree κ ν} {T : Sh} {a : Nat} {r : Int}, Sound t rp T → a ∈ T.addrs →
      insertLoop k sk pv sv fuel t (some a) = .ok (r, t2) → ∃ T2, Sound t2 rp T2 := by
  induction fuel with
  | zero =>
    intro t t2 T a r h ha e
    simp [insertLoop] at e
  | succ fuel ih =>
    intro t t2 T a r h ha e
    obtain ⟨c, l, r0, hT⟩ := exists_plug ha
    subst hT
    obtain ⟨n, hn, hnp, hnl, hnr⟩ := wf_cellQ h.wf
    obtain ⟨ka, hka, -⟩ := keyAt_cell hn (h.keys a ha)
    simp only [insertLoop, load_some hn, hka, ok_bind] at e
    split at e
    · -- descend to the right
      cases r0 with
      | nil =>
        simp only [hnr, Sh.root_nil] at e
        obtain ⟨⟨pN, t1⟩, e1, e⟩ := bind_eq_ok e
        obtain ⟨hp, h1, hk1, nz, hz, hzl, hzr, -⟩ := initNode_sound h e1
        subst hp
        simp only [Option.isSome_some, if_true] at e
        have hzT : t.brk ∉ (plug c (.node l a .nil)).addrs := h.brk_fresh
        obtain ⟨t2a, t3, ea, eb, w3, d3⟩ := attachRight_wfQ h1.wf hzT hz hzl hzr
        simp only [ea, eb, ok_bind] at e
        obtain ⟨t4, e4, e⟩ := bind_eq_ok e
        cases e
        have h3 : Sound t3 rp (plug c (.node l a (.node .nil t.brk .nil))) :=
          h1.grow w3 (fun b hb => by
            simp only [addrs_plug, Sh.addrs, List.mem_append, List.mem_cons,
              List.not_mem_nil, List.nil_append, or_false, false_or] at hb ⊢
            tauto) hk1 d3
        obtain ⟨T4, w4, hT4, d4⟩ := balanceTree_ok w3
          (fun b hb => by
            simp only [Option.some.injEq] at hb
            subst hb
            simp [addrs_plug, Sh.addrs]) h3.gone e4
        exact ⟨T4, h3.of_sameData w4 hT4 d4⟩
      | node rl ra rr =>
        simp only [hnr, Sh.root_node, initNode_occupied, ok_bind, Option.isSome_none,
          Bool.false_eq_true, if_false, getRight_wfQ h.wf] at e
        exact ih h (by simp [addrs_plug, Sh.addrs]) e
    · split at e
      · -- descend to the left
        cases l with
        | nil =>
          simp only [hnl, Sh.root_nil] at e
          obtain ⟨⟨pN, t1⟩, e1, e⟩ := bind_eq_ok e
          obtain ⟨hp, h1, hk1, nz, hz, hzl, hzr, -⟩ := initNode_sound h e1
          subst hp
          simp only [Option.isSome_some, if_true] at e
          have hzT : t.brk ∉ (plug c (.node .nil a r0)).addrs := h.brk_fresh
          obtain ⟨t2a, t3, ea, eb, w3, d3⟩ := attachLeft_wfQ h1.wf hzT hz hzl hzr
          simp only [ea, eb, ok_bind] at e
          obtain ⟨t4, e4, e⟩ := bind_eq_ok e
          cases e
          have h3 : Sound t3 rp (plug c (.node (.node .nil t.brk .nil) a r0)) :=
            h1.grow w3 (fun b hb => by
              simp only [addrs_plug, Sh.addrs, List.mem_append, List.mem_cons,
                List.not_mem_nil, List.nil_append, or_false, false_or] at hb ⊢
              tauto) hk1 d3
          obtain ⟨T4, w4, hT4, d4⟩ := balanceTree_ok w3
            (fun b hb => by
              simp only [Option.some.injEq] at hb
              subst hb
              simp [addrs_plug, Sh.addrs]) h3.gone e4
          exact ⟨T4, h3.of_sameData w4 hT4 d4⟩
        | node ll la lr =>
          simp only [hnl, Sh.root_node, initNode_occupied, ok_bind, Option.isSome_none,
            Bool.false_eq_true, if_false, getLeft_wfQ h.wf] at e
          exact ih h (by simp [addrs_plug, Sh.addrs]) e
      · simp only [pure_eq_ok, Except.ok.injEq, Prod.mk.injEq] at e
        obtain ⟨-, rfl⟩ := e
        exact ⟨_, h⟩

/-- A call of `treeInsert` that returns leaves a sound tree. -/
theorem treeInsert_ok {t t2 : Tree κ ν} {T : Sh} {pKey : Option κ} {sk : Nat} {pv : Option ν}
    {sv : Nat} {r : Int} (h : Sound t rp T) (e : treeInsert t pKey sk pv sv = .ok (r, t2)) :
    ∃ rp2 T2, Sound t2 rp2 T2 := by
  cases pKey with
  | none =>
    simp only [treeInsert, pure_eq_ok, Except.ok.injEq, Prod.mk.injEq] at e
    obtain ⟨-, rfl⟩ := e
    exact ⟨rp, T, h⟩
  | some k =>
    simp only [treeInsert] at e
    cases T with
    | nil =>
      have hpr : t.pr = none := h.wf.root
      rw [hpr] at e
      obtain ⟨⟨pN, t1⟩, e1, e⟩ := bind_eq_ok e
      obtain ⟨hp, h1, hk1, nz, hz, hzl, hzr, hzp⟩ := initNode_sound h e1
      subst hp
      simp only [Option.isSome_some, if_true] at e
      obtain ⟨t3, e3, e⟩ := bind_eq_ok e
      simp only [pure_eq_ok, Except.ok.injEq, Prod.mk.injEq] at e
      obtain ⟨-, rfl⟩ := e
      have s3 := setColor_sameTree e3
      obtain ⟨n3, hn3, hl3⟩ : ∃ n3, t3.mem t.brk = some n3 ∧
          n3.pParent = none ∧ n3.pLeft = none ∧ n3.pRight = none := by
        have hl := s3.links t.brk
        rw [hz] at hl
        simp only [Option.map_some', Node.links, hzl, hzr, hzp] at hl
        obtain ⟨n3, h1, h2, h3, h4⟩ := links_cell hl
        exact ⟨n3, h1, h2, h3, h4⟩
      have h3 := h1.of_sameTree s3
      refine ⟨none, .node .nil t.brk .nil, ⟨⟨n3, hn3, hl3.1, hl3.2.1, hl3.2.2, trivial, trivial⟩,
        rfl, by simp [Sh.addrs]⟩, by simp, h3.dom, by simp, ?_⟩
      intro a ha
      simp only [Sh.addrs, List.nil_append, List.mem_singleton] at ha
      subst ha
      exact s3.keys _ hk1
    | node l a r0 =>
      have hpr : t.pr = some a := h.wf.root
      simp only [hpr, initNode_occupied, ok_bind, Option.isSome_none, Bool.false_eq_true,
        if_false] at e
      obtain ⟨T2, h2⟩ := insertLoop_ok k sk pv sv _ h (by simp [Sh.addrs]) e
      exact ⟨rp, T2, h2⟩

theorem Sound.shrink {t t2 : Tree κ ν} {T T2 : Sh} (h : Sound t rp T)
    (w : TreeWFp t2 rp T2) (ha : ∀ x ∈ T2.addrs, x ∈ T.addrs) (d : SameData t t2) :
    Sound t2 rp T2 where
  wf := w
  gone := d.gone h.gone
  dom := fun a hm => by
    rw [d.brk]
    exact h.dom a (by rw [← d.isSome_eq]; exact hm)
  below := fun x hx => by
    rw [d.brk]
    exact h.below x hx
  keys := fun a hm => by
    rw [d.keyAt_eq]
    exact h.keys a (ha a hm)

/-- Replace the subtree below a frame: the parent cell gets the new child pointer, the new
subtree is in place, and the rest of the path is untouched. -/
theorem replace_wf {t : Tree κ ν} {f : Frame} {c : List Frame} {l r Y : Sh} {a : Nat}
    (m2 : Nat → Option (Node κ ν))
    (h : TreeWFp t rp (plug (f :: c) (.node l a r)))
    (hY : Rep m2 (some f.addr) Y) (hYs : Y.addrs.Sublist (Sh.node l a r).addrs)
    (htop : ∀ n, t.mem f.addr = some n → m2 f.addr =
      some (if n.pLeft = some a then { n with pLeft := Y.root } else { n with pRight := Y.root }))
    (hf : ∀ b, b ∈ pathL (f :: c) ∨ b ∈ pathR (f :: c) → b ≠ f.addr → m2 b = t.mem b) :
    TreeWFp { t with mem := m2 } rp (plug (f :: c) Y) := by
  have hnd := h.nodup
  have hrep := (rep_plugQ t.mem rp (f :: c) _).mp h.rep
  obtain ⟨-, hP⟩ := hrep
  rw [addrs_plug] at hnd
  have hnd2 : (plug (f :: c) Y).addrs.Nodup := by
    rw [addrs_plug]
    exact hnd.sublist ((List.Sublist.refl _).append hYs |>.append (List.Sublist.refl _))
  simp only [List.nodup_append, Sh.addrs, List.mem_append, List.mem_cons,
    List.disjoint_append_left, List.disjoint_append_right, List.disjoint_cons_left,
    List.disjoint_cons_right, List.nodup_cons, not_or] at hnd
  refine ⟨?_, ?_, hnd2⟩
  · rw [rep_plugQ]
    refine ⟨hY, ?_⟩
    refine repP_retargetQ hP ?_ hnd.2.1 ?_ hnd.1.1 ?_ ?_
    · exact hnd.1.2.2.2.1
    · exact hnd.2.2.1
    · intro p n hp hn
      simp only [topQ, Option.some.injEq] at hp
      subst hp
      exact htop n hn
    · intro b hb hne
      refine hf b hb ?_
      rintro rfl
      exact hne rfl
  · show t.pr = _
    rw [h.root]
    exact root_plug_indep f c _ _

/-- The parent cell of a node below a frame, and what its left pointer says about the node. -/
theorem frame_cell {t : Tree κ ν} {f : Frame} {c : List Frame} {l r : Sh} {a : Nat}
    (h : TreeWFp t rp (plug (f :: c) (.node l a r))) :
    ∃ np, t.mem f.addr = some np ∧ f.addr ≠ a ∧
      ((np.pLeft = some a ∧ np.pRight ≠ some a) ∨
        (np.pLeft ≠ some a ∧ np.pRight = some a)) := by
  have hnd := h.nodup
  rw [addrs_plug] at hnd
  cases f with
  | L p R =>
    have hP : TreeWFp t rp (plug c (.node (.node l a r) p R)) := h
    obtain ⟨np, h1, -, h3, h4⟩ := wf_cellQ hP
    simp only [pathL, pathR, Sh.addrs, List.nodup_append, List.nodup_cons, List.mem_append,
      List.mem_cons, List.disjoint_append_left, List.disjoint_append_right,
      List.disjoint_cons_left, List.disjoint_cons_right, List.cons_append, not_or] at hnd
    refine ⟨np, h1, ?_, Or.inl ⟨h3, ?_⟩⟩
    · simp only [Frame.addr]
      rintro rfl
      tauto
    · rw [h4]
      intro e
      have := root_mem e
      tauto
  | R L p =>
    have hP : TreeWFp t rp (plug c (.node L p (.node l a r))) := h
    obtain ⟨np, h1, -, h3, h4⟩ := wf_cellQ hP
    simp only [pathL, pathR, Sh.addrs, List.nodup_append, List.nodup_cons, List.mem_append,
      List.mem_cons, List.disjoint_append_left, List.disjoint_append_right,
      List.disjoint_cons_left, List.disjoint_cons_right, List.cons_append, List.mem_singleton,
      List.disjoint_singleton, not_or] at hnd
    refine ⟨np, h1, ?_, Or.inr ⟨?_, h4⟩⟩
    · simp only [Frame.addr]
      rintro rfl
      tauto
    · rw [h3]
      intro e
      have := root_mem e
      tauto

/-- Source function `removeNode` on a node that has a parent: the node and what hangs below
it leave the tree. -/
theorem removeNode_wf {t : Tree κ ν} {f : Frame} {c : List Frame} {l r : Sh} {a : Nat}
    (h : TreeWFp t rp (plug (f :: c) (.node l a r))) :
    ∃ t2, removeNode t (some a) = .ok t2 ∧ TreeWFp t2 rp (plug (f :: c) .nil) ∧
      SameCore t t2 := by
  obtain ⟨np, hnp, hpa, hside⟩ := frame_cell h
  have hgp : t.getParent (some a) = .ok (some f.addr) := by
    rw [getParent_wfQ h]
    rfl
  have hcore : ∀ (n2 : Node κ ν), n2.core = np.core →
      SameCore t (t.store f.addr n2) := by
    intro n2 h2
    refine ⟨rfl, rfl, rfl, rfl, rfl, rfl, rfl, fun b => ?_⟩
    by_cases hb : b = f.addr
    · simp [hb, hnp, h2]
    · simp [hb]
  rcases hside with ⟨hl, hr⟩ | ⟨hl, hr⟩
  · refine ⟨t.store f.addr { np with pLeft := none }, ?_, ?_, hcore _ rfl⟩
    · simp [removeNode, hgp, Tree.getLeft, load_some hnp, hl, Tree.setLeft, modify_some hnp]
    · refine replace_wf (Y := .nil) _ h trivial (by simp [Sh.addrs]) ?_ ?_
      · intro n hn
        rw [hnp] at hn
        cases hn
        simp [hl]
      · intro b _ hb
        simp [hb]
  · refine ⟨t.store f.addr { np with pRight := none }, ?_, ?_, hcore _ rfl⟩
    · simp [removeNode, hgp, Tree.getLeft, load_some hnp, hl, Tree.setRight, modify_some hnp]
    · refine replace_wf (Y := .nil) _ h trivial (by simp [Sh.addrs]) ?_ ?_
      · intro n hn
        rw [hnp] at hn
        cases hn
        simp [hl]
      · intro b _ hb
        simp [hb]

theorem plug_parts {C : List Frame} {X : Sh} (hnd : (plug C X).addrs.Nodup) :
    X.addrs.Nodup ∧ ∀ b ∈ X.addrs, b ∉ pathL C ∧ b ∉ pathR C := by
  rw [addrs_plug] at hnd
  have h1 := List.nodup_append.mp hnd
  have h2 := List.nodup_append.mp h1.1
  exact ⟨h2.2.1, fun b hb =>
    ⟨fun hm => h2.2.2 hm hb, fun hm => h1.2.2 (List.mem_append_right _ hb) hm⟩⟩

/-- Source function `spliceLeft` on a node that has a parent and a left child: the left
subtree takes the place of the node. -/
theorem spliceLeft_wf {t : Tree κ ν} {f : Frame} {c : List Frame} {ll lr r : Sh} {a la : Nat}
    (h : TreeWFp t rp (plug (f :: c) (.node (.node ll la lr) a r))) :
    ∃ t2, spliceLeft t (some a) = .ok t2 ∧ TreeWFp t2 rp (plug (f :: c) (.node ll la lr)) ∧
      SameCore t t2 ∧ t2.getLeft (some a) = .ok (some la) := by
  obtain ⟨np, hnp, hpa, hside⟩ := frame_cell h
  have hgp : t.getParent (some a) = .ok (some f.addr) := by
    rw [getParent_wfQ h]
    rfl
  obtain ⟨⟨na, hna, -, hal, -, hL, -⟩, -⟩ := (rep_plugQ t.mem rp (f :: c) _).mp h.rep
  obtain ⟨nla, hnla, hlap, hlal, hlar, hLL, hLR⟩ := hL
  obtain ⟨hndX, hXp⟩ := plug_parts h.nodup
  have hndX2 := List.nodup_append.mp (show ((Sh.node ll la lr).addrs ++ a :: r.addrs).Nodup
    from hndX)
  have hndY : (Sh.node ll la lr).addrs.Nodup := hndX2.1
  have hlam : la ∈ (Sh.node ll la lr).addrs := by simp [Sh.addrs]
  have hfm : f.addr ∈ pathL (f :: c) ∨ f.addr ∈ pathR (f :: c) := by
    cases f <;> simp [pathL, pathR, Frame.addr]
  have hla_a : la ≠ a := fun e => hndX2.2.2 hlam (e ▸ List.mem_cons_self _ _)
  have hY : ∀ b ∈ (Sh.node ll la lr).addrs, b ≠ f.addr := by
    intro b hb e
    have := hXp b (show b ∈ (Sh.node (.node ll la lr) a r).addrs from
      List.mem_append_left _ hb)
    rw [e] at this
    exact hfm.elim this.1 this.2
  have hla_p : la ≠ f.addr := hY la hlam
  have hpath : ∀ b, b ∈ pathL (f :: c) ∨ b ∈ pathR (f :: c) → b ≠ la := by
    rintro b hb rfl
    have := hXp b (show b ∈ (Sh.node (.node ll b lr) a r).addrs from
      List.mem_append_left _ hlam)
    exact hb.elim this.1 this.2
  have hgl : t.getLeft (some a) = .ok (some la) := by
    simp [Tree.getLeft, load_some hna, hal]
  let t1 := t.store la { nla with pParent := some f.addr }
  have e1 : t.setParent (some la) (some f.addr) = .ok t1 := by
    simp [Tree.setParent, modify_some hnla, t1]
  have hgp1 : t1.getParent (some a) = .ok (some f.addr) := by
    have := getParent_wfQ h
    simp only [Tree.getParent, Tree.load, hna, ok_bind, pure_eq_ok, Except.ok.injEq] at this
    simp [Tree.getParent, Tree.load, t1, Ne.symm hla_a, hna, this, topQ]
  have hgl1 : t1.getLeft (some a) = .ok (some la) := by
    simp [Tree.getLeft, Tree.load, t1, Ne.symm hla_a, hna, hal]
  have hnp1 : t1.mem f.addr = some np := by
    simp [t1, Ne.symm hla_p, hnp]
  have hglp1 : t1.getLeft (some f.addr) = .ok np.pLeft := by
    simp [Tree.getLeft, load_some hnp1]
  let n2 : Node κ ν :=
    if np.pLeft = some a then { np with pLeft := some la } else { np with pRight := some la }
  have e2 : spliceLeft t (some a) = .ok (t1.store f.addr n2) := by
    simp only [spliceLeft, hgp, ok_bind, Option.isSome_some, if_true, hgl, e1, hgp1, hglp1, hgl1]
    by_cases hl : np.pLeft = some a
    · simp [hl, Tree.setLeft, modify_some hnp1, n2]
    · simp [hl, Tree.setRight, modify_some hnp1, n2]
  refine ⟨_, e2, ?_, ?_, ?_⟩
  · refine replace_wf (t := t) (Y := .node ll la lr) (t1.store f.addr n2).mem h
      ?_ ?_ ?_ ?_
    · refine rep_reparent
        (show Rep t.mem (some a) (.node ll la lr) from ⟨nla, hnla, hlap, hlal, hlar, hLL, hLR⟩)
        ?_ ?_ hndY
      · intro b nb hb hnb
        simp only [Sh.root_node, Option.some.injEq] at hb
        subst hb
        rw [hnla] at hnb
        cases hnb
        simp [t1, hla_p]
      · intro b hb hne
        have h1 : b ≠ f.addr := hY b hb
        have h2 : b ≠ la := by
          rintro rfl
          exact hne rfl
        simp [t1, h1, h2]
    · simp [Sh.addrs]
    · intro n hn
      rw [hnp] at hn
      cases hn
      simp only [store_mem, if_true, n2, Sh.root_node]
    · intro b hb hne
      have h2 : b ≠ la := hpath b hb
      simp [t1, hne, h2]
  · refine ⟨rfl, rfl, rfl, rfl, rfl, rfl, rfl, fun b => ?_⟩
    by_cases hb : b = f.addr
    · subst hb
      simp only [store_mem, if_true, Option.map_some', hnp, n2]
      split_ifs <;> rfl
    · by_cases hb2 : b = la
      · simp [t1, hb2, hla_p, hnla, Node.core]
      · simp [t1, hb, hb2]
  · simp [Tree.getLeft, Tree.load, t1, Ne.symm hla_a, Ne.symm hpa, hna, hal]

/-- Source function `spliceRight` on a node that has a parent and a right child: the right
subtree takes the place of the node. -/
theorem spliceRight_wf {t : Tree κ ν} {f : Frame} {c : List Frame} {l rl rr : Sh} {a ra : Nat}
    (h : TreeWFp t rp (plug (f :: c) (.node l a (.node rl ra rr)))) :
    ∃ t2, spliceRight t (some a) = .ok t2 ∧ TreeWFp t2 rp (plug (f :: c) (.node rl ra rr)) ∧
      SameCore t t2 ∧ t2.getRight (some a) = .ok (some ra) := by
  obtain ⟨np, hnp, hpa, hside⟩ := frame_cell h
  have hgp : t.getParent (some a) = .ok (some f.addr) := by
    rw [getParent_wfQ h]
    rfl
  obtain ⟨⟨na, hna, -, -, har, -, hR⟩, -⟩ := (rep_plugQ t.mem rp (f :: c) _).mp h.rep
  obtain ⟨nra, hnra, hrap, hral, hrar, hRL, hRR⟩ := hR
  obtain ⟨hndX, hXp⟩ := plug_parts h.nodup
  have hndX2 := List.nodup_append.mp (show (l.addrs ++ a :: (Sh.node rl ra rr).addrs).Nodup
    from hndX)
  have hndX3 := List.nodup_cons.mp hndX2.2.1
  have hndY : (Sh.node rl ra rr).addrs.Nodup := hndX3.2
  have hram : ra ∈ (Sh.node rl ra rr).addrs := by simp [Sh.addrs]
  have hfm : f.addr ∈ pathL (f :: c) ∨ f.addr ∈ pathR (f :: c) := by
    cases f <;> simp [pathL, pathR, Frame.addr]
  have hra_a : ra ≠ a := fun e => hndX3.1 (e ▸ hram)
  have hY : ∀ b ∈ (Sh.node rl ra rr).addrs, b ≠ f.addr := by
    intro b hb e
    have := hXp b (show b ∈ (Sh.node l a (.node rl ra rr)).addrs from
      List.mem_append_right _ (List.mem_cons_of_mem _ hb))
    rw [e] at this
    exact hfm.elim this.1 this.2
  have hra_p : ra ≠ f.addr := hY ra hram
  have hpath : ∀ b, b ∈ pathL (f :: c) ∨ b ∈ pathR (f :: c) → b ≠ ra := by
    rintro b hb rfl
    have := hXp b (show b ∈ (Sh.node l a (.node rl b rr)).addrs from
      List.mem_append_right _ (List.mem_cons_of_mem _ hram))
    exact hb.elim this.1 this.2
  have hgr : t.getRight (some a) = .ok (some ra) := by
    simp [Tree.getRight, load_some hna, har]
  let t1 := t.store ra { nra with pParent := some f.addr }
  have e1 : t.setParent (some ra) (some f.addr) = .ok t1 := by
    simp [Tree.setParent, modify_some hnra, t1]
  have hgp1 : t1.getParent (some a) = .ok (some f.addr) := by
    have := getParent_wfQ h
    simp only [Tree.getParent, Tree.load, hna, ok_bind, pure_eq_ok, Except.ok.injEq] at this
    simp [Tree.getParent, Tree.load, t1, Ne.symm hra_a, hna, this, topQ]
  have hgr1 : t1.getRight (some a) = .ok (some ra) := by
    simp [Tree.getRight, Tree.load, t1, Ne.symm hra_a, hna, har]
  have hnp1 : t1.mem f.addr = some np := by
    simp [t1, Ne.symm hra_p, hnp]
  have hgrp1 : t1.getRight (some f.addr) = .ok np.pRight := by
    simp [Tree.getRight, load_some hnp1]
  let n2 : Node κ ν :=
    if np.pLeft = some a then { np with pLeft := some ra } else { np with pRight := some ra }
  have e2 : spliceRight t (some a) = .ok (t1.store f.addr n2) := by
    simp only [spliceRight, hgp, ok_bind, Option.isSome_some, if_true, hgr, e1, hgp1, hgrp1,
      hgr1]
    rcases hside with ⟨hl, hr⟩ | ⟨hl, hr⟩
    · simp [hl, hr, Tree.setLeft, modify_some hnp1, n2]
    · simp [hl, hr, Tree.setRight, modify_some hnp1, n2]
  refine ⟨_, e2, ?_, ?_, ?_⟩
  · refine replace_wf (t := t) (Y := .node rl ra rr) (t1.store f.addr n2).mem h
      ?_ ?_ ?_ ?_
    · refine rep_reparent
        (show Rep t.mem (some a) (.node rl ra rr) from ⟨nra, hnra, hrap, hral, hrar, hRL, hRR⟩)
        ?_ ?_ hndY
      · intro b nb hb hnb
        simp only [Sh.root_node, Option.some.injEq] at hb
        subst hb
        rw [hnra] at hnb
        cases hnb
        simp [t1, hra_p]
      · intro b hb hne
        have h1 : b ≠ f.addr := hY b hb
        have h2 : b ≠ ra := by
          rintro rfl
          exact hne rfl
        simp [t1, h1, h2]
    · simp [Sh.addrs]
    · intro n hn
      rw [hnp] at hn
      cases hn
      simp only [store_mem, if_true, n2, Sh.root_node]
    · intro b hb hne
      have h2 : b ≠ ra := hpath b hb
      simp [t1, hne, h2]
  · refine ⟨rfl, rfl, rfl, rfl, rfl, rfl, rfl, fun b => ?_⟩
    by_cases hb : b = f.addr
    · subst hb
      simp only [store_mem, if_true, Option.map_some', hnp, n2]
      split_ifs <;> rfl
    · by_cases hb2 : b = ra
      · simp [t1, hb2, hra_p, hnra, Node.core]
      · simp [t1, hb, hb2]
  · simp [Tree.getRight, Tree.load, t1, Ne.symm hra_a, Ne.symm hpa, hna, har]

/-- The walk to the in-order predecessor ends at a node without a right child. -/
theorem predLoop_ok {t : Tree κ ν} (fuel : Nat) :
    ∀ {C : List Frame} {l r : Sh} {x : Nat} {pN0 q : Ptr},
      TreeWFp t rp (plug C (.node l x r)) → predLoop t fuel (some x) pN0 = .ok q →
      ∃ C2 l2 b, q = some b ∧ plug C (.node l x r) = plug (C2 ++ C) (.node l2 b .nil) := by
  induction fuel with
  | zero =>
    intro C l r x pN0 q h e
    simp [predLoop] at e
  | succ fuel ih =>
    intro C l r x pN0 q h e
    simp only [predLoop, getRight_wfQ h, ok_bind] at e
    cases r with
    | nil =>
      cases fuel <;> simp only [Sh.root_nil, predLoop, pure_eq_ok, Except.ok.injEq] at e <;>
        exact ⟨[], l, x, e.symm, rfl⟩
    | node rl rx rr =>
      have h2 : TreeWFp t rp (plug (.R l x :: C) (.node rl rx rr)) := h
      obtain ⟨C2, l2, b, hq, hT⟩ := ih h2 e
      refine ⟨C2 ++ [.R l x], l2, b, hq, ?_⟩
      rw [List.append_assoc]
      exact hT

/-- The search, when it returns a node, returns a node of the tree. -/
theorem getNodeByKeyLoop_mem {t : Tree κ ν} {T : Sh} (k : κ) (h : TreeWFp t rp T)
    (fuel : Nat) :
    ∀ {a : Nat} {q : Ptr}, a ∈ T.addrs → getNodeByKeyLoop t k fuel (some a) = .ok q →
      ∀ b, q = some b → b ∈ T.addrs := by
  induction fuel with
  | zero =>
    intro a q ha e
    simp [getNodeByKeyLoop] at e
  | succ fuel ih =>
    intro a q ha e b hb
    obtain ⟨c, l, r, hT⟩ := exists_plug ha
    subst hT
    obtain ⟨n, hn, -, hnl, hnr⟩ := wf_cellQ h
    simp only [getNodeByKeyLoop, load_some hn, ok_bind] at e
    obtain ⟨ka, -, e⟩ := bind_eq_ok e
    simp only [pure_eq_ok] at e
    split at e
    · simp only [Except.ok.injEq] at e
      subst e
      cases hb
      exact ha
    · split at e
      · rw [hnl] at e
        cases l with
        | nil =>
          cases fuel <;> simp only [Sh.root_nil, getNodeByKeyLoop, pure_eq_ok,
            Except.ok.injEq] at e <;> subst e <;> cases hb
        | node ll la lr =>
          exact ih (by simp [addrs_plug, Sh.addrs]) e b hb
      · rw [hnr] at e
        cases r with
        | nil =>
          cases fuel <;> simp only [Sh.root_nil, getNodeByKeyLoop, pure_eq_ok,
            Except.ok.injEq] at e <;> subst e <;> cases hb
        | node rl ra rr =>
          exact ih (by simp [addrs_plug, Sh.addrs]) e b hb

theorem getNodeByKey_mem {t : Tree κ ν} {T : Sh} {pKey : Option κ} {q : Ptr}
    (h : TreeWFp t rp T) (e : getNodeByKey t pKey = .ok q) : ∀ b, q = some b → b ∈ T.addrs := by
  cases pKey with
  | none =>
    simp only [getNodeByKey, pure_eq_ok, Except.ok.injEq] at e
    subst e
    intro b hb
    cases hb
  | some k =>
    simp only [getNodeByKey] at e
    cases T with
    | nil =>
      have : t.pr = none := h.root
      rw [this] at e
      cases hb : t.brk <;> simp only [hb, getNodeByKeyLoop, pure_eq_ok, Except.ok.injEq] at e <;>
        subst e <;> intro b hb <;> cases hb
    | node l a r =>
      have : t.pr = some a := h.root
      rw [this] at e
      exact getNodeByKeyLoop_mem k h _ (by simp [Sh.addrs]) e

theorem free_cell {t t2 : Tree κ ν} {a : Nat} (e : t.free (some a) = .ok t2) :
    (t.mem a).isSome ∧ t2 = { t with mem := fun b => if b = a then none else t.mem b } := by
  cases hm : t.mem a with
  | none => simp [Tree.free, hm] at e
  | some n =>
    simp only [Tree.free, hm, Except.ok.injEq] at e
    exact ⟨rfl, e.symm⟩

/-- The loop of `treeFree` only releases cells. -/
theorem treeFreeLoop_shrinks (fuel : Nat) :
    ∀ {t t2 : Tree κ ν} {p : Ptr}, treeFreeLoop fuel t p = .ok t2 →
      t2.brk = t.brk ∧ ∀ a, (t2.mem a).isSome → (t.mem a).isSome := by
  induction fuel with
  | zero =>
    intro t t2 p e
    cases p with
    | none =>
      simp only [treeFreeLoop, pure_eq_ok, Except.ok.injEq] at e
      subst e
      exact ⟨rfl, fun _ h => h⟩
    | some a => simp [treeFreeLoop] at e
  | succ fuel ih =>
    intro t t2 p e
    cases p with
    | none =>
      simp only [treeFreeLoop, pure_eq_ok, Except.ok.injEq] at e
      subst e
      exact ⟨rfl, fun _ h => h⟩
    | some a =>
      simp only [treeFreeLoop] at e
      obtain ⟨n, -, e⟩ := bind_eq_ok e
      have key : ∀ {t1 : Tree κ ν}, t.free (some a) = .ok t1 →
          treeFreeLoop fuel t1 n.pNext = .ok t2 →
          t2.brk = t.brk ∧ ∀ b, (t2.mem b).isSome → (t.mem b).isSome := by
        intro t1 e1 e2
        obtain ⟨-, rfl⟩ := free_cell e1
        obtain ⟨h1, h2⟩ := ih e2
        refine ⟨h1, fun b hb => ?_⟩
        have := h2 b hb
        by_cases hba : b = a
        · simp [hba] at this
        · simpa [hba] using this
      split at e
      all_goals
        obtain ⟨-, -, e⟩ := bind_eq_ok e
        split at e
        all_goals
          obtain ⟨-, -, e⟩ := bind_eq_ok e
          obtain ⟨t1, e1, e⟩ := bind_eq_ok e
          exact key e1 e

/-- A call of `treeFree` that returns leaves the empty tree. -/
theorem treeFree_sound {t t2 : Tree κ ν} (hdom : ∀ a, (t.mem a).isSome → a < t.brk)
    (e : treeFree t = .ok t2) : Sound t2 none .nil := by
  simp only [treeFree] at e
  obtain ⟨t1, e1, e⟩ := bind_eq_ok e
  simp only [pure_eq_ok, Except.ok.injEq] at e
  subst e
  obtain ⟨h1, h2⟩ := treeFreeLoop_shrinks _ e1
  exact ⟨⟨trivial, rfl, List.nodup_nil⟩, by simp, fun a ha => h1 ▸ hdom a (h2 a ha), by simp,
    by simp [Sh.addrs]⟩

/-- The tail of `treeDelete`, when it returns, has released the cell `p` and otherwise left
the tree links and keys alone. -/
theorem deleteFinish_ok {t t2 : Tree κ ν} {p : Ptr} {s : Bool} {r : Int}
    (e : deleteFinish t p s = .ok (r, t2)) :
    ∃ a t1, p = some a ∧ SameTree t t1 ∧ (t1.mem a).isSome ∧ t2.pr = t1.pr ∧
      t2.brk = t1.brk ∧ t2.mem = fun b => if b = a then none else t1.mem b := by
  obtain ⟨t1, s1, e⟩ : ∃ t1, SameTree t t1 ∧ (do
      let n ← t1.load p
      if n.pValue.isSome ∧ n.sizeTvalue > 0 then freeBuf n.pValue
      if n.sizeTkey > 0 then freeBuf n.pKey
      let t ← t1.free p
      pure (1, { t with ulTreeLen := if t.ulTreeLen = 0 then 2 ^ 64 - 1 else t.ulTreeLen - 1 }) :
        Except Err (Int × Tree κ ν)) = .ok (r, t2) := by
    cases s with
    | true =>
      simp only [deleteFinish, if_true, pure_eq_ok, ok_bind] at e
      exact ⟨t, SameTree.refl_tree t, e⟩
    | false =>
      simp only [deleteFinish, Bool.false_eq_true, if_false] at e
      obtain ⟨t1, e1, e⟩ := bind_eq_ok e
      exact ⟨t1, resetList_sameTree e1, e⟩
  dsimp only at e
  obtain ⟨n, hn, e⟩ := bind_eq_ok e
  have key : ∀ {t3 : Tree κ ν}, t1.free p = .ok t3 →
      (.ok (1, { t3 with ulTreeLen := if t3.ulTreeLen = 0 then 2 ^ 64 - 1
        else t3.ulTreeLen - 1 }) : Except Err (Int × Tree κ ν)) = .ok (r, t2) →
      ∃ a t1', p = some a ∧ SameTree t t1' ∧ (t1'.mem a).isSome ∧ t2.pr = t1'.pr ∧
        t2.brk = t1'.brk ∧ t2.mem = fun b => if b = a then none else t1'.mem b := by
    intro t3 e3 e4
    cases p with
    | none => simp [Tree.load] at hn
    | some a =>
      obtain ⟨hm, rfl⟩ := free_cell e3
      simp only [Except.ok.injEq, Prod.mk.injEq] at e4
      obtain ⟨-, rfl⟩ := e4
      exact ⟨a, t1, rfl, s1, hm, rfl, rfl, rfl⟩
  split at e
  all_goals
    obtain ⟨-, -, e⟩ := bind_eq_ok e
    split at e
    all_goals
      obtain ⟨-, -, e⟩ := bind_eq_ok e
      obtain ⟨t3, e3, e⟩ := bind_eq_ok e
      exact key e3 e

/-- Releasing a cell outside the tree keeps the tree sound; the root's parent pointer may
point to the released cell. -/
theorem sound_after_free {t1 t2 : Tree κ ν} {T : Sh} {a : Nat} (w : TreeWFp t1 rp T)
    (ha : a ∉ T.addrs) (hg : ∀ d, rp = some d → d = a ∨ t1.mem d = none)
    (hdom : ∀ b, (t1.mem b).isSome → b < t1.brk) (hbelow : ∀ d, rp = some d → d < t1.brk)
    (hkeys : ∀ b ∈ T.addrs, (keyAt t1 b).isSome) (hpr : t2.pr = t1.pr)
    (hbrk : t2.brk = t1.brk) (hmem : t2.mem = fun b => if b = a then none else t1.mem b) :
    Sound t2 rp T where
  wf := by
    refine ⟨?_, hpr.trans w.root, w.nodup⟩
    rw [hmem]
    refine (rep_congr fun b hb => ?_).mpr w.rep
    have : b ≠ a := fun e => ha (e ▸ hb)
    simp [this]
  gone := fun d hd => by
    rw [hmem]
    rcases hg d hd with h | h
    · simp [h]
    · by_cases hda : d = a
      · simp [hda]
      · simp [hda, h]
  dom := fun b hb => by
    rw [hbrk]
    rw [hmem] at hb
    by_cases hba : b = a
    · simp [hba] at hb
    · simp only [hba, if_false] at hb
      exact hdom b hb
  below := fun d hd => hbrk ▸ hbelow d hd
  keys := fun b hb => by
    have hba : b ≠ a := fun e => ha (e ▸ hb)
    have := hkeys b hb
    simpa [keyAt, hmem, hba] using this

/-- The tail of `treeDelete` on a cell that has left the tree keeps the tree sound. -/
theorem finish_sound {t1 t2 : Tree κ ν} {T1 : Sh} {a : Nat} {s : Bool} {r : Int}
    (h : Sound t1 rp T1) (ha : a ∉ T1.addrs) (e : deleteFinish t1 (some a) s = .ok (r, t2)) :
    Sound t2 rp T1 := by
  obtain ⟨a2, t3, hp, s3, -, hpr, hbrk, hmem⟩ := deleteFinish_ok e
  cases hp
  have h3 := h.of_sameTree s3
  exact sound_after_free h3.wf ha (fun d hd => Or.inr (h3.gone d hd)) h3.dom h3.below h3.keys
    hpr hbrk hmem

theorem not_mem_plug_nil {f : Frame} {c : List Frame} {l r : Sh} {a : Nat}
    (hnd : (plug (f :: c) (.node l a r)).addrs.Nodup) : a ∉ (plug (f :: c) .nil).addrs := by
  rw [addrs_plug] at hnd ⊢
  simp only [List.nodup_append, Sh.addrs, List.mem_append, List.mem_cons,
    List.disjoint_append_left, List.disjoint_append_right, List.disjoint_cons_left,
    List.disjoint_cons_right, List.nodup_cons, List.append_nil, List.not_mem_nil,
    not_or] at hnd ⊢
  tauto

theorem subset_plug_nil (c : List Frame) (X : Sh) :
    ∀ x ∈ (plug c .nil).addrs, x ∈ (plug c X).addrs := by
  intro x hx
  rw [addrs_plug] at hx ⊢
  simp only [Sh.addrs, List.append_nil, List.mem_append] at hx ⊢
  tauto

theorem not_mem_plug_left {c : List Frame} {l r : Sh} {a : Nat}
    (hnd : (plug c (.node l a r)).addrs.Nodup) : a ∉ (plug c l).addrs := by
  rw [addrs_plug] at hnd ⊢
  simp only [List.nodup_append, Sh.addrs, List.mem_append, List.mem_cons,
    List.disjoint_append_left, List.disjoint_append_right, List.disjoint_cons_left,
    List.disjoint_cons_right, List.nodup_cons, not_or] at hnd ⊢
  tauto

theorem not_mem_plug_right {c : List Frame} {l r : Sh} {a : Nat}
    (hnd : (plug c (.node l a r)).addrs.Nodup) : a ∉ (plug c r).addrs := by
  rw [addrs_plug] at hnd ⊢
  simp only [List.nodup_append, Sh.addrs, List.mem_append, List.mem_cons,
    List.disjoint_append_left, List.disjoint_append_right, List.disjoint_cons_left,
    List.disjoint_cons_right, List.nodup_cons, not_or] at hnd ⊢
  tauto

theorem subset_plug_left (c : List Frame) (l r : Sh) (a : Nat) :
    ∀ x ∈ (plug c l).addrs, x ∈ (plug c (.node l a r)).addrs := by
  intro x hx
  rw [addrs_plug] at hx ⊢
  simp only [Sh.addrs, List.mem_append, List.mem_cons] at hx ⊢
  tauto

theorem subset_plug_right (c : List Frame) (l r : Sh) (a : Nat) :
    ∀ x ∈ (plug c r).addrs, x ∈ (plug c (.node l a r)).addrs := by
  intro x hx
  rw [addrs_plug] at hx ⊢
  simp only [Sh.addrs, List.mem_append, List.mem_cons] at hx ⊢
  tauto

/-- Unlink a node from its parent and release it. -/
theorem remove_sound {t t3 : Tree κ ν} {f : Frame} {c : List Frame} {l r : Sh} {a : Nat}
    {s : Bool} {x : Int} (h : Sound t rp (plug (f :: c) (.node l a r)))
    (e : (removeNode t (some a) >>= fun t1 => deleteFinish t1 (some a) s) = .ok (x, t3)) :
    Sound t3 rp (plug (f :: c) .nil) := by
  obtain ⟨t1, e1, w1, d1⟩ := removeNode_wf h.wf
  rw [e1] at e
  exact finish_sound (h.shrink w1 (subset_plug_nil _ _) d1.toData)
    (not_mem_plug_nil h.wf.nodup) e

/-- Put the left subtree in the place of a node, rebalance and release the node. -/
theorem spliceLeft_sound {t t3 : Tree κ ν} {f : Frame} {c : List Frame} {ll lr r : Sh}
    {a la : Nat} {s : Bool} {x : Int}
    (h : Sound t rp (plug (f :: c) (.node (.node ll la lr) a r)))
    (e : (do
      let t1 ← spliceLeft t (some a)
      let l ← t1.getLeft (some a)
      let t2 ← balanceTree t1 l
      deleteFinish t2 (some a) s) = .ok (x, t3)) :
    ∃ T3, Sound t3 rp T3 := by
  obtain ⟨t1, e1, w1, d1, g1⟩ := spliceLeft_wf h.wf
  simp only [e1, ok_bind, g1] at e
  obtain ⟨t2, e2, e⟩ := bind_eq_ok e
  have h1 := h.shrink w1 (subset_plug_left _ _ _ _) d1.toData
  obtain ⟨T2, w2, hT2, d2⟩ := balanceTree_ok w1
    (fun b hb => by
      simp only [Option.some.injEq] at hb
      subst hb
      simp [addrs_plug, Sh.addrs]) h1.gone e2
  have h2 := h1.of_sameData w2 hT2 d2
  refine ⟨T2, finish_sound h2 ?_ e⟩
  rw [hT2]
  exact not_mem_plug_left h.wf.nodup

/-- Put the right subtree in the place of a node, rebalance and release the node. -/
theorem spliceRight_sound {t t3 : Tree κ ν} {f : Frame} {c : List Frame} {l rl rr : Sh}
    {a ra : Nat} {s : Bool} {x : Int}
    (h : Sound t rp (plug (f :: c) (.node l a (.node rl ra rr))))
    (e : (do
      let t1 ← spliceRight t (some a)
      let r ← t1.getRight (some a)
      let t2 ← balanceTree t1 r
      deleteFinish t2 (some a) s) = .ok (x, t3)) :
    ∃ T3, Sound t3 rp T3 := by
  obtain ⟨t1, e1, w1, d1, g1⟩ := spliceRight_wf h.wf
  simp only [e1, ok_bind, g1] at e
  obtain ⟨t2, e2, e⟩ := bind_eq_ok e
  have h1 := h.shrink w1 (subset_plug_right _ _ _ _) d1.toData
  obtain ⟨T2, w2, hT2, d2⟩ := balanceTree_ok w1
    (fun b hb => by
      simp only [Option.some.injEq] at hb
      subst hb
      simp [addrs_plug, Sh.addrs]) h1.gone e2
  have h2 := h1.of_sameData w2 hT2 d2
  refine ⟨T2, finish_sound h2 ?_ e⟩
  rw [hT2]
  exact not_mem_plug_right h.wf.nodup

/-- The root with a single child is deleted: the child becomes the root, and its parent
pointer is left pointing to the released cell. -/
theorem promote_sound {t t3 : Tree κ ν} {S : Sh} {a sa : Nat} {x : Int}
    (hrep : Rep t.mem (some a) S) (hS : S.root = some sa) (hnd : S.addrs.Nodup)
    (haS : a ∉ S.addrs) (hdom : ∀ b, (t.mem b).isSome → b < t.brk)
    (ham : (t.mem a).isSome) (hkeys : ∀ b ∈ S.addrs, (keyAt t b).isSome)
    (e : (do
      let t1 ← Tree.setColor { t with pr := some sa } (some sa) .NODE_BLACK
      deleteFinish t1 (some a) false) = .ok (x, t3)) :
    Sound t3 (some a) S := by
  obtain ⟨t1, e1, e⟩ := bind_eq_ok e
  have s1 := setColor_sameTree e1
  obtain ⟨a2, t2, hp, s2, -, hpr, hbrk, hmem⟩ := deleteFinish_ok e
  cases hp
  have s := s1.trans_tree s2
  have w : TreeWFp t2 (some a) S :=
    ⟨rep_links s.links hrep, by rw [s.pr, hS], hnd⟩
  refine sound_after_free w haS (fun d hd => Or.inl (by cases hd; rfl)) ?_ ?_ ?_ hpr hbrk hmem
  · intro b hb
    rw [s.brk]
    exact hdom b (by rw [← s.isSome_tree]; exact hb)
  · intro d hd
    cases hd
    rw [s.brk]
    exact hdom _ ham
  · intro b hb
    exact s.keys b (hkeys b hb)

theorem ite_sameTree {t t2 : Tree κ ν} {b : Prop} [Decidable b] {x : Except Err (Tree κ ν)}
    (hx : ∀ t3, x = .ok t3 → SameTree t t3)
    (e : (if b then x else pure t) = .ok t2) : SameTree t t2 := by
  split at e
  · exact hx _ e
  · simp only [pure_eq_ok, Except.ok.injEq] at e
    subst e
    exact SameTree.refl_tree t

theorem bind_ite_ok {α β : Type} {b : Prop} [Decidable b] {x y : Except Err α}
    {f : α → Except Err β} {r : β}
    (h : (if b then x >>= f else y >>= f) = .ok r) :
    ∃ a, (if b then x else y) = .ok a ∧ f a = .ok r := by
  by_cases hb : b
  · rw [if_pos hb] at h ⊢
    exact bind_eq_ok h
  · rw [if_neg hb] at h ⊢
    exact bind_eq_ok h

/-- A call of `treeDelete` that returns leaves a sound tree. -/
theorem treeDelete_ok {t t2 : Tree κ ν} {T : Sh} {pKey : Option κ} {x : Int}
    (h : Sound t rp T) (e : treeDelete t pKey = .ok (x, t2)) : ∃ rp2 T2, Sound t2 rp2 T2 := by
  cases pKey with
  | none =>
    simp only [treeDelete, pure_eq_ok, Except.ok.injEq, Prod.mk.injEq] at e
    obtain ⟨-, rfl⟩ := e
    exact ⟨rp, T, h⟩
  | some k =>
    simp only [treeDelete] at e
    obtain ⟨pNode, eg, e⟩ := bind_eq_ok e
    cases pNode with
    | none =>
      simp only [Option.isSome_none, Bool.false_eq_true, if_false, pure_eq_ok, Except.ok.injEq,
        Prod.mk.injEq] at e
      obtain ⟨-, rfl⟩ := e
      exact ⟨rp, T, h⟩
    | some a =>
      have ha := getNodeByKey_mem h.wf eg a rfl
      obtain ⟨c, l, r0, hT⟩ := exists_plug ha
      subst hT
      obtain ⟨n, hn, hnp, hnl, hnr⟩ := wf_cellQ h.wf
      simp only [Option.isSome_some, if_true, load_some hn, ok_bind, hnl, hnr] at e
      cases l with
      | nil =>
        cases r0 with
        | nil =>
          -- a leaf
          simp only [Sh.root_nil, Option.isNone_none, and_self, if_true] at e
          cases c with
          | nil =>
            have hpr : t.pr = some a := h.wf.root
            simp only [hpr, if_true] at e
            obtain ⟨t1, e1, e⟩ := bind_eq_ok e
            simp only [pure_eq_ok, Except.ok.injEq, Prod.mk.injEq] at e
            obtain ⟨-, rfl⟩ := e
            exact ⟨none, .nil, treeFree_sound h.dom e1⟩
          | cons f c =>
            have hpr : ¬ some a = t.pr := by
              rw [h.wf.root]
              exact fun e2 => root_plug_ne h.wf.nodup e2.symm
            simp only [hpr, if_false] at e
            exact ⟨rp, _, remove_sound h e⟩
        | node rl ra rr =>
          -- a right child only
          simp only [Sh.root_nil, Sh.root_node, Option.isNone_none, Option.isNone_some,
            Option.isSome_none, Option.isSome_some, Bool.false_eq_true, and_false, false_and,
            if_false] at e
          cases c with
          | nil =>
            have hpr : t.pr = some a := h.wf.root
            simp only [hpr, if_true] at e
            obtain ⟨na, hna, -, -, -, -, hR⟩ := h.wf.rep
            have hnd := h.wf.nodup
            simp only [plug, Sh.addrs, List.nil_append, List.nodup_cons] at hnd
            refine ⟨some a, _, promote_sound (S := .node rl ra rr) hR rfl hnd.2 hnd.1 h.dom
              (by simp [hna]) (fun b hb => h.keys b (by simp [plug, Sh.addrs] at hb ⊢; tauto)) e⟩
          | cons f c =>
            have hpr : ¬ some a = t.pr := by
              rw [h.wf.root]
              exact fun e2 => root_plug_ne h.wf.nodup e2.symm
            simp only [hpr, if_false] at e
            obtain ⟨T3, h3⟩ := spliceRight_sound h e
            exact ⟨rp, T3, h3⟩
      | node ll la lr =>
        cases r0 with
        | nil =>
          -- a left child only
          simp only [Sh.root_nil, Sh.root_node, Option.isNone_none, Option.isNone_some,
            Option.isSome_none, Option.isSome_some, Bool.false_eq_true, and_false, false_and,
            if_false, if_true] at e
          cases c with
          | nil =>
            have hpr : t.pr = some a := h.wf.root
            simp only [hpr, if_true] at e
            obtain ⟨na, hna, -, -, -, hL, -⟩ := h.wf.rep
            have hnd := h.wf.nodup
            simp only [plug, Sh.addrs, List.append_nil] at hnd
            have hnd2 := List.nodup_append.mp hnd
            refine ⟨some a, _, promote_sound (S := .node ll la lr) hL rfl hnd2.1
              (fun hm => hnd2.2.2 hm (List.mem_singleton.mpr rfl)) h.dom
              (by simp [hna]) (fun b hb => h.keys b (by simp [plug, Sh.addrs] at hb ⊢; tauto)) e⟩
          | cons f c =>
            have hpr : ¬ some a = t.pr := by
              rw [h.wf.root]
              exact fun e2 => root_plug_ne h.wf.nodup e2.symm
            simp only [hpr, if_false] at e
            obtain ⟨T3, h3⟩ := spliceLeft_sound h e
            exact ⟨rp, T3, h3⟩
        | node rl ra rr =>
          -- two children
          simp only [Sh.root_node, Option.isNone_some, Option.isSome_some,
            Bool.false_eq_true, and_self, if_false, if_true] at e
          obtain ⟨pN, ep, e⟩ := bind_eq_ok e
          have hP : TreeWFp t rp (plug (.L a (.node rl ra rr) :: c) (.node ll la lr)) := h.wf
          obtain ⟨C2, l2, b, hq, hT⟩ := predLoop_ok _ hP ep
          subst hq
          have hT2 : plug c (.node (.node ll la lr) a (.node rl ra rr)) =
              plug (C2 ++ .L a (.node rl ra rr) :: c) (.node l2 b .nil) := hT
          rw [hT2] at h
          obtain ⟨f, D, hD⟩ : ∃ f D, C2 ++ Frame.L a (.node rl ra rr) :: c = f :: D := by
            cases C2 with
            | nil => exact ⟨_, _, rfl⟩
            | cons g C3 => exact ⟨g, C3 ++ Frame.L a (.node rl ra rr) :: c, rfl⟩
          rw [hD] at h
          obtain ⟨nb, hnb, -, hbl, -⟩ := wf_cellQ h.wf
          have hbk : nb.pKey.isSome := by
            have := h.keys b (by simp [addrs_plug, Sh.addrs])
            rw [keyAt_isSome] at this
            obtain ⟨n2, h2, h3⟩ := this
            rw [hnb] at h2
            cases h2
            exact h3
          simp only [load_some hnb, ok_bind] at e
          obtain ⟨t1, e1, e⟩ := bind_eq_ok e
          have s1 := copyKeyValue_sameTree hbk e1
          obtain ⟨t3, e3, e⟩ := bind_eq_ok e
          have s3 := s1.trans_tree (resetList_sameTree e3)
          obtain ⟨prev, -, e⟩ := bind_eq_ok e
          obtain ⟨t4, e4, e⟩ := bind_eq_ok e
          have s4 := s3.trans_tree (setPrev_sameTree e4)
          obtain ⟨next, -, e⟩ := bind_eq_ok e
          obtain ⟨t5, e5, e⟩ := bind_eq_ok e
          have s5 := s4.trans_tree (setNext_sameTree e5)
          obtain ⟨prev2, -, e⟩ := bind_eq_ok e
          obtain ⟨t6, e6, e⟩ := bind_ite_ok e
          have s6 := s5.trans_tree (ite_sameTree (fun _ hx => setNext_sameTree hx) e6)
          obtain ⟨next2, -, e⟩ := bind_eq_ok e
          obtain ⟨t7, e7, e⟩ := bind_ite_ok e
          have s7 := s6.trans_tree (ite_sameTree (fun _ hx => setPrev_sameTree hx) e7)
          have h7 := h.of_sameTree s7
          simp only [getLeft_wfQ h7.wf, ok_bind] at e
          cases l2 with
          | nil =>
            simp only [Sh.root_nil, Option.isSome_none, Bool.false_eq_true, if_false] at e
            exact ⟨rp, _, remove_sound h7 e⟩
          | node l2l l2a l2r =>
            simp only [Sh.root_node, Option.isSome_some, if_true] at e
            obtain ⟨T3, h3⟩ := spliceLeft_sound h7 (by simpa using e)
            exact ⟨rp, T3, h3⟩

theorem treeUpdate_ok {t t2 : Tree κ ν} {T : Sh} {pKey : Option κ} {pv : Option ν} {sv : Nat}
    {x : Int} (h : Sound t rp T) (e : treeUpdate t pKey pv sv = .ok (x, t2)) :
    Sound t2 rp T := by
  cases pKey with
  | none =>
    simp only [treeUpdate, pure_eq_ok, Except.ok.injEq, Prod.mk.injEq] at e
    obtain ⟨-, rfl⟩ := e
    exact h
  | some k =>
    simp only [treeUpdate] at e
    obtain ⟨pNode, -, e⟩ := bind_eq_ok e
    split at e
    · obtain ⟨t1, e1, e⟩ := bind_eq_ok e
      simp only [pure_eq_ok, Except.ok.injEq, Prod.mk.injEq] at e
      obtain ⟨-, rfl⟩ := e
      exact h.of_sameTree (copyValue_sameTree e1)
    · simp only [pure_eq_ok, Except.ok.injEq, Prod.mk.injEq] at e
      obtain ⟨-, rfl⟩ := e
      exact h

theorem treeArray_ok {t t2 : Tree κ ν} {T : Sh} {arr : Option (List (Option κ))}
    (h : Sound t rp T) (e : treeArray t = .ok (arr, t2)) : Sound t2 rp T := by
  simp only [treeArray] at e
  split at e
  · simp only [pure_eq_ok, Except.ok.injEq, Prod.mk.injEq] at e
    obtain ⟨-, rfl⟩ := e
    exact h
  · obtain ⟨a, -, e⟩ := bind_eq_ok e
    simp only [pure_eq_ok, Except.ok.injEq, Prod.mk.injEq] at e
    obtain ⟨-, rfl⟩ := e
    exact h.of_sameTree ⟨rfl, rfl, fun _ => rfl, fun _ hk => hk⟩

theorem treeArraySorted_ok {t t2 : Tree κ ν} {T : Sh} {arr : Option (List (Option κ))}
    (h : Sound t rp T) (e : treeArraySorted t = .ok (arr, t2)) : Sound t2 rp T := by
  simp only [treeArraySorted] at e
  split at e
  · simp only [pure_eq_ok, Except.ok.injEq, Prod.mk.injEq] at e
    obtain ⟨-, rfl⟩ := e
    exact h
  · obtain ⟨a, -, e⟩ := bind_eq_ok e
    simp only [pure_eq_ok, Except.ok.injEq, Prod.mk.injEq] at e
    obtain ⟨-, rfl⟩ := e
    exact h.of_sameTree ⟨rfl, rfl, fun _ => rfl, fun _ hk => hk⟩

theorem treeInit_sound {t : Tree κ ν} (hdom : ∀ a, (t.mem a).isSome → a < t.brk)
    (pfCmp : κ → κ → Int) : Sound (treeInit t pfCmp) none .nil :=
  ⟨⟨trivial, rfl, List.nodup_nil⟩, by simp, hdom, by simp, by simp [Sh.addrs]⟩

/-- Every reachable state is sound: below the root pointer lies a finite binary tree of live
cells that all hold a key. -/
theorem reachable_sound {t : Tree κ ν} (h : Reachable t) : ∃ rp T, Sound t rp T := by
  induction h with
  | init pfCmp =>
    exact ⟨none, .nil, treeInit_sound (t := blank pfCmp) (by simp [blank]) pfCmp⟩
  | reinit pfCmp _ ih =>
    obtain ⟨rp, T, hs⟩ := ih
    exact ⟨none, .nil, treeInit_sound hs.dom pfCmp⟩
  | insert pKey sk pv sv _ e ih =>
    obtain ⟨rp, T, hs⟩ := ih
    exact treeInsert_ok hs e
  | update pKey pv sv _ e ih =>
    obtain ⟨rp, T, hs⟩ := ih
    exact ⟨rp, T, treeUpdate_ok hs e⟩
  | delete pKey _ e ih =>
    obtain ⟨rp, T, hs⟩ := ih
    exact treeDelete_ok hs e
  | array _ e ih =>
    obtain ⟨rp, T, hs⟩ := ih
    exact ⟨rp, T, treeArray_ok hs e⟩
  | arraySorted _ e ih =>
    obtain ⟨rp, T, hs⟩ := ih
    exact ⟨rp, T, treeArraySorted_ok hs e⟩
  | free _ e ih =>
    obtain ⟨rp, T, hs⟩ := ih
    exact ⟨none, .nil, treeFree_sound hs.dom e⟩

/-- In a finite tree of cells with keys, the search for a key that compares unequal to every
key of the tree ends at `NULL`. -/
theorem search_absent {t : Tree κ ν} (k : κ) (fuel : Nat) :
    ∀ {S : Sh} {par : Ptr}, Rep t.mem par S → (∀ a ∈ S.addrs, (keyAt t a).isSome) →
      S.addrs.length ≤ fuel → (∀ x ∈ subtreeKeys t fuel S.root, keyDiffers t k x = true) →
      getNodeByKeyLoop t k fuel S.root = .ok none := by
  induction fuel with
  | zero =>
    intro S par hrep hk hlen habs
    cases S with
    | nil => rfl
    | node l a r => simp [Sh.addrs] at hlen
  | succ fuel ih =>
    intro S par hrep hk hlen habs
    cases S with
    | nil => rfl
    | node l a r =>
      obtain ⟨n, hn, -, hnl, hnr, hL, hR⟩ := hrep
      obtain ⟨ka, hka, hka2⟩ := keyAt_cell hn (hk a (by simp [Sh.addrs]))
      simp only [Sh.addrs, List.length_append, List.length_cons] at hlen
      simp only [Sh.root_node, subtreeKeys, hn, List.mem_append, List.mem_cons] at habs
      have hne : t.pfCmp ka k ≠ 0 := by
        have := habs (some ka) (Or.inr (Or.inl (by
          simp only [keyAt, hn, Option.some_bind] at hka2
          exact hka2.symm)))
        simpa [keyDiffers] using this
      simp only [Sh.root_node, getNodeByKeyLoop, load_some hn, hka, ok_bind, hne, if_false]
      split
      · rw [hnl]
        exact ih hL (fun b hb => hk b (by simp [Sh.addrs, hb])) (by omega)
          (fun x hx => habs x (Or.inl (hnl ▸ hx)))
      · rw [hnr]
        exact ih hR (fun b hb => hk b (by simp [Sh.addrs, hb])) (by omega)
          (fun x hx => habs x (Or.inr (Or.inr (hnr ▸ hx))))

theorem Sound.size_le {t : Tree κ ν} {T : Sh} (h : Sound t rp T) : T.addrs.length ≤ t.brk :=
  nodup_bounded_length h.wf.nodup (fun a ha => h.dom a (rep_mem_cell h.wf.rep ha))

/-- In a reachable state the search finds no node for a key that compares unequal to every
key of the tree. -/
theorem getNodeByKey_absent {t : Tree κ ν} (hr : Reachable t) (k : κ)
    (habs : ∀ x ∈ subtreeKeys t t.brk t.pr, keyDiffers t k x = true) :
    getNodeByKey t (some k) = .ok none := by
  obtain ⟨rp, T, h⟩ := reachable_sound hr
  simp only [getNodeByKey]
  rw [h.wf.root] at habs ⊢
  exact search_absent k _ h.wf.rep h.keys h.size_le habs

/-- Every state at the end of a run of inserts, updates and deletes on a fresh container is
reachable. -/
theorem reachable_runOps (ops : List (Op κ ν)) :
    ∀ {t t2 : Tree κ ν} {rs : List Int}, Reachable t → runOps t ops = .ok (rs, t2) →
      Reachable t2 := by
  induction ops with
  | nil =>
    intro t t2 rs h e
    simp only [runOps, pure_eq_ok, Except.ok.injEq, Prod.mk.injEq] at e
    obtain ⟨-, rfl⟩ := e
    exact h
  | cons op ops ih =>
    intro t t2 rs h e
    simp only [runOps] at e
    obtain ⟨⟨r, t1⟩, e1, e⟩ := bind_eq_ok e
    obtain ⟨⟨rs2, t3⟩, e3, e⟩ := bind_eq_ok e
    simp only [pure_eq_ok, Except.ok.injEq, Prod.mk.injEq] at e
    obtain ⟨-, rfl⟩ := e
    refine ih ?_ e3
    cases op with
    | insert k sk v sv => exact Reachable.insert (some k) sk v sv h e1
    | update k v sv => exact Reachable.update (some k) v sv h e1
    | delete k => exact Reachable.delete (some k) h e1

theorem reachable_endState (pfCmp : κ → κ → Int) (ops : List (Op κ ν)) :
    Reachable (endState (runOps (fresh pfCmp) ops) (fresh pfCmp)) := by
  cases e : runOps (fresh pfCmp) ops with
  | error err => exact Reachable.init pfCmp
  | ok x => exact reachable_runOps ops (Reachable.init pfCmp) e

/-- C16: in every reachable state (any sequence of returning interface calls after
`treeInit`, deletes and updates included) and for every non-null key `k` that compares
unequal to the key of every node of the tree, `treeUpdate` and `treeDelete` return 0 and give
back the state they were called on, and `treeValue` returns `NULL`. -/
theorem absent_key_noop {t : Tree κ ν} (hr : Reachable t) (k : κ)
    (habs : ∀ x ∈ subtreeKeys t t.brk t.pr, keyDiffers t k x = true)
    (pValue : Option ν) (sizeTvalue : Nat) :
    treeUpdate t (some k) pValue sizeTvalue = .ok (0, t) ∧
      treeDelete t (some k) = .ok (0, t) ∧ treeValue t (some k) = .ok none :=
  noop_of_search_none t k pValue sizeTvalue (getNodeByKey_absent hr k habs)

/-- Witness of C16: the state after inserting 2, 1, 3, updating 1 and deleting the root 2 is
reachable, its tree holds the keys 1 and 3, key 7 compares unequal to both, and the three calls
with key 7 leave the state alone. -/
theorem absent_key_noop_witness :
    Reachable (endState fiveCalls (fresh compareAscendUL)) ∧
      returns fiveCalls = .ok [1, 1, 1, 1, 1] ∧
      subtreeKeys (endState fiveCalls (fresh compareAscendUL))
        (endState fiveCalls (fresh compareAscendUL)).brk
        (endState fiveCalls (fresh compareAscendUL)).pr = [some 1, some 3] ∧
      (∀ x ∈ subtreeKeys (endState fiveCalls (fresh compareAscendUL))
        (endState fiveCalls (fresh compareAscendUL)).brk
        (endState fiveCalls (fresh compareAscendUL)).pr,
        keyDiffers (endState fiveCalls (fresh compareAscendUL)) 7 x = true) ∧
      treeUpdate (endState fiveCalls (fresh compareAscendUL)) (some 7) (some 70) 0 =
        .ok (0, endState fiveCalls (fresh compareAscendUL)) ∧
      treeDelete (endState fiveCalls (fresh compareAscendUL)) (some 7) =
        .ok (0, endState fiveCalls (fresh compareAscendUL)) ∧
      treeValue (endState fiveCalls (fresh compareAscendUL)) (some 7) = .ok none :=
  ⟨reachable_endState _ _, by decide, by decide, by decide,
    absent_key_noop (reachable_endState _ _) 7 (by decide) (some 70) 0⟩

/-! ## Key lengths shorter than the keys, and a duplicate of a live key -/

/-- C1, counterexample: with the key length 1 for the keys ab, ac, ad (strcmp comparator, a
total order; non-null keys) the three inserts return 1, but `treeValue(ab)` is `NULL` although
ab was inserted with the value first, and `treeValue(a)` is the value second although a
compares unequal to all three inserted keys. -/
theorem short_key_length_breaks_lookup :
    TotalCmp compareStr ∧
      returns shortKeys = .ok [1, 1, 1] ∧
      look shortKeys (fun t => treeValue t (some "ab")) = .ok none ∧
      look shortKeys (fun t => treeValue t (some "a")) = .ok (some "second") :=
  ⟨compareStr_total, by decide⟩

/-- C4: after the inserts of f, d, g, ca, e, cz, h with copied keys and the deletes of d, e,
f (all ten calls return 1) the key ca is live: the length is 4 and both snapshots hold ca
once.  But the root holds the key c, cut from cz by a stale recorded key length, the search
for ca passes the node of ca by, and `treeInsert(ca)` returns 1 instead of 0: the length
becomes 5 and both snapshots hold ca twice. -/
theorem treeInsert_duplicates_live_key :
    returns sevenStrings = .ok [1, 1, 1, 1, 1, 1, 1, 1, 1, 1] ∧
      look sevenStrings (fun t => pure (treeLength t)) = .ok 4 ∧
      returns (andThen sevenStrings treeArray) =
        .ok (some [some "g", some "ca", some "c", some "h"]) ∧
      returns (andThen sevenStrings treeArraySorted) =
        .ok (some [some "ca", some "c", some "g", some "h"]) ∧
      look sevenStrings (fun t => keyOf ((t.pr.bind t.mem).bind (fun n => n.pKey))) = .ok "c" ∧
      look sevenStrings (fun t => treeValue t (some "ca")) = .ok none ∧
      returns sevenStringsInsert = .ok 1 ∧
      look sevenStringsInsert (fun t => pure (treeLength t)) = .ok 5 ∧
      returns (andThen sevenStringsInsert treeArray) =
        .ok (some [some "g", some "ca", some "c", some "h", some "ca"]) ∧
      returns (andThen sevenStringsInsert treeArraySorted) =
        .ok (some [some "ca", some "c", some "ca", some "g", some "h"]) := by
  decide

/-! ## Insertion under any comparator: the tree stays red-black below the root -/

theorem copyBytes_le {α : Type} [Bytes α] {n : Nat} {a : α} (h : n ≤ Bytes.size a) :
    copyBytes n a = .ok (Bytes.take n a) := by
  simp [copyBytes, h]

theorem initNode_kept (t : Tree κ ν) (k : κ) (sizeTkey : Nat) (pValue : Option ν)
    (sizeTvalue : Nat) (hv : InBounds k sizeTkey pValue sizeTvalue)
    (hpt : ∀ q, t.pt = some q → (t.mem q).isSome ∧ q ≠ t.brk)
    (hph : t.ph = none ↔ t.pt = none) :
    initNode t none (some ⟨k, false⟩) sizeTkey (pValue.map (fun v => ⟨v, false⟩)) sizeTvalue =
      .ok (some t.brk,
        initState t (keptKey sizeTkey k) sizeTkey (keptValue sizeTvalue pValue) sizeTvalue) := by
  have hval : ∀ (m : Tree κ ν) (n : Node κ ν), m.mem t.brk = some n → n.pValue = none →
      copyValue m (some t.brk) (pValue.map (fun v => ⟨v, false⟩)) sizeTvalue =
        .ok (m.store t.brk
          { n with pValue := (Option.map (fun v => ⟨v, decide (0 < sizeTvalue)⟩)
              (keptValue sizeTvalue pValue)) }) := by
    intro m n hn hnv
    by_cases hs : 0 < sizeTvalue
    · obtain ⟨v, hvv, hsz⟩ := Option.map_eq_some'.mp (hv.2 hs)
      have hsz2 : sizeTvalue ≤ Bytes.size v := of_decide_eq_true hsz
      simp [copyValue, load_some hn, hnv, hs, hvv, keyOf, copyBytes_le hsz2, modify_some hn,
        keptValue]
    · simp [copyValue, load_some hn, hnv, hs, modify_some hn, keptValue]
  have hkv : ∀ (m : Tree κ ν) (n : Node κ ν), m.mem t.brk = some n → n.pValue = none →
      n.pKey = none →
      copyKeyValue m (some t.brk) (some ⟨k, false⟩) sizeTkey (pValue.map (fun v => ⟨v, false⟩))
        sizeTvalue =
        .ok (m.store t.brk
          { n with pKey := some ⟨keptKey sizeTkey k, decide (0 < sizeTkey)⟩,
                   pValue := (Option.map (fun v => ⟨v, decide (0 < sizeTvalue)⟩)
                     (keptValue sizeTvalue pValue)) }) := by
    intro m n hn hnv hnk
    by_cases hs : 0 < sizeTkey
    · simp only [copyKeyValue, load_some hn, ok_bind, hnk, Option.isSome_none,
        Bool.false_eq_true, false_and, if_false, hs, if_true, keyOf, copyBytes_le hv.1,
        modify_some hn, pure_eq_ok]
      rw [hval _ { n with pKey := some ⟨Bytes.take sizeTkey k, true⟩ } (by simp) hnv]
      simp only [Tree.store, Except.ok.injEq, Tree.mk.injEq, true_and, and_true]
      funext b
      by_cases hb : b = t.brk <;> simp [hb, hs, keptKey]
    · simp only [copyKeyValue, load_some hn, ok_bind, hnk, Option.isSome_none,
        Bool.false_eq_true, false_and, if_false, hs, modify_some hn, pure_eq_ok]
      rw [hval _ { n with pKey := some ⟨k, false⟩ } (by simp) hnv]
      simp only [Tree.store, Except.ok.injEq, Tree.mk.injEq, true_and, and_true]
      funext b
      by_cases hb : b = t.brk <;> simp [hb, hs, keptKey]
  unfold initState
  cases hp : t.pt with
  | none =>
    have hph2 : t.ph = none := hph.mpr hp
    simp only [initNode, hph2, ok_bind, pure_eq_ok]
    rw [hkv _ ({ sizeTkey := sizeTkey, pKey := none, sizeTvalue := sizeTvalue, pValue := none,
                  color := .NODE_RED, pPrev := t.pt, pNext := none, pParent := none,
                  pRight := none, pLeft := none } : Node κ ν) (by simp) rfl rfl]
    simp only [Tree.store, ok_bind, Except.ok.injEq, Prod.mk.injEq, true_and, Tree.mk.injEq,
      and_true, if_true, hp]
    funext b
    by_cases hb : b = t.brk <;> simp [hb, initMem, newCell, hp]
  | some q =>
    obtain ⟨hq, hqz⟩ := hpt q hp
    obtain ⟨nq, hnq⟩ := Option.isSome_iff_exists.mp hq
    have hph2 : t.ph ≠ none := fun e => by simp [hph.mp e] at hp
    obtain ⟨h0, hh0⟩ := Option.ne_none_iff_exists'.mp hph2
    simp only [initNode, hh0, ok_bind, pure_eq_ok, Tree.setNext, hp]
    rw [modify_some (n := nq) (by simp [hqz, hnq])]
    simp only [ok_bind]
    rw [hkv _ ({ sizeTkey := sizeTkey, pKey := none, sizeTvalue := sizeTvalue, pValue := none,
                  color := .NODE_RED, pPrev := t.pt, pNext := none, pParent := none,
                  pRight := none, pLeft := none } : Node κ ν) (by simp [Tree.store, Ne.symm hqz, hp]) rfl rfl]
    simp only [Tree.store, ok_bind, Except.ok.injEq, Prod.mk.injEq, true_and, Tree.mk.injEq,
      and_true, reduceCtorEq, if_false]
    funext b
    by_cases hb : b = t.brk
    · simp [hb, initMem, newCell, hp]
    · by_cases hbq : b = q
      · simp [hbq, initMem, hqz, hnq, hp]
      · simp [hb, hbq, initMem, hp]

theorem Grown.addr_lt {t : Tree κ ν} {T : Sh} (h : Grown t T) {a : Nat} (ha : a ∈ T.addrs) :
    a < t.brk := by
  obtain ⟨n, hn⟩ := wf_mem_cell h.wf ha
  exact h.dom a (by simp [hn])

theorem Grown.size_le_brk {t : Tree κ ν} {T : Sh} (h : Grown t T) : T.addrs.length ≤ t.brk :=
  nodup_bounded_length h.wf.nodup (fun _ ha => h.addr_lt ha)

theorem Grown.brk_not_addr {t : Tree κ ν} {T : Sh} (h : Grown t T) : t.brk ∉ T.addrs :=
  fun hm => Nat.lt_irrefl _ (h.addr_lt hm)

theorem fresh_grown (cmp : κ → κ → Int) : Grown (fresh cmp : Tree κ ν) .nil where
  wf := ⟨trivial, rfl, List.nodup_nil⟩
  dom := fun a h => by simp [fresh, treeInit, blank] at h
  keys := fun a h => by simp [Sh.addrs] at h
  tail := fun q h => by simp [fresh, treeInit, blank] at h
  head := by simp [fresh, treeInit, blank]
  rb := ⟨0, rfl⟩

theorem initState_wf_of {t : Tree κ ν} {T : Sh} (h : TreeWF t T) (hz : t.brk ∉ T.addrs) (k : κ)
    (sk : Nat) (pv : Option ν) (sv : Nat) : TreeWF (initState t k sk pv sv) T := by
  refine ⟨rep_links_on (fun a ha => ?_) h.rep, h.root, h.nodup⟩
  have hb : a ≠ t.brk := fun e => hz (e ▸ ha)
  obtain ⟨f, h1, h2⟩ := initState_old t k sk pv sv hb
  rw [h1]
  cases t.mem a with
  | none => rfl
  | some n => simp [(h2 n).1]

theorem initNode_grown {t : Tree κ ν} {T : Sh} (h : Grown t T) {k : κ} {sk : Nat}
    {pv : Option ν} {sv : Nat} (hv : InBounds k sk pv sv) :
    initNode t none (some ⟨k, false⟩) sk (pv.map (fun v => ⟨v, false⟩)) sv =
      .ok (some t.brk, initState t (keptKey sk k) sk (keptValue sv pv) sv) :=
  initNode_kept t k sk pv sv hv
    (fun q hq => ⟨h.tail q hq, Nat.ne_of_lt (h.dom q (h.tail q hq))⟩) h.head

/-- The state after a new node was created, attached and balanced is again the state of a
container that was only inserted into. -/
theorem grown_step {t t4 : Tree κ ν} {T T4 : Sh} (h : Grown t T) (k : κ) (sk : Nat)
    (pv : Option ν) (sv : Nat) (d : SameData (initState t k sk pv sv) t4) (w4 : TreeWF t4 T4)
    (hrb : ∃ N, RB (colorAt t4) T4 N) (hsub : ∀ a ∈ T4.addrs, a = t.brk ∨ a ∈ T.addrs) :
    Grown t4 T4 where
  wf := w4
  dom := by
    intro a ha
    rw [d.isSome_eq a] at ha
    have hb : t4.brk = t.brk + 1 := d.brk
    rw [hb]
    by_cases e : a = t.brk
    · omega
    · rw [initState_isSome t k sk pv sv e] at ha
      exact Nat.lt_succ_of_lt (h.dom a ha)
  keys := by
    intro a ha
    rw [d.keyAt_eq a]
    rcases hsub a ha with e | hm
    · rw [e, initState_key]
      rfl
    · rw [initState_keyAt t k sk pv sv (fun e => h.brk_not_addr (e ▸ hm))]
      exact h.keys a hm
  tail := by
    intro q hq
    rw [d.pt] at hq
    have hq2 : q = t.brk := by
      simp only [initState, Option.some.injEq] at hq
      exact hq.symm
    rw [d.isSome_eq q, hq2, initState_cell]
    rfl
  head := by
    rw [d.ph, d.pt]
    simp only [initState]
    constructor
    · intro e
      split at e
      · cases e
      · rename_i h0
        exact absurd e h0
    · intro e
      cases e
  rb := hrb

theorem insertLoop_grown {t : Tree κ ν} {T : Sh} (hG : Grown t T) (k : κ) (sk : Nat)
    (pv : Option ν) (sv : Nat) (hv : InBounds k sk pv sv) :
    ∀ (fuel : Nat) (c : List Frame) (l r : Sh) (a : Nat), T = plug c (.node l a r) →
      (Sh.node l a r).addrs.length ≤ fuel →
      ∃ res t2 T2, insertLoop k sk pv sv fuel t (some a) = .ok (res, t2) ∧ Grown t2 T2 ∧
        T2 ≠ .nil := by
  intro fuel
  induction fuel with
  | zero =>
    intro c l r a _ hlen
    simp [Sh.addrs] at hlen
  | succ fuel ih =>
    intro c l r a hT hlen
    subst hT
    have hwf := hG.wf
    obtain ⟨na, hna, hap, hal, har⟩ := wf_cell hwf
    have ham := mem_plug_addrs c l r a
    obtain ⟨ka, hka, hkat⟩ := keyAt_cell hna (hG.keys a ham)
    have hz := hG.brk_not_addr
    have hfuel := hG.size_le_brk
    obtain ⟨N, hN⟩ := hG.rb
    have hnil : plug c (.node l a r) ≠ .nil := by
      intro e
      rw [e] at ham
      simp [Sh.addrs] at ham
    rcases lt_trichotomy (t.pfCmp ka k) 0 with hcmp | hcmp | hcmp
    · cases r with
      | nil =>
        have hw1 := initState_wf_of hwf hz (keptKey sk k) sk (keptValue sv pv) sv
        obtain ⟨t2, t3, e2, e3, w3, s3⟩ := attachRight_wf hw1 hz
          (initState_cell t (keptKey sk k) sk (keptValue sv pv) sv) rfl rfl
        obtain ⟨hcz, hco⟩ := colorAt_attach (keptKey sk k) sk (keptValue sv pv) sv s3
        have w3' : TreeWF t3 (plug (.R l a :: c) (.node .nil t.brk .nil)) := w3
        have pre : Pre (colorAt t3) (.R l a :: c) (.node .nil t.brk .nil) :=
          pre_attach (colorAt t) (fun b hb => hco b (fun e => hz (e ▸ hb))) hcz hN
        have hf3 : (plug (.R l a :: c) (.node .nil t.brk .nil)).addrs.length ≤ t3.brk := by
          have hb3 : t3.brk = t.brk + 1 := s3.brk
          rw [hb3]
          simp only [addrs_plug, Sh.addrs, pathL, pathR, List.length_append,
            List.length_cons, List.length_nil] at hfuel ⊢
          omega
        have hz3 : t.brk ∈ (plug (.R l a :: c) (.node .nil t.brk .nil)).addrs :=
          mem_plug_addrs _ _ _ _
        obtain ⟨t4, T4, e4, w4, h4⟩ := balanceTree_rb w3' hf3 pre
        obtain ⟨t5, T5, e5, w5, ha5, d5, -⟩ := balanceTree_wf w3' hz3 hf3 hcz
        rw [e4] at e5
        cases e5
        have hTT := treeWF_unique w4 w5
        subst hTT
        refine ⟨1, t4, T4, ?_, grown_step hG _ sk _ sv (s3.toData.trans_data d5) w4 h4 ?_, ?_⟩
        · simp only [insertLoop, load_some hna, ok_bind, hka, hcmp, if_true, har, Sh.root_nil,
            initNode_grown hG hv, Option.isSome_some, e2, e3, e4, pure_eq_ok]
        · intro b hb
          rw [ha5] at hb
          simp only [addrs_plug, Sh.addrs, pathL, pathR, List.mem_append, List.mem_cons,
            List.mem_singleton, List.not_mem_nil, List.nil_append, List.append_nil] at hb ⊢
          tauto
        · intro e
          rw [e] at ha5
          rw [← ha5] at hz3
          simp [Sh.addrs] at hz3
      | node rl ra rr =>
        have hstep : insertLoop k sk pv sv (fuel + 1) t (some a) =
            insertLoop k sk pv sv fuel t (some ra) := by
          simp only [insertLoop, load_some hna, ok_bind, hka, hcmp, if_true, har,
            Sh.root_node, initNode_occupied, Option.isSome_none, Bool.false_eq_true, if_false,
            Tree.getRight, pure_eq_ok]
        rw [hstep]
        refine ih (.R l a :: c) rl rr ra rfl ?_
        simp only [Sh.addrs, List.length_append, List.length_cons] at hlen ⊢
        omega
    · refine ⟨0, t, _, ?_, hG, hnil⟩
      simp only [insertLoop, load_some hna, ok_bind, hka, hcmp, lt_self_iff_false, if_false,
        gt_iff_lt, pure_eq_ok]
    · have hnlt : ¬ t.pfCmp ka k < 0 := not_lt.mpr (le_of_lt hcmp)
      cases l with
      | nil =>
        have hw1 := initState_wf_of hwf hz (keptKey sk k) sk (keptValue sv pv) sv
        obtain ⟨t2, t3, e2, e3, w3, s3⟩ := attachLeft_wf hw1 hz
          (initState_cell t (keptKey sk k) sk (keptValue sv pv) sv) rfl rfl
        obtain ⟨hcz, hco⟩ := colorAt_attach (keptKey sk k) sk (keptValue sv pv) sv s3
        have w3' : TreeWF t3 (plug (.L a r :: c) (.node .nil t.brk .nil)) := w3
        have pre : Pre (colorAt t3) (.L a r :: c) (.node .nil t.brk .nil) :=
          pre_attach (colorAt t) (fun b hb => hco b (fun e => hz (e ▸ hb))) hcz hN
        have hf3 : (plug (.L a r :: c) (.node .nil t.brk .nil)).addrs.length ≤ t3.brk := by
          have hb3 : t3.brk = t.brk + 1 := s3.brk
          rw [hb3]
          simp only [addrs_plug, Sh.addrs, pathL, pathR, List.length_append,
            List.length_cons, List.length_nil] at hfuel ⊢
          omega
        have hz3 : t.brk ∈ (plug (.L a r :: c) (.node .nil t.brk .nil)).addrs :=
          mem_plug_addrs _ _ _ _
        obtain ⟨t4, T4, e4, w4, h4⟩ := balanceTree_rb w3' hf3 pre
        obtain ⟨t5, T5, e5, w5, ha5, d5, -⟩ := balanceTree_wf w3' hz3 hf3 hcz
        rw [e4] at e5
        cases e5
        have hTT := treeWF_unique w4 w5
        subst hTT
        refine ⟨1, t4, T4, ?_, grown_step hG _ sk _ sv (s3.toData.trans_data d5) w4 h4 ?_, ?_⟩
        · simp only [insertLoop, load_some hna, ok_bind, hka, hnlt, if_false, gt_iff_lt, hcmp,
            if_true, hal, Sh.root_nil, initNode_grown hG hv, Option.isSome_some, e2, e3, e4,
            pure_eq_ok]
        · intro b hb
          rw [ha5] at hb
          simp only [addrs_plug, Sh.addrs, pathL, pathR, List.mem_append, List.mem_cons,
            List.mem_singleton, List.not_mem_nil, List.nil_append, List.append_nil] at hb ⊢
          tauto
        · intro e
          rw [e] at ha5
          rw [← ha5] at hz3
          simp [Sh.addrs] at hz3
      | node ll la lr =>
        have hstep : insertLoop k sk pv sv (fuel + 1) t (some a) =
            insertLoop k sk pv sv fuel t (some la) := by
          simp only [insertLoop, load_some hna, ok_bind, hka, hnlt, if_false, gt_iff_lt, hcmp,
            if_true, hal, Sh.root_node, initNode_occupied, Option.isSome_none,
            Bool.false_eq_true, Tree.getLeft, pure_eq_ok]
        rw [hstep]
        refine ih (.L a r :: c) ll lr la rfl ?_
        simp only [Sh.addrs, List.length_append, List.length_cons] at hlen ⊢
        omega

theorem treeInsert_grown {t : Tree κ ν} {T : Sh} (hG : Grown t T) (k : κ) (sk : Nat)
    (pv : Option ν) (sv : Nat) (hv : InBounds k sk pv sv) :
    ∃ res t2 T2, treeInsert t (some k) sk pv sv = .ok (res, t2) ∧ Grown t2 T2 ∧ T2 ≠ .nil := by
  cases T with
  | nil =>
    have hroot : t.pr = none := hG.wf.root
    have hcell := initState_cell t (keptKey sk k) sk (keptValue sv pv) sv
    refine ⟨1, { (initState t (keptKey sk k) sk (keptValue sv pv) sv).store t.brk
        { newCell t.pt (keptKey sk k) sk (keptValue sv pv) sv with color := .NODE_BLACK } with
        pr := some t.brk },
      .node .nil t.brk .nil, ?_, ?_, by simp⟩
    · simp only [treeInsert, hroot, initNode_grown hG hv, ok_bind,
        Option.isSome_some, if_true, Tree.setColor, modify_some hcell, pure_eq_ok]
    · refine ⟨⟨?_, rfl, by simp [Sh.addrs]⟩, ?_, ?_, ?_, ?_, ?_⟩
      · exact ⟨{ newCell t.pt (keptKey sk k) sk (keptValue sv pv) sv with
          color := .NODE_BLACK }, by simp [Tree.store], rfl, rfl, rfl, trivial, trivial⟩
      · intro a ha
        show a < t.brk + 1
        by_cases e : a = t.brk
        · omega
        · have ha2 : ((initState t (keptKey sk k) sk (keptValue sv pv) sv).mem a).isSome := by
            simpa [Tree.store, e] using ha
          rw [initState_isSome t _ sk _ sv e] at ha2
          exact Nat.lt_succ_of_lt (hG.dom a ha2)
      · intro a ha
        have e : a = t.brk := by simpa [Sh.addrs] using ha
        subst e
        simp [keyAt, Tree.store, newCell]
      · intro q hq
        have e : q = t.brk := by
          have : some t.brk = some q := hq
          simpa using this.symm
        subst e
        simp [Tree.store]
      · show (if t.ph = none then some t.brk else t.ph) = none ↔ some t.brk = none
        constructor
        · intro e
          split at e
          · cases e
          · rename_i h0
            exact absurd e h0
        · intro e
          cases e
      · exact ⟨1, 0, rfl, rfl, Or.inr ⟨by simp [colorAt, Tree.store], rfl⟩⟩
  | node l a r =>
    have hroot : t.pr = some a := hG.wf.root
    have hstart : treeInsert t (some k) sk pv sv = insertLoop k sk pv sv t.brk t (some a) := by
      simp only [treeInsert, hroot, initNode_occupied, ok_bind, Option.isSome_none,
        Bool.false_eq_true, if_false]
    rw [hstart]
    exact insertLoop_grown hG k sk pv sv hv t.brk [] l r a rfl hG.size_le_brk

/-- Every sequence of `treeInsert` calls whose lengths stay inside the keys and values returns,
and the tree is red-black below the root afterwards, whatever the comparator is. -/
theorem insertAll_grown :
    ∀ (calls : List (InsertCall κ ν)) (t : Tree κ ν) (T : Sh), Grown t T →
      (∀ c ∈ calls, InBounds c.pKey c.sizeTkey c.pValue c.sizeTvalue) →
      ∃ t2 T2, insertAll t calls = .ok t2 ∧ Grown t2 T2 ∧
        ((T ≠ .nil ∨ calls ≠ []) → T2 ≠ .nil) := by
  intro calls
  induction calls with
  | nil =>
    intro t T hG _
    exact ⟨t, T, rfl, hG, fun h => h.elim id (fun h => absurd rfl h)⟩
  | cons c cs ih =>
    intro t T hG hv
    have hvc := hv c (List.mem_cons_self _ _)
    have hvs : ∀ d ∈ cs, InBounds d.pKey d.sizeTkey d.pValue d.sizeTvalue :=
      fun d hd => hv d (List.mem_cons_of_mem _ hd)
    obtain ⟨res, t2, T2, e, hG2, hne2⟩ := treeInsert_grown hG c.pKey c.sizeTkey c.pValue
      c.sizeTvalue hvc
    obtain ⟨t3, T3, e3, hG3, hne3⟩ := ih t2 T2 hG2 hvs
    exact ⟨t3, T3, by simp only [insertAll, e, ok_bind, e3], hG3, fun _ => hne3 (Or.inl hne2)⟩

theorem redRoot_of_redAt {t : Tree κ ν} {s : Sh} (h : RedAt t s.root) :
    RedRoot (colorAt t) s := by
  obtain ⟨u, hu, hc⟩ := h
  cases s with
  | nil => cases hu
  | node l a r =>
    have e : a = u := by simpa [Sh.root] using hu
    subst e
    exact hc

theorem rootOK_of_grown {t : Tree κ ν} {T : Sh} (h : Grown t T) (hT : T ≠ .nil) : RootOK t := by
  cases T with
  | nil => exact absurd rfl hT
  | node l a r =>
    have hw : TreeWF t (plug [] (.node l a r)) := h.wf
    obtain ⟨n, hn, -, hl, hr⟩ := wf_cell hw
    obtain ⟨N, m, -, -, hcase⟩ := h.rb
    have hcol : colorAt t a = some n.color := by simp [colorAt, hn]
    refine ⟨a, n, h.wf.root, hn, ?_⟩
    rcases hcase with ⟨-, -, h1, h2⟩ | ⟨hblack, -⟩
    · refine Or.inr ⟨fun hh => h1 (redRoot_of_redAt (hl ▸ hh)),
        fun hh => h2 (redRoot_of_redAt (hr ▸ hh))⟩
    · left
      rw [hcol] at hblack
      cases hc : n.color with
      | NODE_RED => rw [hc] at hblack; exact absurd rfl hblack
      | NODE_BLACK => rfl

/-- C10, amended: after every non-empty sequence of `treeInsert` calls on a fresh container,
whatever the comparator, in which no key or value length reaches past the bytes of the key or
value it comes with (a value that is copied is non-null), the calls all return and the root
node exists and is BLACK, or it is RED and neither of its children is RED. -/
theorem root_after_inserts (cmp : κ → κ → Int) (calls : List (InsertCall κ ν))
    (hv : ∀ c ∈ calls, InBounds c.pKey c.sizeTkey c.pValue c.sizeTvalue)
    (hne : calls ≠ []) :
    ∃ t, insertAll (fresh cmp) calls = .ok t ∧ RootOK t := by
  obtain ⟨t, T, e, hG, hT⟩ := insertAll_grown calls (fresh cmp) .nil (fresh_grown cmp) hv
  exact ⟨t, e, rootOK_of_grown hG (hT (Or.inr hne))⟩

/-- Witness of the amended C10 on test case 6. -/
theorem root_after_inserts_witness :
    (∀ c ∈ presidents, InBounds c.pKey c.sizeTkey c.pValue c.sizeTvalue) ∧
      presidents ≠ [] ∧ ∃ t, insertAll (fresh compareStr) presidents = .ok t ∧ RootOK t :=
  ⟨by decide, by decide, root_after_inserts compareStr presidents (by decide) (by decide)⟩

/-- C11: after every finite sequence of `treeInsert` calls on a fresh container, whatever the
comparator, in which no key or value length reaches past the bytes of the key or value it
comes with (a value that is copied is non-null), the calls all return and no RED node of the
tree has a RED parent: the parent of a RED node is BLACK. -/
theorem no_red_red_after_inserts (cmp : κ → κ → Int) (calls : List (InsertCall κ ν))
    (hv : ∀ c ∈ calls, InBounds c.pKey c.sizeTkey c.pValue c.sizeTvalue) :
    ∃ t T, insertAll (fresh cmp) calls = .ok t ∧ TreeWF t T ∧
      ∀ a ∈ T.addrs, ∀ n, t.mem a = some n → n.color = .NODE_RED →
        ∀ p, n.pParent = some p → colorAt t p = some .NODE_BLACK := by
  obtain ⟨t, T, e, hG, -⟩ := insertAll_grown calls (fresh cmp) .nil (fresh_grown cmp) hv
  obtain ⟨N, hN⟩ := hG.rb
  refine ⟨t, T, e, hG.wf, ?_⟩
  intro a ha n hn hred p hp
  obtain ⟨c, l, r, hT⟩ := exists_plug ha
  subst hT
  obtain ⟨n2, hn2, hpar, -, -⟩ := wf_cell hG.wf
  rw [hn] at hn2
  cases hn2
  obtain ⟨m, -, -, hr⟩ := rb_unplug c (.node l a r) N hN
  have hra : RedRoot (colorAt t) (.node l a r) := by simp [RedRoot, colorAt, hn, hred]
  have htop := hr hra
  cases c with
  | nil => rw [hp] at hpar; simp [top] at hpar
  | cons f c =>
    rw [hp] at hpar
    simp only [top, Option.some.injEq] at hpar
    subst hpar
    obtain ⟨q, hq⟩ := colorAt_of_wf (a := f.addr) hG.wf
      (by cases f <;> simp [addrs_plug, pathL, pathR, Frame.addr])
    rw [hq]
    cases q with
    | NODE_RED => exact absurd hq htop
    | NODE_BLACK => rfl

/-- C18: after every finite sequence of `treeInsert` calls on a fresh container, whatever the
comparator, in which no key or value length reaches past the bytes of the key or value it
comes with (a value that is copied is non-null), the calls all return and every path from the
root to an absent child crosses the same number of BLACK nodes. -/
theorem black_height_after_inserts (cmp : κ → κ → Int) (calls : List (InsertCall κ ν))
    (hv : ∀ c ∈ calls, InBounds c.pKey c.sizeTkey c.pValue c.sizeTvalue) :
    ∃ t n, insertAll (fresh cmp) calls = .ok t ∧ blackHeight t t.brk t.pr = some n := by
  obtain ⟨t, T, e, hG, -⟩ := insertAll_grown calls (fresh cmp) .nil (fresh_grown cmp) hv
  obtain ⟨N, hN⟩ := hG.rb
  refine ⟨t, N, e, ?_⟩
  rw [hG.wf.root]
  exact blackHeight_of_rb t.brk hG.wf.rep hN hG.size_le_brk

/-- Witness of C11 on test case 2. -/
theorem no_red_red_after_inserts_witness :
    (∀ c ∈ justices, InBounds c.pKey c.sizeTkey c.pValue c.sizeTvalue) ∧
      ∃ t T, insertAll (fresh compareStr) justices = .ok t ∧ TreeWF t T ∧
        ∀ a ∈ T.addrs, ∀ n, t.mem a = some n → n.color = .NODE_RED →
          ∀ p, n.pParent = some p → colorAt t p = some .NODE_BLACK :=
  ⟨by decide, no_red_red_after_inserts compareStr justices (by decide)⟩

/-- Witness of C18 on test case 7: the tree of the keys 1 to 9 has black height 2. -/
theorem black_height_after_inserts_witness :
    (∀ c ∈ oneToNine, InBounds c.pKey c.sizeTkey c.pValue c.sizeTvalue) ∧
      (∃ t n, insertAll (fresh compareDescendUL) oneToNine = .ok t ∧
        blackHeight t t.brk t.pr = some n) ∧
      (insertAll (fresh compareDescendUL) oneToNine).map (fun t => blackHeight t t.brk t.pr) =
        .ok (some 2) :=
  ⟨by decide, black_height_after_inserts compareDescendUL oneToNine (by decide),
    by decide⟩

/-- Lengths that are the exact byte lengths stay inside the bytes. -/
theorem inBounds_of_readable {k : κ} {sk : Nat} {pv : Option ν} {sv : Nat}
    (h : Readable k sk pv sv) : InBounds k sk pv sv := by
  refine ⟨?_, fun hs => ?_⟩
  · by_cases hs : 0 < sk
    · exact le_of_eq (h.1 hs).symm
    · omega
  · obtain ⟨v, hv, hsz⟩ := Option.map_eq_some'.mp (h.2 hs)
    simp [hv, hsz]

end TreeLibC
